import Mathlib

/-! # VexCL: grouped arrays (`multivector.hpp`) and strided views (`vector_view.hpp`)

A shallow embedding of the kernel generator of `vex::multivector` and of
`vex::gslice`, followed by theorems about it.

Conventions of the embedding.

* A C++ output stream is the `String` written so far; `os << x` appends.
* A template instantiation that does not compile (a failing `static_assert`,
  no viable overload) is `none`.
* `int`/`uint` counters (`prm_idx`, `fun_idx`, `pos`) are `Nat`: an expression
  type has far fewer than `2^31` nodes.
* `size_t`, `cl_ulong` and the OpenCL `ulong` are 64 bit unsigned, `cl_long` and
  `long` 64 bit signed; arithmetic on them is written with an explicit
  `% 2^64`.
* Names that come from headers outside the two files (`type_name`,
  `standard_kernel_header`, the single-vector contexts) are parameters.
-/

namespace vex

/-! ## Expression trees -/

/-- Tags instantiated through `BINARY_OPERATION` in `multivector_expr_context`. -/
inductive BinaryTag where
  | plus | minus | multiplies | divides | modulus | shift_left | shift_right
  | less | greater | less_equal | greater_equal | equal_to | not_equal_to
  | logical_and | logical_or | bitwise_and | bitwise_or | bitwise_xor
  deriving DecidableEq, Repr

/-- Tags instantiated through `UNARY_PRE_OPERATION`. -/
inductive UnaryPreTag where
  | unary_plus | negate | logical_not | pre_inc | pre_dec
  deriving DecidableEq, Repr

/-- Tags instantiated through `UNARY_POST_OPERATION`. -/
inductive UnaryPostTag where
  | post_inc | post_dec
  deriving DecidableEq, Repr

/-- The token `the_op` that `BINARY_OPERATION(the_tag, the_op)` stringifies. -/
def BinaryTag.the_op : BinaryTag → String
  | .plus => "+" | .minus => "-" | .multiplies => "*" | .divides => "/"
  | .modulus => "%" | .shift_left => "<<" | .shift_right => ">>"
  | .less => "<" | .greater => ">" | .less_equal => "<=" | .greater_equal => ">="
  | .equal_to => "==" | .not_equal_to => "!=" | .logical_and => "&&"
  | .logical_or => "||" | .bitwise_and => "&" | .bitwise_or => "|"
  | .bitwise_xor => "^"

/-- The token `the_op` that `UNARY_PRE_OPERATION(the_tag, the_op)` stringifies. -/
def UnaryPreTag.the_op : UnaryPreTag → String
  | .unary_plus => "+" | .negate => "-" | .logical_not => "!"
  | .pre_inc => "++" | .pre_dec => "--"

/-- The token `the_op` that `UNARY_POST_OPERATION(the_tag, the_op)` stringifies. -/
def UnaryPostTag.the_op : UnaryPostTag → String
  | .post_inc => "++" | .post_dec => "--"

/-- A value whose type satisfies `is_multiscalar`: an arithmetic scalar, a
`std::array<T,N>` (or C array `T[N]`) of arithmetic `T`, or a `std::tuple` of
arithmetic types.  Type names are the strings `type_name<T>()` returns. -/
inductive Multiscalar (V : Type) where
  | scalar (T : String) (v : V)
  | array (T : String) (vals : List V)
  | tuple (comps : List (String × V))
  deriving DecidableEq, Repr

/-- The struct `number_of_components<T>` on multiscalar types. -/
def Multiscalar.number_of_components {V : Type} : Multiscalar V → Nat
  | .scalar _ _ => 1
  | .array _ vals => vals.length
  | .tuple comps => comps.length

/-- The struct `component<I, T>`: the name of its `type`, `none` when the
instantiation is ill-formed (`std::tuple_element` out of range). -/
def Multiscalar.component {V : Type} (I : Nat) : Multiscalar V → Option String
  | .scalar T _ => some T
  | .array T _ => some T
  | .tuple comps => (comps.get? I).map Prod.fst

/-- The call `get<I>(value)` as resolved in `multivector_args_context`: the value
itself for a scalar, component `I` otherwise (`none`: out of range). -/
def Multiscalar.get {V : Type} (I : Nat) : Multiscalar V → Option V
  | .scalar _ v => some v
  | .array _ vals => vals.get? I
  | .tuple comps => (comps.get? I).map Prod.snd

/-- What a `proto::terminal` of a grouped-array expression can hold.

* `multivector T vec`: a `multivector<T,M,own>`; `vec` lists its `M` members,
  each the identity of a `vex::vector<T>`.
* `multiscalar m`: a value of a multiscalar type.
* `other T v`: a value of any other type (for instance a plain `vex::vector`),
  for which only the primary templates of `is_multiscalar`,
  `number_of_components` and `component` apply. -/
inductive Terminal (V : Type) where
  | multivector (T : String) (vec : List Nat)
  | multiscalar (m : Multiscalar V)
  | other (T : String) (v : V)
  deriving DecidableEq, Repr

/-- Child 0 of a `proto::tag::function` node: a `builtin_function` with its
`name()`, or a `user_function`, identified by a number. -/
inductive FunctionTerminal where
  | builtin (name : String)
  | user (id : Nat)
  deriving DecidableEq, Repr

/-- A proto expression tree with the node kinds the contexts of
`multivector.hpp` evaluate. -/
inductive Expr (V : Type) where
  | terminal (t : Terminal V)
  | binary (tag : BinaryTag) (left right : Expr V)
  | unary_pre (tag : UnaryPreTag) (child : Expr V)
  | unary_post (tag : UnaryPostTag) (child : Expr V)
  | function (f : FunctionTerminal) (args : List (Expr V))

/-! ## The grammar -/

/-- The primary template and specialisations of `is_multiscalar`. -/
def is_multiscalar {V : Type} : Terminal V → Bool
  | .multiscalar _ => true
  | _ => false

mutual
/-- The struct `multivector_expr_grammar`: a `multivector_terminal`, or a terminal
whose value is a multiscalar, or `VEXCL_OPERATIONS(multivector_expr_grammar)`.

Modelled from the spec: `VEXCL_OPERATIONS` is defined in `operations.hpp`; it is
taken to match every unary, binary and function node all of whose operands
match the grammar given to it. -/
def multivector_expr_grammar {V : Type} : Expr V → Bool
  | .terminal (.multivector _ _) => true
  | .terminal t => is_multiscalar t
  | .binary _ l r => multivector_expr_grammar l && multivector_expr_grammar r
  | .unary_pre _ c => multivector_expr_grammar c
  | .unary_post _ c => multivector_expr_grammar c
  | .function _ args => multivector_expr_grammar_args args
/-- The grammar on the operands of a function node (`proto::vararg`). -/
def multivector_expr_grammar_args {V : Type} : List (Expr V) → Bool
  | [] => true
  | a :: as => multivector_expr_grammar a && multivector_expr_grammar_args as
end

/-! ## `multivector_parm_context<N, C>` and `build_param_list` -/

/-- The state of a `multivector_parm_context`: the stream and `prm_idx`. -/
structure multivector_parm_context where
  os : String
  prm_idx : Nat
  deriving DecidableEq, Repr

/-- The struct `eval<Expr, proto::tag::terminal>` of `multivector_parm_context<N, C>`:
the overload for `multivector<T,M,own>` and the overload for any other `Term`. -/
def multivector_parm_context.eval_terminal {V : Type} (N C : Nat) :
    Terminal V → multivector_parm_context → Option multivector_parm_context
  | .multivector T vec, ctx =>
    -- static_assert(M == N, "Wrong number of components in a multivector")
    if vec.length = N then
      some { os := ctx.os ++ ",\n\tglobal " ++ T ++ " *prm_" ++ toString (C + 1) ++ "_"
                     ++ toString (ctx.prm_idx + 1),
             prm_idx := ctx.prm_idx + 1 }
    else none
  | .multiscalar m, ctx =>
    match m.component C with
    | none => none
    | some component_type =>
      -- static_assert(number_of_components == 1 || number_of_components == N, ...)
      if m.number_of_components = 1 ∨ m.number_of_components = N then
        if m.number_of_components > 1 then
          some { os := ctx.os ++ ",\n\t" ++ component_type ++ " prm_" ++ toString (C + 1) ++ "_"
                         ++ toString (ctx.prm_idx + 1),
                 prm_idx := ctx.prm_idx + 1 }
        else if C = 0 then
          some { os := ctx.os ++ ",\n\t" ++ component_type ++ " prm_1_"
                         ++ toString (ctx.prm_idx + 1),
                 prm_idx := ctx.prm_idx + 1 }
        else some { os := ctx.os, prm_idx := ctx.prm_idx + 1 }
      else none
  | .other T _, ctx =>
    -- primary templates: one component, of the value type itself
    if C = 0 then
      some { os := ctx.os ++ ",\n\t" ++ T ++ " prm_1_" ++ toString (ctx.prm_idx + 1),
             prm_idx := ctx.prm_idx + 1 }
    else some { os := ctx.os, prm_idx := ctx.prm_idx + 1 }

mutual
/-- The call `proto::eval(expr, ctx)` for a `multivector_parm_context<N, C>`: a
terminal is declared, a function node visits its arguments
(`boost::fusion::pop_front`), any other node visits its children. -/
def multivector_parm_context.eval {V : Type} (N C : Nat) :
    Expr V → multivector_parm_context → Option multivector_parm_context
  | .terminal t, ctx => multivector_parm_context.eval_terminal N C t ctx
  | .binary _ l r, ctx =>
    match multivector_parm_context.eval N C l ctx with
    | none => none
    | some ctx1 => multivector_parm_context.eval N C r ctx1
  | .unary_pre _ c, ctx => multivector_parm_context.eval N C c ctx
  | .unary_post _ c, ctx => multivector_parm_context.eval N C c ctx
  | .function _ args, ctx => multivector_parm_context.for_each N C args ctx
/-- The call `boost::fusion::for_each(children, do_eval(ctx))`. -/
def multivector_parm_context.for_each {V : Type} (N C : Nat) :
    List (Expr V) → multivector_parm_context → Option multivector_parm_context
  | [], ctx => some ctx
  | a :: as, ctx =>
    match multivector_parm_context.eval N C a ctx with
    | none => none
    | some ctx1 => multivector_parm_context.for_each N C as ctx1
end

/-- The function template `mv_param_list_loop<I, N, Expr>`: the overload enabled
for `I + 1 == N`, the one enabled for `I + 1 < N`, and no overload otherwise. -/
def mv_param_list_loop {V : Type} (I N : Nat) (expr : Expr V) (os : String) : Option String :=
  if I + 1 = N then
    (multivector_parm_context.eval N I expr { os := os, prm_idx := 0 }).map (·.os)
  else if I + 1 < N then
    match multivector_parm_context.eval N I expr { os := os, prm_idx := 0 } with
    | none => none
    | some ctx => mv_param_list_loop (I + 1) N expr ctx.os
  else none
termination_by N - I

/-- The function template `build_param_list<N>(expr, os)`. -/
def build_param_list {V : Type} (N : Nat) (expr : Expr V) (os : String) : Option String :=
  mv_param_list_loop 0 N expr os

/-! ## `multivector_expr_context<N, C>` and `build_expr_list` -/

/-- The state of a `multivector_expr_context`: the stream, `prm_idx`, `fun_idx`. -/
structure multivector_expr_context where
  os : String
  prm_idx : Nat
  fun_idx : Nat
  deriving DecidableEq, Repr

/-- The struct `eval<Expr, proto::tag::terminal>` of `multivector_expr_context<N, C>`. -/
def multivector_expr_context.eval_terminal {V : Type} (N C : Nat) :
    Terminal V → multivector_expr_context → Option multivector_expr_context
  | .multivector _ vec, ctx =>
    -- static_assert(M == N, "Wrong number of components in a multivector")
    if vec.length = N then
      some { ctx with os := ctx.os ++ "prm_" ++ toString (C + 1) ++ "_"
                              ++ toString (ctx.prm_idx + 1) ++ "[idx]",
                      prm_idx := ctx.prm_idx + 1 }
    else none
  | .multiscalar m, ctx =>
    -- static_assert(number_of_components == 1 || number_of_components == N, ...)
    if m.number_of_components = 1 ∨ m.number_of_components = N then
      if m.number_of_components > 1 then
        some { ctx with os := ctx.os ++ "prm_" ++ toString (C + 1) ++ "_"
                                ++ toString (ctx.prm_idx + 1),
                        prm_idx := ctx.prm_idx + 1 }
      else
        some { ctx with os := ctx.os ++ "prm_1_" ++ toString (ctx.prm_idx + 1),
                        prm_idx := ctx.prm_idx + 1 }
    else none
  | .other _ _, ctx =>
    some { ctx with os := ctx.os ++ "prm_1_" ++ toString (ctx.prm_idx + 1),
                    prm_idx := ctx.prm_idx + 1 }

mutual
/-- The call `proto::eval(expr, ctx)` for a `multivector_expr_context<N, C>`:
the `BINARY_OPERATION`, `UNARY_PRE_OPERATION`, `UNARY_POST_OPERATION`,
function and terminal specialisations of `eval`. -/
def multivector_expr_context.eval {V : Type} (N C : Nat) :
    Expr V → multivector_expr_context → Option multivector_expr_context
  | .terminal t, ctx => multivector_expr_context.eval_terminal N C t ctx
  | .binary tag l r, ctx =>
    match multivector_expr_context.eval N C l { ctx with os := ctx.os ++ "( " } with
    | none => none
    | some ctx1 =>
      match multivector_expr_context.eval N C r
          { ctx1 with os := ctx1.os ++ " " ++ tag.the_op ++ " " } with
      | none => none
      | some ctx2 => some { ctx2 with os := ctx2.os ++ " )" }
  | .unary_pre tag c, ctx =>
    match multivector_expr_context.eval N C c
        { ctx with os := ctx.os ++ "( " ++ tag.the_op ++ "( " } with
    | none => none
    | some ctx1 => some { ctx1 with os := ctx1.os ++ " ) )" }
  | .unary_post tag c, ctx =>
    match multivector_expr_context.eval N C c { ctx with os := ctx.os ++ "( ( " } with
    | none => none
    | some ctx1 => some { ctx1 with os := ctx1.os ++ " )" ++ tag.the_op ++ " )" }
  | .function (.builtin name) args, ctx =>
    match multivector_expr_context.for_each N C args 0
        { ctx with os := ctx.os ++ name ++ "( " } with
    | none => none
    | some ctx1 => some { ctx1 with os := ctx1.os ++ " )" }
  | .function (.user _) args, ctx =>
    match multivector_expr_context.for_each N C args 0
        { ctx with os := ctx.os ++ "func_1_" ++ toString (ctx.fun_idx + 1) ++ "( ",
                   fun_idx := ctx.fun_idx + 1 } with
    | none => none
    | some ctx1 => some { ctx1 with os := ctx1.os ++ " )" }
/-- The call `boost::fusion::for_each(boost::fusion::pop_front(expr), do_eval(ctx))`
of the function specialisation; `pos` is the member of its `do_eval`. -/
def multivector_expr_context.for_each {V : Type} (N C : Nat) :
    List (Expr V) → Nat → multivector_expr_context → Option multivector_expr_context
  | [], _, ctx => some ctx
  | a :: as, pos, ctx =>
    match multivector_expr_context.eval N C a
        (if pos ≠ 0 then { ctx with os := ctx.os ++ ", " } else ctx) with
    | none => none
    | some ctx1 => multivector_expr_context.for_each N C as (pos + 1) ctx1
end

/-- The member template `expr_list_loop<I, Expr>` of `multivector<T,N,own>`. -/
def expr_list_loop {V : Type} (I N : Nat) (expr : Expr V) (os : String) : Option String :=
  if I + 1 = N then
    match multivector_expr_context.eval N I expr
        { os := os ++ "\t\tres_" ++ toString (I + 1) ++ "[idx] = ", prm_idx := 0, fun_idx := 0 } with
    | none => none
    | some ctx => some (ctx.os ++ ";\n")
  else if I + 1 < N then
    match multivector_expr_context.eval N I expr
        { os := os ++ "\t\tres_" ++ toString (I + 1) ++ "[idx] = ", prm_idx := 0, fun_idx := 0 } with
    | none => none
    | some ctx => expr_list_loop (I + 1) N expr (ctx.os ++ ";\n")
  else none
termination_by N - I

/-- The member template `build_expr_list` of `multivector<T,N,own>`. -/
def build_expr_list {V : Type} (N : Nat) (expr : Expr V) (os : String) : Option String :=
  expr_list_loop 0 N expr os

/-! ## `multivector_args_context<N, C>` and `set_kernel_args` -/

/-- A `cl::Buffer`: the part of the `vex::vector` number `vector` that lives on
device number `device` (what `vector::operator()(d)` returns). -/
structure cl_Buffer where
  vector : Nat
  device : Nat
  deriving DecidableEq, Repr

/-- What `cl::Kernel::setArg` can be given here: a buffer, a component of a
multiscalar, a `size_t`/`cl_ulong`, a `cl_long`. -/
inductive KernelArg (V : Type) where
  | buffer (b : cl_Buffer)
  | value (v : V)
  | ulong (n : Nat)
  | long (i : Int)
  deriving DecidableEq, Repr

/-- A `cl::Kernel`, as far as argument binding goes: the `setArg` calls made on
it, the latest first. -/
structure cl_Kernel (V : Type) where
  args : List (Nat × KernelArg V)
  deriving DecidableEq, Repr

/-- The call `krn.setArg(pos, a)`. -/
def cl_Kernel.setArg {V : Type} (krn : cl_Kernel V) (pos : Nat) (a : KernelArg V) : cl_Kernel V :=
  { args := (pos, a) :: krn.args }

/-- The argument currently bound at position `pos`. -/
def cl_Kernel.arg {V : Type} (krn : cl_Kernel V) (pos : Nat) : Option (KernelArg V) :=
  krn.args.lookup pos

/-- The state of a `multivector_args_context`: the kernel and the shared `pos`
(the device `dev` never changes and is passed along). -/
structure multivector_args_context (V : Type) where
  krn : cl_Kernel V
  pos : Nat
  deriving DecidableEq, Repr

/-- The struct `eval<Expr, proto::tag::terminal>` of `multivector_args_context<N, C>`. -/
def multivector_args_context.eval_terminal {V : Type} (N C dev : Nat) :
    Terminal V → multivector_args_context V → Option (multivector_args_context V)
  | .multivector _ vec, ctx =>
    -- static_assert(M == N, "Wrong number of components in a multivector")
    if vec.length = N then
      match vec.get? C with
      | none => none
      | some v =>
        some { krn := ctx.krn.setArg ctx.pos (.buffer { vector := v, device := dev }),
               pos := ctx.pos + 1 }
    else none
  | .multiscalar m, ctx =>
    -- static_assert(number_of_components == 1 || number_of_components == N, ...)
    if m.number_of_components = 1 ∨ m.number_of_components = N then
      if m.number_of_components > 1 ∨ C = 0 then
        match m.get C with
        | none => none
        | some v => some { krn := ctx.krn.setArg ctx.pos (.value v), pos := ctx.pos + 1 }
      else some ctx
    else none
  | .other _ v, ctx =>
    if C = 0 then some { krn := ctx.krn.setArg ctx.pos (.value v), pos := ctx.pos + 1 }
    else some ctx

mutual
/-- The call `proto::eval(expr, ctx)` for a `multivector_args_context<N, C>`. -/
def multivector_args_context.eval {V : Type} (N C dev : Nat) :
    Expr V → multivector_args_context V → Option (multivector_args_context V)
  | .terminal t, ctx => multivector_args_context.eval_terminal N C dev t ctx
  | .binary _ l r, ctx =>
    match multivector_args_context.eval N C dev l ctx with
    | none => none
    | some ctx1 => multivector_args_context.eval N C dev r ctx1
  | .unary_pre _ c, ctx => multivector_args_context.eval N C dev c ctx
  | .unary_post _ c, ctx => multivector_args_context.eval N C dev c ctx
  | .function _ args, ctx => multivector_args_context.for_each N C dev args ctx
/-- The call `boost::fusion::for_each(children, do_eval(ctx))`. -/
def multivector_args_context.for_each {V : Type} (N C dev : Nat) :
    List (Expr V) → multivector_args_context V → Option (multivector_args_context V)
  | [], ctx => some ctx
  | a :: as, ctx =>
    match multivector_args_context.eval N C dev a ctx with
    | none => none
    | some ctx1 => multivector_args_context.for_each N C dev as ctx1
end

/-- The function template `mv_kernel_args_loop<I, N, Expr>`. -/
def mv_kernel_args_loop {V : Type} (I N : Nat) (expr : Expr V) (krn : cl_Kernel V)
    (d pos : Nat) : Option (cl_Kernel V × Nat) :=
  if I + 1 = N then
    (multivector_args_context.eval N I d expr { krn := krn, pos := pos }).map
      fun ctx => (ctx.krn, ctx.pos)
  else if I + 1 < N then
    match multivector_args_context.eval N I d expr { krn := krn, pos := pos } with
    | none => none
    | some ctx => mv_kernel_args_loop (I + 1) N expr ctx.krn d ctx.pos
  else none
termination_by N - I

/-- The function template `set_kernel_args<N>(expr, krn, d, pos)`; the result
carries the kernel and the updated `pos`. -/
def set_kernel_args {V : Type} (N : Nat) (expr : Expr V) (krn : cl_Kernel V) (d pos : Nat) :
    Option (cl_Kernel V × Nat) :=
  mv_kernel_args_loop 0 N expr krn d pos

/-! ## The expression assignment `multivector::operator=(const Expr&)` -/

/-- Names defined outside `multivector.hpp` that the kernel generator uses:
`standard_kernel_header`, `type_name<size_t>()`, and the text that evaluating
the expression with a `vector_name_context` resp. a `vector_head_context`
(the helper preambles) writes. -/
structure External (V : Type) where
  standard_kernel_header : String
  type_name_size_t : String
  vector_name_context : Expr V → String
  vector_head_context : Expr V → String

/-- The stream `kernel_name` of `operator=(const Expr&)`. -/
def kernel_name {V : Type} (ext : External V) (expr : Expr V) : String :=
  "multi_" ++ ext.vector_name_context expr

/-- The loop `for(size_t i = 0; i < N; ) kernel << ... << " *res_" << ++i;`. -/
def result_params (T : String) (N : Nat) (kernel : String) : String :=
  (List.range N).foldl
    (fun kernel i => kernel ++ ",\n\tglobal " ++ T ++ " *res_" ++ toString (i + 1)) kernel

/-- The stream `kernel` of `operator=(const Expr&)` when it is handed to
`build_sources`: the kernel source synthesized for `expr` and a
`multivector<T,N,own>` target (`T` is `type_name<T>()`). -/
def kernel_source {V : Type} (ext : External V) (T : String) (N : Nat) (expr : Expr V) :
    Option String :=
  let kernel := ext.standard_kernel_header
  let kernel := kernel ++ ext.vector_head_context expr
  let kernel := kernel ++ "kernel void " ++ kernel_name ext expr
                  ++ "(\n\t" ++ ext.type_name_size_t ++ " n"
  let kernel := result_params T N kernel
  match build_param_list N expr kernel with
  | none => none
  | some kernel =>
    let kernel := kernel ++
      "\n)\n\x7b\n\tfor(size_t idx = get_global_id(0); idx < n; idx += get_global_size(0)) \x7b\n"
    match build_expr_list N expr kernel with
    | none => none
    | some kernel => some (kernel ++ "\t\x7d\n\x7d\n")

/-- The loop `for(uint i = 0; i < N; i++) kernel.setArg(pos++, vec[i]->operator()(d));`
over the members `vec` of the target (`none`: a missing member). -/
def bind_results {V : Type} (vec : List Nat) (d : Nat) :
    List Nat → cl_Kernel V × Nat → Option (cl_Kernel V × Nat)
  | [], st => some st
  | i :: is, st =>
    match vec.get? i with
    | none => none
    | some v =>
      bind_results vec d is (st.1.setArg st.2 (.buffer { vector := v, device := d }), st.2 + 1)

/-- The argument binding of the dispatch loop of `operator=(const Expr&)` for
device `d` with partition size `psize`: `pos = 0`, the element count, the `N`
result buffers, then `set_kernel_args<N>`. -/
def bind_arguments {V : Type} (N : Nat) (vec : List Nat) (expr : Expr V) (krn : cl_Kernel V)
    (d psize : Nat) : Option (cl_Kernel V × Nat) :=
  let pos := 0
  let krn := krn.setArg pos (.ulong psize)
  let pos := pos + 1
  match bind_results vec d (List.range N) (krn, pos) with
  | none => none
  | some (krn, pos) => set_kernel_args N expr krn d pos

/-- An expression is accepted for assignment to a width `N` target when it
matches the grammar of its domain and `build_param_list<N>`,
`build_expr_list` and `set_kernel_args<N>` instantiate for it. -/
def accepted {V : Type} (N : Nat) (expr : Expr V) : Bool :=
  multivector_expr_grammar expr
    && (build_param_list N expr "").isSome
    && (build_expr_list N expr "").isSome
    && (set_kernel_args N expr { args := [] } 0 0).isSome

/-! ## The synthesized kernel as a program -/

/-- The expressions a `multivector_expr_context` can write. -/
inductive KExpr where
  | element (name : String)
  | param (name : String)
  | binary (tag : BinaryTag) (left right : KExpr)
  | unary_pre (tag : UnaryPreTag) (child : KExpr)
  | unary_post (tag : UnaryPostTag) (child : KExpr)
  | call (name : String) (args : List KExpr)

mutual
/-- The OpenCL text of a kernel expression. -/
def KExpr.text : KExpr → String
  | .element name => name ++ "[idx]"
  | .param name => name
  | .binary tag l r => "( " ++ l.text ++ " " ++ tag.the_op ++ " " ++ r.text ++ " )"
  | .unary_pre tag c => "( " ++ tag.the_op ++ "( " ++ c.text ++ " ) )"
  | .unary_post tag c => "( ( " ++ c.text ++ " )" ++ tag.the_op ++ " )"
  | .call name args => name ++ "( " ++ KExpr.text_args args 0 ++ " )"
/-- The text of an argument list, `", "` before all but the first. -/
def KExpr.text_args : List KExpr → Nat → String
  | [], _ => ""
  | a :: as, pos => (if pos ≠ 0 then ", " else "") ++ a.text ++ KExpr.text_args as (pos + 1)
end

/-- A kernel parameter after `n`: `global <type> *<name>` or `<type> <name>`. -/
structure KParam where
  global : Bool
  type : String
  name : String
  deriving DecidableEq, Repr

/-- The text of a parameter declaration, with the separator that precedes it. -/
def KParam.text (p : KParam) : String :=
  if p.global then ",\n\tglobal " ++ p.type ++ " *" ++ p.name
  else ",\n\t" ++ p.type ++ " " ++ p.name

/-- The statement `<result>[idx] = <rhs>;` of the loop body. -/
structure KStatement where
  result : String
  rhs : KExpr

/-- The text of a body statement. -/
def KStatement.text (s : KStatement) : String :=
  "\t\t" ++ s.result ++ "[idx] = " ++ s.rhs.text ++ ";\n"

/-- The name `prm_<c>_<k>`. -/
def prm_name (c k : Nat) : String :=
  "prm_" ++ toString c ++ "_" ++ toString k

/-- The name `res_<c>`. -/
def res_name (c : Nat) : String :=
  "res_" ++ toString c

mutual
/-- The terminals of an expression in the order every context meets them. -/
def Expr.terminals {V : Type} : Expr V → List (Terminal V)
  | .terminal t => [t]
  | .binary _ l r => l.terminals ++ r.terminals
  | .unary_pre _ c => c.terminals
  | .unary_post _ c => c.terminals
  | .function _ args => Expr.terminals_args args
/-- The terminals of an argument list. -/
def Expr.terminals_args {V : Type} : List (Expr V) → List (Terminal V)
  | [] => []
  | a :: as => a.terminals ++ Expr.terminals_args as
end

/-- The parameter that terminal number `k` (counted from 1 in the order of
`Expr.terminals`) contributes to the signature while slot `C` is walked: a
grouped array its `global` pointer `prm_<C+1>_<k>`, a multiscalar with more than
one component `prm_<C+1>_<k>`, a one-component value `prm_1_<k>` in slot 0 and
nothing in the other slots. -/
def Terminal.parameter {V : Type} (C k : Nat) : Terminal V → Option KParam
  | .multivector T _ => some { global := true, type := T, name := prm_name (C + 1) k }
  | .multiscalar m =>
    if m.number_of_components > 1 then
      (m.component C).map fun ty => { global := false, type := ty, name := prm_name (C + 1) k }
    else if C = 0 then
      (m.component 0).map fun ty => { global := false, type := ty, name := prm_name 1 k }
    else none
  | .other T _ =>
    if C = 0 then some { global := false, type := T, name := prm_name 1 k } else none

/-- The argument that a terminal contributes while slot `C` is walked for device
`dev`: a grouped array the buffer of its member `C`, a multiscalar with more than
one component its component `C`, a one-component value its value in slot 0 and
nothing in the other slots. -/
def Terminal.argument {V : Type} (C dev : Nat) : Terminal V → Option (KernelArg V)
  | .multivector _ vec => (vec.get? C).map fun v => .buffer { vector := v, device := dev }
  | .multiscalar m =>
    if m.number_of_components > 1 then (m.get C).map .value
    else if C = 0 then (m.get 0).map .value
    else none
  | .other _ v => if C = 0 then some (.value v) else none

/-- The text by which terminal number `k` is referred to in the statement of
slot `C`. -/
def Terminal.reference {V : Type} (C k : Nat) : Terminal V → KExpr
  | .multivector _ _ => .element (prm_name (C + 1) k)
  | .multiscalar m =>
    if m.number_of_components > 1 then .param (prm_name (C + 1) k)
    else .param (prm_name 1 k)
  | .other _ _ => .param (prm_name 1 k)

/-- The parameters of slot `C` for terminals numbered from `p + 1`. -/
def slot_parameters {V : Type} (C p : Nat) (ts : List (Terminal V)) : List KParam :=
  (ts.enumFrom p).filterMap fun jt => jt.2.parameter C (jt.1 + 1)

/-- The arguments of slot `C`. -/
def slot_arguments {V : Type} (C dev : Nat) (ts : List (Terminal V)) : List (KernelArg V) :=
  ts.filterMap fun t => t.argument C dev

/-- The parameters of all `N` slots, slot after slot. -/
def parameters {V : Type} (N : Nat) (expr : Expr V) : List KParam :=
  (List.range N).flatMap fun c => slot_parameters c 0 expr.terminals

/-- The arguments of all `N` slots, slot after slot. -/
def arguments {V : Type} (N dev : Nat) (expr : Expr V) : List (KernelArg V) :=
  (List.range N).flatMap fun c => slot_arguments c dev expr.terminals

mutual
/-- The expression that a `multivector_expr_context<N, C>` with counters
`prm_idx = p` and `fun_idx = f` writes for a tree, and the counters after it. -/
def Expr.kernel_expr {V : Type} (C : Nat) : Expr V → Nat → Nat → KExpr × Nat × Nat
  | .terminal t, p, f => (t.reference C (p + 1), p + 1, f)
  | .binary tag l r, p, f =>
    let a := l.kernel_expr C p f
    let b := r.kernel_expr C a.2.1 a.2.2
    (.binary tag a.1 b.1, b.2.1, b.2.2)
  | .unary_pre tag c, p, f =>
    let a := c.kernel_expr C p f
    (.unary_pre tag a.1, a.2.1, a.2.2)
  | .unary_post tag c, p, f =>
    let a := c.kernel_expr C p f
    (.unary_post tag a.1, a.2.1, a.2.2)
  | .function (.builtin name) args, p, f =>
    let a := Expr.kernel_args C args p f
    (.call name a.1, a.2.1, a.2.2)
  | .function (.user _) args, p, f =>
    let a := Expr.kernel_args C args p (f + 1)
    (.call ("func_1_" ++ toString (f + 1)) a.1, a.2.1, a.2.2)
/-- The argument expressions of a call. -/
def Expr.kernel_args {V : Type} (C : Nat) : List (Expr V) → Nat → Nat → List KExpr × Nat × Nat
  | [], p, f => ([], p, f)
  | x :: xs, p, f =>
    let a := x.kernel_expr C p f
    let b := Expr.kernel_args C xs a.2.1 a.2.2
    (a.1 :: b.1, b.2.1, b.2.2)
end

/-- The `N` statements of the loop body, `res_<c+1>[idx] = ...` for slot `c`. -/
def kernel_body {V : Type} (N : Nat) (expr : Expr V) : List KStatement :=
  (List.range N).map fun c => { result := res_name (c + 1), rhs := (expr.kernel_expr c 0 0).1 }

/-- The parameter names of the kernel in the order of its signature: `n`,
`res_1` .. `res_N`, then the parameters of the expression. -/
def kernel_params {V : Type} (N : Nat) (expr : Expr V) : List String :=
  "n" :: (List.range N).map (fun c => res_name (c + 1)) ++ (parameters N expr).map (·.name)

/-! ## Running the kernel -/

/-- Device memory: the element at an index of a buffer. -/
abbrev Memory (V : Type) := cl_Buffer → Nat → V

/-- The assignment `b[idx] = v`. -/
def Memory.store {V : Type} (mem : Memory V) (b : cl_Buffer) (idx : Nat) (v : V) : Memory V :=
  fun b1 i => if b1 = b ∧ i = idx then v else mem b1 i

/-- What the operators and functions of an expression denote on element values.
For `++` and `--`, `unary_pre` is the value after the step and `unary_post` the
value of the postfix expression, both as functions of the value before. -/
structure Operators (V : Type) where
  binary : BinaryTag → V → V → V
  unary_pre : UnaryPreTag → V → V
  unary_post : UnaryPostTag → V → V
  builtin : String → List V → V
  user : Nat → List V → V

/-- The function a function terminal denotes. -/
def Operators.denote {V : Type} (ops : Operators V) : FunctionTerminal → List V → V
  | .builtin name => ops.builtin name
  | .user id => ops.user id

/-- The argument a parameter name stands for when the kernel is launched: the one
bound at the position of the name in the signature, positions counted from
`pos`. -/
def bind_names {V : Type} : List String → Nat → cl_Kernel V → String → Option (KernelArg V)
  | [], _, _, _ => none
  | n :: ns, pos, krn, s => if s = n then krn.arg pos else bind_names ns (pos + 1) krn s

/-- The prefix operators `++` and `--`, which write their operand. -/
def UnaryPreTag.is_step : UnaryPreTag → Bool
  | .pre_inc => true
  | .pre_dec => true
  | _ => false

/-- The prefix operator that moves the operand as a postfix operator does. -/
def UnaryPostTag.pre : UnaryPostTag → UnaryPreTag
  | .post_inc => .pre_inc
  | .post_dec => .pre_dec

/-- What a work-item runs on: the device memory, and the arguments of the
kernel, of which it has its own copies (a value parameter is a variable of the
work-item). -/
structure KState (V : Type) where
  mem : Memory V
  env : String → Option (KernelArg V)

/-- The operators `++` and `--` on an operand at index `idx`: the operand must
be an lvalue, `name[idx]` or a bare parameter, which afterwards holds `next` of
its old value, while the expression has the value `value` of the old value.
Any other operand is not an lvalue, and the kernel does not compile (`none`). -/
def KExpr.step {V : Type} (value next : V → V) (idx : Nat) :
    KExpr → KState V → Option (V × KState V)
  | .element name, st =>
    match st.env name with
    | some (.buffer b) =>
      some (value (st.mem b idx), { st with mem := st.mem.store b idx (next (st.mem b idx)) })
    | _ => none
  | .param name, st =>
    match st.env name with
    | some (.value v) =>
      some (value v, { st with env := Function.update st.env name (some (.value (next v))) })
    | _ => none
  | _, _ => none

mutual
/-- The evaluation of a kernel expression by a work-item at index `idx`: the
value, and the state afterwards.  `name[idx]` reads the buffer bound to `name`,
a bare name is the value of the parameter, `++` and `--` write their operand
(`KExpr.step`), any other operator and a function are applied to the values of
the operands, which are evaluated from left to right (C leaves the order open;
it matters only when an operand writes what another reads). -/
def KExpr.eval {V : Type} (ops : Operators V) (functions : String → List V → V) (idx : Nat) :
    KExpr → KState V → Option (V × KState V)
  | .element name, st =>
    match st.env name with
    | some (.buffer b) => some (st.mem b idx, st)
    | _ => none
  | .param name, st =>
    match st.env name with
    | some (.value v) => some (v, st)
    | _ => none
  | .binary tag l r, st =>
    match l.eval ops functions idx st with
    | none => none
    | some a =>
      match r.eval ops functions idx a.2 with
      | none => none
      | some b => some (ops.binary tag a.1 b.1, b.2)
  | .unary_pre tag c, st =>
    if tag.is_step then KExpr.step (ops.unary_pre tag) (ops.unary_pre tag) idx c st
    else
      match c.eval ops functions idx st with
      | none => none
      | some a => some (ops.unary_pre tag a.1, a.2)
  | .unary_post tag c, st =>
    KExpr.step (ops.unary_post tag) (ops.unary_pre tag.pre) idx c st
  | .call name args, st =>
    match KExpr.eval_args ops functions idx args st with
    | none => none
    | some a => some (functions name a.1, a.2)
/-- The evaluation of an argument list, from left to right. -/
def KExpr.eval_args {V : Type} (ops : Operators V) (functions : String → List V → V)
    (idx : Nat) : List KExpr → KState V → Option (List V × KState V)
  | [], st => some ([], st)
  | a :: as, st =>
    match a.eval ops functions idx st with
    | none => none
    | some x =>
      match KExpr.eval_args ops functions idx as x.2 with
      | none => none
      | some xs => some (x.1 :: xs.1, xs.2)
end

/-- The effect of a body statement at index `idx`: the right side is evaluated,
with what it writes, and its value is stored at `idx` of the result buffer. -/
def KStatement.exec {V : Type} (ops : Operators V) (functions : String → List V → V)
    (idx : Nat) (s : KStatement) (st : KState V) : Option (KState V) :=
  match s.rhs.eval ops functions idx st with
  | none => none
  | some a =>
    match a.2.env s.result with
    | some (.buffer b) => some { a.2 with mem := a.2.mem.store b idx a.1 }
    | _ => none

mutual
/-- Whether no `++` or `--` occurs in a tree. -/
def Expr.step_free {V : Type} : Expr V → Bool
  | .terminal _ => true
  | .binary _ l r => l.step_free && r.step_free
  | .unary_pre tag c => !tag.is_step && c.step_free
  | .unary_post _ _ => false
  | .function _ args => Expr.step_free_args args
/-- Whether no `++` or `--` occurs in the trees of a list. -/
def Expr.step_free_args {V : Type} : List (Expr V) → Bool
  | [] => true
  | a :: as => a.step_free && Expr.step_free_args as
end

mutual
/-- The value of an expression tree for slot `c` at index `idx` on device `d`:
a grouped array is element `idx` of its member `c`, a multiscalar with one
component is that component, a multiscalar with more is its component `c`, and
an operator or function is applied to the values of its operands. -/
def Expr.value {V : Type} (ops : Operators V) (c d : Nat) (mem : Memory V) (idx : Nat) :
    Expr V → Option V
  | .terminal (.multivector _ vec) =>
    (vec.get? c).map fun v => mem { vector := v, device := d } idx
  | .terminal (.multiscalar m) => if m.number_of_components = 1 then m.get 0 else m.get c
  | .terminal (.other _ v) => some v
  | .binary tag l r =>
    match l.value ops c d mem idx, r.value ops c d mem idx with
    | some a, some b => some (ops.binary tag a b)
    | _, _ => none
  | .unary_pre tag x => (x.value ops c d mem idx).map (ops.unary_pre tag)
  | .unary_post tag x => (x.value ops c d mem idx).map (ops.unary_post tag)
  | .function f args => (Expr.values ops c d mem idx args).map (ops.denote f)
/-- The values of the arguments of a function node. -/
def Expr.values {V : Type} (ops : Operators V) (c d : Nat) (mem : Memory V) (idx : Nat) :
    List (Expr V) → Option (List V)
  | [] => some []
  | a :: as =>
    match a.value ops c d mem idx, Expr.values ops c d mem idx as with
    | some v, some vs => some (v :: vs)
    | _, _ => none
end

mutual
/-- The function nodes of a tree in the order a `multivector_expr_context` meets
them, each with the name it is called by in the kernel, `f` being `fun_idx`. -/
def Expr.call_sites {V : Type} : Expr V → Nat → List (String × FunctionTerminal) × Nat
  | .terminal _, f => ([], f)
  | .binary _ l r, f =>
    let a := l.call_sites f
    let b := r.call_sites a.2
    (a.1 ++ b.1, b.2)
  | .unary_pre _ c, f => c.call_sites f
  | .unary_post _ c, f => c.call_sites f
  | .function (.builtin name) args, f =>
    let a := Expr.call_sites_args args f
    ((name, .builtin name) :: a.1, a.2)
  | .function (.user id) args, f =>
    let a := Expr.call_sites_args args (f + 1)
    (("func_1_" ++ toString (f + 1), .user id) :: a.1, a.2)
/-- The function nodes of an argument list. -/
def Expr.call_sites_args {V : Type} : List (Expr V) → Nat → List (String × FunctionTerminal) × Nat
  | [], f => ([], f)
  | x :: xs, f =>
    let a := x.call_sites f
    let b := Expr.call_sites_args xs a.2
    (a.1 ++ b.1, b.2)
end

/-- The functions of the compiled program are the ones the tree applies: every
name a call is emitted under denotes the function of that node (the builtin of
that name; for `func_1_<k>` the body the preamble defines). -/
def FunctionsDefined {V : Type} (ops : Operators V) (functions : String → List V → V)
    (expr : Expr V) : Prop :=
  ∀ p ∈ (expr.call_sites 0).1, functions p.1 = ops.denote p.2

/-- The number a list of decimal digit characters denotes. -/
def digits_value (l : List Char) : Nat :=
  l.foldl (fun acc c => 10 * acc + (c.toNat - 48)) 0

/-! ## What the contexts check -/

/-- The compile-time checks of `multivector_parm_context<N, C>` on a terminal:
`M == N` for a grouped array; for another value that `component<C, ...>` is
well-formed and that there are `1` or `N` components. -/
def Terminal.parm_checks {V : Type} (N C : Nat) : Terminal V → Bool
  | .multivector _ vec => decide (vec.length = N)
  | .multiscalar m =>
    (m.component C).isSome && decide (m.number_of_components = 1 ∨ m.number_of_components = N)
  | .other _ _ => true

/-- The compile-time checks of `multivector_expr_context<N, C>` on a terminal. -/
def Terminal.expr_checks {V : Type} (N : Nat) : Terminal V → Bool
  | .multivector _ vec => decide (vec.length = N)
  | .multiscalar m => decide (m.number_of_components = 1 ∨ m.number_of_components = N)
  | .other _ _ => true

/-- The checks of `multivector_args_context<N, C>` on a terminal, and that the
member or component it binds exists. -/
def Terminal.args_checks {V : Type} (N C : Nat) : Terminal V → Bool
  | .multivector _ vec => decide (vec.length = N) && (vec.get? C).isSome
  | .multiscalar m =>
    decide (m.number_of_components = 1 ∨ m.number_of_components = N)
      && (if m.number_of_components > 1 ∨ C = 0 then (m.get C).isSome else true)
  | .other _ _ => true

/-- Consecutive `setArg` calls: the arguments of a list bound at the positions
from `pos` on. -/
def cl_Kernel.setArgs {V : Type} (krn : cl_Kernel V) (pos : Nat) : List (KernelArg V) → cl_Kernel V
  | [] => krn
  | a :: as => cl_Kernel.setArgs (krn.setArg pos a) (pos + 1) as

/-- The declared parameter and the bound argument of terminal number `k` in slot
`C` on device `dev`, when it has both. -/
def Terminal.binding {V : Type} (C dev k : Nat) (t : Terminal V) : Option (KParam × KernelArg V) :=
  (t.parameter C k).bind fun p => (t.argument C dev).map fun a => (p, a)

mutual
/-- The parameter references of a kernel expression, left to right. -/
def KExpr.leaves : KExpr → List KExpr
  | .element name => [.element name]
  | .param name => [.param name]
  | .binary _ l r => l.leaves ++ r.leaves
  | .unary_pre _ c => c.leaves
  | .unary_post _ c => c.leaves
  | .call _ args => KExpr.leaves_args args
/-- The parameter references of an argument list. -/
def KExpr.leaves_args : List KExpr → List KExpr
  | [] => []
  | a :: as => a.leaves ++ KExpr.leaves_args as
end

/-! ## Shape validation as the specification words it -/

mutual
/-- The acceptance rule in the words of the specification: the operands of every
operator and function node are accepted, every terminal is a grouped array or a
multiscalar, every grouped array has width `N`, every multiscalar has 1 or `N`
components. -/
def shape_valid {V : Type} (N : Nat) : Expr V → Bool
  | .terminal (.multivector _ vec) => decide (vec.length = N)
  | .terminal (.multiscalar m) =>
    decide (m.number_of_components = 1 ∨ m.number_of_components = N)
  | .terminal (.other _ _) => false
  | .binary _ l r => shape_valid N l && shape_valid N r
  | .unary_pre _ c => shape_valid N c
  | .unary_post _ c => shape_valid N c
  | .function _ args => shape_valid_args N args
/-- The rule on the operands of a function node. -/
def shape_valid_args {V : Type} (N : Nat) : List (Expr V) → Bool
  | [] => true
  | a :: as => shape_valid N a && shape_valid_args N as
end

/-- Modelled from the spec: `vex::vector<T>` is defined in `vector.hpp`, an
external collaborator.  A vector is the list of its elements, an element that
was never written being `none`; `size()` is the length. -/
structure vector (T : Type) where
  data : List (Option T)
  deriving DecidableEq, Repr

/-- The member `vector::size()`. -/
def vector.size {T : Type} (v : vector T) : Nat := v.data.length

/-- The constructor `vector()`: no elements. -/
def vector.empty {T : Type} : vector T := { data := [] }

/-- The constructor `vector(queue, size, host, flags)`: `size` elements, copied
from the host pointer when it is not null.  A pointer is the host memory from
it onwards; reading past its end is `none`. -/
def vector.create {T : Type} (size : Nat) (host : Option (List T)) : Option (vector T) :=
  match host with
  | none => some { data := List.replicate size none }
  | some p => if size ≤ p.length then some { data := (p.take size).map some } else none

/-- The free store: the vectors allocated so far; a pointer is an index. -/
abbrev Heap (T : Type) := List (vector T)

/-- The expression `new vex::vector<T>(...)` for an already built value. -/
def Heap.alloc {T : Type} (heap : Heap T) (v : vector T) : Heap T × Nat :=
  (heap ++ [v], heap.length)

/-- The loop `for(uint i = 0; i < N; i++) vec[i].reset(new vex::vector<T>(...))`
over the indices `is`, the vector for index `i` being `make i`; `vec` collects
the pointers. -/
def construct_components {T : Type} (make : Nat → Option (vector T)) :
    List Nat → Heap T × List Nat → Option (Heap T × List Nat)
  | [], st => some st
  | i :: is, st =>
    match make i with
    | none => none
    | some v => construct_components make is ((st.1.alloc v).1, st.2 ++ [(st.1.alloc v).2])

/-- The constructor `multivector()`.  The result is the free store afterwards and
the member `vec`, `none` when the constructor fails (then nothing was created). -/
def multivector.default_ctor {T : Type} (N : Nat) (own : Bool) (heap : Heap T) :
    Heap T × Option (List Nat) :=
  -- static_assert(own, "Empty constructor unavailable for referenced-type multivector")
  if own then
    match construct_components (fun _ => some vector.empty) (List.range N) (heap, []) with
    | none => (heap, none)
    | some st => (st.1, some st.2)
  else (heap, none)

/-- The constructor `multivector(queue, const std::vector<T> &host, flags)`.  A
failing `assert` ends the program at that point. -/
def multivector.from_host {T : Type} (N : Nat) (own : Bool) (heap : Heap T) (host : List T) :
    Heap T × Option (List Nat) :=
  -- static_assert(own, ...); static_assert(N > 0, "What's the point?")
  if own ∧ N > 0 then
    let size := host.length / N
    -- assert(N * size == host.size())
    if N * size = host.length then
      match construct_components (fun i => vector.create size (some (host.drop (i * size))))
          (List.range N) (heap, []) with
      | none => (heap, none)
      | some st => (st.1, some st.2)
    else (heap, none)
  else (heap, none)

/-- The constructor `multivector(queue, size, const T *host = 0, flags)`. -/
def multivector.from_size {T : Type} (N : Nat) (own : Bool) (heap : Heap T) (size : Nat)
    (host : Option (List T)) : Heap T × Option (List Nat) :=
  -- static_assert(own, ...); static_assert(N > 0, "What's the point?")
  if own ∧ N > 0 then
    match construct_components
        (fun i => vector.create size (host.map fun p => p.drop (i * size)))
        (List.range N) (heap, []) with
    | none => (heap, none)
    | some st => (st.1, some st.2)
  else (heap, none)

/-- The copy constructor `multivector(const multivector &mv)`: `copy_components<own>`
copies the vectors of an owning group and the pointers of a referencing one
(`none`: a dangling pointer). -/
def multivector.copy_ctor {T : Type} (N : Nat) (own : Bool) (heap : Heap T) (mv : List Nat) :
    Heap T × Option (List Nat) :=
  if own then
    match construct_components (fun i => (mv.get? i).bind fun p => heap.get? p)
        (List.range N) (heap, []) with
    | none => (heap, none)
    | some st => (st.1, some st.2)
  else (heap, some ((List.range N).filterMap fun i => mv.get? i))

/-- The constructor `multivector(std::array<vex::vector<T>*,N> components)`. -/
def multivector.from_components {T : Type} (N : Nat) (own : Bool) (heap : Heap T)
    (components : List Nat) : Heap T × Option (List Nat) :=
  -- static_assert(!own, "Wrong constructor")
  if ¬ own ∧ components.length = N then (heap, some components) else (heap, none)

/-- The member `resize(queue, size)`: every member is resized in turn; the
resized vector has `size` fresh elements (`none`: a dangling pointer). -/
def multivector.resize {T : Type} (size : Nat) : List Nat → Heap T → Option (Heap T)
  | [], heap => some heap
  | p :: ps, heap =>
    if p < heap.length then
      multivector.resize size ps (heap.set p { data := List.replicate size none })
    else none

/-- The member `size()`: `vec[0]->size()`. -/
def multivector.size {T : Type} (heap : Heap T) (vec : List Nat) : Option Nat :=
  (vec.get? 0).bind fun p => (heap.get? p).map vector.size

/-- The size of the member behind a pointer. -/
def member_size {T : Type} (heap : Heap T) (p : Nat) : Option Nat :=
  (heap.get? p).map vector.size

/-! ## `gslice<NDIM>` (`vector_view.hpp`) -/

/-- The struct `gslice<NDIM>`: `cl_ulong start`, `cl_ulong size[NDIM]`,
`cl_long stride[NDIM]`; the two lists have `NDIM` entries. -/
structure gslice where
  start : Nat
  size : List Nat
  stride : List Int
  deriving DecidableEq, Repr

/-- The struct `vector_view<T, Slice>`: the base vector and the slice. -/
structure vector_view where
  base : Nat
  slice : gslice
  deriving DecidableEq, Repr

/-- The loop `for(size_t k = 0; k < NDIM; ++k) s << ",\n\tulong size" << k <<
",\n\tlong stride" << k;` of `indexing_function`. -/
def indexing_signature_loop (NDIM : Nat) (s : String) : String :=
  (List.range NDIM).foldl
    (fun s k => s ++ ",\n\tulong size" ++ toString k ++ ",\n\tlong stride" ++ toString k) s

/-- The loop `for(size_t k = NDIM - 1; k-- > 0;)` of `indexing_function`; the
argument `k` is the value of the counter before the test. -/
def indexing_body_loop : Nat → String → String
  | 0, s => s
  | k + 1, s =>
    indexing_body_loop k
      (s ++ "    idx /= size" ++ toString (k + 1) ++ ";\n"
         ++ "    ptr += (idx % size" ++ toString k ++ ") * stride" ++ toString k ++ ";\n")

/-- The static member `gslice<NDIM>::indexing_function(component, position)`;
`none` for `NDIM = 0`, which `static_assert(NDIM > 0, ...)` refuses. -/
def gslice.indexing_function (NDIM component position : Nat) : Option String :=
  if NDIM > 0 then
    let s := "ulong slice_" ++ toString component ++ "_" ++ toString position
               ++ "(\n\tulong start"
    let s := indexing_signature_loop NDIM s
    let s := s ++ ",\n\tulong idx)\n\x7b\n"
    let s :=
      if NDIM = 1 then s ++ "    return start + idx * stride0;\n"
      else
        let s := s ++ "    size_t ptr = start + (idx % size" ++ toString (NDIM - 1)
                   ++ ") * stride" ++ toString (NDIM - 1) ++ ";\n"
        let s := indexing_body_loop (NDIM - 1) s
        s ++ "    return ptr;\n"
    some (s ++ "\x7d\n\n")
  else none

/-- The stream `prm` of `partial_expression` and `parameter_declaration`. -/
def view_prm (component position : Nat) : String :=
  "prm_" ++ toString component ++ "_" ++ toString position ++ "_"

/-- The static member `gslice<NDIM>::partial_expression(component, position)`. -/
def gslice.partial_expression (NDIM component position : Nat) : String :=
  let prm := view_prm component position
  let s := prm ++ "base[" ++ "slice_" ++ toString component ++ "_" ++ toString position ++ "("
             ++ prm ++ "start"
  let s := (List.range NDIM).foldl
    (fun s k => s ++ ", " ++ prm ++ "size" ++ toString k ++ ", " ++ prm ++ "stride" ++ toString k) s
  s ++ ", idx)]"

/-- The static member `gslice<NDIM>::parameter_declaration<T>(component, position)`;
`T` is `type_name<T>()`. -/
def gslice.parameter_declaration (T : String) (NDIM component position : Nat) : String :=
  let prm := view_prm component position
  let s := "global " ++ T ++ " * " ++ prm ++ "base" ++ ", ulong " ++ prm ++ "start"
  (List.range NDIM).foldl
    (fun s k => s ++ ", ulong " ++ prm ++ "size" ++ toString k
                  ++ ", long  " ++ prm ++ "stride" ++ toString k) s

/-- The loop of `setArgs` over the dimensions `ks` (`none`: a dimension the
slice does not have). -/
def set_slice_args {V : Type} (slice : gslice) :
    List Nat → cl_Kernel V × Nat → Option (cl_Kernel V × Nat)
  | [], st => some st
  | k :: ks, st =>
    match slice.size.get? k, slice.stride.get? k with
    | some size, some stride =>
      set_slice_args slice ks
        ((st.1.setArg st.2 (.ulong size)).setArg (st.2 + 1) (.long stride), st.2 + 2)
    | _, _ => none

/-- The static member `gslice<NDIM>::setArgs(kernel, device, index_offset, position,
term)`; the result carries the kernel and the updated `position`. -/
def gslice.setArgs {V : Type} (NDIM : Nat) (kernel : cl_Kernel V) (device position : Nat)
    (term : vector_view) : Option (cl_Kernel V × Nat) :=
  let kernel := kernel.setArg position (.buffer { vector := term.base, device := device })
  let kernel := kernel.setArg (position + 1) (.ulong term.slice.start)
  set_slice_args term.slice (List.range NDIM) (kernel, position + 2)

/-- The member `kernel_arg_setter< vector_view<T, Slice> >::set`; a failing
`assert(device == 0)` binds nothing. -/
def kernel_arg_setter_set {V : Type} (NDIM : Nat) (kernel : cl_Kernel V) (device position : Nat)
    (term : vector_view) : Option (cl_Kernel V × Nat) :=
  if device = 0 then gslice.setArgs NDIM kernel device position term else none

/-! ## The indexing helper as a program -/

/-- Two to the power 64, the number of values of `ulong`. -/
def two64 : Nat := 18446744073709551616

/-- Conversion of an integer to `ulong`. -/
def to_ulong (i : Int) : Nat := (i % (two64 : Int)).toNat

/-- Conversion of an integer to `long`. -/
def to_long (i : Int) : Int := (i + 9223372036854775808) % (two64 : Int) - 9223372036854775808

/-- A value of one of the integer types of the helper. -/
inductive CValue where
  | ulong (n : Nat)
  | long (i : Int)
  deriving DecidableEq, Repr

/-- The integer a scalar kernel argument is in the kernel, by the type of its
parameter. -/
def KernelArg.scalar {V : Type} : KernelArg V → Option CValue
  | .ulong n => some (.ulong (n % two64))
  | .long i => some (.long (to_long i))
  | _ => none

/-- The statements `indexing_function` writes; `idx` and `ptr` are the local
variables, the other names are parameters. -/
inductive HStatement where
  | return_linear (start stride : String)
  | declare_ptr (start size stride : String)
  | divide_idx (size : String)
  | add_ptr (size stride : String)
  | return_ptr
  deriving DecidableEq, Repr

/-- The text of a statement of the helper. -/
def HStatement.text : HStatement → String
  | .return_linear start stride => "    return " ++ start ++ " + idx * " ++ stride ++ ";\n"
  | .declare_ptr start size stride =>
    "    size_t ptr = " ++ start ++ " + (idx % " ++ size ++ ") * " ++ stride ++ ";\n"
  | .divide_idx size => "    idx /= " ++ size ++ ";\n"
  | .add_ptr size stride => "    ptr += (idx % " ++ size ++ ") * " ++ stride ++ ";\n"
  | .return_ptr => "    return ptr;\n"

/-- A helper function: its name, its parameters (type and name) after the first,
`ulong start`, and its body. -/
structure Helper where
  name : String
  params : List (String × String)
  body : List HStatement
  deriving DecidableEq, Repr

/-- The text of a helper function. -/
def Helper.text (h : Helper) : String :=
  "ulong " ++ h.name ++ "(\n\tulong start"
    ++ String.join (h.params.map fun p => ",\n\t" ++ p.1 ++ " " ++ p.2)
    ++ ")\n\x7b\n" ++ String.join (h.body.map HStatement.text) ++ "\x7d\n\n"

/-- The parameters `size<k>`, `stride<k>` of the dimensions `ks`. -/
def dimension_params (ks : List Nat) : List (String × String) :=
  ks.flatMap fun k => [("ulong", "size" ++ toString k), ("long", "stride" ++ toString k)]

/-- The statements of the loop `for(size_t k = NDIM - 1; k-- > 0;)`. -/
def helper_loop : Nat → List HStatement
  | 0 => []
  | k + 1 =>
    [.divide_idx ("size" ++ toString (k + 1)),
     .add_ptr ("size" ++ toString k) ("stride" ++ toString k)] ++ helper_loop k

/-- The helper that `indexing_function(component, position)` writes for `NDIM`
dimensions. -/
def gslice.helper (NDIM component position : Nat) : Helper :=
  { name := "slice_" ++ toString component ++ "_" ++ toString position,
    params := dimension_params (List.range NDIM) ++ [("ulong", "idx")],
    body :=
      if NDIM = 1 then [.return_linear "start" "stride0"]
      else
        [.declare_ptr "start" ("size" ++ toString (NDIM - 1)) ("stride" ++ toString (NDIM - 1))]
          ++ helper_loop (NDIM - 1) ++ [.return_ptr] }

/-- The local variables of a running helper and the value it has returned. -/
structure HState where
  idx : Nat
  ptr : Option Nat
  result : Option Nat
  deriving DecidableEq, Repr

/-- The effect of a statement.  All arithmetic is in `ulong`/`size_t`: a `long`
operand is converted to `ulong`, results are taken modulo `2^64`; a remainder or
quotient by zero has no value. -/
def HStatement.exec (env : String → Option CValue) : HStatement → HState → Option HState
  | .return_linear start stride, st =>
    match env start, env stride with
    | some (.ulong a), some (.long s) =>
      some { st with result := some ((a + st.idx * to_ulong s % two64) % two64) }
    | _, _ => none
  | .declare_ptr start size stride, st =>
    match env start, env size, env stride with
    | some (.ulong a), some (.ulong n), some (.long s) =>
      if n = 0 then none
      else some { st with ptr := some ((a + st.idx % n * to_ulong s % two64) % two64) }
    | _, _, _ => none
  | .divide_idx size, st =>
    match env size with
    | some (.ulong n) => if n = 0 then none else some { st with idx := st.idx / n }
    | _ => none
  | .add_ptr size stride, st =>
    match env size, env stride, st.ptr with
    | some (.ulong n), some (.long s), some p =>
      if n = 0 then none
      else some { st with ptr := some ((p + st.idx % n * to_ulong s % two64) % two64) }
    | _, _, _ => none
  | .return_ptr, st =>
    match st.ptr with
    | some p => some { st with result := some p }
    | none => none

/-- The statements of a body in sequence. -/
def run_body (env : String → Option CValue) : List HStatement → HState → Option HState
  | [], st => some st
  | s :: ss, st =>
    match s.exec env st with
    | none => none
    | some st1 => run_body env ss st1

/-- The call of a helper with the values of `start`, of the further parameters in
order, the last being `idx`: the value it returns. -/
def Helper.call (h : Helper) (start : CValue) (args : List CValue) : Option Nat :=
  if args.length = h.params.length then
    let env : String → Option CValue :=
      fun s => (("start", start) :: (h.params.map (·.2)).zip args).lookup s
    match env "idx" with
    | some (.ulong idx) =>
      (run_body env h.body { idx := idx, ptr := none, result := none }).bind (·.result)
    | _ => none
  else none

/-- The arguments `size0, stride0, size1, stride1, ...` of a helper call. -/
def dimension_values : List Nat → List Int → List CValue
  | n :: ns, s :: ss => .ulong (n % two64) :: .long (to_long s) :: dimension_values ns ss
  | _, _ => []

/-- The row-major flattened index `((i_0 * size_1 + i_1) * size_2 + ...) + i_(D-1)`
of the coordinates `i`. -/
def flat_index (i size : List Nat) : Nat :=
  (i.zip size).foldl (fun acc p => acc * p.2 + p.1) 0

/-- The sum of `i_k * stride_k`. -/
def stride_offset (i : List Nat) (stride : List Int) : Int :=
  ((i.zip stride).map fun p => (p.1 : Int) * p.2).sum

/-! ## A view in a kernel -/

/-- The expression `<base>[<helper>(<start><, arg>...)]` that `partial_expression`
writes. -/
structure ViewExpr where
  base : String
  helper : String
  start : String
  args : List String
  deriving DecidableEq, Repr

/-- The text of a view expression. -/
def ViewExpr.text (e : ViewExpr) : String :=
  e.base ++ "[" ++ e.helper ++ "(" ++ e.start ++ String.join (e.args.map fun a => ", " ++ a)
    ++ ")]"

/-- The names `<prm>size<k>`, `<prm>stride<k>` of the dimensions `ks`. -/
def dimension_names (prm : String) (ks : List Nat) : List String :=
  ks.flatMap fun k => [prm ++ "size" ++ toString k, prm ++ "stride" ++ toString k]

/-- The expression that `partial_expression(component, position)` writes. -/
def gslice.view_expr (NDIM component position : Nat) : ViewExpr :=
  { base := view_prm component position ++ "base",
    helper := "slice_" ++ toString component ++ "_" ++ toString position,
    start := view_prm component position ++ "start",
    args := dimension_names (view_prm component position) (List.range NDIM) ++ ["idx"] }

/-- The names that `parameter_declaration(component, position)` declares, in
order. -/
def gslice.parameter_names (NDIM component position : Nat) : List String :=
  [view_prm component position ++ "base", view_prm component position ++ "start"]
    ++ dimension_names (view_prm component position) (List.range NDIM)

/-- The values of the arguments of the helper call of a view expression: `idx` is
the loop variable, the other names are kernel parameters. -/
def view_arguments {V : Type} (env : String → Option (KernelArg V)) (idx : Nat) :
    List String → Option (List CValue)
  | [] => some []
  | name :: names =>
    match (if name = "idx" then some (CValue.ulong (idx % two64))
           else (env name).bind KernelArg.scalar),
          view_arguments env idx names with
    | some v, some vs => some (v :: vs)
    | _, _ => none

/-- The value of a view expression at index `idx`: the element of the base
buffer at the offset the helper returns. -/
def ViewExpr.eval {V : Type} (helper : Helper) (env : String → Option (KernelArg V))
    (mem : Memory V) (idx : Nat) (e : ViewExpr) : Option V :=
  match env e.base, (env e.start).bind KernelArg.scalar, view_arguments env idx e.args with
  | some (.buffer b), some start, some args =>
    if e.helper = helper.name then (helper.call start args).map (mem b) else none
  | _, _, _ => none

/-- Element `idx` of a view in a kernel: the value of the expression that
`partial_expression` writes for it, the names that `parameter_declaration`
declares standing for the arguments that `kernel_arg_setter::set` binds from
`position` on, and the function called being the one that `indexing_function`
defines for the same component and position. -/
def vector_view.element {V : Type} (NDIM component position : Nat) (view : vector_view)
    (kernel : cl_Kernel V) (pos : Nat) (mem : Memory V) (idx : Nat) : Option V :=
  match kernel_arg_setter_set NDIM kernel 0 pos view with
  | none => none
  | some st =>
    (gslice.view_expr NDIM component position).eval (gslice.helper NDIM component position)
      (bind_names (gslice.parameter_names NDIM component position) pos st.1) mem idx

/-- The memory in which the part of vector `base` on device 0 holds the elements
of a list and every other cell holds `junk`. -/
def memory_of {V : Type} (base : Nat) (elements : List V) (junk : V) : Memory V :=
  fun b i => if b = { vector := base, device := 0 } then elements.getD i junk else junk

/-! ## The parameters of a view, in order -/

/-- The declarations that `parameter_declaration<T>(component, position)` writes,
each as the text before the name and the name. -/
def gslice.declared (T : String) (NDIM component position : Nat) : List (String × String) :=
  ("global " ++ T ++ " * ", view_prm component position ++ "base")
    :: ("ulong ", view_prm component position ++ "start")
    :: (List.range NDIM).flatMap fun k =>
        [("ulong ", view_prm component position ++ "size" ++ toString k),
         ("long  ", view_prm component position ++ "stride" ++ toString k)]

/-- The text of a list of declarations, separated by `", "`. -/
def declared_text : List (String × String) → String
  | [] => ""
  | d :: ds => d.1 ++ d.2 ++ String.join (ds.map fun d => ", " ++ d.1 ++ d.2)

/-- The values `setArgs` passes to `setArg` for the dimensions `ks`, in order. -/
def gslice.dimension_arguments {V : Type} (slice : gslice) (ks : List Nat) : List (KernelArg V) :=
  ks.flatMap fun k => [.ulong (slice.size.getD k 0), .long (slice.stride.getD k 0)]

/-- The values `setArgs` passes to `setArg` for a view of dimension `NDIM`, in
order. -/
def vector_view.arguments {V : Type} (NDIM device : Nat) (term : vector_view) :
    List (KernelArg V) :=
  .buffer { vector := term.base, device := device } :: .ulong term.slice.start
    :: term.slice.dimension_arguments (List.range NDIM)

/-! ## `range` and `slicer<NDIM>` (`vector_view.hpp`) -/

/-- The struct `range`: the `size_t` members `start`, `stride`, `stop`, in the
order of the constructor `range(start, stride, stop)`. -/
structure range where
  start : Nat
  stride : Nat
  stop : Nat
  deriving DecidableEq, Repr

/-- The constructor `range(start, stop)`, which sets `stride(1)`. -/
def range.of_bounds (start stop : Nat) : range :=
  { start := start, stride := 1, stop := stop }

/-- The constructors `gslice(start, p_size, p_stride)` from arrays of `NDIM`
entries: the entries are copied into `size` and `stride`, converted to `cl_ulong`
resp. `cl_long`.  `none` when `static_assert(NDIM > 0, ...)` fails or an array
has not `NDIM` entries. -/
def gslice.ctor (NDIM start : Nat) (p_size : List Nat) (p_stride : List Int) : Option gslice :=
  if NDIM > 0 ∧ p_size.length = NDIM ∧ p_stride.length = NDIM then
    some { start := start % two64, size := p_size.map (· % two64), stride := p_stride.map to_long }
  else none

/-- The member `gslice<NDIM>::operator()(base)`; `base` identifies the vector and
`base_size` is `base.size()`.  The sum in the assertion is formed in `cl_ulong`
arithmetic; a failing assertion gives `none`. -/
def gslice.operator_call (g : gslice) (base base_size : Nat) : Option vector_view :=
  if to_ulong ((g.start : Int) + ((g.size.getD 0 0 : Int) - 1) * g.stride.getD 0 0) < base_size
  then some { base := base, slice := g }
  else none

/-- The struct `slicer<NDIM>::slice<CDIM>`: a `gslice<NDIM>` with the target
dimensions `dim`; `CDIM` is the template argument. -/
structure slice extends gslice where
  CDIM : Nat
  dim : List Nat
  deriving DecidableEq, Repr

/-- The value `std::accumulate(dim.begin() + k, dim.end(), 1UL,
std::multiplies<size_t>())`. -/
def trailing_product (dim : List Nat) (k : Nat) : Nat :=
  (dim.drop k).foldl (fun acc d => acc * d % two64) 1

/-- The value `(r.stop - r.start + r.stride - 1) / r.stride` in `size_t`
arithmetic; `none` for a division by zero. -/
def range.count (r : range) : Option Nat :=
  if r.stride = 0 then none
  else some (to_ulong ((r.stop : Int) - r.start + r.stride - 1) / r.stride)

/-- The constructors `slice(start, size, stride, dim)` of `slice<CDIM>`. -/
def slice.ctor (NDIM CDIM start : Nat) (size : List Nat) (stride : List Int) (dim : List Nat) :
    Option slice :=
  (gslice.ctor NDIM start size stride).map fun g => { togslice := g, CDIM := CDIM, dim := dim }

/-- The constructor `slice(const slice<CDIM - 1> &parent, const range &r)` of
`slice<CDIM>`. -/
def slice.from_parent (NDIM CDIM : Nat) (parent : slice) (r : range) : Option slice :=
  match gslice.ctor NDIM parent.start parent.size parent.stride, r.count with
  | some g, some n =>
    some { start := (g.start + r.start * trailing_product parent.dim (CDIM + 1) % two64) % two64,
           size := g.size.set CDIM n,
           stride := g.stride.set CDIM (to_long r.stride),
           CDIM := CDIM,
           dim := parent.dim }
  | _, _ => none

/-- The member `slice<CDIM>::operator[](r)`; `none` when
`static_assert(CDIM + 1 < NDIM, ...)` fails. -/
def slice.operator_index (NDIM : Nat) (s : slice) (r : range) : Option slice :=
  if s.CDIM + 1 < NDIM then slice.from_parent NDIM (s.CDIM + 1) s r else none

/-- The class `slicer<NDIM>`: its member `dim`. -/
structure slicer where
  dim : List Nat
  deriving DecidableEq, Repr

/-- The constructors `slicer(target_dimensions)` from `NDIM` extents. -/
def slicer.ctor (NDIM : Nat) (target_dimensions : List Nat) : Option slicer :=
  if target_dimensions.length = NDIM then some { dim := target_dimensions } else none

/-- The member `slicer<NDIM>::operator[](r)`.  The array `size` is `\x7b\x7bcount\x7d\x7d`
overwritten from entry 1 on with `dim`, the array `stride` is `\x7b\x7br.stride\x7d\x7d`
filled from entry 1 on with 1. -/
def slicer.operator_index (NDIM : Nat) (s : slicer) (r : range) : Option slice :=
  match r.count with
  | none => none
  | some n =>
    let start := r.start * trailing_product s.dim 1 % two64
    let size := n :: s.dim.drop 1
    let stride := (r.stride : Int) :: List.replicate (NDIM - 1) 1
    slice.ctor NDIM 0 start size stride s.dim

/-- What an expression `s[r0][r1]...` is: the `slicer` before any selection, a
`slice<CDIM>` after one. -/
inductive Selection where
  | slicer (s : slicer)
  | slice (s : slice)
  deriving DecidableEq, Repr

/-- One more `[r]` on a selection. -/
def Selection.operator_index (NDIM : Nat) : Selection → range → Option Selection
  | .slicer s, r => (s.operator_index NDIM r).map .slice
  | .slice s, r => (s.operator_index NDIM r).map .slice

/-- The expression `s[r0][r1]...[r(j-1)]` for the ranges `rs`. -/
def select (NDIM : Nat) (s : slicer) (rs : List range) : Option Selection :=
  rs.foldlM (Selection.operator_index NDIM) (.slicer s)

/-- The call `selection(base)`: `slice<CDIM>` inherits `operator()` from
`gslice<NDIM>`, the class `slicer` declares none. -/
def Selection.operator_call (base base_size : Nat) : Selection → Option vector_view
  | .slicer _ => none
  | .slice s => s.togslice.operator_call base base_size

/-- The offsets a view reads: the value the helper of `indexing_function` returns
for each flattened index `idx < count`. -/
def view_offsets (NDIM component position : Nat) (g : gslice) (count : Nat) : List (Option Nat) :=
  (List.range count).map fun idx =>
    (gslice.helper NDIM component position).call (.ulong (g.start % two64))
      (dimension_values g.size g.stride ++ [.ulong (idx % two64)])

/-- The row-major offset `sum of c_k * (product of d_j for j > k)` of the
coordinates `c` in an array of dimensions `dim`. -/
def row_major_offset (dim c : List Nat) : Nat :=
  ((List.range c.length).map fun k => c.getD k 0 * (dim.drop (k + 1)).prod).sum

/-- The descriptor a selection stands for.  Before any selection every
dimension is taken whole: these are the values `slicer::operator[]` gives to
the dimensions it does not select. -/
def Selection.descriptor (NDIM : Nat) : Selection → gslice
  | .slicer s => { start := 0, size := s.dim, stride := List.replicate NDIM 1 }
  | .slice s => s.togslice

/-! ## The kernel cache and the dispatcher of `operator=(const Expr&)` -/

/-- The type of a terminal of a proto expression: a `multivector<T,M,own>`, held
by reference (`is_const`: by reference to const); an arithmetic scalar, held by
value; a `std::array<T,N>`, a `std::tuple` or another value, held by reference. -/
inductive TerminalType where
  | multivector (T : String) (M : Nat) (own : Bool) (is_const : Bool)
  | scalar (T : String)
  | array (T : String) (N : Nat) (is_const : Bool)
  | tuple (Ts : List String) (is_const : Bool)
  | other (T : String) (is_const : Bool)
  deriving DecidableEq, Repr

mutual
/-- The template argument `Expr` of `exdata<Expr>`: the C++ type of a proto
expression, which is the tree without the values of its terminals, or a
`std::tuple` of vector expressions, whose types are identified by numbers. -/
inductive ExprType where
  | terminal (t : TerminalType)
  | binary (tag : BinaryTag) (left right : ExprType)
  | unary_pre (tag : UnaryPreTag) (child : ExprType)
  | unary_post (tag : UnaryPostTag) (child : ExprType)
  | function (f : FunctionTerminal) (args : ExprTypes)
  | tuple (elements : List Nat)
  deriving DecidableEq
/-- A list of expression types. -/
inductive ExprTypes where
  | nil
  | cons (head : ExprType) (tail : ExprTypes)
  deriving DecidableEq
end

/-- Whether a terminal is a value of a terminal type.  The value does not tell
whether a group owns its members nor how the expression holds it: a group of
members `vec` is a value of `multivector<T,M,own>` for either `own`, by either
kind of reference. -/
def Terminal.has_type {V : Type} : Terminal V → TerminalType → Bool
  | .multivector T vec, .multivector T1 M _ _ => decide (T = T1 ∧ vec.length = M)
  | .multiscalar (.scalar T _), .scalar T1 => decide (T = T1)
  | .multiscalar (.array T vals), .array T1 N _ => decide (T = T1 ∧ vals.length = N)
  | .multiscalar (.tuple comps), .tuple Ts _ => decide (comps.map Prod.fst = Ts)
  | .other T _, .other T1 _ => decide (T = T1)
  | _, _ => false

mutual
/-- Whether an expression is a value of an expression type: the same nodes, and
every terminal a value of its terminal type. -/
def Expr.has_type {V : Type} : Expr V → ExprType → Bool
  | .terminal t, .terminal tt => t.has_type tt
  | .binary tag l r, .binary tag1 lt rt => decide (tag = tag1) && l.has_type lt && r.has_type rt
  | .unary_pre tag x, .unary_pre tag1 xt => decide (tag = tag1) && x.has_type xt
  | .unary_post tag x, .unary_post tag1 xt => decide (tag = tag1) && x.has_type xt
  | .function f args, .function f1 ts => decide (f = f1) && Expr.have_types args ts
  | _, _ => false
/-- Whether the expressions of a list are values of the types of a list. -/
def Expr.have_types {V : Type} : List (Expr V) → ExprTypes → Bool
  | [], .nil => true
  | x :: xs, .cons t ts => x.has_type t && Expr.have_types xs ts
  | _, _ => false
end

/-- A `cl::Device`, as far as the dispatcher asks: whether `CL_DEVICE_TYPE` is
`CL_DEVICE_TYPE_CPU`, and `CL_DEVICE_MAX_COMPUTE_UNITS` (a `cl_uint`). -/
structure cl_Device where
  id : Nat
  cpu : Bool
  max_compute_units : Nat
  deriving DecidableEq, Repr

/-- A `cl::CommandQueue`: its `CL_QUEUE_CONTEXT` (the handle `context()`) and its
`CL_QUEUE_DEVICE`. -/
structure cl_CommandQueue where
  context : Nat
  device : cl_Device
  deriving DecidableEq, Repr

/-- A `cl::Program`: the context and the source it was built from. -/
structure cl_Program where
  context : Nat
  source : String
  deriving DecidableEq, Repr

/-- A `cl::Kernel` object `cl::Kernel(program, name)` with the arguments bound
to it so far. -/
structure CompiledKernel (V : Type) where
  program : cl_Program
  name : String
  arguments : cl_Kernel V
  deriving DecidableEq, Repr

/-- What the compute backend answers: whether `build_sources(context, source)`
succeeds (it throws otherwise), and `kernel_workgroup_size(kernel, device)`. -/
structure Backend where
  builds : Nat → String → Bool
  kernel_workgroup_size : cl_Program → String → cl_Device → Nat

/-- Modelled from the spec: `alignup(n, m)`, declared in `util.hpp`, which
rounds `n` up to the next multiple of `m`. -/
def alignup (n m : Nat) : Nat := (n + m - 1) / m * m

/-- The static members of `multivector<T,N,own>::exdata<Expr>`: three maps from
`cl_context`; `operator[]` of a `std::map` gives a value-initialised entry to a
key it does not hold. -/
structure exdata (V : Type) where
  compiled : Nat → Bool
  kernel : Nat → Option (CompiledKernel V)
  wgsize : Nat → Nat

/-- The maps before any assignment. -/
def exdata.empty {V : Type} : exdata V :=
  { compiled := fun _ => false, kernel := fun _ => none, wgsize := fun _ => 0 }

/-- The instantiation `multivector<T,N,own>::exdata<Expr>` that an assignment
uses. -/
structure CacheKey where
  T : String
  N : Nat
  own : Bool
  expr : ExprType
  deriving DecidableEq

/-- What an assignment does that can be observed from outside: a kernel source
is synthesized, `build_sources` is called, a kernel is enqueued on the queue
number `d` with a global size and a work-group size. -/
inductive Event (V : Type) where
  | synthesized (key : CacheKey) (context : Nat) (name source : String)
  | built (key : CacheKey) (context : Nat) (source : String)
  | enqueued (d : Nat) (queue : cl_CommandQueue) (kernel : CompiledKernel V) (g_size wgsize : Nat)

/-- The caches of all instantiations and the events so far. -/
structure Runtime (V : Type) where
  caches : CacheKey → exdata V
  log : List (Event V)

/-- A `multivector<T,N,own>` as `operator=` sees it: `T` is `type_name<T>()`,
`vec` lists the members, `queue` is `vec[0]->queue_list()` and `part_size d` is
`vec[0]->part_size(d)`. -/
structure multivector where
  T : String
  N : Nat
  own : Bool
  vec : List Nat
  queue : List cl_CommandQueue
  part_size : Nat → Nat

/-- The instantiation of `exdata` for an assignment of `expr` to `mv`. -/
def multivector.key (mv : multivector) (E : ExprType) : CacheKey :=
  { T := mv.T, N := mv.N, own := mv.own, expr := E }

/-- The body of the first loop of `operator=(const Expr&)` for the queue `q`;
`none` when `build_sources` throws. -/
def compile_step {V : Type} (ext : External V) (backend : Backend) (mv : multivector)
    (E : ExprType) (expr : Expr V) (st : Runtime V) (q : cl_CommandQueue) : Option (Runtime V) :=
  let ex := st.caches (mv.key E)
  if ex.compiled q.context then some st
  else
    match kernel_source ext mv.T mv.N expr with
    | none => none
    | some source =>
      if backend.builds q.context source then
        let program : cl_Program := { context := q.context, source := source }
        let kernel : CompiledKernel V :=
          { program := program, name := kernel_name ext expr, arguments := { args := [] } }
        let ex : exdata V :=
          { compiled := Function.update ex.compiled q.context true,
            kernel := Function.update ex.kernel q.context (some kernel),
            wgsize := Function.update ex.wgsize q.context
              (backend.kernel_workgroup_size program kernel.name q.device) }
        some { caches := Function.update st.caches (mv.key E) ex,
               log := st.log ++ [.synthesized (mv.key E) q.context kernel.name source,
                                 .built (mv.key E) q.context source] }
      else none

/-- The value `g_size` of the dispatch loops, in `size_t` arithmetic. -/
def global_size (device : cl_Device) (psize wgsize : Nat) : Nat :=
  if device.cpu then alignup psize wgsize
  else device.max_compute_units * wgsize % two64 * 4 % two64

/-- The body of the second loop of `operator=(const Expr&)` for the device
number `d`. -/
def dispatch_step {V : Type} (mv : multivector) (E : ExprType) (expr : Expr V)
    (st : Runtime V) (d : Nat) : Option (Runtime V) :=
  let psize := mv.part_size d
  if psize = 0 then some st
  else
    match mv.queue.get? d with
    | none => none
    | some q =>
      let ex := st.caches (mv.key E)
      let g_size := global_size q.device psize (ex.wgsize q.context)
      match ex.kernel q.context with
      | none => none
      | some kernel =>
        match bind_arguments mv.N mv.vec expr kernel.arguments d psize with
        | none => none
        | some bound =>
          let kernel : CompiledKernel V := { kernel with arguments := bound.1 }
          let ex : exdata V := { ex with kernel := Function.update ex.kernel q.context (some kernel) }
          some { caches := Function.update st.caches (mv.key E) ex,
                 log := st.log ++ [.enqueued d q kernel g_size (ex.wgsize q.context)] }

/-- The member `template <class Expr> multivector::operator=(const Expr&)`: the
loop over the queues that fills the cache, then the loop over the devices that
binds the arguments and enqueues; `E` is the template argument `Expr`, the type
of `expr`.  It exists only for an expression the kernel generator instantiates
for. -/
def multivector.operator_assign {V : Type} (ext : External V) (backend : Backend)
    (mv : multivector) (E : ExprType) (expr : Expr V) (st : Runtime V) : Option (Runtime V) :=
  if accepted mv.N expr then
    match mv.queue.foldlM (compile_step ext backend mv E expr) st with
    | none => none
    | some st => (List.range mv.queue.length).foldlM (dispatch_step mv E expr) st
  else none

/-! ## Compound assignment -/

/-- The operators defined through `COMPOUND_ASSIGNMENT(cop, op)`. -/
inductive CompoundOp where
  | plus_assign | minus_assign | multiplies_assign | divides_assign | modulus_assign
  | bitwise_and_assign | bitwise_or_assign | bitwise_xor_assign
  | shift_left_assign | shift_right_assign
  deriving DecidableEq, Repr

/-- The first argument `cop` of each `COMPOUND_ASSIGNMENT(cop, op)`. -/
def CompoundOp.cop : CompoundOp → String
  | .plus_assign => "+=" | .minus_assign => "-=" | .multiplies_assign => "*="
  | .divides_assign => "/=" | .modulus_assign => "%=" | .bitwise_and_assign => "&="
  | .bitwise_or_assign => "|=" | .bitwise_xor_assign => "^="
  | .shift_left_assign => "<<=" | .shift_right_assign => ">>="

/-- The second argument `op` of each `COMPOUND_ASSIGNMENT(cop, op)`, as the tag of
the node that `*this op expr` builds. -/
def CompoundOp.op : CompoundOp → BinaryTag
  | .plus_assign => .plus | .minus_assign => .minus | .multiplies_assign => .multiplies
  | .divides_assign => .divides | .modulus_assign => .modulus
  | .bitwise_and_assign => .bitwise_and | .bitwise_or_assign => .bitwise_or
  | .bitwise_xor_assign => .bitwise_xor
  | .shift_left_assign => .shift_left | .shift_right_assign => .shift_right

/-- The terminal `*this` of an expression. -/
def multivector.terminal {V : Type} (mv : multivector) : Expr V :=
  .terminal (.multivector mv.T mv.vec)

/-- The type of the terminal `*this` in a member that is not `const`: the group,
held by reference. -/
def multivector.terminal_type (mv : multivector) : ExprType :=
  .terminal (.multivector mv.T mv.N mv.own false)

/-- The members `operator cop(const Expr &expr)`: `return *this = *this op expr;`. -/
def multivector.operator_compound {V : Type} (ext : External V) (backend : Backend)
    (c : CompoundOp) (mv : multivector) (E : ExprType) (expr : Expr V) (st : Runtime V) :
    Option (Runtime V) :=
  mv.operator_assign ext backend (.binary c.op mv.terminal_type E)
    (.binary c.op mv.terminal expr) st

/-- All binary tags. -/
def BinaryTag.all : List BinaryTag :=
  [.plus, .minus, .multiplies, .divides, .modulus, .shift_left, .shift_right,
   .less, .greater, .less_equal, .greater_equal, .equal_to, .not_equal_to,
   .logical_and, .logical_or, .bitwise_and, .bitwise_or, .bitwise_xor]

/-- Compound assignment as the specification words it: `a op= e` is the plain
assignment `a = (a op e)` of the binary node of the operator `op`, the one whose
sign followed by `=` is the sign of the compound operator. -/
def spec_compound_assignment {V : Type} (ext : External V) (backend : Backend)
    (sign : String) (mv : multivector) (E : ExprType) (expr : Expr V) (st : Runtime V) :
    Option (Runtime V) :=
  match BinaryTag.all.find? (fun op => op.the_op ++ "=" == sign) with
  | none => none
  | some op =>
    mv.operator_assign ext backend
      (.binary op (.terminal (.multivector mv.T mv.N mv.own false)) E)
      (.binary op (.terminal (.multivector mv.T mv.vec)) expr) st

/-! ## Counting what an assignment did -/

/-- The number of `build_sources` calls for a key and a context in a list of
events. -/
def compile_count {V : Type} (key : CacheKey) (context : Nat) : List (Event V) → Nat
  | [] => 0
  | .built k c _ :: evs =>
    (if k = key ∧ c = context then 1 else 0) + compile_count key context evs
  | _ :: evs => compile_count key context evs

/-- The number of kernel sources synthesized for a key and a context in a list
of events. -/
def synthesis_count {V : Type} (key : CacheKey) (context : Nat) : List (Event V) → Nat
  | [] => 0
  | .synthesized k c _ _ :: evs =>
    (if k = key ∧ c = context then 1 else 0) + synthesis_count key context evs
  | _ :: evs => synthesis_count key context evs

/-- The launches in a list of events: the device number, the kernel with its
bound arguments, the global size and the work-group size of each. -/
def launches {V : Type} : List (Event V) → List (Nat × CompiledKernel V × Nat × Nat)
  | [] => []
  | .enqueued d _ kernel g_size wgsize :: evs => (d, kernel, g_size, wgsize) :: launches evs
  | _ :: evs => launches evs

/-- What identifies a kernel object apart from its bound arguments. -/
def CompiledKernel.identity {V : Type} (k : CompiledKernel V) : cl_Program × String :=
  (k.program, k.name)

/-! ## The tuple assignment `multivector::operator=(const std::tuple<Expr...>&)` -/

/-- The single-vector contexts of `vector.hpp`, which lies outside the two
files, for vector expressions of type `E`: the number that identifies the C++
type of an expression, the text that evaluating it with a
`vector_head_context(os, cmp_idx)`, a `vector_parm_context(os, cmp_idx)` and a
`vector_expr_context(os, cmp_idx)` appends to `os`, what evaluating it with a
`vector_args_context(krn, d, pos)` does to the kernel and to `pos`, and the
value of the expression at an index on a device. -/
structure VectorContexts (E V : Type) where
  type_id : E → Nat
  vector_head_context : E → Nat → String
  vector_parm_context : E → Nat → String
  vector_expr_context : E → Nat → String
  vector_args_context : E → cl_Kernel V → Nat → Nat → cl_Kernel V × Nat
  value : E → Nat → Memory V → Nat → V

/-- The struct `get_header` applied by `for_each` to the expressions of the
tuple; the second component is `cmp_idx`. -/
def get_header {E V : Type} (ctx : VectorContexts E V) (exprs : List E) (os : String) :
    String × Nat :=
  exprs.foldl (fun f expr => (f.1 ++ ctx.vector_head_context expr (f.2 + 1), f.2 + 1)) (os, 0)

/-- The struct `get_params` applied by `for_each`. -/
def get_params {E V : Type} (ctx : VectorContexts E V) (exprs : List E) (os : String) :
    String × Nat :=
  exprs.foldl (fun f expr => (f.1 ++ ctx.vector_parm_context expr (f.2 + 1), f.2 + 1)) (os, 0)

/-- The struct `get_expressions` applied by `for_each`; `T` is `type_name<T>()`. -/
def get_expressions {E V : Type} (ctx : VectorContexts E V) (T : String) (exprs : List E)
    (os : String) : String × Nat :=
  exprs.foldl
    (fun f expr =>
      (f.1 ++ "\t\t" ++ T ++ " buf_" ++ toString (f.2 + 1) ++ " = "
          ++ ctx.vector_expr_context expr (f.2 + 1) ++ ";\n", f.2 + 1))
    (os, 0)

/-- The struct `set_arguments(krn, d, pos)` applied by `for_each`; `pos` is a
reference shared with the caller. -/
def set_arguments {E V : Type} (ctx : VectorContexts E V) (exprs : List E) (krn : cl_Kernel V)
    (d pos : Nat) : cl_Kernel V × Nat :=
  exprs.foldl (fun f expr => ctx.vector_args_context expr f.1 d f.2) (krn, pos)

/-- The stream `kernel` of the tuple assignment when it is handed to
`build_sources`. -/
def tuple_kernel_source {E V : Type} (ext : External V) (ctx : VectorContexts E V) (T : String)
    (N : Nat) (exprs : List E) : String :=
  let kernel := ext.standard_kernel_header
  let kernel := (get_header ctx exprs kernel).1
  let kernel := kernel ++ "kernel void multi_expr_tuple(\n" ++ "\t" ++ ext.type_name_size_t ++ " n"
  let kernel := (List.range N).foldl
    (fun kernel i => kernel ++ ",\n\tglobal " ++ T ++ " *res_" ++ toString (i + 1)) kernel
  let kernel := (get_params ctx exprs kernel).1
  let kernel := kernel ++
    "\n)\n\x7b\n\tfor(size_t idx = get_global_id(0); idx < n; idx += get_global_size(0)) \x7b\n"
  let kernel := (get_expressions ctx T exprs kernel).1
  let kernel := kernel ++ "\n"
  let kernel := (List.range N).foldl
    (fun kernel i =>
      kernel ++ "\t\tres_" ++ toString (i + 1) ++ "[idx] = buf_" ++ toString (i + 1) ++ ";\n")
    kernel
  kernel ++ "\t\x7d\n\x7d\n"

/-- The instantiation of `exdata` for the assignment of a tuple to `mv`. -/
def multivector.tuple_key {E V : Type} (ctx : VectorContexts E V) (mv : multivector)
    (exprs : List E) : CacheKey :=
  { T := mv.T, N := mv.N, own := mv.own, expr := .tuple (exprs.map ctx.type_id) }

/-- The body of the first loop of the tuple assignment for the queue `q`. -/
def tuple_compile_step {E V : Type} (ext : External V) (ctx : VectorContexts E V)
    (backend : Backend) (mv : multivector) (exprs : List E) (st : Runtime V)
    (q : cl_CommandQueue) : Option (Runtime V) :=
  let ex := st.caches (mv.tuple_key ctx exprs)
  if ex.compiled q.context then some st
  else
    let source := tuple_kernel_source ext ctx mv.T mv.N exprs
    if backend.builds q.context source then
      let program : cl_Program := { context := q.context, source := source }
      let kernel : CompiledKernel V :=
        { program := program, name := "multi_expr_tuple", arguments := { args := [] } }
      let ex : exdata V :=
        { compiled := Function.update ex.compiled q.context true,
          kernel := Function.update ex.kernel q.context (some kernel),
          wgsize := Function.update ex.wgsize q.context
            (backend.kernel_workgroup_size program kernel.name q.device) }
      some { caches := Function.update st.caches (mv.tuple_key ctx exprs) ex,
             log := st.log ++ [.synthesized (mv.tuple_key ctx exprs) q.context kernel.name source,
                               .built (mv.tuple_key ctx exprs) q.context source] }
    else none

/-- The argument binding of the second loop of the tuple assignment: the element
count, the `N` result buffers, then `set_arguments`. -/
def tuple_bind_arguments {E V : Type} (ctx : VectorContexts E V) (N : Nat) (vec : List Nat)
    (exprs : List E) (krn : cl_Kernel V) (d psize : Nat) : Option (cl_Kernel V × Nat) :=
  let pos := 0
  let krn := krn.setArg pos (.ulong psize)
  let pos := pos + 1
  match bind_results vec d (List.range N) (krn, pos) with
  | none => none
  | some bound => some (set_arguments ctx exprs bound.1 d bound.2)

/-- The body of the second loop of the tuple assignment for the device number
`d`. -/
def tuple_dispatch_step {E V : Type} (ctx : VectorContexts E V) (mv : multivector)
    (exprs : List E) (st : Runtime V) (d : Nat) : Option (Runtime V) :=
  let psize := mv.part_size d
  if psize = 0 then some st
  else
    match mv.queue.get? d with
    | none => none
    | some q =>
      let ex := st.caches (mv.tuple_key ctx exprs)
      let g_size := global_size q.device psize (ex.wgsize q.context)
      match ex.kernel q.context with
      | none => none
      | some kernel =>
        match tuple_bind_arguments ctx mv.N mv.vec exprs kernel.arguments d psize with
        | none => none
        | some bound =>
          let kernel : CompiledKernel V := { kernel with arguments := bound.1 }
          let ex : exdata V := { ex with kernel := Function.update ex.kernel q.context (some kernel) }
          some { caches := Function.update st.caches (mv.tuple_key ctx exprs) ex,
                 log := st.log ++ [.enqueued d q kernel g_size (ex.wgsize q.context)] }

/-- The member `multivector::operator=(const std::tuple<Expr...>&)`, which
`enable_if<N == sizeof...(Expr)>` gives to tuples of `N` expressions only. -/
def multivector.operator_assign_tuple {E V : Type} (ext : External V)
    (ctx : VectorContexts E V) (backend : Backend) (mv : multivector) (exprs : List E)
    (st : Runtime V) : Option (Runtime V) :=
  if mv.N = exprs.length then
    match mv.queue.foldlM (tuple_compile_step ext ctx backend mv exprs) st with
    | none => none
    | some st => (List.range mv.queue.length).foldlM (tuple_dispatch_step ctx mv exprs) st
  else none

/-! ## The body of the tuple kernel as a program -/

/-- The statements of the loop body of the tuple kernel: `T buf_i = <expression
i>;` and `res_i[idx] = buf_i;`. -/
inductive TStatement (E : Type) where
  | define (i : Nat) (expr : E)
  | store (i : Nat)

/-- The text of a statement; `T` is `type_name<T>()`. -/
def TStatement.text {E V : Type} (ctx : VectorContexts E V) (T : String) : TStatement E → String
  | .define i expr =>
    "\t\t" ++ T ++ " buf_" ++ toString i ++ " = " ++ ctx.vector_expr_context expr i ++ ";\n"
  | .store i => "\t\tres_" ++ toString i ++ "[idx] = buf_" ++ toString i ++ ";\n"

/-- The statements that the tuple assignment writes between the braces of the
loop, in order, apart from the empty line between the definitions and the
stores. -/
def tuple_body {E : Type} (N : Nat) (exprs : List E) : List (TStatement E) :=
  (exprs.enum.map fun p => .define (p.1 + 1) p.2) ++ (List.range N).map fun i => .store (i + 1)

/-- The state of a work-item in the loop body: the values of the variables
`buf_i` and the memory. -/
structure TState (V : Type) where
  buf : Nat → Option V
  mem : Memory V

/-- One statement of the loop body at index `idx` on device `d`, the parameter
`res_i` standing for the part on device `d` of member `i - 1` of the target
`vec`. -/
def TStatement.exec {E V : Type} (ctx : VectorContexts E V) (vec : List Nat) (d idx : Nat) :
    TStatement E → TState V → Option (TState V)
  | .define i expr, st =>
    some { st with buf := Function.update st.buf i (some (ctx.value expr d st.mem idx)) }
  | .store i, st =>
    match st.buf i, vec.get? (i - 1) with
    | some v, some r => some { st with mem := st.mem.store { vector := r, device := d } idx v }
    | _, _ => none

/-- The statements of a body run in order. -/
def run_tuple_body {E V : Type} (ctx : VectorContexts E V) (vec : List Nat) (d idx : Nat) :
    List (TStatement E) → TState V → Option (TState V)
  | [], st => some st
  | s :: ss, st =>
    match s.exec ctx vec d idx st with
    | none => none
    | some st1 => run_tuple_body ctx vec d idx ss st1

/-! ## The calls of a kernel expression -/

mutual
/-- The names under which a kernel expression calls functions, in the order of
its text. -/
def KExpr.calls : KExpr → List String
  | .element _ => []
  | .param _ => []
  | .binary _ l r => l.calls ++ r.calls
  | .unary_pre _ c => c.calls
  | .unary_post _ c => c.calls
  | .call name args => name :: KExpr.calls_args args
/-- The calls of an argument list. -/
def KExpr.calls_args : List KExpr → List String
  | [] => []
  | a :: as => a.calls ++ KExpr.calls_args as
end

/-- Whether a function terminal is a `user_function`. -/
def FunctionTerminal.is_user : FunctionTerminal → Bool
  | .builtin _ => false
  | .user _ => true

/-! ## The queues of the launches -/

/-- The device number and the queue of each kernel launch in a list of events. -/
def enqueued_on {V : Type} : List (Event V) → List (Nat × cl_CommandQueue)
  | [] => []
  | .enqueued d queue _ _ _ :: evs => (d, queue) :: enqueued_on evs
  | _ :: evs => enqueued_on evs

/-! ## The loop of the kernels -/

/-- The loop `for(size_t idx = get_global_id(0); idx < n; idx += get_global_size(0))`
that both kernel sources open, run by one work-item from `idx` on with the
global size `G`: the values of `idx` at which the body runs, in order, the
increment being in `size_t` arithmetic; `none` when the fuel runs out. -/
def grid_loop (n G : Nat) : Nat → Nat → Option (List Nat)
  | 0, _ => none
  | fuel + 1, idx =>
    if idx < n then (grid_loop n G fuel ((idx + G) % two64)).map (idx :: ·)
    else some []

/-- The launch of a kernel with the global size `G`: the work-items
`get_global_id(0) = 0 .. G-1` each run the loop; the indices at which a body ran,
work-item after work-item. -/
def grid_visits (n G fuel : Nat) : Option (List Nat) :=
  (List.range G).foldlM (fun acc gid => (grid_loop n G fuel gid).map (acc ++ ·)) []

/-! ## The element proxies of a `multivector` -/

/-- Modelled from the spec: reading `v[index]` of a `vex::vector<T>`, whose
`operator[]` is defined in `vector.hpp`: the cell at `index` (`none` in it: never
written), and `none` outside the vector. -/
def vector.read {T : Type} (v : vector T) (index : Nat) : Option (Option T) :=
  v.data.get? index

/-- Modelled from the spec: the assignment `v[index] = x` to a `vex::vector<T>`:
the cell at `index` holds `x` afterwards; `none` outside the vector. -/
def vector.write {T : Type} (v : vector T) (index : Nat) (x : T) : Option (vector T) :=
  if index < v.data.length then some { data := v.data.set index (some x) } else none

/-- The read `vec(i)[index]`, the member being the vector behind the pointer `p`. -/
def Heap.read {T : Type} (heap : Heap T) (p index : Nat) : Option (Option T) :=
  (heap.get? p).bind fun v => v.read index

/-- The assignment `vec(i)[index] = x`, the member being the vector behind the
pointer `p`. -/
def Heap.write {T : Type} (heap : Heap T) (p index : Nat) (x : T) : Option (Heap T) :=
  (heap.get? p).bind fun v => (v.write index x).map fun w => heap.set p w

/-- The classes `multivector::element` and `multivector::const_element`: the
group, given by its member `vec`, and the index. -/
structure element where
  vec : List Nat
  index : Nat
  deriving DecidableEq, Repr

/-- The members `multivector::operator[](size_t i)`, which return
`element(*this, i)` and `const_element(*this, i)`. -/
def multivector.operator_index (vec : List Nat) (i : Nat) : element :=
  { vec := vec, index := i }

/-- The loop `for(uint i = 0; i < N; i++) val[i] = vec(i)[index];` over the
members. -/
def element.read_loop {T : Type} (heap : Heap T) (index : Nat) :
    List Nat → Option (List (Option T))
  | [] => some []
  | p :: ps =>
    match heap.read p index with
    | none => none
    | some x => (element.read_loop heap index ps).map (x :: ·)

/-- The conversion `operator const value_type () const` of `element` and of
`const_element`. -/
def element.value {T : Type} (heap : Heap T) (e : element) : Option (List (Option T)) :=
  element.read_loop heap e.index e.vec

/-- The loop `for(uint i = 0; i < N; i++) vec(i)[index] = val[i];` over the
members. -/
def element.write_loop {T : Type} (index : Nat) : List Nat → List T → Heap T → Option (Heap T)
  | [], _, heap => some heap
  | _ :: _, [], _ => none
  | p :: ps, x :: xs, heap =>
    match heap.write p index x with
    | none => none
    | some heap1 => element.write_loop index ps xs heap1

/-- The member `element::operator=(value_type val)`; `val` has as many entries
as the group has members. -/
def element.operator_assign {T : Type} (heap : Heap T) (e : element) (val : List T) :
    Option (Heap T) :=
  if val.length = e.vec.length then element.write_loop e.index e.vec val heap else none

/-! ## The names a body refers to -/

/-- The parameter name of a reference. -/
def KExpr.leaf_name : KExpr → Option String
  | .element name => some name
  | .param name => some name
  | _ => none

/-- The parameter names that occur in the `N` statements of the loop body,
statement after statement, left to right. -/
def body_names {V : Type} (N : Nat) (expr : Expr V) : List String :=
  (kernel_body N expr).flatMap fun s => s.rhs.leaves.filterMap KExpr.leaf_name

/-! ## Running the statements of the body -/

/-- The statement of slot `c` in the loop body. -/
def slot_statement {V : Type} (expr : Expr V) (c : Nat) : KStatement :=
  { result := res_name (c + 1), rhs := (expr.kernel_expr c 0 0).1 }

/-- A list of statements run one after the other at index `idx`, each on the
state the one before it left. -/
def run_statements {V : Type} (ops : Operators V) (functions : String → List V → V)
    (idx : Nat) : List KStatement → KState V → Option (KState V)
  | [], st => some st
  | s :: ss, st =>
    match s.exec ops functions idx st with
    | none => none
    | some st1 => run_statements ops functions idx ss st1

/-- The loop of a work-item: the body at each of the indices it visits, in
order, each pass on the state the one before it left. -/
def run_work_item {V : Type} (ops : Operators V) (functions : String → List V → V)
    (body : List KStatement) : List Nat → KState V → Option (KState V)
  | [], st => some st
  | idx :: rest, st =>
    match run_statements ops functions idx body st with
    | none => none
    | some st1 => run_work_item ops functions body rest st1

/-- A launch of the kernel with the global size `G` and the count `n`: the
work-items `0 .. G-1`, one after the other, each with its own copies of the
arguments `env`, run the loop `grid_loop` on the memory. -/
def run_kernel {V : Type} (ops : Operators V) (functions : String → List V → V)
    (body : List KStatement) (env : String → Option (KernelArg V)) (n G fuel : Nat)
    (mem : Memory V) : Option (Memory V) :=
  (List.range G).foldlM
    (fun mem gid =>
      match grid_loop n G fuel gid with
      | none => none
      | some visits =>
        (run_work_item ops functions body visits { mem := mem, env := env }).map (·.mem))
    mem

/-! ## The test of `operator()` in wrap-around arithmetic -/

/-- The value `start + (size[0] - 1) * stride[0]` as the specification words it,
every operation in 64-bit wrap-around arithmetic: `size[0] - 1` in `cl_ulong`,
the stride converted to `cl_ulong`, the product and the sum modulo `2^64`. -/
def spec_view_extent (start size0 : Nat) (stride0 : Int) : Nat :=
  (start + (size0 + (two64 - 1)) % two64 * to_ulong stride0 % two64) % two64

/-! ## Sample inputs -/

/-- The expression `x + 5 * sin(a, f())` over a width 2 group `x`, a scalar `5`, a
two-component array `a`, a builtin `sin` and a user function `f`. -/
def sample_expr : Expr Int :=
  .binary .plus (.terminal (.multivector "double" [10, 11]))
    (.binary .multiplies (.terminal (.multiscalar (.scalar "int" 5)))
      (.function (.builtin "sin")
        [.terminal (.multiscalar (.array "float" [1, 2])), .function (.user 7) []]))

/-- Sample values for the names defined outside `multivector.hpp`. -/
def sample_external : External Int :=
  { standard_kernel_header := "#pragma\n",
    type_name_size_t := "ulong",
    vector_name_context := fun _ => "plus_term_",
    vector_head_context := fun _ => "double func_1_1() \x7b return 0; \x7d\n" }

/-- Sample meanings of the operators on integers. -/
def sample_operators : Operators Int :=
  { binary := fun tag a b =>
      match tag with
      | .plus => a + b
      | .multiplies => a * b
      | _ => 0,
    unary_pre := fun _ a => a,
    unary_post := fun _ a => a,
    builtin := fun _ args => args.sum,
    user := fun _ _ => 1 }

/-- Sample functions of a compiled program: `sin` is the builtin, every other
name the user function 7. -/
def sample_functions : String → List Int → Int :=
  fun name => if name = "sin" then sample_operators.builtin "sin" else sample_operators.user 7

/-- A free store with a vector of one element and a vector of two. -/
def sample_heap : Heap Nat :=
  [{ data := [some 1] }, { data := [some 1, some 2] }]

/-- The view `start = 5, size = 3, stride = 2` of vector 7. -/
def sample_view : vector_view :=
  { base := 7, slice := { start := 5, size := [3], stride := [2] } }

/-- The ranges `range(1,3)` and `range(0,4)`. -/
def sample_ranges : List range := [range.of_bounds 1 3, range.of_bounds 0 4]

/-- A backend that builds every source and reports the work-group size 64. -/
def sample_backend : Backend :=
  { builds := fun _ _ => true, kernel_workgroup_size := fun _ _ _ => 64 }

/-- Two queues of one context: a CPU and a device with 8 compute units. -/
def sample_queues : List cl_CommandQueue :=
  [{ context := 1, device := { id := 0, cpu := true, max_compute_units := 4 } },
   { context := 1, device := { id := 1, cpu := false, max_compute_units := 8 } }]

/-- A `multivector<double,2,true>` with the members 10 and 11 on the two sample
queues, 100 elements on each. -/
def sample_multivector : multivector :=
  { T := "double", N := 2, own := true, vec := [10, 11], queue := sample_queues,
    part_size := fun _ => 100 }

/-- The runtime before any assignment. -/
def sample_runtime : Runtime Int :=
  { caches := fun _ => exdata.empty, log := [] }

/-- The type of `sample_expr` when the group is an owning one held by
reference and the array by reference to const. -/
def sample_type : ExprType :=
  .binary .plus (.terminal (.multivector "double" 2 true false))
    (.binary .multiplies (.terminal (.scalar "int"))
      (.function (.builtin "sin")
        (.cons (.terminal (.array "float" 2 true)) (.cons (.function (.user 7) .nil) .nil))))

/-- The type of `sample_expr` when the group is a referencing one. -/
def sample_type_referencing : ExprType :=
  .binary .plus (.terminal (.multivector "double" 2 false false))
    (.binary .multiplies (.terminal (.scalar "int"))
      (.function (.builtin "sin")
        (.cons (.terminal (.array "float" 2 true)) (.cons (.function (.user 7) .nil) .nil))))

/-- An expression of the type of `sample_expr` with other values in its
terminals. -/
def sample_expr_other : Expr Int :=
  .binary .plus (.terminal (.multivector "double" [12, 13]))
    (.binary .multiplies (.terminal (.multiscalar (.scalar "int" 6)))
      (.function (.builtin "sin")
        [.terminal (.multiscalar (.array "float" [3, 4])), .function (.user 7) []]))

/-- Sample single-vector contexts: an expression is the number of a vector, its
value at `idx` is the element of that vector, and it has one parameter. -/
def sample_contexts : VectorContexts Nat Int :=
  { type_id := fun _ => 0,
    vector_head_context := fun _ _ => "",
    vector_parm_context := fun _ i => ",\n\tglobal double *prm_" ++ toString i ++ "_1",
    vector_expr_context := fun _ i => "prm_" ++ toString i ++ "_1[idx]",
    vector_args_context := fun e krn d pos =>
      (krn.setArg pos (.buffer { vector := e, device := d }), pos + 1),
    value := fun e d mem idx => mem { vector := e, device := d } idx }

/-- A memory in which element `i` of vector `v` is `100 * v + i`. -/
def sample_memory : Memory Int := fun b i => 100 * b.vector + i

/-- The sample group on the two sample queues, with nothing on the first device
and 100 elements on the second. -/
def sample_uneven : multivector :=
  { sample_multivector with part_size := fun d => if d = 0 then 0 else 100 }

/-- The operators of integer arithmetic, as far as the samples use them. -/
def sample_arithmetic : Operators Int :=
  { binary := fun tag a b =>
      match tag with
      | .plus => a + b
      | .minus => a - b
      | .multiplies => a * b
      | _ => 0,
    unary_pre := fun tag a =>
      match tag with
      | .unary_plus => a
      | .negate => -a
      | .logical_not => if a = 0 then 1 else 0
      | .pre_inc => a + 1
      | .pre_dec => a - 1,
    unary_post := fun _ a => a,
    builtin := fun _ args => args.sum,
    user := fun _ _ => 1 }

/-- The tree `++s` of the scalar `s = 5`. -/
def sample_stepping : Expr Int :=
  .unary_pre .pre_inc (.terminal (.multiscalar (.scalar "int" 5)))

/-- The tree `z++` of the group `z` of the members 20 and 21. -/
def sample_post_step : Expr Int :=
  .unary_post .post_inc (.terminal (.multivector "double" [20, 21]))

/-- The aliasing group `(y, x)` of the members of the sample target in the
other order, plus the scalar `0`. -/
def sample_swapped : Expr Int :=
  .binary .plus (.terminal (.multivector "double" [11, 10]))
    (.terminal (.multiscalar (.scalar "int" 0)))

/-! # Theorems -/

/-! ## Names -/

theorem digitChar_fin : ∀ m : Fin 10,
    (Nat.digitChar m.val).toNat - 48 = m.val ∧ Nat.digitChar m.val ≠ '_' := by
  decide

theorem digitChar_spec (m : Nat) (h : m < 10) :
    (Nat.digitChar m).toNat - 48 = m ∧ Nat.digitChar m ≠ '_' :=
  digitChar_fin ⟨m, h⟩

theorem digits_value_append (l : List Char) (c : Char) :
    digits_value (l ++ [c]) = 10 * digits_value l + (c.toNat - 48) := by
  simp [digits_value, List.foldl_append]

theorem toDigitsCore_spec (fuel : Nat) : ∀ (n : Nat) (ds : List Char), n < fuel →
    ∃ l, Nat.toDigitsCore 10 fuel n ds = l ++ ds ∧ (∀ c ∈ l, c ≠ '_') ∧ digits_value l = n := by
  induction fuel with
  | zero => intro n ds h; omega
  | succ fuel ih =>
    intro n ds h
    rw [Nat.toDigitsCore]
    by_cases h0 : n / 10 = 0
    · simp only [h0, ↓reduceIte]
      have hn : n < 10 := by omega
      refine ⟨[Nat.digitChar (n % 10)], rfl, ?_, ?_⟩
      · intro c hc
        simp only [List.mem_singleton] at hc
        subst hc
        exact (digitChar_spec _ (Nat.mod_lt _ (by omega))).2
      · have := (digitChar_spec (n % 10) (Nat.mod_lt _ (by omega))).1
        simp only [digits_value, List.foldl_cons, List.foldl_nil, this]
        omega
    · simp only [h0, ↓reduceIte]
      obtain ⟨l, hl, hd, hv⟩ := ih (n / 10) (Nat.digitChar (n % 10) :: ds) (by omega)
      refine ⟨l ++ [Nat.digitChar (n % 10)], by simp [hl], ?_, ?_⟩
      · intro c hc
        rcases List.mem_append.1 hc with hc | hc
        · exact hd c hc
        · simp only [List.mem_singleton] at hc
          subst hc
          exact (digitChar_spec _ (Nat.mod_lt _ (by omega))).2
      · rw [digits_value_append, hv, (digitChar_spec (n % 10) (Nat.mod_lt _ (by omega))).1]
        omega

theorem toString_data (n : Nat) :
    (∀ c ∈ (toString n).data, c ≠ '_') ∧ digits_value (toString n).data = n := by
  obtain ⟨l, hl, hd, hv⟩ := toDigitsCore_spec (n + 1) n [] (by omega)
  have : (toString n).data = l := by
    show (Nat.repr n).data = l
    simp [Nat.repr, Nat.toDigits, hl, List.asString]
  rw [this]
  exact ⟨hd, hv⟩

theorem toString_nat_inj {a b : Nat} (h : toString a = toString b) : a = b := by
  have ha := (toString_data a).2
  have hb := (toString_data b).2
  rw [h] at ha
  omega

theorem split_at_underscore : ∀ (l1 l2 r1 r2 : List Char),
    (∀ c ∈ l1, c ≠ '_') → (∀ c ∈ l2, c ≠ '_') →
    l1 ++ '_' :: r1 = l2 ++ '_' :: r2 → l1 = l2 ∧ r1 = r2 := by
  intro l1
  induction l1 with
  | nil =>
    intro l2 r1 r2 _ h2 h
    cases l2 with
    | nil => simpa using h
    | cons c l2 =>
      simp only [List.nil_append, List.cons_append, List.cons.injEq] at h
      exact absurd h.1.symm (h2 c (by simp))
  | cons a l1 ih =>
    intro l2 r1 r2 h1 h2 h
    cases l2 with
    | nil =>
      simp only [List.nil_append, List.cons_append, List.cons.injEq] at h
      exact absurd h.1 (h1 a (by simp))
    | cons c l2 =>
      simp only [List.cons_append, List.cons.injEq] at h
      obtain ⟨rfl, h⟩ := h
      obtain ⟨rfl, rfl⟩ := ih l2 r1 r2 (fun c hc => h1 c (by simp [hc]))
        (fun c hc => h2 c (by simp [hc])) h
      exact ⟨rfl, rfl⟩

theorem prm_name_data (c k : Nat) :
    (prm_name c k).data = 'p' :: 'r' :: 'm' :: '_' :: ((toString c).data ++ '_' :: (toString k).data) := by
  simp [prm_name, String.data_append]

theorem prm_name_inj {c k c' k' : Nat} (h : prm_name c k = prm_name c' k') :
    c = c' ∧ k = k' := by
  have hd := congrArg String.data h
  rw [prm_name_data, prm_name_data] at hd
  simp only [List.cons.injEq, true_and] at hd
  obtain ⟨h1, h2⟩ := split_at_underscore _ _ _ _ (toString_data c).1 (toString_data c').1 hd
  exact ⟨toString_nat_inj (String.ext h1), toString_nat_inj (String.ext h2)⟩

theorem res_name_inj {c c' : Nat} (h : res_name c = res_name c') : c = c' := by
  have hd := congrArg String.data h
  simp [res_name, String.data_append] at hd
  exact toString_nat_inj (String.ext hd)

theorem res_name_ne_prm_name (c c' k : Nat) : res_name c ≠ prm_name c' k := by
  intro h
  have hd := congrArg String.data h
  rw [prm_name_data] at hd
  simp [res_name, String.data_append] at hd

theorem n_ne_prm_name (c k : Nat) : "n" ≠ prm_name c k := by
  intro h
  have hd := congrArg String.data h
  rw [prm_name_data] at hd
  simp at hd

theorem n_ne_res_name (c : Nat) : "n" ≠ res_name c := by
  intro h
  have hd := congrArg String.data h
  simp [res_name, String.data_append] at hd

/-! ## The contexts in closed form -/

theorem prm_name_one (k : Nat) : "prm_1_" ++ toString k = prm_name 1 k := by
  have h : "prm_" ++ toString 1 ++ "_" = "prm_1_" := by decide
  simp only [prm_name, h]

theorem slot_parameters_nil {V : Type} (C p : Nat) :
    slot_parameters C p ([] : List (Terminal V)) = [] := rfl

theorem slot_parameters_append {V : Type} (C p : Nat) (a b : List (Terminal V)) :
    slot_parameters C p (a ++ b) = slot_parameters C p a ++ slot_parameters C (p + a.length) b := by
  simp [slot_parameters, List.enumFrom_append, List.filterMap_append]

theorem slot_arguments_append {V : Type} (C d : Nat) (a b : List (Terminal V)) :
    slot_arguments C d (a ++ b) = slot_arguments C d a ++ slot_arguments C d b := by
  simp [slot_arguments, List.filterMap_append]

theorem string_join_append (a b : List String) :
    String.join (a ++ b) = String.join a ++ String.join b := by
  apply String.ext
  simp [String.join_eq, String.data_append]

theorem string_join_nil : String.join [] = "" := rfl

theorem string_join_singleton (a : String) : String.join [a] = a := by
  apply String.ext
  simp [String.join_eq]

theorem string_join_cons (a : String) (l : List String) :
    String.join (a :: l) = a ++ String.join l := by
  apply String.ext
  simp [String.join_eq, String.data_append]

theorem string_append_empty (a : String) : a ++ "" = a := by
  apply String.ext
  simp [String.data_append]

theorem text_global_prm (x : String) : " *prm_" ++ x = " *" ++ ("prm_" ++ x) := by
  have h : " *prm_" = " *" ++ "prm_" := by decide
  rw [h, String.append_assoc]

theorem text_global_res (x : String) : " *res_" ++ x = " *" ++ ("res_" ++ x) := by
  have h : " *res_" = " *" ++ "res_" := by decide
  rw [h, String.append_assoc]

theorem text_value_prm (x : String) : " prm_" ++ x = " " ++ ("prm_" ++ x) := by
  have h : " prm_" = " " ++ "prm_" := by decide
  rw [h, String.append_assoc]

theorem text_value_prm_one (x : String) : " prm_1_" ++ x = " " ++ ("prm_1_" ++ x) := by
  have h : " prm_1_" = " " ++ "prm_1_" := by decide
  rw [h, String.append_assoc]

theorem parm_terminal_eq {V : Type} (N C : Nat) (t : Terminal V) (ctx : multivector_parm_context) :
    multivector_parm_context.eval_terminal N C t ctx =
      if t.parm_checks N C then
        some { os := ctx.os ++ String.join ((slot_parameters C ctx.prm_idx [t]).map KParam.text),
               prm_idx := ctx.prm_idx + 1 }
      else none := by
  cases t with
  | multivector T vec =>
    by_cases h : vec.length = N
    · simp [multivector_parm_context.eval_terminal, Terminal.parm_checks, h, slot_parameters,
        Terminal.parameter, KParam.text, string_join_singleton, prm_name, String.append_assoc,
        text_global_prm]
    · simp [multivector_parm_context.eval_terminal, Terminal.parm_checks, h]
  | multiscalar m =>
    cases hc : m.component C with
    | none => simp [multivector_parm_context.eval_terminal, Terminal.parm_checks, hc]
    | some ty =>
      by_cases h : m.number_of_components = 1 ∨ m.number_of_components = N
      · by_cases h1 : m.number_of_components > 1
        · simp [multivector_parm_context.eval_terminal, Terminal.parm_checks, hc, h, h1,
            slot_parameters, Terminal.parameter, KParam.text, string_join_singleton, prm_name,
            String.append_assoc, text_value_prm]
        · by_cases h0 : C = 0
          · subst h0
            simp [multivector_parm_context.eval_terminal, Terminal.parm_checks, hc, h, h1,
              slot_parameters, Terminal.parameter, KParam.text, string_join_singleton,
              ← prm_name_one, String.append_assoc, text_value_prm_one]
          · simp [multivector_parm_context.eval_terminal, Terminal.parm_checks, hc, h, h1, h0,
              slot_parameters, Terminal.parameter, string_join_nil, string_append_empty]
      · simp [multivector_parm_context.eval_terminal, Terminal.parm_checks, hc, h]
  | other T v =>
    by_cases h0 : C = 0
    · subst h0
      simp [multivector_parm_context.eval_terminal, Terminal.parm_checks,
        slot_parameters, Terminal.parameter, KParam.text, string_join_singleton,
        ← prm_name_one, String.append_assoc, text_value_prm_one]
    · simp [multivector_parm_context.eval_terminal, Terminal.parm_checks, h0,
        slot_parameters, Terminal.parameter, string_join_nil, string_append_empty]

mutual
theorem parm_eval_eq {V : Type} (N C : Nat) :
    ∀ (e : Expr V) (ctx : multivector_parm_context),
    multivector_parm_context.eval N C e ctx =
      if e.terminals.all (Terminal.parm_checks N C) then
        some { os := ctx.os ++
                 String.join ((slot_parameters C ctx.prm_idx e.terminals).map KParam.text),
               prm_idx := ctx.prm_idx + e.terminals.length }
      else none
  | .terminal t, ctx => by
    rw [multivector_parm_context.eval, parm_terminal_eq]
    simp [Expr.terminals]
  | .binary _ l r, ctx => by
    rw [multivector_parm_context.eval, parm_eval_eq N C l ctx]
    by_cases hl : l.terminals.all (Terminal.parm_checks N C) = true
    · rw [if_pos hl]
      simp only []
      rw [parm_eval_eq N C r]
      by_cases hr : r.terminals.all (Terminal.parm_checks N C) = true
      · simp [Expr.terminals, hl, hr, slot_parameters_append, string_join_append,
          String.append_assoc, Nat.add_assoc]
      · simp [Expr.terminals, hl, hr]
    · simp [Expr.terminals, hl]
  | .unary_pre _ c, ctx => by
    rw [multivector_parm_context.eval, parm_eval_eq N C c ctx]
    simp [Expr.terminals]
  | .unary_post _ c, ctx => by
    rw [multivector_parm_context.eval, parm_eval_eq N C c ctx]
    simp [Expr.terminals]
  | .function _ args, ctx => by
    rw [multivector_parm_context.eval, parm_for_each_eq N C args ctx]
    simp [Expr.terminals]
theorem parm_for_each_eq {V : Type} (N C : Nat) :
    ∀ (args : List (Expr V)) (ctx : multivector_parm_context),
    multivector_parm_context.for_each N C args ctx =
      if (Expr.terminals_args args).all (Terminal.parm_checks N C) then
        some { os := ctx.os ++ String.join
                 ((slot_parameters C ctx.prm_idx (Expr.terminals_args args)).map KParam.text),
               prm_idx := ctx.prm_idx + (Expr.terminals_args args).length }
      else none
  | [], ctx => by
    simp [multivector_parm_context.for_each, Expr.terminals_args, slot_parameters_nil,
      string_join_nil, string_append_empty]
  | a :: as, ctx => by
    rw [multivector_parm_context.for_each, parm_eval_eq N C a ctx]
    by_cases hl : a.terminals.all (Terminal.parm_checks N C) = true
    · rw [if_pos hl]
      simp only []
      rw [parm_for_each_eq N C as]
      by_cases hr : (Expr.terminals_args as).all (Terminal.parm_checks N C) = true
      · simp [Expr.terminals_args, hl, hr, slot_parameters_append, string_join_append,
          String.append_assoc, Nat.add_assoc]
      · simp [Expr.terminals_args, hl, hr]
    · simp [Expr.terminals_args, hl]
end

theorem expr_terminal_eq {V : Type} (N C : Nat) (t : Terminal V)
    (ctx : multivector_expr_context) :
    multivector_expr_context.eval_terminal N C t ctx =
      if t.expr_checks N then
        some { os := ctx.os ++ (t.reference C (ctx.prm_idx + 1)).text,
               prm_idx := ctx.prm_idx + 1, fun_idx := ctx.fun_idx }
      else none := by
  cases t with
  | multivector T vec =>
    by_cases h : vec.length = N
    · simp [multivector_expr_context.eval_terminal, Terminal.expr_checks, h, Terminal.reference,
        KExpr.text, prm_name, String.append_assoc]
    · simp [multivector_expr_context.eval_terminal, Terminal.expr_checks, h]
  | multiscalar m =>
    by_cases h : m.number_of_components = 1 ∨ m.number_of_components = N
    · by_cases h1 : m.number_of_components > 1
      · simp [multivector_expr_context.eval_terminal, Terminal.expr_checks, h, h1,
          Terminal.reference, KExpr.text, prm_name, String.append_assoc]
      · simp [multivector_expr_context.eval_terminal, Terminal.expr_checks, h, h1,
          Terminal.reference, KExpr.text, ← prm_name_one, String.append_assoc]
    · simp [multivector_expr_context.eval_terminal, Terminal.expr_checks, h]
  | other T v =>
    simp [multivector_expr_context.eval_terminal, Terminal.expr_checks,
      Terminal.reference, KExpr.text, ← prm_name_one, String.append_assoc]

mutual
theorem expr_eval_eq {V : Type} (N C : Nat) :
    ∀ (e : Expr V) (ctx : multivector_expr_context),
    multivector_expr_context.eval N C e ctx =
      if e.terminals.all (Terminal.expr_checks N) then
        some { os := ctx.os ++ (e.kernel_expr C ctx.prm_idx ctx.fun_idx).1.text,
               prm_idx := (e.kernel_expr C ctx.prm_idx ctx.fun_idx).2.1,
               fun_idx := (e.kernel_expr C ctx.prm_idx ctx.fun_idx).2.2 }
      else none
  | .terminal t, ctx => by
    rw [multivector_expr_context.eval, expr_terminal_eq]
    simp [Expr.terminals, Expr.kernel_expr]
  | .binary tag l r, ctx => by
    rw [multivector_expr_context.eval, expr_eval_eq N C l]
    by_cases hl : l.terminals.all (Terminal.expr_checks N) = true
    · rw [if_pos hl]
      simp only []
      rw [expr_eval_eq N C r]
      by_cases hr : r.terminals.all (Terminal.expr_checks N) = true
      · simp [Expr.terminals, hl, hr, Expr.kernel_expr, KExpr.text, String.append_assoc]
      · simp [Expr.terminals, hl, hr]
    · simp [Expr.terminals, hl]
  | .unary_pre tag c, ctx => by
    rw [multivector_expr_context.eval, expr_eval_eq N C c]
    by_cases hc : c.terminals.all (Terminal.expr_checks N) = true
    · simp [Expr.terminals, hc, Expr.kernel_expr, KExpr.text, String.append_assoc]
    · simp [Expr.terminals, hc]
  | .unary_post tag c, ctx => by
    rw [multivector_expr_context.eval, expr_eval_eq N C c]
    by_cases hc : c.terminals.all (Terminal.expr_checks N) = true
    · simp [Expr.terminals, hc, Expr.kernel_expr, KExpr.text, String.append_assoc]
    · simp [Expr.terminals, hc]
  | .function (.builtin name) args, ctx => by
    rw [multivector_expr_context.eval, expr_for_each_eq N C args]
    by_cases hc : (Expr.terminals_args args).all (Terminal.expr_checks N) = true
    · simp [Expr.terminals, hc, Expr.kernel_expr, KExpr.text, String.append_assoc]
    · simp [Expr.terminals, hc]
  | .function (.user id) args, ctx => by
    rw [multivector_expr_context.eval, expr_for_each_eq N C args]
    by_cases hc : (Expr.terminals_args args).all (Terminal.expr_checks N) = true
    · simp [Expr.terminals, hc, Expr.kernel_expr, KExpr.text, String.append_assoc]
    · simp [Expr.terminals, hc]
theorem expr_for_each_eq {V : Type} (N C : Nat) :
    ∀ (args : List (Expr V)) (pos : Nat) (ctx : multivector_expr_context),
    multivector_expr_context.for_each N C args pos ctx =
      if (Expr.terminals_args args).all (Terminal.expr_checks N) then
        some { os := ctx.os ++
                 KExpr.text_args (Expr.kernel_args C args ctx.prm_idx ctx.fun_idx).1 pos,
               prm_idx := (Expr.kernel_args C args ctx.prm_idx ctx.fun_idx).2.1,
               fun_idx := (Expr.kernel_args C args ctx.prm_idx ctx.fun_idx).2.2 }
      else none
  | [], pos, ctx => by
    simp [multivector_expr_context.for_each, Expr.terminals_args, Expr.kernel_args,
      KExpr.text_args, string_append_empty]
  | a :: as, pos, ctx => by
    rw [multivector_expr_context.for_each, expr_eval_eq N C a]
    by_cases hl : a.terminals.all (Terminal.expr_checks N) = true
    · by_cases hp : pos = 0
      · subst hp
        by_cases hr : (Expr.terminals_args as).all (Terminal.expr_checks N) = true
        · simp [expr_for_each_eq N C as, Expr.terminals_args, hl, hr, Expr.kernel_args,
            KExpr.text_args, String.append_assoc]
        · simp [expr_for_each_eq N C as, Expr.terminals_args, hl, hr]
      · by_cases hr : (Expr.terminals_args as).all (Terminal.expr_checks N) = true
        · simp [expr_for_each_eq N C as, Expr.terminals_args, hl, hr, hp, Expr.kernel_args,
            KExpr.text_args, String.append_assoc]
        · simp [expr_for_each_eq N C as, Expr.terminals_args, hl, hr, hp]
    · simp [Expr.terminals_args, hl]
end

mutual
theorem kernel_expr_prm_idx {V : Type} (C : Nat) :
    ∀ (e : Expr V) (p f : Nat), (e.kernel_expr C p f).2.1 = p + e.terminals.length
  | .terminal t, p, f => by simp [Expr.kernel_expr, Expr.terminals]
  | .binary _ l r, p, f => by
    simp [Expr.kernel_expr, Expr.terminals, kernel_expr_prm_idx C l, kernel_expr_prm_idx C r,
      Nat.add_assoc]
  | .unary_pre _ c, p, f => by simp [Expr.kernel_expr, Expr.terminals, kernel_expr_prm_idx C c]
  | .unary_post _ c, p, f => by simp [Expr.kernel_expr, Expr.terminals, kernel_expr_prm_idx C c]
  | .function (.builtin _) args, p, f => by
    simp [Expr.kernel_expr, Expr.terminals, kernel_args_prm_idx C args]
  | .function (.user _) args, p, f => by
    simp [Expr.kernel_expr, Expr.terminals, kernel_args_prm_idx C args]
theorem kernel_args_prm_idx {V : Type} (C : Nat) :
    ∀ (args : List (Expr V)) (p f : Nat),
    (Expr.kernel_args C args p f).2.1 = p + (Expr.terminals_args args).length
  | [], p, f => by simp [Expr.kernel_args, Expr.terminals_args]
  | a :: as, p, f => by
    simp [Expr.kernel_args, Expr.terminals_args, kernel_expr_prm_idx C a,
      kernel_args_prm_idx C as, Nat.add_assoc]
end

theorem setArgs_append {V : Type} (krn : cl_Kernel V) (pos : Nat) (a b : List (KernelArg V)) :
    krn.setArgs pos (a ++ b) = (krn.setArgs pos a).setArgs (pos + a.length) b := by
  induction a generalizing krn pos with
  | nil => simp [cl_Kernel.setArgs]
  | cons x a ih =>
    rw [List.cons_append, cl_Kernel.setArgs, cl_Kernel.setArgs, ih, List.length_cons,
      show pos + (a.length + 1) = pos + 1 + a.length by omega]

theorem args_terminal_eq {V : Type} (N C d : Nat) (t : Terminal V)
    (ctx : multivector_args_context V) :
    multivector_args_context.eval_terminal N C d t ctx =
      if t.args_checks N C then
        some { krn := ctx.krn.setArgs ctx.pos (slot_arguments C d [t]),
               pos := ctx.pos + (slot_arguments C d [t]).length }
      else none := by
  cases t with
  | multivector T vec =>
    by_cases h : vec.length = N
    · cases hv : vec[C]? with
      | none =>
        simp [multivector_args_context.eval_terminal, Terminal.args_checks, h, hv]
      | some v =>
        simp [multivector_args_context.eval_terminal, Terminal.args_checks, h, hv,
          slot_arguments, Terminal.argument, cl_Kernel.setArgs]
    · simp [multivector_args_context.eval_terminal, Terminal.args_checks, h]
  | multiscalar m =>
    by_cases h : m.number_of_components = 1 ∨ m.number_of_components = N
    · by_cases h1 : m.number_of_components > 1
      · cases hv : m.get C with
        | none =>
          simp [multivector_args_context.eval_terminal, Terminal.args_checks, h, h1, hv]
        | some v =>
          simp [multivector_args_context.eval_terminal, Terminal.args_checks, h, h1, hv,
            slot_arguments, Terminal.argument, cl_Kernel.setArgs]
      · by_cases h0 : C = 0
        · subst h0
          cases hv : m.get 0 with
          | none =>
            simp [multivector_args_context.eval_terminal, Terminal.args_checks, h, h1, hv]
          | some v =>
            simp [multivector_args_context.eval_terminal, Terminal.args_checks, h, h1, hv,
              slot_arguments, Terminal.argument, cl_Kernel.setArgs]
        · simp [multivector_args_context.eval_terminal, Terminal.args_checks, h, h1, h0,
            slot_arguments, Terminal.argument, cl_Kernel.setArgs]
    · simp [multivector_args_context.eval_terminal, Terminal.args_checks, h]
  | other T v =>
    by_cases h0 : C = 0
    · simp [multivector_args_context.eval_terminal, Terminal.args_checks, h0,
        slot_arguments, Terminal.argument, cl_Kernel.setArgs]
    · simp [multivector_args_context.eval_terminal, Terminal.args_checks, h0,
        slot_arguments, Terminal.argument, cl_Kernel.setArgs]

mutual
theorem args_eval_eq {V : Type} (N C d : Nat) :
    ∀ (e : Expr V) (ctx : multivector_args_context V),
    multivector_args_context.eval N C d e ctx =
      if e.terminals.all (Terminal.args_checks N C) then
        some { krn := ctx.krn.setArgs ctx.pos (slot_arguments C d e.terminals),
               pos := ctx.pos + (slot_arguments C d e.terminals).length }
      else none
  | .terminal t, ctx => by
    rw [multivector_args_context.eval, args_terminal_eq]
    simp [Expr.terminals]
  | .binary _ l r, ctx => by
    rw [multivector_args_context.eval, args_eval_eq N C d l ctx]
    by_cases hl : l.terminals.all (Terminal.args_checks N C) = true
    · rw [if_pos hl]
      simp only []
      rw [args_eval_eq N C d r]
      by_cases hr : r.terminals.all (Terminal.args_checks N C) = true
      · simp [Expr.terminals, hl, hr, slot_arguments_append, setArgs_append, Nat.add_assoc]
      · simp [Expr.terminals, hl, hr]
    · simp [Expr.terminals, hl]
  | .unary_pre _ c, ctx => by
    rw [multivector_args_context.eval, args_eval_eq N C d c ctx]
    simp [Expr.terminals]
  | .unary_post _ c, ctx => by
    rw [multivector_args_context.eval, args_eval_eq N C d c ctx]
    simp [Expr.terminals]
  | .function _ args, ctx => by
    rw [multivector_args_context.eval, args_for_each_eq N C d args ctx]
    simp [Expr.terminals]
theorem args_for_each_eq {V : Type} (N C d : Nat) :
    ∀ (args : List (Expr V)) (ctx : multivector_args_context V),
    multivector_args_context.for_each N C d args ctx =
      if (Expr.terminals_args args).all (Terminal.args_checks N C) then
        some { krn := ctx.krn.setArgs ctx.pos (slot_arguments C d (Expr.terminals_args args)),
               pos := ctx.pos + (slot_arguments C d (Expr.terminals_args args)).length }
      else none
  | [], ctx => by
    simp [multivector_args_context.for_each, Expr.terminals_args, slot_arguments,
      cl_Kernel.setArgs]
  | a :: as, ctx => by
    rw [multivector_args_context.for_each, args_eval_eq N C d a ctx]
    by_cases hl : a.terminals.all (Terminal.args_checks N C) = true
    · rw [if_pos hl]
      simp only []
      rw [args_for_each_eq N C d as]
      by_cases hr : (Expr.terminals_args as).all (Terminal.args_checks N C) = true
      · simp [Expr.terminals_args, hl, hr, slot_arguments_append, setArgs_append, Nat.add_assoc]
      · simp [Expr.terminals_args, hl, hr]
    · simp [Expr.terminals_args, hl]
end

/-! ## The slot loops in closed form -/

/-- A function that recurses over the slots the way `mv_param_list_loop<I, N>` does
is the fold of its step over the slots `I .. N-1`. -/
theorem slot_loop_eq {σ : Type} (N : Nat) (step : σ → Nat → Option σ)
    (loop : Nat → σ → Option σ)
    (hloop : ∀ I s, loop I s =
      if I + 1 = N then step s I
      else if I + 1 < N then (step s I).bind (loop (I + 1)) else none) :
    ∀ (k I : Nat) (s : σ), N - I = k →
      loop I s = if I < N then (List.range' I (N - I)).foldlM step s else none := by
  intro k
  induction k with
  | zero =>
    intro I s h
    rw [hloop]
    have h1 : ¬ I + 1 = N := by omega
    have h2 : ¬ I + 1 < N := by omega
    have h3 : ¬ I < N := by omega
    simp [h1, h2, h3]
  | succ k ih =>
    intro I s h
    rw [hloop]
    have h3 : I < N := by omega
    by_cases h1 : I + 1 = N
    · have h4 : N - I = 1 := by omega
      rw [h4]
      simp only [h1, h3, if_true, List.range', List.foldlM]
      cases step s I <;> rfl
    · have h2 : I + 1 < N := by omega
      have h4 : N - I = (N - (I + 1)) + 1 := by omega
      rw [h4]
      simp only [h1, h2, h3, if_true, if_false, List.range', List.foldlM]
      cases hs : step s I with
      | none => rfl
      | some s1 =>
        simp only [Option.bind]
        rw [ih (I + 1) s1 (by omega)]
        simp [h2]

theorem foldlM_text_eq (ok : Nat → Bool) (txt : Nat → String) :
    ∀ (l : List Nat) (os : String),
      l.foldlM (fun os c => if ok c then some (os ++ txt c) else none) os =
        if l.all ok then some (os ++ String.join (l.map txt)) else none
  | [], os => by simp [string_join_nil, string_append_empty]
  | c :: l, os => by
    by_cases hc : ok c = true
    · simp only [List.foldlM, hc, if_true, List.all_cons, Bool.true_and, List.map_cons]
      show (l.foldlM _ (os ++ txt c)) = _
      rw [foldlM_text_eq ok txt l]
      simp [string_join_cons, String.append_assoc]
    · simp only [List.foldlM, hc, List.all_cons]
      simp

theorem foldlM_args_eq {V : Type} (ok : Nat → Bool) (args : Nat → List (KernelArg V)) :
    ∀ (l : List Nat) (krn : cl_Kernel V) (pos : Nat),
      l.foldlM (fun (s : cl_Kernel V × Nat) c =>
          if ok c then some (s.1.setArgs s.2 (args c), s.2 + (args c).length) else none)
        (krn, pos) =
        if l.all ok then
          some (krn.setArgs pos (l.flatMap args), pos + (l.flatMap args).length)
        else none
  | [], krn, pos => by simp [cl_Kernel.setArgs]
  | c :: l, krn, pos => by
    by_cases hc : ok c = true
    · simp only [List.foldlM, hc, if_true, List.all_cons, Bool.true_and]
      show (l.foldlM _ (krn.setArgs pos (args c), pos + (args c).length)) = _
      rw [foldlM_args_eq ok args l]
      simp [List.flatMap_cons, setArgs_append, Nat.add_assoc]
    · simp only [List.foldlM, hc, List.all_cons]
      simp

theorem string_join_flatMap {α β : Type} (g : α → List β) (txt : β → String) (l : List α) :
    String.join (l.map fun c => String.join ((g c).map txt)) =
      String.join ((l.flatMap g).map txt) := by
  induction l with
  | nil => rfl
  | cons c l ih =>
    simp [List.flatMap_cons, string_join_cons, string_join_append, ih]

/-- The function `build_param_list<N>` in closed form: it fails unless `N > 0` and
every terminal passes the checks of every slot, and then appends the text of
`parameters N expr`. -/
theorem build_param_list_eq {V : Type} (N : Nat) (e : Expr V) (os : String) :
    build_param_list N e os =
      if 0 < N ∧ (List.range N).all (fun c => e.terminals.all (Terminal.parm_checks N c)) then
        some (os ++ String.join ((parameters N e).map KParam.text))
      else none := by
  have h := slot_loop_eq N
    (fun os c => (multivector_parm_context.eval N c e { os := os, prm_idx := 0 }).map (·.os))
    (fun I os => mv_param_list_loop I N e os)
    (by
      intro I s
      show mv_param_list_loop I N e s = _
      rw [mv_param_list_loop]
      by_cases h1 : I + 1 = N
      · simp [h1]
      · by_cases h2 : I + 1 < N
        · simp only [h1, h2, if_true, if_false]
          cases multivector_parm_context.eval N I e { os := s, prm_idx := 0 } <;> rfl
        · simp [h1, h2])
    N 0 os rfl
  simp only [] at h
  rw [build_param_list, h]
  by_cases hN : 0 < N
  · simp only [hN, if_true, true_and, Nat.sub_zero]
    rw [← List.range_eq_range']
    have h2 := foldlM_text_eq (fun c => e.terminals.all (Terminal.parm_checks N c))
      (fun c => String.join ((slot_parameters c 0 e.terminals).map KParam.text)) (List.range N) os
    have h3 : (fun os c =>
        (multivector_parm_context.eval N c e { os := os, prm_idx := 0 }).map (·.os)) =
        (fun os c => if e.terminals.all (Terminal.parm_checks N c) then
          some (os ++ String.join ((slot_parameters c 0 e.terminals).map KParam.text))
          else none) := by
      funext os c
      rw [parm_eval_eq]
      by_cases hc : e.terminals.all (Terminal.parm_checks N c) = true <;> simp [hc]
    rw [h3, h2]
    have h4 : String.join (List.map (fun c =>
        String.join ((slot_parameters c 0 e.terminals).map KParam.text)) (List.range N)) =
        String.join ((parameters N e).map KParam.text) := by
      rw [string_join_flatMap]
      rfl
    rw [h4]
  · simp [hN]

theorem statement_text_eq {V : Type} (c : Nat) (e : Expr V) (os : String) :
    os ++ "\t\tres_" ++ toString (c + 1) ++ "[idx] = " ++ (e.kernel_expr c 0 0).1.text ++ ";\n" =
      os ++ KStatement.text { result := res_name (c + 1), rhs := (e.kernel_expr c 0 0).1 } := by
  have h : "\t\tres_" = "\t\t" ++ "res_" := by decide
  simp only [KStatement.text, res_name, h, String.append_assoc]

/-- The member `build_expr_list` in closed form: it fails unless `N > 0` and every
terminal passes the checks, and then appends the text of `kernel_body N expr`. -/
theorem build_expr_list_eq {V : Type} (N : Nat) (e : Expr V) (os : String) :
    build_expr_list N e os =
      if 0 < N ∧ e.terminals.all (Terminal.expr_checks N) then
        some (os ++ String.join ((kernel_body N e).map KStatement.text))
      else none := by
  have h := slot_loop_eq N
    (fun os c =>
      (multivector_expr_context.eval N c e
        { os := os ++ "\t\tres_" ++ toString (c + 1) ++ "[idx] = ", prm_idx := 0, fun_idx := 0 }).map
        fun ctx => ctx.os ++ ";\n")
    (fun I os => expr_list_loop I N e os)
    (by
      intro I s
      show expr_list_loop I N e s = _
      rw [expr_list_loop]
      by_cases h1 : I + 1 = N
      · simp only [h1, if_true]
        cases multivector_expr_context.eval N I e _ <;> rfl
      · by_cases h2 : I + 1 < N
        · simp only [h1, h2, if_true, if_false]
          cases multivector_expr_context.eval N I e _ <;> rfl
        · simp [h1, h2])
    N 0 os rfl
  simp only [] at h
  rw [build_expr_list, h]
  by_cases hN : 0 < N
  · simp only [hN, if_true, true_and, Nat.sub_zero]
    rw [← List.range_eq_range']
    have h2 := foldlM_text_eq (fun _ => e.terminals.all (Terminal.expr_checks N))
      (fun c => KStatement.text { result := res_name (c + 1), rhs := (e.kernel_expr c 0 0).1 })
      (List.range N) os
    have h3 : (fun os c =>
        (multivector_expr_context.eval N c e
          { os := os ++ "\t\tres_" ++ toString (c + 1) ++ "[idx] = ", prm_idx := 0,
            fun_idx := 0 }).map fun ctx => ctx.os ++ ";\n") =
        (fun os c => if e.terminals.all (Terminal.expr_checks N) then
          some (os ++ KStatement.text
            { result := res_name (c + 1), rhs := (e.kernel_expr c 0 0).1 })
          else none) := by
      funext os c
      rw [expr_eval_eq]
      by_cases hc : e.terminals.all (Terminal.expr_checks N) = true
      · simp only [hc, if_true, Option.map]
        rw [statement_text_eq]
      · simp [hc]
    rw [h3, h2]
    have h5 : ((List.range N).all fun _ => e.terminals.all (Terminal.expr_checks N)) =
        e.terminals.all (Terminal.expr_checks N) := by
      cases hc : e.terminals.all (Terminal.expr_checks N)
      · simp only [List.all_eq_false]
        exact ⟨0, List.mem_range.2 hN, by simp⟩
      · simp
    rw [h5]
    simp [kernel_body, List.map_map, Function.comp_def]
  · simp [hN]

/-- The function `set_kernel_args<N>` in closed form: it fails unless `N > 0` and
every terminal passes the checks of every slot, and then binds `arguments N d expr`
at the positions from `pos` on. -/
theorem set_kernel_args_eq {V : Type} (N : Nat) (e : Expr V) (krn : cl_Kernel V) (d pos : Nat) :
    set_kernel_args N e krn d pos =
      if 0 < N ∧ (List.range N).all (fun c => e.terminals.all (Terminal.args_checks N c)) then
        some (krn.setArgs pos (arguments N d e), pos + (arguments N d e).length)
      else none := by
  have h := slot_loop_eq N
    (fun (s : cl_Kernel V × Nat) c =>
      (multivector_args_context.eval N c d e { krn := s.1, pos := s.2 }).map
        fun ctx => (ctx.krn, ctx.pos))
    (fun I s => mv_kernel_args_loop I N e s.1 d s.2)
    (by
      intro I s
      show mv_kernel_args_loop I N e s.1 d s.2 = _
      rw [mv_kernel_args_loop]
      by_cases h1 : I + 1 = N
      · simp [h1]
      · by_cases h2 : I + 1 < N
        · simp only [h1, h2, if_true, if_false]
          cases multivector_args_context.eval N I d e _ <;> rfl
        · simp [h1, h2])
    N 0 (krn, pos) rfl
  simp only [] at h
  rw [set_kernel_args, h]
  by_cases hN : 0 < N
  · simp only [hN, if_true, true_and, Nat.sub_zero]
    rw [← List.range_eq_range']
    have h2 := foldlM_args_eq (fun c => e.terminals.all (Terminal.args_checks N c))
      (fun c => slot_arguments c d e.terminals) (List.range N) krn pos
    have h3 : (fun (s : cl_Kernel V × Nat) c =>
        (multivector_args_context.eval N c d e { krn := s.1, pos := s.2 }).map
          fun ctx => (ctx.krn, ctx.pos)) =
        (fun (s : cl_Kernel V × Nat) c =>
          if e.terminals.all (Terminal.args_checks N c) then
            some (s.1.setArgs s.2 (slot_arguments c d e.terminals),
              s.2 + (slot_arguments c d e.terminals).length)
          else none) := by
      funext s c
      rw [args_eval_eq]
      by_cases hc : e.terminals.all (Terminal.args_checks N c) = true <;> simp [hc]
    rw [h3, h2]
    rfl
  · simp [hN]

/-! ## Accepted expressions -/

theorem accepted_parm {V : Type} {N : Nat} {e : Expr V} (h : accepted N e = true) :
    0 < N ∧ (List.range N).all (fun c => e.terminals.all (Terminal.parm_checks N c)) = true := by
  simp only [accepted, Bool.and_eq_true] at h
  have h1 := h.1.1.2
  rw [build_param_list_eq] at h1
  by_contra hc
  rw [if_neg hc] at h1
  simp at h1

theorem accepted_expr {V : Type} {N : Nat} {e : Expr V} (h : accepted N e = true) :
    0 < N ∧ e.terminals.all (Terminal.expr_checks N) = true := by
  simp only [accepted, Bool.and_eq_true] at h
  have h1 := h.1.2
  rw [build_expr_list_eq] at h1
  by_contra hc
  rw [if_neg hc] at h1
  simp at h1

theorem accepted_args {V : Type} {N : Nat} {e : Expr V} (h : accepted N e = true) :
    0 < N ∧ (List.range N).all (fun c => e.terminals.all (Terminal.args_checks N c)) = true := by
  simp only [accepted, Bool.and_eq_true] at h
  have h1 := h.2
  rw [set_kernel_args_eq] at h1
  by_contra hc
  rw [if_neg hc] at h1
  simp at h1

theorem result_params_eq (T : String) (N : Nat) (kernel : String) :
    result_params T N kernel = kernel ++ String.join ((List.range N).map fun c =>
      KParam.text { global := true, type := T, name := res_name (c + 1) }) := by
  unfold result_params
  induction N with
  | zero => simp [string_join_nil, string_append_empty]
  | succ n ih =>
    rw [List.range_succ, List.foldl_append, ih]
    simp [string_join_append, string_join_singleton, KParam.text, res_name,
      String.append_assoc, text_global_res]

/-! ## Kernel text -/

/-- Claim C4: for an accepted expression and a width `N` target the synthesized
source is the header, the helper preambles, the signature with the parameters
`n`, `res_1` .. `res_N` and then the parameters of the terminals in synthesis
order, and one grid loop over `idx` whose body is the `N` statements
`res_c[idx] = <text of slot c>;` for `c = 1 .. N` in this order, the text of slot
`c` being what the expression context of that slot writes. -/
theorem kernel_source_layout {V : Type} (ext : External V) (T : String) (N : Nat) (e : Expr V)
    (h : accepted N e = true) :
    kernel_source ext T N e = some (
      ext.standard_kernel_header ++ ext.vector_head_context e
      ++ ("kernel void " ++ kernel_name ext e ++ "(\n\t" ++ ext.type_name_size_t ++ " n"
          ++ String.join ((List.range N).map fun c =>
               ",\n\tglobal " ++ T ++ " *res_" ++ toString (c + 1))
          ++ String.join ((parameters N e).map KParam.text) ++ "\n)\n")
      ++ ("\x7b\n\tfor(size_t idx = get_global_id(0); idx < n; idx += get_global_size(0)) \x7b\n"
          ++ String.join ((List.range N).map fun c =>
               "\t\tres_" ++ toString (c + 1) ++ "[idx] = " ++ (e.kernel_expr c 0 0).1.text ++ ";\n")
          ++ "\t\x7d\n\x7d\n"))
    ∧ build_param_list N e "" = some (String.join ((parameters N e).map KParam.text))
    ∧ ∀ c, c < N →
        (multivector_expr_context.eval N c e { os := "", prm_idx := 0, fun_idx := 0 }).map (·.os)
          = some (e.kernel_expr c 0 0).1.text := by
  have hp := accepted_parm h
  have he := accepted_expr h
  refine ⟨?_, ?_, ?_⟩
  · have h1 : (List.range N).map (fun c => ",\n\tglobal " ++ T ++ " *res_" ++ toString (c + 1)) =
        (List.range N).map (fun c =>
          KParam.text { global := true, type := T, name := res_name (c + 1) }) := by
      apply List.map_congr_left
      intro c _
      simp [KParam.text, res_name, String.append_assoc, text_global_res]
    have h2 : (List.range N).map (fun c => "\t\tres_" ++ toString (c + 1) ++ "[idx] = "
          ++ (e.kernel_expr c 0 0).1.text ++ ";\n") = (kernel_body N e).map KStatement.text := by
      simp only [kernel_body, List.map_map]
      apply List.map_congr_left
      intro c _
      have := statement_text_eq c e ""
      simpa [String.append_assoc] using this
    have h3 : "\n)\n\x7b\n\tfor(size_t idx = get_global_id(0); idx < n; idx += get_global_size(0)) \x7b\n"
        = "\n)\n" ++
          "\x7b\n\tfor(size_t idx = get_global_id(0); idx < n; idx += get_global_size(0)) \x7b\n" := by
      decide
    rw [h1, h2]
    simp only [kernel_source, result_params_eq, build_param_list_eq, build_expr_list_eq, hp, he,
      and_self, if_true, h3, String.append_assoc]
  · rw [build_param_list_eq]
    simp [hp]
  · intro c _
    rw [expr_eval_eq]
    simp [he.2]

theorem kernel_source_layout_witness :
    accepted 2 sample_expr = true ∧
    kernel_source sample_external "double" 2 sample_expr = some
      ("#pragma\ndouble func_1_1() \x7b return 0; \x7d\n"
        ++ "kernel void multi_plus_term_(\n\tulong n,\n\tglobal double *res_1,\n\tglobal double *res_2"
        ++ ",\n\tglobal double *prm_1_1,\n\tint prm_1_2,\n\tfloat prm_1_3"
        ++ ",\n\tglobal double *prm_2_1,\n\tfloat prm_2_3\n)\n"
        ++ "\x7b\n\tfor(size_t idx = get_global_id(0); idx < n; idx += get_global_size(0)) \x7b\n"
        ++ "\t\tres_1[idx] = ( prm_1_1[idx] + ( prm_1_2 * sin( prm_1_3, func_1_1(  ) ) ) );\n"
        ++ "\t\tres_2[idx] = ( prm_2_1[idx] + ( prm_1_2 * sin( prm_2_3, func_1_1(  ) ) ) );\n"
        ++ "\t\x7d\n\x7d\n") :=
  ⟨by decide!, (kernel_source_layout sample_external "double" 2 sample_expr (by decide!)).1.trans
    (by decide!)⟩

/-! ## Argument binding -/

theorem setArg_arg {V : Type} (krn : cl_Kernel V) (p q : Nat) (a : KernelArg V) :
    (krn.setArg p a).arg q = if q = p then some a else krn.arg q := by
  by_cases h : q = p
  · simp [cl_Kernel.setArg, cl_Kernel.arg, List.lookup, h]
  · have h1 : (q == p) = false := by simpa using h
    simp [cl_Kernel.setArg, cl_Kernel.arg, List.lookup, h, h1]

theorem setArgs_arg_lt {V : Type} : ∀ (l : List (KernelArg V)) (krn : cl_Kernel V) (pos j : Nat),
    j < pos → (krn.setArgs pos l).arg j = krn.arg j
  | [], krn, pos, j, _ => rfl
  | a :: l, krn, pos, j, h => by
    rw [cl_Kernel.setArgs, setArgs_arg_lt l _ (pos + 1) j (by omega), setArg_arg]
    simp [show j ≠ pos by omega]

theorem setArgs_arg {V : Type} : ∀ (l : List (KernelArg V)) (krn : cl_Kernel V) (pos i : Nat),
    i < l.length → (krn.setArgs pos l).arg (pos + i) = l.get? i
  | [], krn, pos, i, h => by simp at h
  | a :: l, krn, pos, i, h => by
    rw [cl_Kernel.setArgs]
    cases i with
    | zero =>
      show ((krn.setArg pos a).setArgs (pos + 1) l).arg pos = _
      rw [setArgs_arg_lt l _ (pos + 1) pos (by omega), setArg_arg]
      simp
    | succ i =>
      have := setArgs_arg l (krn.setArg pos a) (pos + 1) i (by simpa using h)
      rw [show pos + (i + 1) = pos + 1 + i by omega, this]
      simp

theorem bind_results_eq {V : Type} (vec : List Nat) (d : Nat) :
    ∀ (is : List Nat) (st : cl_Kernel V × Nat), (∀ i ∈ is, i < vec.length) →
      bind_results vec d is st =
        some (st.1.setArgs st.2 (is.map fun i => .buffer { vector := vec.getD i 0, device := d }),
          st.2 + is.length)
  | [], st, _ => by simp [bind_results, cl_Kernel.setArgs]
  | i :: is, st, h => by
    have hi : i < vec.length := h i (by simp)
    have hg : vec.get? i = some (vec.getD i 0) := by
      simp [List.getD, List.getElem?_eq_getElem hi]
    rw [bind_results, hg]
    simp only []
    rw [bind_results_eq vec d is _ (fun j hj => h j (by simp [hj]))]
    simp [cl_Kernel.setArgs, Nat.add_assoc, Nat.add_comm 1]

theorem map_range_getD (vec : List Nat) (d : Nat) {V : Type} :
    (List.range vec.length).map (fun i =>
      (KernelArg.buffer { vector := vec.getD i 0, device := d } : KernelArg V)) =
      vec.map (fun v => .buffer { vector := v, device := d }) := by
  apply List.ext_getElem
  · simp
  · intro i h1 h2
    simp at h1
    simp [List.getD, List.getElem?_eq_getElem h1]

/-- The argument binding of the dispatch loop in closed form. -/
theorem bind_arguments_eq {V : Type} (N : Nat) (e : Expr V) (vec : List Nat) (krn : cl_Kernel V)
    (d psize : Nat) (h : accepted N e = true) (hvec : vec.length = N) :
    bind_arguments N vec e krn d psize =
      some (krn.setArgs 0 (.ulong psize :: (vec.map fun v => .buffer { vector := v, device := d })
              ++ arguments N d e),
            1 + N + (arguments N d e).length) := by
  subst hvec
  unfold bind_arguments
  simp only []
  rw [bind_results_eq vec d (List.range vec.length) _ (fun i hi => List.mem_range.1 hi)]
  simp only [map_range_getD, List.length_range]
  rw [set_kernel_args_eq]
  have ha := accepted_args h
  simp only [ha, and_self, if_true]
  rw [List.cons_append, cl_Kernel.setArgs, setArgs_append]
  simp [Nat.add_comm]

theorem zip_filterMap_eq {α β γ : Type} (f : α → Option β) (g : α → Option γ) :
    ∀ l : List α, (∀ x ∈ l, (f x).isSome = (g x).isSome) →
      List.zip (l.filterMap f) (l.filterMap g) =
        l.filterMap (fun x => (f x).bind fun a => (g x).map fun b => (a, b))
      ∧ (l.filterMap f).length = (l.filterMap g).length
  | [], _ => by simp
  | x :: l, h => by
    have ih := zip_filterMap_eq f g l (fun y hy => h y (by simp [hy]))
    have hx := h x (by simp)
    cases hf : f x with
    | none =>
      rw [hf] at hx
      have hg : g x = none := by
        cases hg : g x with
        | none => rfl
        | some b => rw [hg] at hx; simp at hx
      simp [List.filterMap_cons, hf, hg, ih.1, ih.2]
    | some a =>
      rw [hf] at hx
      cases hg : g x with
      | none => rw [hg] at hx; simp at hx
      | some b => simp [List.filterMap_cons, hf, hg, ih.1, ih.2]

theorem zip_flatMap_eq {ι β γ : Type} (f : ι → List β) (g : ι → List γ) :
    ∀ l : List ι, (∀ i ∈ l, (f i).length = (g i).length) →
      List.zip (l.flatMap f) (l.flatMap g) = l.flatMap (fun i => List.zip (f i) (g i))
      ∧ (l.flatMap f).length = (l.flatMap g).length
  | [], _ => by simp
  | i :: l, h => by
    have ih := zip_flatMap_eq f g l (fun j hj => h j (by simp [hj]))
    have hi := h i (by simp)
    simp only [List.flatMap_cons, List.length_append]
    rw [List.zip_append hi, ih.1, ih.2, hi]
    exact ⟨rfl, rfl⟩

theorem slot_arguments_enum {V : Type} (C d p : Nat) (ts : List (Terminal V)) :
    slot_arguments C d ts = (ts.enumFrom p).filterMap fun jt => jt.2.argument C d := by
  have h : ts = (ts.enumFrom p).map Prod.snd := (List.enumFrom_map_snd p ts).symm
  conv_lhs => rw [h]
  rw [slot_arguments, List.filterMap_map]
  rfl

theorem parameter_isSome_eq {V : Type} (N C d k : Nat) (t : Terminal V)
    (hp : t.parm_checks N C = true) (ha : t.args_checks N C = true) :
    (t.parameter C k).isSome = (t.argument C d).isSome := by
  cases t with
  | multivector T vec =>
    simp only [Terminal.args_checks, Bool.and_eq_true] at ha
    have h2 := ha.2
    simp only [List.get?_eq_getElem?] at h2
    simp [Terminal.parameter, Terminal.argument, h2]
  | multiscalar m =>
    simp only [Terminal.args_checks, Terminal.parm_checks, Bool.and_eq_true] at ha hp
    by_cases h1 : m.number_of_components > 1
    · have h2 := ha.2
      simp only [h1, true_or, if_true] at h2
      simp [Terminal.parameter, Terminal.argument, h1, hp.1, h2]
    · by_cases h0 : C = 0
      · subst h0
        have h2 := ha.2
        simp only [or_true, if_true] at h2
        simp [Terminal.parameter, Terminal.argument, h1, hp.1, h2]
      · simp [Terminal.parameter, Terminal.argument, h1, h0]
  | other T v =>
    by_cases h0 : C = 0 <;> simp [Terminal.parameter, Terminal.argument, h0]

/-- For an accepted expression the parameters and the arguments pair up terminal
by terminal and slot by slot. -/
theorem zip_parameters_arguments {V : Type} (N d : Nat) (e : Expr V) (h : accepted N e = true) :
    List.zip (parameters N e) (arguments N d e) =
      ((List.range N).flatMap fun c =>
        e.terminals.enum.filterMap fun jt => jt.2.binding c d (jt.1 + 1))
    ∧ (parameters N e).length = (arguments N d e).length := by
  have hp := (accepted_parm h).2
  have ha := (accepted_args h).2
  rw [List.all_eq_true] at hp ha
  have key : ∀ c ∈ List.range N,
      List.zip (slot_parameters c 0 e.terminals) (slot_arguments c d e.terminals) =
        (e.terminals.enum.filterMap fun jt => jt.2.binding c d (jt.1 + 1))
      ∧ (slot_parameters c 0 e.terminals).length = (slot_arguments c d e.terminals).length := by
    intro c hc
    have hpc := hp c hc
    have hac := ha c hc
    rw [List.all_eq_true] at hpc hac
    rw [slot_arguments_enum c d 0, slot_parameters]
    have := zip_filterMap_eq (fun jt : Nat × Terminal V => jt.2.parameter c (jt.1 + 1))
      (fun jt => jt.2.argument c d) (e.terminals.enumFrom 0)
      (fun jt hjt => by
        have hm : jt.2 ∈ e.terminals := by
          have := (List.mem_enumFrom hjt).2.2
          rw [this]
          exact List.getElem_mem _
        exact parameter_isSome_eq N c d _ jt.2 (hpc _ hm) (hac _ hm))
    refine ⟨?_, this.2⟩
    rw [this.1]
    rfl
  have h2 := zip_flatMap_eq (fun c => slot_parameters c 0 e.terminals)
    (fun c => slot_arguments c d e.terminals) (List.range N) (fun c hc => (key c hc).2)
  refine ⟨?_, h2.2⟩
  rw [parameters, arguments, h2.1]
  exact List.flatMap_congr (fun c hc => (key c hc).1)

theorem get?_cons_append_left {α : Type} (a : α) (B C : List α) (i : Nat) (h : i < B.length) :
    (a :: B ++ C).get? (1 + i) = B.get? i := by
  rw [Nat.add_comm]
  simp only [List.cons_append, List.get?_cons_succ, List.get?_eq_getElem?,
    List.getElem?_cons_succ]
  exact List.getElem?_append_left h

theorem get?_cons_append_right {α : Type} (a : α) (B C : List α) (i : Nat) :
    (a :: B ++ C).get? (1 + B.length + i) = C.get? i := by
  rw [show 1 + B.length + i = (B.length + i) + 1 by omega]
  simp only [List.cons_append, List.get?_cons_succ, List.get?_eq_getElem?,
    List.getElem?_cons_succ]
  rw [List.getElem?_append_right (by omega)]
  simp

/-- Claim C3: in the homogeneous path the dispatcher binds argument 0 to the
element count of the partition and arguments `1 .. N` to the `N` result buffers
in slot order; `set_kernel_args` then binds exactly as many arguments as
`build_param_list` declared parameters, and the `i`-th bound argument belongs to
the same terminal and slot as the `i`-th declared parameter: the buffer of
member `c` for a grouped array in slot `c`, component `c` for a multiscalar with
more than one component, the single value of a one-component multiscalar, bound
in slot 0 only. -/
theorem positional_binding {V : Type} (N : Nat) (e : Expr V) (vec : List Nat)
    (krn : cl_Kernel V) (d psize : Nat) (h : accepted N e = true) (hvec : vec.length = N) :
    ∃ krn1 : cl_Kernel V,
      bind_arguments N vec e krn d psize = some (krn1, 1 + N + (parameters N e).length)
      ∧ krn1.arg 0 = some (.ulong psize)
      ∧ (∀ i v, vec.get? i = some v →
          krn1.arg (1 + i) = some (.buffer { vector := v, device := d }))
      ∧ build_param_list N e "" = some (String.join ((parameters N e).map KParam.text))
      ∧ (arguments N d e).length = (parameters N e).length
      ∧ (∀ i, i < (parameters N e).length → krn1.arg (1 + N + i) = (arguments N d e).get? i)
      ∧ List.zip (parameters N e) (arguments N d e) =
          ((List.range N).flatMap fun c =>
            e.terminals.enum.filterMap fun jt => jt.2.binding c d (jt.1 + 1)) := by
  have hz := zip_parameters_arguments N d e h
  have hb := bind_arguments_eq N e vec krn d psize h hvec
  have hp := accepted_parm h
  refine ⟨_, by rw [hb, hz.2], ?_, ?_, ?_, hz.2.symm, ?_, hz.1⟩
  · have := setArgs_arg (.ulong psize :: (vec.map fun v => .buffer { vector := v, device := d })
      ++ arguments N d e) krn 0 0 (by simp)
    simpa using this
  · intro i v hv
    have hi : i < vec.length := by
      rw [List.get?_eq_getElem?] at hv
      exact (List.getElem?_eq_some_iff.1 hv).1
    have := setArgs_arg (.ulong psize :: (vec.map fun v => .buffer { vector := v, device := d })
      ++ arguments N d e) krn 0 (1 + i) (by simp; omega)
    rw [Nat.zero_add] at this
    rw [this, get?_cons_append_left _ _ _ _ (by simpa using hi)]
    rw [List.get?_eq_getElem?] at hv
    simp [hv]
  · rw [build_param_list_eq]
    simp [hp]
  · intro i hi
    have := setArgs_arg (.ulong psize :: (vec.map fun v => .buffer { vector := v, device := d })
      ++ arguments N d e) krn 0 (1 + N + i) (by simp; omega)
    rw [Nat.zero_add] at this
    rw [this]
    have h2 := get?_cons_append_right (KernelArg.ulong psize)
      (vec.map fun v => (KernelArg.buffer { vector := v, device := d } : KernelArg V))
      (arguments N d e) i
    rw [List.length_map, hvec] at h2
    exact h2

theorem positional_binding_witness :
    accepted 2 sample_expr = true ∧ [20, 21].length = 2 ∧
    ∃ krn1 : cl_Kernel Int,
      bind_arguments 2 [20, 21] sample_expr { args := [] } 3 100
        = some (krn1, 1 + 2 + (parameters 2 sample_expr).length)
      ∧ krn1.arg 0 = some (.ulong 100)
      ∧ (∀ i v, [20, 21].get? i = some v →
          krn1.arg (1 + i) = some (.buffer { vector := v, device := 3 }))
      ∧ build_param_list 2 sample_expr ""
          = some (String.join ((parameters 2 sample_expr).map KParam.text))
      ∧ (arguments 2 3 sample_expr).length = (parameters 2 sample_expr).length
      ∧ (∀ i, i < (parameters 2 sample_expr).length →
          krn1.arg (1 + 2 + i) = (arguments 2 3 sample_expr).get? i)
      ∧ List.zip (parameters 2 sample_expr) (arguments 2 3 sample_expr) =
          ((List.range 2).flatMap fun c =>
            sample_expr.terminals.enum.filterMap fun jt => jt.2.binding c 3 (jt.1 + 1)) :=
  ⟨by decide!, by decide,
    positional_binding 2 sample_expr [20, 21] { args := [] } 3 100 (by decide!) (by decide)⟩

/-! ## Declared names -/

theorem reference_leaves {V : Type} (C k : Nat) (t : Terminal V) :
    (t.reference C k).leaves = [t.reference C k] := by
  cases t with
  | multivector T vec => simp [Terminal.reference, KExpr.leaves]
  | multiscalar m =>
    by_cases h : m.number_of_components > 1 <;> simp [Terminal.reference, KExpr.leaves, h]
  | other T v => simp [Terminal.reference, KExpr.leaves]

mutual
theorem kernel_expr_leaves {V : Type} (C : Nat) :
    ∀ (e : Expr V) (p f : Nat),
      (e.kernel_expr C p f).1.leaves =
        (e.terminals.enumFrom p).map fun jt => jt.2.reference C (jt.1 + 1)
  | .terminal t, p, f => by simp [Expr.kernel_expr, Expr.terminals, reference_leaves]
  | .binary _ l r, p, f => by
    simp [Expr.kernel_expr, Expr.terminals, KExpr.leaves, kernel_expr_leaves C l,
      kernel_expr_leaves C r, kernel_expr_prm_idx, List.enumFrom_append]
  | .unary_pre _ c, p, f => by
    simp [Expr.kernel_expr, Expr.terminals, KExpr.leaves, kernel_expr_leaves C c]
  | .unary_post _ c, p, f => by
    simp [Expr.kernel_expr, Expr.terminals, KExpr.leaves, kernel_expr_leaves C c]
  | .function (.builtin _) args, p, f => by
    simp [Expr.kernel_expr, Expr.terminals, KExpr.leaves, kernel_args_leaves C args]
  | .function (.user _) args, p, f => by
    simp [Expr.kernel_expr, Expr.terminals, KExpr.leaves, kernel_args_leaves C args]
theorem kernel_args_leaves {V : Type} (C : Nat) :
    ∀ (args : List (Expr V)) (p f : Nat),
      KExpr.leaves_args (Expr.kernel_args C args p f).1 =
        ((Expr.terminals_args args).enumFrom p).map fun jt => jt.2.reference C (jt.1 + 1)
  | [], p, f => by simp [Expr.kernel_args, Expr.terminals_args, KExpr.leaves_args]
  | a :: as, p, f => by
    simp [Expr.kernel_args, Expr.terminals_args, KExpr.leaves_args, kernel_expr_leaves C a,
      kernel_args_leaves C as, kernel_expr_prm_idx, List.enumFrom_append]
end

/-- The reference to terminal number `k + 1` in the statement of slot `C`. -/
theorem kernel_expr_leaf {V : Type} (C : Nat) (e : Expr V) (k : Nat) (t : Terminal V)
    (h : e.terminals.get? k = some t) :
    (e.kernel_expr C 0 0).1.leaves.get? k = some (t.reference C (k + 1)) := by
  rw [kernel_expr_leaves]
  rw [List.get?_eq_getElem?] at h ⊢
  simp [List.getElem?_map, List.getElem?_enumFrom, h]

theorem parameter_name {V : Type} {C k : Nat} {t : Terminal V} {q : KParam}
    (h : t.parameter C k = some q) : q.name = prm_name (C + 1) k := by
  cases t with
  | multivector T vec =>
    simp only [Terminal.parameter, Option.some.injEq] at h
    rw [← h]
  | multiscalar m =>
    simp only [Terminal.parameter] at h
    by_cases h1 : m.number_of_components > 1
    · simp only [h1, if_true, Option.map_eq_some'] at h
      obtain ⟨ty, _, rfl⟩ := h
      rfl
    · by_cases h0 : C = 0
      · subst h0
        simp only [h1, if_false, if_true, Option.map_eq_some'] at h
        obtain ⟨ty, _, rfl⟩ := h
        rfl
      · simp [h1, h0] at h
  | other T v =>
    simp only [Terminal.parameter] at h
    by_cases h0 : C = 0
    · subst h0
      simp only [if_true, Option.some.injEq] at h
      rw [← h]
    · simp [h0] at h

theorem mem_slot_parameters {V : Type} {C p : Nat} {ts : List (Terminal V)} {q : KParam} :
    q ∈ slot_parameters C p ts ↔
      ∃ j t, ts.get? j = some t ∧ t.parameter C (p + j + 1) = some q := by
  simp only [slot_parameters, List.mem_filterMap, Prod.exists]
  constructor
  · rintro ⟨i, t, hm, hq⟩
    rw [List.mk_mem_enumFrom_iff_le_and_getElem?_sub] at hm
    refine ⟨i - p, t, by rw [List.get?_eq_getElem?]; exact hm.2, ?_⟩
    rw [show p + (i - p) + 1 = i + 1 by omega]
    exact hq
  · rintro ⟨j, t, hj, hq⟩
    refine ⟨p + j, t, ?_, hq⟩
    rw [List.mk_mem_enumFrom_iff_le_and_getElem?_sub]
    rw [List.get?_eq_getElem?] at hj
    exact ⟨by omega, by simpa using hj⟩

theorem mem_parameters {V : Type} {N : Nat} {e : Expr V} {q : KParam} :
    q ∈ parameters N e ↔
      ∃ c j t, c < N ∧ e.terminals.get? j = some t ∧ t.parameter c (j + 1) = some q := by
  simp only [parameters, List.mem_flatMap, List.mem_range, mem_slot_parameters, Nat.zero_add]
  constructor
  · rintro ⟨c, hc, j, t, hj, hq⟩
    exact ⟨c, j, t, hc, hj, hq⟩
  · rintro ⟨c, j, t, hc, hj, hq⟩
    exact ⟨c, hc, j, t, hj, hq⟩

theorem slot_names_nodup {V : Type} (C : Nat) :
    ∀ (ts : List (Terminal V)) (p : Nat), ((slot_parameters C p ts).map (·.name)).Nodup
  | [], p => by simp [slot_parameters]
  | t :: ts, p => by
    have ih := slot_names_nodup C ts (p + 1)
    have hcons : slot_parameters C p (t :: ts) =
        (t.parameter C (p + 1)).toList ++ slot_parameters C (p + 1) ts := by
      simp only [slot_parameters, List.enumFrom_cons, List.filterMap_cons]
      cases t.parameter C (p + 1) <;> simp
    rw [hcons]
    cases hq : t.parameter C (p + 1) with
    | none => simpa using ih
    | some q =>
      simp only [Option.toList, List.singleton_append, List.map_cons, List.nodup_cons]
      refine ⟨?_, ih⟩
      intro hm
      rw [List.mem_map] at hm
      obtain ⟨q2, hq2, hn⟩ := hm
      obtain ⟨j, t2, _, hp2⟩ := mem_slot_parameters.1 hq2
      rw [parameter_name hq, parameter_name hp2] at hn
      have := (prm_name_inj hn).2
      omega

/-- The names of the declared parameters are pairwise distinct. -/
theorem parameter_names_nodup {V : Type} (N : Nat) (e : Expr V) :
    ((parameters N e).map (·.name)).Nodup := by
  rw [parameters, List.map_flatMap, List.nodup_flatMap]
  refine ⟨fun c _ => slot_names_nodup c _ 0, ?_⟩
  have hlt : List.Pairwise (· < ·) (List.range N) := List.pairwise_lt_range N
  refine hlt.imp ?_
  intro a b hab
  simp only [Function.onFun, List.disjoint_left]
  intro n ha hb
  rw [List.mem_map] at ha hb
  obtain ⟨q1, hq1, rfl⟩ := ha
  obtain ⟨q2, hq2, hn⟩ := hb
  obtain ⟨j1, t1, _, hp1⟩ := mem_slot_parameters.1 hq1
  obtain ⟨j2, t2, _, hp2⟩ := mem_slot_parameters.1 hq2
  rw [parameter_name hp1, parameter_name hp2] at hn
  have := (prm_name_inj hn).1
  omega

theorem prm_name_mem_iff {V : Type} (N : Nat) (e : Expr V) (c k : Nat) :
    prm_name (c + 1) (k + 1) ∈ (parameters N e).map (·.name) ↔
      c < N ∧ ∃ t q, e.terminals.get? k = some t ∧ t.parameter c (k + 1) = some q := by
  constructor
  · intro hm
    rw [List.mem_map] at hm
    obtain ⟨q, hq, hn⟩ := hm
    obtain ⟨c1, j, t, hc, hj, hp⟩ := mem_parameters.1 hq
    rw [parameter_name hp] at hn
    obtain ⟨h1, h2⟩ := prm_name_inj hn
    have h3 : c1 = c := by omega
    have h4 : j = k := by omega
    subst h3 h4
    exact ⟨hc, t, q, hj, hp⟩
  · rintro ⟨hc, t, q, hj, hp⟩
    rw [List.mem_map]
    exact ⟨q, mem_parameters.2 ⟨c, k, t, hc, hj, hp⟩, parameter_name hp⟩

theorem terminal_checks_of_accepted {V : Type} {N : Nat} {e : Expr V} (h : accepted N e = true)
    {k : Nat} {t : Terminal V} (hk : e.terminals.get? k = some t) {c : Nat} (hc : c < N) :
    t.parm_checks N c = true ∧ t.expr_checks N = true ∧ t.args_checks N c = true := by
  have hm : t ∈ e.terminals := List.get?_mem hk
  have hp := (accepted_parm h).2
  have he := (accepted_expr h).2
  have ha := (accepted_args h).2
  rw [List.all_eq_true] at hp he ha
  have hp1 := hp c (List.mem_range.2 hc)
  have ha1 := ha c (List.mem_range.2 hc)
  rw [List.all_eq_true] at hp1 ha1
  exact ⟨hp1 t hm, he t hm, ha1 t hm⟩

/-- Claim C2: for an accepted expression `build_param_list` declares exactly one
parameter for a one-component scalar terminal, named `prm_1_k` and emitted while
slot 0 is walked, and none named `prm_<c+1>_k` for a later slot; it declares
one parameter `prm_<c+1>_k` per slot for a grouped-array terminal (a `global`
pointer) and for a multiscalar with more than one component; and the statement
of every slot refers to the one-component terminal as `prm_1_k`, to the others
as `prm_<c+1>_k`. -/
theorem shared_scalar_parameter_rule {V : Type} (N : Nat) (e : Expr V)
    (h : accepted N e = true) :
    build_param_list N e "" = some (String.join ((parameters N e).map KParam.text))
    ∧ build_expr_list N e "" = some (String.join ((kernel_body N e).map KStatement.text))
    ∧ (∀ k m, e.terminals.get? k = some (.multiscalar m) → m.number_of_components = 1 →
        ((parameters N e).map (·.name)).count (prm_name 1 (k + 1)) = 1
        ∧ (∃ q ∈ slot_parameters 0 0 e.terminals,
            q.name = prm_name 1 (k + 1) ∧ q.global = false)
        ∧ (∀ c, 0 < c → ((parameters N e).map (·.name)).count (prm_name (c + 1) (k + 1)) = 0)
        ∧ (∀ c, c < N →
            (e.kernel_expr c 0 0).1.leaves.get? k = some (.param (prm_name 1 (k + 1)))))
    ∧ (∀ k T vec, e.terminals.get? k = some (.multivector T vec) → ∀ c, c < N →
        ((parameters N e).map (·.name)).count (prm_name (c + 1) (k + 1)) = 1
        ∧ (∃ q ∈ slot_parameters c 0 e.terminals,
            q.name = prm_name (c + 1) (k + 1) ∧ q.global = true)
        ∧ (e.kernel_expr c 0 0).1.leaves.get? k = some (.element (prm_name (c + 1) (k + 1))))
    ∧ (∀ k m, e.terminals.get? k = some (.multiscalar m) → 1 < m.number_of_components →
        ∀ c, c < N →
        ((parameters N e).map (·.name)).count (prm_name (c + 1) (k + 1)) = 1
        ∧ (∃ q ∈ slot_parameters c 0 e.terminals,
            q.name = prm_name (c + 1) (k + 1) ∧ q.global = false)
        ∧ (e.kernel_expr c 0 0).1.leaves.get? k = some (.param (prm_name (c + 1) (k + 1)))) := by
  have hp := accepted_parm h
  have he := accepted_expr h
  have hnd := parameter_names_nodup N e
  refine ⟨?_, ?_, ?_, ?_, ?_⟩
  · rw [build_param_list_eq]
    simp [hp]
  · rw [build_expr_list_eq]
    simp [he]
  · intro k m hk h1
    have hch := (terminal_checks_of_accepted h hk hp.1).1
    simp only [Terminal.parm_checks, Bool.and_eq_true] at hch
    obtain ⟨ty, hty⟩ := Option.isSome_iff_exists.1 hch.1
    have hq : (Terminal.multiscalar m).parameter 0 (k + 1) =
        some { global := false, type := ty, name := prm_name 1 (k + 1) } := by
      simp [Terminal.parameter, h1, hty]
    refine ⟨?_, ?_, ?_, ?_⟩
    · exact List.count_eq_one_of_mem hnd
        ((prm_name_mem_iff N e 0 k).2 ⟨hp.1, _, _, hk, hq⟩)
    · exact ⟨_, mem_slot_parameters.2 ⟨k, _, hk, by simpa using hq⟩, rfl, rfl⟩
    · intro c hc
      rw [List.count_eq_zero]
      intro hm
      obtain ⟨_, t, q, ht, hq2⟩ := (prm_name_mem_iff N e c k).1 hm
      rw [hk] at ht
      cases ht
      simp [Terminal.parameter, h1, show c ≠ 0 by omega] at hq2
    · intro c _
      rw [kernel_expr_leaf c e k _ hk]
      simp [Terminal.reference, h1]
  · intro k T vec hk c hc
    have hq : (Terminal.multivector T vec : Terminal V).parameter c (k + 1) =
        some { global := true, type := T, name := prm_name (c + 1) (k + 1) } := rfl
    refine ⟨?_, ?_, ?_⟩
    · exact List.count_eq_one_of_mem hnd
        ((prm_name_mem_iff N e c k).2 ⟨hc, _, _, hk, hq⟩)
    · exact ⟨_, mem_slot_parameters.2 ⟨k, _, hk, by simpa using hq⟩, rfl, rfl⟩
    · rw [kernel_expr_leaf c e k _ hk]
      rfl
  · intro k m hk h1 c hc
    have hch := (terminal_checks_of_accepted h hk hc).1
    simp only [Terminal.parm_checks, Bool.and_eq_true] at hch
    obtain ⟨ty, hty⟩ := Option.isSome_iff_exists.1 hch.1
    have hq : (Terminal.multiscalar m).parameter c (k + 1) =
        some { global := false, type := ty, name := prm_name (c + 1) (k + 1) } := by
      simp [Terminal.parameter, h1, hty]
    refine ⟨?_, ?_, ?_⟩
    · exact List.count_eq_one_of_mem hnd
        ((prm_name_mem_iff N e c k).2 ⟨hc, _, _, hk, hq⟩)
    · exact ⟨_, mem_slot_parameters.2 ⟨k, _, hk, by simpa using hq⟩, rfl, rfl⟩
    · rw [kernel_expr_leaf c e k _ hk]
      simp [Terminal.reference, h1]

theorem shared_scalar_parameter_rule_witness :
    accepted 2 sample_expr = true ∧
    (((parameters 2 sample_expr).map (·.name)).count (prm_name 1 (1 + 1)) = 1
      ∧ (∃ q ∈ slot_parameters 0 0 sample_expr.terminals,
          q.name = prm_name 1 (1 + 1) ∧ q.global = false)
      ∧ (∀ c, 0 < c →
          ((parameters 2 sample_expr).map (·.name)).count (prm_name (c + 1) (1 + 1)) = 0)
      ∧ (∀ c, c < 2 →
          (sample_expr.kernel_expr c 0 0).1.leaves.get? 1 = some (.param (prm_name 1 (1 + 1))))) :=
  ⟨by decide!,
    (shared_scalar_parameter_rule 2 sample_expr (by decide!)).2.2.1 1 (.scalar "int" 5)
      (by decide) (by decide)⟩

/-! ## The meaning of the synthesized kernel -/

mutual
theorem kernel_expr_fun_idx {V : Type} (C : Nat) :
    ∀ (e : Expr V) (p f : Nat), (e.kernel_expr C p f).2.2 = (e.call_sites f).2
  | .terminal t, p, f => by simp [Expr.kernel_expr, Expr.call_sites]
  | .binary _ l r, p, f => by
    simp [Expr.kernel_expr, Expr.call_sites, kernel_expr_fun_idx C l, kernel_expr_fun_idx C r]
  | .unary_pre _ c, p, f => by simp [Expr.kernel_expr, Expr.call_sites, kernel_expr_fun_idx C c]
  | .unary_post _ c, p, f => by simp [Expr.kernel_expr, Expr.call_sites, kernel_expr_fun_idx C c]
  | .function (.builtin _) args, p, f => by
    simp [Expr.kernel_expr, Expr.call_sites, kernel_args_fun_idx C args]
  | .function (.user _) args, p, f => by
    simp [Expr.kernel_expr, Expr.call_sites, kernel_args_fun_idx C args]
theorem kernel_args_fun_idx {V : Type} (C : Nat) :
    ∀ (args : List (Expr V)) (p f : Nat),
      (Expr.kernel_args C args p f).2.2 = (Expr.call_sites_args args f).2
  | [], p, f => by simp [Expr.kernel_args, Expr.call_sites_args]
  | a :: as, p, f => by
    simp [Expr.kernel_args, Expr.call_sites_args, kernel_expr_fun_idx C a,
      kernel_args_fun_idx C as]
end

theorem get?_append_left_some {α : Type} {a b : List α} {j : Nat} {t : α}
    (h : a.get? j = some t) : (a ++ b).get? j = some t := by
  rw [List.get?_eq_getElem?] at h ⊢
  have hj : j < a.length := (List.getElem?_eq_some_iff.1 h).1
  rw [List.getElem?_append_left hj]
  exact h

theorem get?_append_right_some {α : Type} {a b : List α} {j : Nat} {t : α}
    (h : b.get? j = some t) : (a ++ b).get? (a.length + j) = some t := by
  rw [List.get?_eq_getElem?] at h ⊢
  rw [List.getElem?_append_right (by omega)]
  simpa using h

mutual
theorem value_isSome {V : Type} (ops : Operators V) (c d : Nat) (mem : Memory V) (idx : Nat) :
    ∀ (e : Expr V),
      (∀ t ∈ e.terminals, ((Expr.terminal t).value ops c d mem idx).isSome = true) →
      (e.value ops c d mem idx).isSome = true
  | .terminal t, ht => ht t (by simp [Expr.terminals])
  | .binary tag l r, ht => by
    have hl := value_isSome ops c d mem idx l (fun t h => ht t (by simp [Expr.terminals, h]))
    have hr := value_isSome ops c d mem idx r (fun t h => ht t (by simp [Expr.terminals, h]))
    obtain ⟨a, ha⟩ := Option.isSome_iff_exists.1 hl
    obtain ⟨b, hb⟩ := Option.isSome_iff_exists.1 hr
    simp [Expr.value, ha, hb]
  | .unary_pre tag x, ht => by
    have hx := value_isSome ops c d mem idx x (fun t h => ht t (by simpa [Expr.terminals] using h))
    obtain ⟨a, ha⟩ := Option.isSome_iff_exists.1 hx
    simp [Expr.value, ha]
  | .unary_post tag x, ht => by
    have hx := value_isSome ops c d mem idx x (fun t h => ht t (by simpa [Expr.terminals] using h))
    obtain ⟨a, ha⟩ := Option.isSome_iff_exists.1 hx
    simp [Expr.value, ha]
  | .function g args, ht => by
    have hx := values_isSome ops c d mem idx args
      (fun t h => ht t (by simpa [Expr.terminals] using h))
    obtain ⟨a, ha⟩ := Option.isSome_iff_exists.1 hx
    simp [Expr.value, ha]
theorem values_isSome {V : Type} (ops : Operators V) (c d : Nat) (mem : Memory V) (idx : Nat) :
    ∀ (args : List (Expr V)),
      (∀ t ∈ Expr.terminals_args args, ((Expr.terminal t).value ops c d mem idx).isSome = true) →
      (Expr.values ops c d mem idx args).isSome = true
  | [], _ => by simp [Expr.values]
  | a :: as, ht => by
    have hl := value_isSome ops c d mem idx a
      (fun t h => ht t (by simp [Expr.terminals_args, h]))
    have hr := values_isSome ops c d mem idx as
      (fun t h => ht t (by simp [Expr.terminals_args, h]))
    obtain ⟨x, hx⟩ := Option.isSome_iff_exists.1 hl
    obtain ⟨y, hy⟩ := Option.isSome_iff_exists.1 hr
    simp [Expr.values, hx, hy]
end

theorem bind_names_of_mem_zip {V : Type} (krn : cl_Kernel V) :
    ∀ (names : List String) (args : List (KernelArg V)) (pos : Nat),
      names.Nodup → (∀ i, i < args.length → krn.arg (pos + i) = args.get? i) →
      ∀ s a, (s, a) ∈ names.zip args → bind_names names pos krn s = some a
  | [], _, _, _, _, s, a, h => by simp at h
  | n :: ns, [], _, _, _, s, a, h => by simp at h
  | n :: ns, x :: xs, pos, hnd, harg, s, a, h => by
    rw [List.zip_cons_cons, List.mem_cons] at h
    rw [List.nodup_cons] at hnd
    rcases h with h | h
    · cases h
      have := harg 0 (by simp)
      simp only [bind_names, if_true]
      simpa using this
    · have hs : s ≠ n := by
        intro hsn
        subst hsn
        exact hnd.1 (List.of_mem_zip h).1
      simp only [bind_names, hs, if_false]
      apply bind_names_of_mem_zip krn ns xs (pos + 1) hnd.2 _ s a h
      intro i hi
      have := harg (i + 1) (by simpa using hi)
      rw [show pos + 1 + i = pos + (i + 1) by omega, this]
      simp

theorem kernel_params_nodup {V : Type} (N : Nat) (e : Expr V) : (kernel_params N e).Nodup := by
  unfold kernel_params
  rw [List.cons_append, List.nodup_cons]
  constructor
  · intro hm
    rw [List.mem_append] at hm
    rcases hm with hm | hm
    · rw [List.mem_map] at hm
      obtain ⟨c, _, hc⟩ := hm
      exact n_ne_res_name _ hc.symm
    · rw [List.mem_map] at hm
      obtain ⟨q, hq, hn⟩ := hm
      obtain ⟨c, j, t, _, _, hp⟩ := mem_parameters.1 hq
      rw [parameter_name hp] at hn
      exact n_ne_prm_name _ _ hn.symm
  · rw [List.nodup_append]
    refine ⟨?_, parameter_names_nodup N e, ?_⟩
    · apply List.Nodup.map _ (List.nodup_range N)
      intro a b hab
      have := res_name_inj hab
      omega
    · intro s h1 h2
      rw [List.mem_map] at h1 h2
      obtain ⟨c, _, rfl⟩ := h1
      obtain ⟨q, hq, hn⟩ := h2
      obtain ⟨c2, j, t, _, _, hp⟩ := mem_parameters.1 hq
      rw [parameter_name hp] at hn
      exact res_name_ne_prm_name _ _ _ hn.symm

/-- What the parameter names of the kernel stand for once the dispatch loop has
bound the arguments. -/
theorem launch_environment {V : Type} (N : Nat) (e : Expr V) (vec : List Nat)
    (krn : cl_Kernel V) (d psize : Nat) (h : accepted N e = true) (hvec : vec.length = N) :
    bind_names (kernel_params N e) 0
        (krn.setArgs 0 (.ulong psize :: (vec.map fun v => .buffer { vector := v, device := d })
          ++ arguments N d e)) "n" = some (.ulong psize)
    ∧ (∀ c r, vec.get? c = some r →
        bind_names (kernel_params N e) 0
          (krn.setArgs 0 (.ulong psize :: (vec.map fun v => .buffer { vector := v, device := d })
            ++ arguments N d e)) (res_name (c + 1))
          = some (.buffer { vector := r, device := d }))
    ∧ (∀ c k t q a, c < N → e.terminals.get? k = some t → t.parameter c (k + 1) = some q →
        t.argument c d = some a →
        bind_names (kernel_params N e) 0
          (krn.setArgs 0 (.ulong psize :: (vec.map fun v => .buffer { vector := v, device := d })
            ++ arguments N d e)) q.name = some a) := by
  have hz := zip_parameters_arguments N d e h
  have hnd := kernel_params_nodup N e
  have harg : ∀ i, i < (KernelArg.ulong psize ::
      (vec.map fun v => (KernelArg.buffer { vector := v, device := d } : KernelArg V))
        ++ arguments N d e).length →
      (krn.setArgs 0 (.ulong psize :: (vec.map fun v => .buffer { vector := v, device := d })
        ++ arguments N d e)).arg (0 + i) =
      (KernelArg.ulong psize :: (vec.map fun v => .buffer { vector := v, device := d })
        ++ arguments N d e).get? i := fun i hi => setArgs_arg _ krn 0 i hi
  have key := bind_names_of_mem_zip
    (krn.setArgs 0 (.ulong psize :: (vec.map fun v => .buffer { vector := v, device := d })
      ++ arguments N d e)) (kernel_params N e) _ 0 hnd harg
  have hzip : List.zip (kernel_params N e)
      (KernelArg.ulong psize :: (vec.map fun v => .buffer { vector := v, device := d })
        ++ arguments N d e) =
      ("n", .ulong psize) ::
        ((List.range N).map fun c =>
          (res_name (c + 1), KernelArg.buffer { vector := vec.getD c 0, device := d }))
        ++ (List.zip (parameters N e) (arguments N d e)).map fun pa => (pa.1.name, pa.2) := by
    unfold kernel_params
    rw [List.zip_append (by simp [hvec])]
    subst hvec
    rw [← map_range_getD, List.zip_cons_cons, List.zip_map', List.zip_map_left]
    rfl
  refine ⟨?_, ?_, ?_⟩
  · apply key
    rw [hzip]
    simp
  · intro c r hr
    apply key
    rw [hzip]
    rw [List.get?_eq_getElem?] at hr
    have hc : c < vec.length := (List.getElem?_eq_some_iff.1 hr).1
    have hg : vec.getD c 0 = r := by simp [List.getD, hr]
    simp only [List.cons_append, List.mem_cons, List.mem_append, List.mem_map, List.mem_range]
    exact Or.inr (Or.inl ⟨c, by omega, by rw [hg]⟩)
  · intro c k t q a hc hk hq ha
    apply key
    rw [hzip, hz.1]
    simp only [List.cons_append, List.mem_cons, List.mem_append, List.mem_map,
      List.mem_flatMap, List.mem_range, List.mem_filterMap]
    refine Or.inr (Or.inr ⟨(q, a), ⟨c, hc, (k, t), ?_, ?_⟩, rfl⟩)
    · rw [List.mk_mem_enum_iff_getElem?]
      rw [List.get?_eq_getElem?] at hk
      exact hk
    · simp [Terminal.binding, hq, ha]

theorem components_eq_one {V : Type} {N c : Nat} {m : Multiscalar V} (hc : c < N)
    (h : m.number_of_components = 1 ∨ m.number_of_components = N)
    (h1 : ¬ m.number_of_components > 1) : m.number_of_components = 1 := by
  rcases h with h | h <;> omega

/-! ## Shape validation -/

mutual
theorem shape_valid_iff {V : Type} (N : Nat) :
    ∀ e : Expr V, shape_valid N e = true ↔
      multivector_expr_grammar e = true ∧ e.terminals.all (Terminal.expr_checks N) = true
  | .terminal t => by
    cases t with
    | multivector T vec =>
      simp [shape_valid, multivector_expr_grammar, Expr.terminals, Terminal.expr_checks]
    | multiscalar m =>
      simp [shape_valid, multivector_expr_grammar, Expr.terminals, Terminal.expr_checks,
        is_multiscalar]
    | other T v =>
      simp [shape_valid, multivector_expr_grammar, Expr.terminals, is_multiscalar]
  | .binary _ l r => by
    simp only [shape_valid, multivector_expr_grammar, Expr.terminals, Bool.and_eq_true,
      List.all_append, shape_valid_iff N l, shape_valid_iff N r]
    tauto
  | .unary_pre _ c => by
    simp only [shape_valid, multivector_expr_grammar, Expr.terminals, shape_valid_iff N c]
  | .unary_post _ c => by
    simp only [shape_valid, multivector_expr_grammar, Expr.terminals, shape_valid_iff N c]
  | .function _ args => by
    simp only [shape_valid, multivector_expr_grammar, Expr.terminals, shape_valid_args_iff N args]
theorem shape_valid_args_iff {V : Type} (N : Nat) :
    ∀ args : List (Expr V), shape_valid_args N args = true ↔
      multivector_expr_grammar_args args = true
        ∧ (Expr.terminals_args args).all (Terminal.expr_checks N) = true
  | [] => by simp [shape_valid_args, multivector_expr_grammar_args, Expr.terminals_args]
  | a :: as => by
    simp only [shape_valid_args, multivector_expr_grammar_args, Expr.terminals_args,
      Bool.and_eq_true, List.all_append, shape_valid_iff N a, shape_valid_args_iff N as]
    tauto
end

theorem construct_components_eq {T : Type} (make : Nat → Option (vector T))
    (f : Nat → vector T) :
    ∀ (is : List Nat) (st : Heap T × List Nat), (∀ i ∈ is, make i = some (f i)) →
      construct_components make is st =
        some (st.1 ++ is.map f, st.2 ++ List.range' st.1.length is.length)
  | [], st, _ => by simp [construct_components]
  | i :: is, st, h => by
    rw [construct_components, h i (by simp)]
    simp only []
    rw [construct_components_eq make f is _ (fun j hj => h j (by simp [hj]))]
    simp [Heap.alloc, List.range'_succ]

/-- The members a constructor loop creates: member `i` is the vector made for `i`. -/
theorem construct_components_members {T : Type} (make : Nat → Option (vector T))
    (f : Nat → vector T) (N : Nat) (heap : Heap T) (h : ∀ i, i < N → make i = some (f i)) :
    ∃ heap1 vec, construct_components make (List.range N) (heap, []) = some (heap1, vec)
      ∧ vec.length = N
      ∧ ∀ i, i < N → ∃ p, vec.get? i = some p ∧ heap1.get? p = some (f i) := by
  refine ⟨_, _, construct_components_eq make f (List.range N) (heap, [])
    (fun i hi => h i (List.mem_range.1 hi)), by simp, ?_⟩
  intro i hi
  refine ⟨heap.length + i, ?_, ?_⟩
  · simp [List.get?_eq_getElem?, List.getElem?_range', hi]
  · simp only [List.get?_eq_getElem?]
    rw [List.getElem?_append_right (by omega)]
    simp [List.getElem?_map, List.getElem?_range hi]

theorem create_block {T : Type} (N s i : Nat) (host : List T) (hlen : host.length = N * s)
    (hi : i < N) :
    vector.create s (some (host.drop (i * s)))
      = some { data := ((host.drop (i * s)).take s).map some } := by
  have h1 : (i + 1) * s ≤ N * s := Nat.mul_le_mul_right s (by omega)
  have h2 : s ≤ (host.drop (i * s)).length := by
    rw [List.length_drop, hlen]
    have : (i + 1) * s = i * s + s := by ring
    omega
  simp only [vector.create, h2, if_true]

/-- Claim C6: for `N > 0` and a host sequence of length `N * s`, the constructor
from host data (and the constructor from an explicit size `s` and a host
pointer) yields `N` members, member `i` holding the block `h[i*s .. (i+1)*s)` of
the host data, of size `s`; the blocks are contiguous, not interleaved. -/
theorem block_partition {T : Type} (N s : Nat) (heap : Heap T) (host : List T)
    (hN : 0 < N) (hlen : host.length = N * s) :
    (∃ heap1 vec, multivector.from_host N true heap host = (heap1, some vec)
      ∧ vec.length = N
      ∧ ∀ i, i < N → ∃ p, vec.get? i = some p
          ∧ heap1.get? p = some { data := ((host.drop (i * s)).take s).map some }
          ∧ member_size heap1 p = some s)
    ∧ (∃ heap1 vec, multivector.from_size N true heap s (some host) = (heap1, some vec)
      ∧ vec.length = N
      ∧ ∀ i, i < N → ∃ p, vec.get? i = some p
          ∧ heap1.get? p = some { data := ((host.drop (i * s)).take s).map some }
          ∧ member_size heap1 p = some s) := by
  have hsize : ∀ i, i < N → (((host.drop (i * s)).take s).map some).length = s := by
    intro i hi
    have h1 : (i + 1) * s ≤ N * s := Nat.mul_le_mul_right s (by omega)
    have : (i + 1) * s = i * s + s := by ring
    simp only [List.length_map, List.length_take, List.length_drop, hlen]
    omega
  obtain ⟨heap1, vec, hc, hl, hm⟩ := construct_components_members
    (fun i => vector.create s (some (host.drop (i * s))))
    (fun i => { data := ((host.drop (i * s)).take s).map some }) N heap
    (fun i hi => create_block N s i host hlen hi)
  have hdiv : host.length / N = s := by
    rw [hlen]
    exact Nat.mul_div_cancel_left s hN
  have hmem : ∀ i, i < N → ∃ p, vec.get? i = some p
      ∧ heap1.get? p = some { data := ((host.drop (i * s)).take s).map some }
      ∧ member_size heap1 p = some s := by
    intro i hi
    obtain ⟨p, hp, hv⟩ := hm i hi
    refine ⟨p, hp, hv, ?_⟩
    rw [member_size, hv]
    simp only [Option.map, vector.size, hsize i hi]
  constructor
  · refine ⟨heap1, vec, ?_, hl, hmem⟩
    have h3 : N * (host.length / N) = host.length := by rw [hdiv, hlen]
    simp only [multivector.from_host, hN, h3, and_self, if_true, gt_iff_lt]
    rw [hdiv, hc]
  · refine ⟨heap1, vec, ?_, hl, hmem⟩
    simp only [multivector.from_size, hN, and_self, if_true, gt_iff_lt, Option.map]
    rw [hc]

theorem block_partition_witness :
    (0 < 2 ∧ [1, 2, 3, 4].length = 2 * 2)
    ∧ multivector.from_host 2 true ([] : Heap Nat) [1, 2, 3, 4]
        = ([{ data := [some 1, some 2] }, { data := [some 3, some 4] }], some [0, 1])
    ∧ ((∃ heap1 vec, multivector.from_host 2 true ([] : Heap Nat) [1, 2, 3, 4]
          = (heap1, some vec)
        ∧ vec.length = 2
        ∧ ∀ i, i < 2 → ∃ p, vec.get? i = some p
            ∧ heap1.get? p = some { data := (([1, 2, 3, 4].drop (i * 2)).take 2).map some }
            ∧ member_size heap1 p = some 2)
      ∧ (∃ heap1 vec, multivector.from_size 2 true ([] : Heap Nat) 2 (some [1, 2, 3, 4])
          = (heap1, some vec)
        ∧ vec.length = 2
        ∧ ∀ i, i < 2 → ∃ p, vec.get? i = some p
            ∧ heap1.get? p = some { data := (([1, 2, 3, 4].drop (i * 2)).take 2).map some }
            ∧ member_size heap1 p = some 2)) :=
  ⟨⟨by decide, by decide⟩, by decide,
    block_partition 2 2 ([] : Heap Nat) [1, 2, 3, 4] (by decide) (by decide)⟩

/-- Claim C7: what the constructors do on the inputs of the claim.  From host data
and from an explicit size, width 0 is refused and the free store is left as it
was; host data whose length `N` does not divide is refused likewise.  The
default constructor and the constructor from a list of components do not
refuse width 0: they succeed with a group of no members. -/
theorem construction_preconditions {T : Type} (heap : Heap T) :
    (∀ host : List T, multivector.from_host 0 true heap host = (heap, none))
    ∧ (∀ (size : Nat) (host : Option (List T)),
        multivector.from_size 0 true heap size host = (heap, none))
    ∧ (∀ (N : Nat) (host : List T), host.length % N ≠ 0 →
        multivector.from_host N true heap host = (heap, none))
    ∧ multivector.default_ctor 0 true heap = (heap, some [])
    ∧ multivector.from_components 0 false heap [] = (heap, some []) := by
  refine ⟨fun host => ?_, fun size host => ?_, fun N host h => ?_, ?_, ?_⟩
  · simp [multivector.from_host]
  · simp [multivector.from_size]
  · have h1 : ¬ N * (host.length / N) = host.length := by
      intro h2
      apply h
      rw [← h2]
      exact Nat.mul_mod_right N _
    by_cases hN : 0 < N
    · simp only [multivector.from_host, h1, if_false, ite_self]
    · simp [multivector.from_host, hN]
  · simp [multivector.default_ctor, construct_components]
  · simp [multivector.from_components]

/-! ## The equal-size invariant -/

theorem construct_components_isSome {T : Type} (make : Nat → Option (vector T)) :
    ∀ (is : List Nat) (st out : Heap T × List Nat),
      construct_components make is st = some out → ∀ i ∈ is, (make i).isSome = true
  | [], _, _, _ => by simp
  | i :: is, st, out, h => by
    rw [construct_components] at h
    cases hm : make i with
    | none => rw [hm] at h; simp at h
    | some v =>
      rw [hm] at h
      simp only [] at h
      intro j hj
      rcases List.mem_cons.1 hj with rfl | hj
      · rw [hm]; rfl
      · exact construct_components_isSome make is _ out h j hj

/-- A constructor loop that succeeds made every vector, and member `i` of the
group is the vector made for `i`. -/
theorem construct_components_result {T : Type} (make : Nat → Option (vector T)) (N : Nat)
    (heap heap1 : Heap T) (vec : List Nat)
    (h : construct_components make (List.range N) (heap, []) = some (heap1, vec)) :
    vec.length = N
    ∧ ∀ i, i < N → ∃ p v, vec.get? i = some p ∧ make i = some v ∧ heap1.get? p = some v := by
  have hs := construct_components_isSome make (List.range N) _ _ h
  have hf : ∀ i, i < N → make i = some ((make i).getD vector.empty) := by
    intro i hi
    obtain ⟨v, hv⟩ := Option.isSome_iff_exists.1 (hs i (List.mem_range.2 hi))
    rw [hv]
    rfl
  obtain ⟨heap2, vec2, h2, hl, hm⟩ := construct_components_members make
    (fun i => (make i).getD vector.empty) N heap hf
  rw [h] at h2
  cases h2
  refine ⟨hl, fun i hi => ?_⟩
  obtain ⟨p, hp, hv⟩ := hm i hi
  exact ⟨p, _, hp, hf i hi, hv⟩

theorem create_size {T : Type} (size : Nat) (host : Option (List T)) (v : vector T)
    (h : vector.create size host = some v) : v.size = size := by
  cases host with
  | none =>
    simp only [vector.create, Option.some.injEq] at h
    rw [← h]
    simp [vector.size]
  | some p =>
    simp only [vector.create] at h
    by_cases hle : size ≤ p.length
    · simp only [hle, if_true, Option.some.injEq] at h
      rw [← h]
      simp [vector.size, hle]
    · simp [hle] at h

/-- After a constructor loop all of whose vectors have size `s`, every member has
size `s` and so has `size()`. -/
theorem construct_components_sizes {T : Type} (make : Nat → Option (vector T)) (N s : Nat)
    (heap heap1 : Heap T) (vec : List Nat)
    (h : construct_components make (List.range N) (heap, []) = some (heap1, vec))
    (hs : ∀ i v, make i = some v → v.size = s) :
    vec.length = N ∧ (∀ p ∈ vec, member_size heap1 p = some s)
      ∧ (0 < N → multivector.size heap1 vec = some s) := by
  obtain ⟨hl, hm⟩ := construct_components_result make N heap heap1 vec h
  have hall : ∀ p ∈ vec, member_size heap1 p = some s := by
    intro p hp
    obtain ⟨i, hi⟩ := List.get?_of_mem hp
    have hiN : i < N := by
      rw [List.get?_eq_getElem?] at hi
      have := (List.getElem?_eq_some_iff.1 hi).1
      omega
    obtain ⟨q, v, hq, hv, hg⟩ := hm i hiN
    rw [hi] at hq
    cases hq
    rw [member_size, hg]
    simp only [Option.map, hs i v hv]
  refine ⟨hl, hall, fun hN => ?_⟩
  obtain ⟨q, v, hq, _, _⟩ := hm 0 hN
  have := hall q (List.get?_mem hq)
  simp only [multivector.size, hq, Option.bind]
  exact this

theorem resize_sizes {T : Type} (size : Nat) :
    ∀ (ps : List Nat) (heap heap1 : Heap T), multivector.resize size ps heap = some heap1 →
      (∀ p ∈ ps, member_size heap1 p = some size)
      ∧ (∀ q, member_size heap q = some size → member_size heap1 q = some size)
  | [], heap, heap1, h => by
    simp only [multivector.resize, Option.some.injEq] at h
    subst h
    simp
  | p :: ps, heap, heap1, h => by
    rw [multivector.resize] at h
    by_cases hp : p < heap.length
    · simp only [hp, if_true] at h
      obtain ⟨h1, h2⟩ := resize_sizes size ps _ heap1 h
      have hset : ∀ q, (q = p ∨ member_size heap q = some size) →
          member_size (heap.set p { data := List.replicate size none }) q = some size := by
        intro q hq
        by_cases hqp : q = p
        · subst hqp
          simp [member_size, List.get?_eq_getElem?, List.getElem?_set, hp, vector.size]
        · rcases hq with hq | hq
          · exact absurd hq hqp
          · simpa [member_size, List.get?_eq_getElem?, List.getElem?_set, Ne.symm hqp] using hq
      refine ⟨fun q hq => ?_, fun q hq => h2 q (hset q (Or.inr hq))⟩
      rcases List.mem_cons.1 hq with rfl | hq
      · exact h2 _ (hset _ (Or.inl rfl))
      · exact h1 q hq
    · simp [hp] at h

theorem filterMap_get?_range {α : Type} (l : List α) :
    (List.range l.length).filterMap (fun i => l.get? i) = l := by
  induction l using List.reverseRecOn with
  | nil => simp
  | append_singleton l a ih =>
    simp only [List.length_append, List.length_singleton, List.range_succ,
      List.filterMap_append, List.filterMap_cons, List.filterMap_nil]
    have h1 : (List.range l.length).filterMap (fun i => (l ++ [a]).get? i)
        = (List.range l.length).filterMap (fun i => l.get? i) := by
      apply List.filterMap_congr
      intro j hj
      have hj := List.mem_range.1 hj
      simp [List.get?_eq_getElem?, List.getElem?_append_left hj]
    have h2 : (l ++ [a]).get? l.length = some a := by
      simp [List.get?_eq_getElem?]
    rw [h1, h2, ih]

/-- Claim C8, as stated, fails for a group that aliases existing arrays: the
constructor takes a vector of one element and a vector of two as they are, and
`size()` then differs from the size of member 1. -/
theorem equal_size_invariant_counterexample :
    multivector.from_components 2 false sample_heap [0, 1] = (sample_heap, some [0, 1])
    ∧ multivector.size sample_heap [0, 1] = some 1
    ∧ member_size sample_heap 1 = some 2
    ∧ ¬ ∃ s, ∀ p ∈ [0, 1], member_size sample_heap p = some s := by
  refine ⟨by decide, by decide, by decide, ?_⟩
  rintro ⟨s, hs⟩
  have h0 : member_size sample_heap 0 = some 1 := by decide
  have h1 : member_size sample_heap 1 = some 2 := by decide
  have a := hs 0 (by simp)
  have b := hs 1 (by simp)
  rw [h0] at a
  rw [h1] at b
  cases a
  cases b

/-- Claim C8, amended: after default construction, construction from host data or
from an explicit size, and after every resize, all members have the same size
and `size()` is that size; a copy has member by member the sizes of its source;
a group that aliases a list of arrays has exactly these arrays as members, with
the sizes they have, so its members are of equal size when the caller passes
arrays of equal size. -/
theorem equal_size_invariant {T : Type} (N : Nat) (heap : Heap T) :
    (∃ heap1 vec, multivector.default_ctor N true heap = (heap1, some vec)
      ∧ vec.length = N ∧ (∀ p ∈ vec, member_size heap1 p = some 0)
      ∧ (0 < N → multivector.size heap1 vec = some 0))
    ∧ (∀ own host heap1 vec, multivector.from_host N own heap host = (heap1, some vec) →
        vec.length = N ∧ (∀ p ∈ vec, member_size heap1 p = some (host.length / N))
        ∧ multivector.size heap1 vec = some (host.length / N))
    ∧ (∀ own size host heap1 vec,
        multivector.from_size N own heap size host = (heap1, some vec) →
        vec.length = N ∧ (∀ p ∈ vec, member_size heap1 p = some size)
        ∧ multivector.size heap1 vec = some size)
    ∧ (∀ size vec heap1, multivector.resize size vec heap = some heap1 →
        (∀ p ∈ vec, member_size heap1 p = some size)
        ∧ (vec ≠ [] → multivector.size heap1 vec = some size))
    ∧ (∀ own mv heap1 vec, multivector.copy_ctor N own heap mv = (heap1, some vec) →
        mv.length = N →
        vec.length = N
        ∧ ∀ i p, vec.get? i = some p →
            ∃ q, mv.get? i = some q ∧ member_size heap1 p = member_size heap q)
    ∧ (∀ components heap1 vec,
        multivector.from_components N false heap components = (heap1, some vec) →
        heap1 = heap ∧ vec = components) := by
  refine ⟨?_, ?_, ?_, ?_, ?_, ?_⟩
  · obtain ⟨heap1, vec, hc, _, _⟩ := construct_components_members
      (fun _ => some (vector.empty : vector T)) (fun _ => vector.empty) N heap (fun _ _ => rfl)
    have hs := construct_components_sizes _ N 0 heap heap1 vec hc (fun i v hv => by
      simp only [Option.some.injEq] at hv
      rw [← hv]
      rfl)
    refine ⟨heap1, vec, ?_, hs⟩
    simp only [multivector.default_ctor, if_true, hc]
  · intro own host heap1 vec h
    simp only [multivector.from_host] at h
    by_cases hc : own = true ∧ N > 0
    · simp only [hc, and_self, if_true] at h
      by_cases hd : N * (host.length / N) = host.length
      · simp only [hd, if_true] at h
        cases hcc : construct_components
            (fun i => vector.create (host.length / N) (some (host.drop (i * (host.length / N)))))
            (List.range N) (heap, []) with
        | none => rw [hcc] at h; simp at h
        | some st =>
          rw [hcc] at h
          simp only [Prod.mk.injEq, Option.some.injEq] at h
          obtain ⟨rfl, rfl⟩ := h
          have hs := construct_components_sizes _ N (host.length / N) heap st.1 st.2 hcc
            (fun i v hv => create_size _ _ v hv)
          exact ⟨hs.1, hs.2.1, hs.2.2 hc.2⟩
      · simp [hd] at h
    · simp [hc] at h
  · intro own size host heap1 vec h
    simp only [multivector.from_size] at h
    by_cases hc : own = true ∧ N > 0
    · simp only [hc, and_self, if_true] at h
      cases hcc : construct_components
          (fun i => vector.create size (host.map fun p => p.drop (i * size)))
          (List.range N) (heap, []) with
      | none => rw [hcc] at h; simp at h
      | some st =>
        rw [hcc] at h
        simp only [Prod.mk.injEq, Option.some.injEq] at h
        obtain ⟨rfl, rfl⟩ := h
        have hs := construct_components_sizes _ N size heap st.1 st.2 hcc
          (fun i v hv => create_size _ _ v hv)
        exact ⟨hs.1, hs.2.1, hs.2.2 hc.2⟩
    · simp [hc] at h
  · intro size vec heap1 h
    have hs := (resize_sizes size vec heap heap1 h).1
    refine ⟨hs, fun hne => ?_⟩
    cases vec with
    | nil => exact absurd rfl hne
    | cons p ps =>
      have := hs p (by simp)
      simpa [multivector.size, member_size] using this
  · intro own mv heap1 vec h hmv
    simp only [multivector.copy_ctor] at h
    by_cases ho : own = true
    · simp only [ho, if_true] at h
      cases hcc : construct_components (fun i => (mv.get? i).bind fun p => heap.get? p)
          (List.range N) (heap, []) with
      | none => rw [hcc] at h; simp at h
      | some st =>
        rw [hcc] at h
        simp only [Prod.mk.injEq, Option.some.injEq] at h
        obtain ⟨rfl, rfl⟩ := h
        obtain ⟨hl, hm⟩ := construct_components_result _ N heap st.1 st.2 hcc
        refine ⟨hl, fun i p hp => ?_⟩
        have hi : i < N := by
          rw [List.get?_eq_getElem?] at hp
          have := (List.getElem?_eq_some_iff.1 hp).1
          omega
        obtain ⟨p1, v, hp1, hv, hg⟩ := hm i hi
        rw [hp] at hp1
        cases hp1
        cases hq : mv.get? i with
        | none => rw [hq] at hv; simp at hv
        | some q =>
          rw [hq] at hv
          simp only [Option.bind] at hv
          exact ⟨q, rfl, by rw [member_size, member_size, hg, hv]⟩
    · simp only [ho, Bool.false_eq_true, if_false, Prod.mk.injEq, Option.some.injEq] at h
      obtain ⟨rfl, rfl⟩ := h
      rw [← hmv, filterMap_get?_range]
      exact ⟨rfl, fun i p hp => ⟨p, hp, rfl⟩⟩
  · intro components heap1 vec h
    simp only [multivector.from_components] at h
    by_cases hc : components.length = N
    · simp only [hc, Bool.false_eq_true, not_false_eq_true, and_self, if_true, Prod.mk.injEq,
        Option.some.injEq] at h
      exact ⟨h.1.symm, h.2.symm⟩
    · simp [hc] at h

theorem equal_size_invariant_witness :
    (∀ p ∈ [0, 1], member_size ([{ data := [some 1, some 2] }, { data := [some 3, some 4] }]
        : Heap Nat) p = some ([1, 2, 3, 4].length / 2))
    ∧ multivector.size ([{ data := [some 1, some 2] }, { data := [some 3, some 4] }] : Heap Nat)
        [0, 1] = some ([1, 2, 3, 4].length / 2) :=
  ((equal_size_invariant 2 ([] : Heap Nat)).2.1 true [1, 2, 3, 4] _ [0, 1] (by decide)).2

/-! ## The indexing helper of `gslice` -/

theorem to_ulong_cast (x : Int) : ((to_ulong x : Nat) : Int) = x % (two64 : Int) := by
  unfold to_ulong
  exact Int.toNat_of_nonneg (Int.emod_nonneg _ (by decide))

theorem to_ulong_lt (x : Int) : to_ulong x < two64 := by
  have h := to_ulong_cast x
  have h2 : x % (two64 : Int) < (two64 : Int) := Int.emod_lt_of_pos _ (by decide)
  omega

theorem to_long_emod (s : Int) : to_long s % (two64 : Int) = s % (two64 : Int) := by
  unfold to_long two64
  omega

theorem to_ulong_of_cast (c : Nat) (X : Int) (hc : c < two64)
    (h : (c : Int) % (two64 : Int) = X % (two64 : Int)) : c = to_ulong X := by
  have h1 := to_ulong_cast X
  have h2 : (c : Int) % (two64 : Int) = c := Int.emod_eq_of_lt (by omega) (by exact_mod_cast hc)
  omega

theorem ulong_step (X : Int) (n : Nat) (s : Int) :
    (to_ulong X + n * to_ulong (to_long s) % two64) % two64 = to_ulong (X + n * s) := by
  apply to_ulong_of_cast
  · exact Nat.mod_lt _ (by decide)
  · push_cast
    rw [to_ulong_cast, to_ulong_cast, to_long_emod]
    simp only [Int.emod_emod_of_dvd, Int.add_emod, Int.mul_emod, Int.emod_emod, dvd_refl]

theorem ulong_start (a : Nat) (n : Nat) (s : Int) :
    (a % two64 + n * to_ulong (to_long s) % two64) % two64 = to_ulong ((a : Int) + n * s) := by
  apply to_ulong_of_cast
  · exact Nat.mod_lt _ (by decide)
  · push_cast
    rw [to_ulong_cast, to_long_emod]
    simp only [Int.emod_emod_of_dvd, Int.add_emod, Int.mul_emod, Int.emod_emod, dvd_refl]

theorem string_append_left_cancel {a b c : String} (h : a ++ b = a ++ c) : b = c := by
  have := congrArg String.data h
  simp only [String.data_append, List.append_cancel_left_eq] at this
  exact String.ext this

theorem dimension_params_append (a b : List Nat) :
    dimension_params (a ++ b) = dimension_params a ++ dimension_params b := by
  simp [dimension_params, List.flatMap_append]

theorem indexing_signature_loop_eq (NDIM : Nat) (s : String) :
    indexing_signature_loop NDIM s =
      s ++ String.join ((dimension_params (List.range NDIM)).map fun p =>
        ",\n\t" ++ p.1 ++ " " ++ p.2) := by
  unfold indexing_signature_loop
  induction NDIM with
  | zero => simp [dimension_params, string_join_nil, string_append_empty]
  | succ n ih =>
    rw [List.range_succ, List.foldl_append, ih, dimension_params_append]
    have h1 : ",\n\tulong size" = ",\n\t" ++ "ulong" ++ " " ++ "size" := by decide
    have h2 : ",\n\tlong stride" = ",\n\t" ++ "long" ++ " " ++ "stride" := by decide
    simp only [List.foldl_cons, List.foldl_nil, List.map_append, string_join_append,
      dimension_params, List.flatMap_cons, List.flatMap_nil, List.append_nil, List.map_cons,
      List.map_nil, string_join_cons, string_join_nil, string_append_empty, h1, h2,
      String.append_assoc]

theorem indexing_body_loop_eq : ∀ (k : Nat) (s : String),
    indexing_body_loop k s = s ++ String.join ((helper_loop k).map HStatement.text)
  | 0, s => by simp [indexing_body_loop, helper_loop, string_join_nil, string_append_empty]
  | k + 1, s => by
    rw [indexing_body_loop, indexing_body_loop_eq k]
    have h1 : "    idx /= size" = "    idx /= " ++ "size" := by decide
    have h2 : "    ptr += (idx % size" = "    ptr += (idx % " ++ "size" := by decide
    have h3 : ") * stride" = ") * " ++ "stride" := by decide
    simp only [helper_loop, List.cons_append, List.nil_append, List.map_cons, string_join_cons,
      HStatement.text, h1, h2, h3, String.append_assoc]

/-- The text `indexing_function` writes is the text of `gslice.helper`. -/
theorem indexing_function_eq (NDIM component position : Nat) (h : 0 < NDIM) :
    gslice.indexing_function NDIM component position
      = some (gslice.helper NDIM component position).text := by
  have h1 : "ulong slice_" = "ulong " ++ "slice_" := by decide
  have h2 : ",\n\tulong idx)\n\x7b\n" = ",\n\t" ++ "ulong" ++ " " ++ "idx" ++ ")\n\x7b\n" := by
    decide
  have h3 : "    return start + idx * stride0;\n"
      = "    return " ++ "start" ++ " + idx * " ++ "stride0" ++ ";\n" := by decide
  have h4 : "    size_t ptr = start + (idx % size"
      = "    size_t ptr = " ++ "start" ++ " + (idx % " ++ "size" := by decide
  have h5 : ") * stride" = ") * " ++ "stride" := by decide
  by_cases hd : NDIM = 1
  · subst hd
    simp only [gslice.indexing_function, gslice.helper, Helper.text, indexing_signature_loop_eq,
      if_true, List.map_append, string_join_append, List.map_cons, List.map_nil,
      string_join_cons, string_join_nil, string_append_empty, HStatement.text, h1, h2, h3,
      String.append_assoc, Nat.lt_irrefl, gt_iff_lt, Nat.zero_lt_one]
  · simp only [gslice.indexing_function, gslice.helper, Helper.text, indexing_signature_loop_eq,
      indexing_body_loop_eq, h, hd, if_true, if_false, List.map_append, string_join_append,
      List.map_cons, List.map_nil, List.cons_append, List.nil_append,
      string_join_cons, string_join_nil, string_append_empty, HStatement.text, h1, h2, h4, h5,
      String.append_assoc, gt_iff_lt]

theorem size_name_inj {a b : Nat} (h : "size" ++ toString a = "size" ++ toString b) : a = b :=
  toString_nat_inj (string_append_left_cancel h)

theorem stride_name_inj {a b : Nat} (h : "stride" ++ toString a = "stride" ++ toString b) :
    a = b :=
  toString_nat_inj (string_append_left_cancel h)

theorem size_ne_stride (x y : String) : "size" ++ x ≠ "stride" ++ y := by
  intro h
  have := congrArg String.data h
  simp [String.data_append] at this

theorem idx_ne_size (x : String) : "idx" ≠ "size" ++ x := by
  intro h
  have := congrArg String.data h
  simp [String.data_append] at this

theorem idx_ne_stride (x : String) : "idx" ≠ "stride" ++ x := by
  intro h
  have := congrArg String.data h
  simp [String.data_append] at this

theorem start_ne_size (x : String) : "start" ≠ "size" ++ x := by
  intro h
  have := congrArg String.data h
  simp [String.data_append] at this

theorem start_ne_stride (x : String) : "start" ≠ "stride" ++ x := by
  intro h
  have := congrArg String.data h
  simp [String.data_append] at this

theorem lookup_cons_ne {β : Type} (k a : String) (b : β) (es : List (String × β)) (h : a ≠ k) :
    ((k, b) :: es).lookup a = es.lookup a := by
  have : (a == k) = false := by simpa using h
  simp [List.lookup, this]

theorem lookup_cons_eq {β : Type} (a : String) (b : β) (es : List (String × β)) :
    ((a, b) :: es).lookup a = some b := by
  simp [List.lookup]

/-- What the parameter names of a helper stand for in a call. -/
theorem lookup_dimension (idx : Nat) :
    ∀ (ks ns : List Nat) (ss : List Int), ks.length = ns.length → ks.length = ss.length →
      ks.Nodup →
      ((((dimension_params ks).map (·.2) ++ ["idx"]).zip
          (dimension_values ns ss ++ [CValue.ulong idx])).lookup "idx" = some (.ulong idx))
      ∧ ∀ m k, ks.get? m = some k →
        ((((dimension_params ks).map (·.2) ++ ["idx"]).zip
            (dimension_values ns ss ++ [CValue.ulong idx])).lookup ("size" ++ toString k)
          = (ns.get? m).map fun n => CValue.ulong (n % two64))
        ∧ ((((dimension_params ks).map (·.2) ++ ["idx"]).zip
            (dimension_values ns ss ++ [CValue.ulong idx])).lookup ("stride" ++ toString k)
          = (ss.get? m).map fun s => CValue.long (to_long s))
  | [], [], [], _, _, _ => by
    simp [dimension_params, dimension_values, List.lookup]
  | [], _ :: _, _, h, _, _ => by simp at h
  | [], [], _ :: _, _, h, _ => by simp at h
  | _ :: _, [], _, h, _, _ => by simp at h
  | _ :: _, _ :: _, [], _, h, _ => by simp at h
  | k0 :: ks, n0 :: ns, s0 :: ss, h1, h2, hnd => by
    have ih := lookup_dimension idx ks ns ss (by simpa using h1) (by simpa using h2)
      (List.nodup_cons.1 hnd).2
    have hl : ((dimension_params (k0 :: ks)).map (·.2) ++ ["idx"]).zip
        (dimension_values (n0 :: ns) (s0 :: ss) ++ [CValue.ulong idx]) =
        ("size" ++ toString k0, CValue.ulong (n0 % two64)) ::
          ("stride" ++ toString k0, CValue.long (to_long s0)) ::
            (((dimension_params ks).map (·.2) ++ ["idx"]).zip
              (dimension_values ns ss ++ [CValue.ulong idx])) := by
      simp [dimension_params, dimension_values]
    rw [hl]
    refine ⟨?_, ?_⟩
    · rw [lookup_cons_ne _ _ _ _ (idx_ne_size _), lookup_cons_ne _ _ _ _ (idx_ne_stride _)]
      exact ih.1
    · intro m k hk
      cases m with
      | zero =>
        simp only [List.get?_cons_zero, Option.some.injEq] at hk
        subst hk
        refine ⟨by rw [lookup_cons_eq]; rfl, ?_⟩
        rw [lookup_cons_ne _ _ _ _ (Ne.symm (size_ne_stride _ _)), lookup_cons_eq]
        rfl
      | succ m =>
        simp only [List.get?_cons_succ] at hk
        have hne : k ≠ k0 := by
          intro hkk
          subst hkk
          exact (List.nodup_cons.1 hnd).1 (List.get?_mem hk)
        refine ⟨?_, ?_⟩
        · rw [lookup_cons_ne _ _ _ _ (fun h => hne (size_name_inj h)),
            lookup_cons_ne _ _ _ _ (size_ne_stride _ _)]
          simpa using (ih.2 m k hk).1
        · rw [lookup_cons_ne _ _ _ _ (Ne.symm (size_ne_stride _ _)),
            lookup_cons_ne _ _ _ _ (fun h => hne (stride_name_inj h))]
          simpa using (ih.2 m k hk).2

theorem zip_take_succ {α β : Type} (l : List α) (m : List β) (n : Nat) (a : α) (b : β)
    (hl : n < l.length) (hm : n < m.length) :
    (l.take (n + 1)).zip (m.take (n + 1))
      = (l.take n).zip (m.take n) ++ [(l.getD n a, m.getD n b)] := by
  rw [List.take_succ, List.take_succ, List.getElem?_eq_getElem hl, List.getElem?_eq_getElem hm]
  simp only [Option.toList]
  rw [List.zip_append (by simp [List.length_take]; omega)]
  simp [List.getD, List.getElem?_eq_getElem hl, List.getElem?_eq_getElem hm]

theorem flat_index_succ (i size : List Nat) (n : Nat) (hi : n < i.length) (hs : n < size.length) :
    flat_index (i.take (n + 1)) (size.take (n + 1))
      = flat_index (i.take n) (size.take n) * size.getD n 0 + i.getD n 0 := by
  simp only [flat_index]
  rw [zip_take_succ i size n 0 0 hi hs, List.foldl_append]
  rfl

theorem stride_offset_succ (i : List Nat) (stride : List Int) (n : Nat) (hi : n < i.length)
    (hs : n < stride.length) :
    stride_offset (i.take (n + 1)) (stride.take (n + 1))
      = stride_offset (i.take n) (stride.take n) + (i.getD n 0 : Int) * stride.getD n 0 := by
  simp only [stride_offset]
  rw [zip_take_succ i stride n 0 0 hi hs, List.map_append, List.sum_append]
  simp

theorem run_body_append (env : String → Option CValue) (a b : List HStatement) (st : HState) :
    run_body env (a ++ b) st = (run_body env a st).bind (run_body env b) := by
  induction a generalizing st with
  | nil => rfl
  | cons s a ih =>
    simp only [List.cons_append, run_body]
    cases s.exec env st with
    | none => rfl
    | some st1 => exact ih st1

/-- The loop of the helper: from `idx` the flattened index of the coordinates
`0 .. k` it adds `i_j * stride_j` for `j < k` to `ptr`. -/
theorem run_helper_loop (env : String → Option CValue) (i size : List Nat) (stride : List Int)
    (D : Nat) (hi : i.length = D) (hs : size.length = D) (ht : stride.length = D)
    (hlt : ∀ k, k < D → i.getD k 0 < size.getD k 0)
    (henv_size : ∀ k, k < D → env ("size" ++ toString k) = some (.ulong (size.getD k 0)))
    (henv_stride : ∀ k, k < D →
      env ("stride" ++ toString k) = some (.long (to_long (stride.getD k 0)))) :
    ∀ k, k < D → ∀ (X : Int) (r : Option Nat),
      run_body env (helper_loop k)
          { idx := flat_index (i.take (k + 1)) (size.take (k + 1)),
            ptr := some (to_ulong X), result := r }
        = some { idx := flat_index (i.take 1) (size.take 1),
                 ptr := some (to_ulong (X + stride_offset (i.take k) (stride.take k))),
                 result := r } := by
  intro k
  induction k with
  | zero =>
    intro _ X r
    simp [helper_loop, run_body, stride_offset]
  | succ k ih =>
    intro hk X r
    have hk1 : k < D := by omega
    have hpos1 : size.getD (k + 1) 0 ≠ 0 := by have := hlt (k + 1) hk; omega
    have hpos0 : size.getD k 0 ≠ 0 := by have := hlt k hk1; omega
    have hdiv : flat_index (i.take (k + 1 + 1)) (size.take (k + 1 + 1)) / size.getD (k + 1) 0
        = flat_index (i.take (k + 1)) (size.take (k + 1)) := by
      rw [flat_index_succ i size (k + 1) (by omega) (by omega)]
      rw [Nat.add_comm, Nat.add_mul_div_right _ _ (by omega), Nat.div_eq_of_lt (hlt (k + 1) hk)]
      simp
    have hmod : flat_index (i.take (k + 1)) (size.take (k + 1)) % size.getD k 0
        = i.getD k 0 := by
      rw [flat_index_succ i size k (by omega) (by omega)]
      rw [Nat.add_comm, Nat.add_mul_mod_self_right, Nat.mod_eq_of_lt (hlt k hk1)]
    have hloop : helper_loop (k + 1) =
        HStatement.divide_idx ("size" ++ toString (k + 1)) ::
          HStatement.add_ptr ("size" ++ toString k) ("stride" ++ toString k) ::
            helper_loop k := rfl
    rw [hloop]
    simp only [run_body, HStatement.exec,
      henv_size (k + 1) hk, henv_size k hk1, henv_stride k hk1, hpos1, hpos0, if_false,
      hdiv, hmod, ulong_step]
    rw [ih hk1, stride_offset_succ i stride k (by omega) (by omega), Int.add_assoc,
      Int.add_comm ((i.getD k 0 : Int) * stride.getD k 0)]

theorem dimension_values_length : ∀ (ns : List Nat) (ss : List Int), ns.length = ss.length →
    (dimension_values ns ss).length = 2 * ns.length
  | [], [], _ => rfl
  | [], _ :: _, h => by simp at h
  | _ :: _, [], h => by simp at h
  | n :: ns, s :: ss, h => by
    simp only [dimension_values, List.length_cons,
      dimension_values_length ns ss (by simpa using h)]
    omega

theorem dimension_params_length (ks : List Nat) :
    (dimension_params ks).length = 2 * ks.length := by
  induction ks with
  | nil => rfl
  | cons k ks ih =>
    simp only [dimension_params, List.flatMap_cons, List.length_append, List.length_cons,
      List.length_nil] at ih ⊢
    omega

/-- The environment of a helper call. -/
theorem helper_call_env (D : Nat) (start : CValue) (size : List Nat) (stride : List Int)
    (idx : Nat) (hs : size.length = D) (ht : stride.length = D)
    (h64 : ∀ k, k < D → size.getD k 0 < two64) :
    ((("start", start) :: ((dimension_params (List.range D) ++ [("ulong", "idx")]).map (·.2)).zip
        (dimension_values size stride ++ [CValue.ulong idx])).lookup "start" = some start)
    ∧ ((("start", start) :: ((dimension_params (List.range D) ++ [("ulong", "idx")]).map (·.2)).zip
        (dimension_values size stride ++ [CValue.ulong idx])).lookup "idx" = some (.ulong idx))
    ∧ (∀ k, k < D →
        (("start", start) :: ((dimension_params (List.range D) ++ [("ulong", "idx")]).map (·.2)).zip
          (dimension_values size stride ++ [CValue.ulong idx])).lookup ("size" ++ toString k)
          = some (.ulong (size.getD k 0)))
    ∧ (∀ k, k < D →
        (("start", start) :: ((dimension_params (List.range D) ++ [("ulong", "idx")]).map (·.2)).zip
          (dimension_values size stride ++ [CValue.ulong idx])).lookup ("stride" ++ toString k)
          = some (.long (to_long (stride.getD k 0)))) := by
  have hl := lookup_dimension idx (List.range D) size stride (by simp [hs]) (by simp [ht])
    (List.nodup_range D)
  have hmap : (dimension_params (List.range D) ++ [("ulong", "idx")]).map (·.2)
      = (dimension_params (List.range D)).map (·.2) ++ ["idx"] := by simp
  rw [hmap]
  refine ⟨lookup_cons_eq _ _ _, ?_, ?_, ?_⟩
  · rw [lookup_cons_ne _ _ _ _ (by decide)]
    exact hl.1
  · intro k hk
    rw [lookup_cons_ne _ _ _ _ (Ne.symm (start_ne_size _))]
    rw [(hl.2 k k (by simp [List.get?_eq_getElem?, List.getElem?_range hk])).1]
    have hk2 : k < size.length := by omega
    have := h64 k hk
    simp only [List.getD, List.get?_eq_getElem?, List.getElem?_eq_getElem hk2, Option.map,
      Option.getD] at this ⊢
    rw [Nat.mod_eq_of_lt this]
  · intro k hk
    rw [lookup_cons_ne _ _ _ _ (Ne.symm (start_ne_stride _))]
    rw [(hl.2 k k (by simp [List.get?_eq_getElem?, List.getElem?_range hk])).2]
    have hk2 : k < stride.length := by omega
    simp only [List.getD, List.get?_eq_getElem?, List.getElem?_eq_getElem hk2, Option.map,
      Option.getD]

/-- Claim C9: for `D >= 1`, a descriptor with sizes below `2^64` and coordinates
`i_k < size[k]` whose row-major flattened index is a `ulong`, the text that
`indexing_function` writes is the helper `gslice.helper`, and this helper, called
with `start`, the sizes and strides and the flattened index, returns
`start + sum of i_k * stride[k]` in 64 bit wrap-around arithmetic (the strides
being signed). -/
theorem slice_index_mapping (D component position : Nat) (slice : gslice) (i : List Nat)
    (hD : 0 < D) (hs : slice.size.length = D) (ht : slice.stride.length = D)
    (hi : i.length = D)
    (hlt : ∀ k, k < D → i.getD k 0 < slice.size.getD k 0)
    (h64 : ∀ k, k < D → slice.size.getD k 0 < two64)
    (hflat : flat_index i slice.size < two64) :
    gslice.indexing_function D component position
      = some (gslice.helper D component position).text
    ∧ (gslice.helper D component position).call (.ulong (slice.start % two64))
        (dimension_values slice.size slice.stride
          ++ [.ulong (flat_index i slice.size % two64)])
      = some (to_ulong (slice.start + stride_offset i slice.stride)) := by
  refine ⟨indexing_function_eq D component position hD, ?_⟩
  have hfull_i : i.take D = i := List.take_of_length_le (by omega)
  have hfull_s : slice.size.take D = slice.size := List.take_of_length_le (by omega)
  have hfull_t : slice.stride.take D = slice.stride := List.take_of_length_le (by omega)
  have hidx : flat_index i slice.size % two64
      = flat_index (i.take (D - 1 + 1)) (slice.size.take (D - 1 + 1)) := by
    rw [Nat.mod_eq_of_lt hflat, Nat.sub_add_cancel hD, hfull_i, hfull_s]
  rw [hidx]
  obtain ⟨e1, e2, e3, e4⟩ := helper_call_env D (.ulong (slice.start % two64)) slice.size
    slice.stride (flat_index (i.take (D - 1 + 1)) (slice.size.take (D - 1 + 1))) hs ht h64
  have hlen : (dimension_values slice.size slice.stride
      ++ [CValue.ulong (flat_index (i.take (D - 1 + 1)) (slice.size.take (D - 1 + 1)))]).length
      = (gslice.helper D component position).params.length := by
    simp [gslice.helper, dimension_values_length _ _ (hs.trans ht.symm),
      dimension_params_length, hs]
  have hmod : flat_index (i.take (D - 1 + 1)) (slice.size.take (D - 1 + 1))
      % slice.size.getD (D - 1) 0 = i.getD (D - 1) 0 := by
    rw [flat_index_succ i slice.size (D - 1) (by omega) (by omega)]
    rw [Nat.add_comm, Nat.add_mul_mod_self_right, Nat.mod_eq_of_lt (hlt (D - 1) (by omega))]
  have hsum : stride_offset i slice.stride
      = stride_offset (i.take (D - 1)) (slice.stride.take (D - 1))
        + (i.getD (D - 1) 0 : Int) * slice.stride.getD (D - 1) 0 := by
    have := stride_offset_succ i slice.stride (D - 1) (by omega) (by omega)
    rw [Nat.sub_add_cancel hD, hfull_i, hfull_t] at this
    exact this
  have hpos : slice.size.getD (D - 1) 0 ≠ 0 := by have := hlt (D - 1) (by omega); omega
  unfold Helper.call
  rw [if_pos hlen]
  simp only [gslice.helper] at e1 e2 e3 e4 ⊢
  simp only [e2]
  by_cases hd : D = 1
  · subst hd
    have h0 : "stride0" = "stride" ++ toString 0 := by decide
    have hone : flat_index (i.take 1) (slice.size.take 1) = i.getD 0 0 := by
      rw [flat_index_succ i slice.size 0 (by omega) (by omega)]
      simp [flat_index]
    have hzero : stride_offset (i.take 0) (slice.stride.take 0) = 0 := by
      simp [stride_offset]
    simp only [if_true, run_body, HStatement.exec, e1, h0, e4 0 (by omega), Option.bind]
    rw [hone, ulong_start, hsum, hzero, Int.zero_add]
  · simp only [hd, if_false, List.cons_append, List.nil_append, run_body, HStatement.exec, e1,
      e3 (D - 1) (by omega), e4 (D - 1) (by omega), hpos]
    rw [hmod, ulong_start, run_body_append]
    rw [run_helper_loop _ i slice.size slice.stride D hi hs ht hlt e3 e4 (D - 1) (by omega)]
    simp only [Option.bind, run_body, HStatement.exec]
    rw [hsum]
    congr 2
    ring

theorem slice_index_mapping_witness :
    gslice.indexing_function 3 1 2 = some (gslice.helper 3 1 2).text
    ∧ (gslice.helper 3 1 2).call (.ulong (5 % two64))
        (dimension_values [3, 4, 5] [2, -1, 7]
          ++ [.ulong (flat_index [2, 3, 4] [3, 4, 5] % two64)])
      = some (to_ulong ((5 : Nat) + stride_offset [2, 3, 4] [2, -1, 7])) :=
  slice_index_mapping 3 1 2 { start := 5, size := [3, 4, 5], stride := [2, -1, 7] } [2, 3, 4]
    (by decide) (by decide) (by decide) (by decide) (by decide) (by decide) (by decide)

/-! ## One-dimensional views -/

theorem dimension_names_append (prm : String) (a b : List Nat) :
    dimension_names prm (a ++ b) = dimension_names prm a ++ dimension_names prm b := by
  simp [dimension_names, List.flatMap_append]

/-- The text `partial_expression` writes is the text of `gslice.view_expr`. -/
theorem partial_expression_eq (NDIM component position : Nat) :
    gslice.partial_expression NDIM component position
      = (gslice.view_expr NDIM component position).text := by
  have hloop : ∀ (n : Nat) (prm s : String),
      (List.range n).foldl (fun s k => s ++ ", " ++ prm ++ "size" ++ toString k ++ ", " ++ prm
          ++ "stride" ++ toString k) s
        = s ++ String.join ((dimension_names prm (List.range n)).map fun a => ", " ++ a) := by
    intro n prm s
    induction n with
    | zero => simp [dimension_names, string_join_nil, string_append_empty]
    | succ n ih =>
      rw [List.range_succ, List.foldl_append, ih, dimension_names_append]
      simp only [List.foldl_cons, List.foldl_nil, List.map_append, string_join_append,
        dimension_names, List.flatMap_cons, List.flatMap_nil, List.append_nil, List.map_cons,
        List.map_nil, string_join_cons, string_join_nil, string_append_empty,
        String.append_assoc]
  have h1 : ", idx)]" = ", " ++ "idx" ++ ")]" := by decide
  have h2 : "base[" = "base" ++ "[" := by decide
  unfold gslice.partial_expression
  simp only []
  rw [hloop]
  simp only [gslice.view_expr, ViewExpr.text, List.map_append,
    string_join_append, List.map_cons, List.map_nil, string_join_cons, string_join_nil,
    string_append_empty, h1, h2, String.append_assoc]

theorem to_ulong_of_range (x : Int) (h0 : 0 ≤ x) (h1 : x < (two64 : Int)) :
    to_ulong x = x.toNat := by
  unfold to_ulong
  rw [Int.emod_eq_of_lt h0 h1]

theorem view_name_ne (prm a b : String) (h : a ≠ b) : prm ++ a ≠ prm ++ b :=
  fun hab => h (string_append_left_cancel hab)

theorem view_prm_ne_idx (component position : Nat) (x : String) :
    view_prm component position ++ x ≠ "idx" := by
  intro h
  have := congrArg String.data h
  simp [view_prm, String.data_append] at this

/-- The kernel environment of a one-dimensional view: what the four declared
names stand for after `setArgs`. -/
theorem view_environment {V : Type} (component position base start size : Nat) (stride : Int)
    (kernel : cl_Kernel V) (pos : Nat) :
    ∃ krn1 pos1,
      kernel_arg_setter_set 1 kernel 0 pos
        { base := base, slice := { start := start, size := [size], stride := [stride] } }
        = some (krn1, pos1)
      ∧ bind_names (gslice.parameter_names 1 component position) pos krn1
          (view_prm component position ++ "base")
          = some (.buffer { vector := base, device := 0 })
      ∧ bind_names (gslice.parameter_names 1 component position) pos krn1
          (view_prm component position ++ "start") = some (.ulong start)
      ∧ bind_names (gslice.parameter_names 1 component position) pos krn1
          (view_prm component position ++ "size0") = some (.ulong size)
      ∧ bind_names (gslice.parameter_names 1 component position) pos krn1
          (view_prm component position ++ "stride0") = some (.long stride) := by
  have hn : gslice.parameter_names 1 component position
      = [view_prm component position ++ "base", view_prm component position ++ "start",
         view_prm component position ++ "size0", view_prm component position ++ "stride0"] := by
    have h1 : "size" ++ toString 0 = "size0" := by decide
    have h2 : "stride" ++ toString 0 = "stride0" := by decide
    simp only [gslice.parameter_names, dimension_names, List.range_succ, List.range_zero,
      List.nil_append, List.flatMap_cons, List.flatMap_nil, List.append_nil, List.cons_append,
      String.append_assoc, h1, h2]
  have n1 := view_name_ne (view_prm component position) "start" "base" (by decide)
  have n2 := view_name_ne (view_prm component position) "size0" "base" (by decide)
  have n3 := view_name_ne (view_prm component position) "size0" "start" (by decide)
  have n4 := view_name_ne (view_prm component position) "stride0" "base" (by decide)
  have n5 := view_name_ne (view_prm component position) "stride0" "start" (by decide)
  have n6 := view_name_ne (view_prm component position) "stride0" "size0" (by decide)
  refine ⟨(((kernel.setArg pos (.buffer { vector := base, device := 0 })).setArg (pos + 1)
      (.ulong start)).setArg (pos + 2) (.ulong size)).setArg (pos + 2 + 1) (.long stride),
    pos + 2 + 2, ?_, ?_, ?_, ?_, ?_⟩
  · simp [kernel_arg_setter_set, gslice.setArgs, List.range_succ, set_slice_args]
  · rw [hn]
    simp [bind_names, setArg_arg]
    omega
  · rw [hn]
    simp [bind_names, n1, setArg_arg]
  · rw [hn]
    simp [bind_names, n2, n3, setArg_arg]
  · rw [hn]
    simp [bind_names, n4, n5, n6, setArg_arg]

/-- Claim C10: element `idx < size` of a one-dimensional view `(start, size, stride)`
over a base array is the element of the base at `start + idx * stride`, the
offset being an index the kernel can form (`0 <= start + idx * stride < 2^64`);
the view `start = 5, size = 3, stride = 2` over `[0, 1, .., 9]` reads
`[5, 7, 9]`. -/
theorem one_dimensional_view {V : Type} (component position base start size : Nat)
    (stride : Int) (kernel : cl_Kernel V) (pos : Nat) (mem : Memory V) (idx : Nat)
    (hidx : idx < size) (hsize : size < two64)
    (hlo : 0 ≤ (start : Int) + idx * stride) (hhi : (start : Int) + idx * stride < two64) :
    gslice.partial_expression 1 component position
      = (gslice.view_expr 1 component position).text
    ∧ gslice.indexing_function 1 component position
      = some (gslice.helper 1 component position).text
    ∧ vector_view.element 1 component position
        { base := base, slice := { start := start, size := [size], stride := [stride] } }
        kernel pos mem idx
      = some (mem { vector := base, device := 0 } ((start : Int) + idx * stride).toNat)
    ∧ (List.range 3).map (fun i =>
        vector_view.element 1 1 1 sample_view ({ args := [] } : cl_Kernel Nat) 0
          (memory_of 7 [0, 1, 2, 3, 4, 5, 6, 7, 8, 9] 0) i)
      = [some 5, some 7, some 9] := by
  refine ⟨partial_expression_eq 1 component position,
    indexing_function_eq 1 component position (by decide), ?_, by decide⟩
  obtain ⟨krn1, pos1, hset, hbase, hstart, hsz, hst⟩ :=
    view_environment component position base start size stride kernel pos
  obtain ⟨e1, e2, e3, e4⟩ := helper_call_env 1 (.ulong (start % two64)) [size] [stride]
    (idx % two64) rfl rfl (by
      intro k hk
      have : k = 0 := by omega
      subst this
      simpa using hsize)
  have h1 : "size" ++ toString 0 = "size0" := by decide
  have h2 : "stride" ++ toString 0 = "stride0" := by decide
  have hargs : view_arguments
      (bind_names (gslice.parameter_names 1 component position) pos krn1) idx
      (gslice.view_expr 1 component position).args
      = some [.ulong (size % two64), .long (to_long stride), .ulong (idx % two64)] := by
    simp only [gslice.view_expr, dimension_names, List.range_succ, List.range_zero,
      List.nil_append, List.flatMap_cons, List.flatMap_nil, List.append_nil, List.cons_append,
      String.append_assoc, h1, h2, view_arguments, view_prm_ne_idx, if_false, if_true, hsz, hst,
      Option.bind, KernelArg.scalar]
  have hcall : (gslice.helper 1 component position).call (.ulong (start % two64))
      (dimension_values [size] [stride] ++ [.ulong (idx % two64)])
      = some (((start : Int) + idx * stride).toNat) := by
    have hlen : (dimension_values [size] [stride] ++ [CValue.ulong (idx % two64)]).length
        = (gslice.helper 1 component position).params.length := by
      simp [gslice.helper, dimension_values, dimension_params, List.range_succ]
    have h0 : "stride0" = "stride" ++ toString 0 := by decide
    unfold Helper.call
    rw [if_pos hlen]
    simp only [gslice.helper] at e1 e2 e4 ⊢
    simp only [e2]
    simp only [if_true, run_body, HStatement.exec, e1, h0, e4 0 (by omega), Option.bind]
    rw [Nat.mod_eq_of_lt (show idx < two64 by omega), ulong_start]
    rw [to_ulong_of_range _ (by simpa using hlo) (by simpa using hhi)]
    simp
  have hname : (gslice.view_expr 1 component position).helper
      = (gslice.helper 1 component position).name := rfl
  have hb : (gslice.view_expr 1 component position).base
      = view_prm component position ++ "base" := rfl
  have hs : (gslice.view_expr 1 component position).start
      = view_prm component position ++ "start" := rfl
  simp only [vector_view.element, hset, ViewExpr.eval, hargs, hb, hs, hbase, hstart,
    Option.bind, KernelArg.scalar, hname, if_true]
  rw [show ([CValue.ulong (size % two64), .long (to_long stride), .ulong (idx % two64)]
      : List CValue) = dimension_values [size] [stride] ++ [.ulong (idx % two64)] from rfl,
    hcall]
  rfl

theorem one_dimensional_view_witness :
    vector_view.element 1 1 1 sample_view ({ args := [] } : cl_Kernel Nat) 0
        (memory_of 7 [0, 1, 2, 3, 4, 5, 6, 7, 8, 9] 0) 2
      = some (memory_of 7 [0, 1, 2, 3, 4, 5, 6, 7, 8, 9] 0 { vector := 7, device := 0 }
          (((5 : Nat) : Int) + (2 : Nat) * 2).toNat) :=
  (one_dimensional_view 1 1 7 5 3 2 ({ args := [] } : cl_Kernel Nat) 0
    (memory_of 7 [0, 1, 2, 3, 4, 5, 6, 7, 8, 9] 0) 2 (by decide) (by decide) (by decide)
    (by decide)).2.2.1

/-! ## The slicer -/

theorem foldl_mul_mod (m : Nat) (l : List Nat) : ∀ a : Nat,
    l.foldl (fun acc d => acc * d % m) (a % m) = a * l.prod % m := by
  induction l with
  | nil => intro a; simp
  | cons d l ih =>
    intro a
    rw [List.foldl_cons, ih, List.prod_cons, ← Nat.mul_assoc, Nat.mul_mod (a % m * d),
      Nat.mul_mod (a * d), Nat.mul_mod (a % m) d, Nat.mul_mod a d, Nat.mod_mod]

theorem trailing_product_eq (dim : List Nat) (k : Nat) :
    trailing_product dim k = (dim.drop k).prod % two64 := by
  have h := foldl_mul_mod two64 (dim.drop k) 1
  rw [Nat.one_mul] at h
  exact h

theorem to_long_of_range (x : Int) (h0 : -9223372036854775808 ≤ x)
    (h1 : x < 9223372036854775808) : to_long x = x := by
  unfold to_long
  have h : (two64 : Int) = 18446744073709551616 := by decide
  rw [h, Int.emod_eq_of_lt (by omega) (by omega)]
  omega

theorem to_long_idem (x : Int) : to_long (to_long x) = to_long x := by
  apply to_long_of_range
  · unfold to_long
    have h : (two64 : Int) = 18446744073709551616 := by decide
    rw [h]
    have := Int.emod_nonneg (x + 9223372036854775808)
      (show (18446744073709551616 : Int) ≠ 0 by decide)
    omega
  · unfold to_long
    have h : (two64 : Int) = 18446744073709551616 := by decide
    rw [h]
    have := Int.emod_lt_of_pos (x + 9223372036854775808)
      (show (0 : Int) < 18446744073709551616 by decide)
    omega

/-- The rounding-up division of `range.count` when nothing wraps. -/
theorem range_count_eq (r : range) (h1 : r.start ≤ r.stop) (h2 : 1 ≤ r.stride)
    (h3 : r.stop - r.start + r.stride - 1 < two64) :
    r.count = some ((r.stop - r.start + r.stride - 1) / r.stride) := by
  unfold range.count
  rw [if_neg (by omega)]
  have hx : ((r.stop : Int) - r.start + r.stride - 1)
      = ((r.stop - r.start + r.stride - 1 : Nat) : Int) := by omega
  rw [hx, to_ulong_of_range _ (by omega) (by exact_mod_cast h3)]
  simp

/-- The quotient `(a + s - 1) / s` is `a / s` rounded up. -/
theorem ceil_count (a s : Nat) (hs : 1 ≤ s) :
    ⌈((a : ℚ) / (s : ℚ))⌉₊ = (a + s - 1) / s := by
  apply le_antisymm
  · rw [Nat.ceil_le, div_le_iff₀ (by exact_mod_cast hs)]
    have h : a ≤ (a + s - 1) / s * s := by
      have h1 := Nat.div_add_mod (a + s - 1) s
      have h2 := Nat.mod_lt (a + s - 1) (show 0 < s by omega)
      have h3 : s * ((a + s - 1) / s) = (a + s - 1) / s * s := Nat.mul_comm _ _
      omega
    exact_mod_cast h
  · rw [Nat.div_le_iff_le_mul_add_pred (by omega)]
    have h : (a : ℚ) ≤ (s : ℚ) * ⌈((a : ℚ) / (s : ℚ))⌉₊ := by
      have h1 := Nat.le_ceil ((a : ℚ) / (s : ℚ))
      rw [div_le_iff₀ (by exact_mod_cast hs)] at h1
      linarith
    have h2 : a ≤ s * ⌈((a : ℚ) / (s : ℚ))⌉₊ := by exact_mod_cast h
    omega

theorem select_append (D : Nat) (s : slicer) (l : List range) (a : range) :
    select D s (l ++ [a]) = (select D s l).bind fun st => st.operator_index D a := by
  unfold select
  rw [List.foldlM_append]
  cases h : List.foldlM (Selection.operator_index D) (Selection.slicer s) l with
  | none => rfl
  | some st =>
    show List.foldlM (Selection.operator_index D) st [a] = _
    simp [List.foldlM]

theorem set_length_append {α : Type} (xs : List α) (y v : α) (ys : List α) :
    (xs ++ y :: ys).set xs.length v = xs ++ v :: ys := by
  induction xs with
  | nil => rfl
  | cons x xs ih => simp [ih]

theorem row_major_offset_append (dim c : List Nat) (x : Nat) :
    row_major_offset dim (c ++ [x])
      = row_major_offset dim c + x * (dim.drop (c.length + 1)).prod := by
  unfold row_major_offset
  rw [List.length_append, List.length_singleton, List.range_succ, List.map_append,
    List.sum_append]
  congr 1
  · apply congrArg
    apply List.map_congr_left
    intro k hk
    rw [List.mem_range] at hk
    rw [List.getD_append _ _ _ _ hk]
  · simp [List.getD_append_right]

theorem start_step (A B C m : Nat) : (A % m + B * (C % m) % m) % m = (A + B * C) % m := by
  have h1 : B * (C % m) % m = B * C % m := by
    rw [Nat.mul_mod, Nat.mod_mod, ← Nat.mul_mod]
  rw [h1, ← Nat.add_mod]

theorem map_mod_of_lt (l : List Nat) (h : ∀ d ∈ l, d < two64) : l.map (· % two64) = l := by
  induction l with
  | nil => rfl
  | cons d l ih =>
    rw [List.map_cons, Nat.mod_eq_of_lt (h d (by simp)), ih (fun x hx => h x (by simp [hx]))]

theorem map_to_long_of_range (l : List Int)
    (h : ∀ x ∈ l, -9223372036854775808 ≤ x ∧ x < 9223372036854775808) : l.map to_long = l := by
  induction l with
  | nil => rfl
  | cons d l ih =>
    rw [List.map_cons, to_long_of_range d (h d (by simp)).1 (h d (by simp)).2,
      ih (fun x hx => h x (by simp [hx]))]

/-- The descriptor after the selections `rs` (at least one, at most `D`) on a
slicer of rank `D`, when no `size_t` value wraps. -/
theorem select_closed_form (D : Nat) (s : slicer) (hD : s.dim.length = D)
    (hdim : ∀ d ∈ s.dim, d < two64) (rs : List range) :
    rs ≠ [] → rs.length ≤ D →
    (∀ r ∈ rs, r.start ≤ r.stop ∧ 1 ≤ r.stride ∧ r.stop - r.start + r.stride - 1 < two64
      ∧ r.stride < 2 ^ 63) →
    select D s rs = some (.slice
      { start := row_major_offset s.dim (rs.map (·.start)) % two64,
        size := rs.map (fun r => (r.stop - r.start + r.stride - 1) / r.stride)
                  ++ s.dim.drop rs.length,
        stride := rs.map (fun r => (r.stride : Int)) ++ List.replicate (D - rs.length) 1,
        CDIM := rs.length - 1,
        dim := s.dim }) := by
  induction rs using List.reverseRecOn with
  | nil => intro h; exact absurd rfl h
  | append_singleton l a ih =>
    intro _ hlen hr
    rw [List.length_append, List.length_singleton] at hlen
    obtain ⟨ha1, ha2, ha3, ha4⟩ := hr a (by simp)
    have hcount := range_count_eq a ha1 ha2 ha3
    have hn : (a.stop - a.start + a.stride - 1) / a.stride < two64 :=
      lt_of_le_of_lt (Nat.div_le_self _ _) ha3
    have hsizes : ∀ (l : List range), (∀ r ∈ l, r.stop - r.start + r.stride - 1 < two64) →
        ∀ d ∈ l.map (fun r => (r.stop - r.start + r.stride - 1) / r.stride)
          ++ s.dim.drop l.length, d < two64 := by
      intro l hl d hd
      rw [List.mem_append] at hd
      rcases hd with hd | hd
      · obtain ⟨r, hr1, hr2⟩ := List.mem_map.mp hd
        rw [← hr2]
        exact lt_of_le_of_lt (Nat.div_le_self _ _) (hl r hr1)
      · exact hdim d (List.mem_of_mem_drop hd)
    have hstrides : ∀ (l : List range) (n : Nat), (∀ r ∈ l, r.stride < 2 ^ 63) →
        ∀ x ∈ l.map (fun r => (r.stride : Int)) ++ List.replicate n 1,
          -9223372036854775808 ≤ x ∧ x < 9223372036854775808 := by
      intro l n hl x hx
      rw [List.mem_append] at hx
      rcases hx with hx | hx
      · obtain ⟨r, hr1, hr2⟩ := List.mem_map.mp hx
        have := hl r hr1
        rw [← hr2]
        omega
      · rw [List.eq_of_mem_replicate hx]
        omega
    rw [select_append]
    by_cases hnil : l = []
    · subst hnil
      have h0 : select D s [] = some (.slicer s) := rfl
      rw [h0]
      simp only [Option.bind, Selection.operator_index, slicer.operator_index, hcount,
        slice.ctor, gslice.ctor]
      have hlen2 : (((a.stop - a.start + a.stride - 1) / a.stride) :: List.drop 1 s.dim).length
          = D := by
        rw [List.length_cons, List.length_drop]
        simp only [List.length_nil] at hlen
        omega
      have hlen3 : ((a.stride : Int) :: List.replicate (D - 1) 1).length = D := by
        rw [List.length_cons, List.length_replicate]
        simp only [List.length_nil] at hlen
        omega
      rw [if_pos ⟨by simp only [List.length_nil] at hlen; omega, hlen2, hlen3⟩]
      have hs := map_mod_of_lt _ (hsizes [a] (fun r hr0 => (hr r (by simpa using hr0)).2.2.1))
      have ht := map_to_long_of_range _
        (hstrides [a] (D - 1) (fun r hr0 => (hr r (by simpa using hr0)).2.2.2))
      simp only [List.map_cons, List.map_nil, List.length_singleton, List.cons_append,
        List.nil_append, List.length_nil] at hs ht ⊢
      rw [hs, ht]
      have hstart : a.start * trailing_product s.dim 1 % two64 % two64
          = row_major_offset s.dim [a.start] % two64 := by
        have h := row_major_offset_append s.dim [] a.start
        have h00 : row_major_offset s.dim [] = 0 := rfl
        rw [List.nil_append, h00, Nat.zero_add, List.length_nil] at h
        rw [h, trailing_product_eq, Nat.mod_mod, Nat.mul_mod, Nat.mod_mod, ← Nat.mul_mod]
      rw [hstart]
      rfl
    · have hl := ih hnil (by omega) (fun r hr0 => hr r (by simp [hr0]))
      rw [hl]
      have hpos : 0 < l.length := List.length_pos.mpr hnil
      have hidx : l.length < s.dim.length := by omega
      have hlt : l.length - 1 + 1 < D := by omega
      simp only [Option.bind, Selection.operator_index, slice.operator_index, hlt, if_true]
      unfold slice.from_parent
      simp only [gslice.ctor, hcount]
      have hlen2 : (l.map (fun r : range => (r.stop - r.start + r.stride - 1) / r.stride)
          ++ s.dim.drop l.length).length = D := by
        rw [List.length_append, List.length_map, List.length_drop]
        omega
      have hlen3 : (l.map (fun r : range => (r.stride : Int)) ++ List.replicate (D - l.length) 1).length
          = D := by
        rw [List.length_append, List.length_map, List.length_replicate]
        omega
      rw [if_pos ⟨by omega, hlen2, hlen3⟩]
      have hs := map_mod_of_lt _ (hsizes l (fun r hr0 => (hr r (by simp [hr0])).2.2.1))
      have ht := map_to_long_of_range _
        (hstrides l (D - l.length) (fun r hr0 => (hr r (by simp [hr0])).2.2.2))
      simp only [hs, ht]
      have hk : l.length - 1 + 1 = l.length := by omega
      have hdrop : s.dim.drop l.length
          = s.dim.get ⟨l.length, hidx⟩ :: s.dim.drop (l.length + 1) :=
        List.drop_eq_getElem_cons hidx
      have hrep : List.replicate (D - l.length) (1 : Int)
          = 1 :: List.replicate (D - (l.length + 1)) 1 := by
        have : D - l.length = (D - (l.length + 1)) + 1 := by omega
        rw [this, List.replicate_succ]
      have hset1 := set_length_append
        (l.map (fun r : range => (r.stop - r.start + r.stride - 1) / r.stride))
        (s.dim.get ⟨l.length, hidx⟩) ((a.stop - a.start + a.stride - 1) / a.stride)
        (s.dim.drop (l.length + 1))
      have hset2 := set_length_append (l.map (fun r : range => (r.stride : Int))) 1
        (a.stride : Int) (List.replicate (D - (l.length + 1)) 1)
      rw [List.length_map] at hset1 hset2
      have hst : to_long (a.stride : Int) = a.stride := to_long_of_range _ (by omega) (by omega)
      rw [hk, hdrop, hrep, hst, hset1, hset2, trailing_product_eq, Nat.mod_mod, start_step]
      simp only [List.map_append, List.map_cons, List.map_nil, List.length_append,
        List.length_singleton, List.append_assoc, List.singleton_append,
        Nat.add_sub_cancel]
      rw [row_major_offset_append, List.length_map]
      rfl

/-- After at least one selection the result is a `slice<CDIM>` with
`CDIM + 1` selections made. -/
theorem select_stage (D : Nat) (s : slicer) (rs : List range) :
    ∀ st, rs ≠ [] → select D s rs = some st →
      ∃ sl, st = .slice sl ∧ sl.CDIM + 1 = rs.length := by
  induction rs using List.reverseRecOn with
  | nil => intro st h; exact absurd rfl h
  | append_singleton l a ih =>
    intro st _ h
    rw [select_append] at h
    cases hl : select D s l with
    | none => rw [hl] at h; cases h
    | some st0 =>
      rw [hl] at h
      by_cases hnil : l = []
      · subst hnil
        have h0 : st0 = .slicer s := by
          have : select D s [] = some (.slicer s) := rfl
          rw [this] at hl
          exact (Option.some.inj hl).symm
        subst h0
        simp only [Option.bind, Selection.operator_index, slicer.operator_index] at h
        cases hc : a.count with
        | none => rw [hc] at h; cases h
        | some n =>
          rw [hc] at h
          simp only [slice.ctor] at h
          cases hg : gslice.ctor D (a.start * trailing_product s.dim 1 % two64)
              (n :: List.drop 1 s.dim) ((a.stride : Int) :: List.replicate (D - 1) 1) with
          | none => rw [hg] at h; cases h
          | some g =>
            rw [hg] at h
            simp only [Option.map] at h
            refine ⟨_, (Option.some.inj h).symm, ?_⟩
            simp
      · obtain ⟨sl, hsl, hcd⟩ := ih st0 hnil hl
        subst hsl
        simp only [Option.bind, Selection.operator_index, slice.operator_index] at h
        by_cases hlt : sl.CDIM + 1 < D
        · rw [if_pos hlt] at h
          unfold slice.from_parent at h
          cases hg : gslice.ctor D sl.start sl.size sl.stride with
          | none => rw [hg] at h; cases h
          | some g =>
            cases hc : a.count with
            | none => rw [hg, hc] at h; cases h
            | some n =>
              rw [hg, hc] at h
              simp only [Option.map] at h
              refine ⟨_, (Option.some.inj h).symm, ?_⟩
              simp [hcd]
        · rw [if_neg hlt] at h
          cases h

/-- The descriptor after any number `rs.length <= D` of selections. -/
theorem select_descriptor (D : Nat) (s : slicer) (hD : s.dim.length = D)
    (hdim : ∀ d ∈ s.dim, d < two64) (rs : List range) (hlen : rs.length ≤ D)
    (hr : ∀ r ∈ rs, r.start ≤ r.stop ∧ 1 ≤ r.stride ∧ r.stop - r.start + r.stride - 1 < two64
      ∧ r.stride < 2 ^ 63) :
    ∃ st, select D s rs = some st
      ∧ st.descriptor D =
        { start := row_major_offset s.dim (rs.map (·.start)) % two64,
          size := rs.map (fun r => (r.stop - r.start + r.stride - 1) / r.stride)
                    ++ s.dim.drop rs.length,
          stride := rs.map (fun r => (r.stride : Int)) ++ List.replicate (D - rs.length) 1 }
      ∧ (rs ≠ [] → ∃ sl, st = .slice sl) := by
  by_cases hnil : rs = []
  · subst hnil
    exact ⟨.slicer s, rfl, rfl, fun h => absurd rfl h⟩
  · exact ⟨_, select_closed_form D s hD hdim rs hnil hlen hr, rfl, fun _ => ⟨_, rfl⟩⟩

/-! ### The example of rank 2 -/

/-- Claim C11: the rank-2 slicer over target dimensions `[4,4]` with `range(1,3)`
on dimension 0 and then `range(0,4)` on dimension 1 is evaluated here: the code
yields `start = 4` and `size = [2,4]`, but `stride = [1,1]`, not `[4,1]`: the
stride of dimension 0 lacks the factor 4 (the product of the trailing
dimensions) that `start` is given. -/
theorem rank_two_slicer_example :
    (slicer.ctor 2 [4, 4]).bind (fun s => select 2 s sample_ranges)
      = some (.slice { start := 4, size := [2, 4], stride := [1, 1], CDIM := 1, dim := [4, 4] })
    ∧ (slicer.ctor 2 [4, 4]).bind (fun s => select 2 s sample_ranges)
      ≠ some (.slice { start := 4, size := [2, 4], stride := [4, 1], CDIM := 1, dim := [4, 4] })
    ∧ ((slicer.ctor 2 [4, 4]).bind (fun s => select 2 s [range.of_bounds 1 3])).map
        (fun st => (st.descriptor 2).stride) = some [1, 1] := by
  refine ⟨by decide, ?_, by decide⟩
  have h : (slicer.ctor 2 [4, 4]).bind (fun s => select 2 s sample_ranges)
      = some (.slice { start := 4, size := [2, 4], stride := [1, 1], CDIM := 1, dim := [4, 4] }) := by
    decide
  rw [h]
  decide

/-- Claim C12: the view of the rank-2 slicer over `[4,4]` with `range(1,3)` and
`range(0,4)` is evaluated here: for the flattened indices `0..7` the helper
returns the offsets `4,5,6,7,5,6,7,8`, while the row-major offsets of the selected
elements (rows 1 and 2) are `4..11`. -/
theorem slicer_view_offsets :
    (slicer.ctor 2 [4, 4]).bind (fun s => select 2 s sample_ranges)
      = some (.slice { start := 4, size := [2, 4], stride := [1, 1], CDIM := 1, dim := [4, 4] })
    ∧ view_offsets 2 1 1 { start := 4, size := [2, 4], stride := [1, 1] } 8
      = [some 4, some 5, some 6, some 7, some 5, some 6, some 7, some 8]
    ∧ (List.range 8).map (fun idx => row_major_offset [4, 4] [1 + idx / 4 * 1, 0 + idx % 4 * 1])
      = [4, 5, 6, 7, 8, 9, 10, 11]
    ∧ (view_offsets 2 1 1 { start := 4, size := [2, 4], stride := [1, 1] } 8).get? 4 = some (some 5)
    ∧ row_major_offset [4, 4] [1 + 1, 0 + 0] = 8 := by
  refine ⟨by decide, by decide, by decide, by decide, by decide⟩

/-! ### Accumulation -/

/-- Claim C13: for a slicer of rank `D` over dimensions `d` and ranges
`r_0..r_(D-1)` with `start <= stop` and `stride >= 1` (whose values do not wrap
in `size_t`, the strides fitting `cl_long`), selecting dimension `k` adds
`r_k.start * product of d_j for j > k` to `start` (in `size_t` arithmetic), sets
`size[k]` to `(r_k.stop - r_k.start) / r_k.stride` rounded up and `stride[k]` to
`r_k.stride`, and changes no other entry of `size` and `stride`; after all `D`
selections `start` is the sum of `r_k.start * product of d_j for j > k`. -/
theorem slicer_accumulation (D : Nat) (s : slicer) (rs : List range) (k : Nat)
    (hD : s.dim.length = D) (hdim : ∀ d ∈ s.dim, d < two64) (hrs : rs.length = D) (hk : k < D)
    (hr : ∀ r ∈ rs, r.start ≤ r.stop ∧ 1 ≤ r.stride ∧ r.stop - r.start + r.stride - 1 < two64
      ∧ r.stride < 2 ^ 63) :
    ∃ (r : range) (before after final : Selection),
      rs.get? k = some r
      ∧ select D s (rs.take k) = some before
      ∧ before.operator_index D r = some after
      ∧ (before.descriptor D).size.length = D
      ∧ (before.descriptor D).stride.length = D
      ∧ (after.descriptor D).start
          = ((before.descriptor D).start + r.start * (s.dim.drop (k + 1)).prod) % two64
      ∧ (after.descriptor D).size
          = (before.descriptor D).size.set k ⌈(((r.stop - r.start : Nat) : ℚ) / (r.stride : ℚ))⌉₊
      ∧ (after.descriptor D).stride = (before.descriptor D).stride.set k (r.stride : Int)
      ∧ select D s rs = some final
      ∧ (final.descriptor D).start
          = ((rs.enum.map fun p => p.2.start * (s.dim.drop (p.1 + 1)).prod).sum) % two64 := by
  have hkl : k < rs.length := by omega
  have hget : rs.get? k = some (rs.get ⟨k, hkl⟩) := List.get?_eq_get hkl
  have htake : rs.take (k + 1) = rs.take k ++ [rs.get ⟨k, hkl⟩] := by
    rw [List.take_succ, ← List.get?_eq_getElem?, hget]
    rfl
  have hlenk : (rs.take k).length = k := by
    rw [List.length_take]
    omega
  obtain ⟨before, hb1, hb2, _⟩ := select_descriptor D s hD hdim (rs.take k)
    (by rw [hlenk]; omega) (fun r h => hr r (List.mem_of_mem_take h))
  obtain ⟨after, ha1, ha2, _⟩ := select_descriptor D s hD hdim (rs.take (k + 1))
    (by rw [List.length_take]; omega) (fun r h => hr r (List.mem_of_mem_take h))
  obtain ⟨final, hf1, hf2, _⟩ := select_descriptor D s hD hdim rs (by omega) hr
  obtain ⟨hr1, hr2, _, _⟩ := hr (rs.get ⟨k, hkl⟩) (List.get_mem rs k hkl)
  have hidx : k < s.dim.length := by omega
  have hdrop : s.dim.drop k = s.dim.get ⟨k, hidx⟩ :: s.dim.drop (k + 1) :=
    List.drop_eq_getElem_cons hidx
  have hrep : List.replicate (D - k) (1 : Int) = 1 :: List.replicate (D - (k + 1)) 1 := by
    have : D - k = (D - (k + 1)) + 1 := by omega
    rw [this, List.replicate_succ]
  have hstep : before.operator_index D (rs.get ⟨k, hkl⟩) = some after := by
    have h := ha1
    rw [htake, select_append, hb1] at h
    exact h
  have hsum : ∀ (l : List range),
      (l.enum.map fun p => p.2.start * (s.dim.drop (p.1 + 1)).prod).sum
        = row_major_offset s.dim (l.map (·.start)) := by
    intro l
    induction l using List.reverseRecOn with
    | nil => rfl
    | append_singleton l a ih =>
      rw [List.map_append, List.map_singleton, row_major_offset_append, List.length_map, ← ih,
        List.enum_append, List.map_append, List.sum_append]
      simp [List.enumFrom]
  refine ⟨rs.get ⟨k, hkl⟩, before, after, final, hget, hb1, hstep, ?_, ?_, ?_, ?_, ?_, hf1, ?_⟩
  · rw [hb2]
    simp only [List.length_append, List.length_map, List.length_drop, hlenk]
    omega
  · rw [hb2]
    simp only [List.length_append, List.length_map, List.length_replicate, hlenk]
    omega
  · rw [ha2, hb2, htake]
    simp only [List.map_append, List.map_singleton]
    rw [row_major_offset_append, List.length_map, hlenk, Nat.mod_add_mod]
  · rw [ha2, hb2, htake, hlenk, List.length_append, hlenk, List.length_singleton, hdrop]
    have hset := set_length_append
      ((rs.take k).map (fun r : range => (r.stop - r.start + r.stride - 1) / r.stride))
      (s.dim.get ⟨k, hidx⟩)
      ⌈((((rs.get ⟨k, hkl⟩).stop - (rs.get ⟨k, hkl⟩).start : Nat) : ℚ)
        / ((rs.get ⟨k, hkl⟩).stride : ℚ))⌉₊
      (s.dim.drop (k + 1))
    rw [List.length_map, hlenk] at hset
    rw [hset, ceil_count _ _ hr2]
    simp only [List.map_append, List.map_singleton, List.append_assoc, List.singleton_append]
  · rw [ha2, hb2, htake, hlenk, List.length_append, hlenk, List.length_singleton, hrep]
    have hset := set_length_append ((rs.take k).map (fun r : range => (r.stride : Int))) 1
      ((rs.get ⟨k, hkl⟩).stride : Int) (List.replicate (D - (k + 1)) 1)
    rw [List.length_map, hlenk] at hset
    rw [hset]
    simp only [List.map_append, List.map_singleton, List.append_assoc, List.singleton_append]
  · rw [hf2, hsum]

theorem slicer_accumulation_witness :
    ∃ (r : range) (before after final : Selection),
      sample_ranges.get? 1 = some r
      ∧ select 2 { dim := [4, 4] } (sample_ranges.take 1) = some before
      ∧ before.operator_index 2 r = some after
      ∧ (before.descriptor 2).size.length = 2
      ∧ (before.descriptor 2).stride.length = 2
      ∧ (after.descriptor 2).start
          = ((before.descriptor 2).start
              + r.start * ((({ dim := [4, 4] } : slicer).dim).drop (1 + 1)).prod) % two64
      ∧ (after.descriptor 2).size
          = (before.descriptor 2).size.set 1 ⌈(((r.stop - r.start : Nat) : ℚ) / (r.stride : ℚ))⌉₊
      ∧ (after.descriptor 2).stride = (before.descriptor 2).stride.set 1 (r.stride : Int)
      ∧ select 2 { dim := [4, 4] } sample_ranges = some final
      ∧ (final.descriptor 2).start
          = ((sample_ranges.enum.map fun p =>
              p.2.start * ((({ dim := [4, 4] } : slicer).dim).drop (p.1 + 1)).prod).sum) % two64 :=
  slicer_accumulation 2 { dim := [4, 4] } sample_ranges 1 (by decide) (by decide) (by decide)
    (by decide) (by decide)

/-! ### Partially and fully selected slicers -/

/-- Claim C14, as stated, fails: after one selection on a slicer of rank 2 the
slice is applied to a base array of 16 elements and yields a view. -/
theorem partial_slice_counterexample :
    select 2 { dim := [4, 4] } [range.of_bounds 1 3]
      = some (.slice { start := 4, size := [2, 4], stride := [1, 1], CDIM := 0, dim := [4, 4] })
    ∧ (select 2 { dim := [4, 4] } [range.of_bounds 1 3]).bind (Selection.operator_call 7 16)
      = some { base := 7, slice := { start := 4, size := [2, 4], stride := [1, 1] } } := by
  constructor
  · decide
  · decide

/-- Claim C14, amended: for every rank `D` and every number `j` of selections
with `1 <= j <= D` (ranges with `start <= stop`, `stride >= 1`, no value
wrapping), the result is a `slice<j-1>`, which can be applied to a base array:
the application yields the view of its descriptor exactly when the assertion of
`operator()` on dimension 0 holds; the dimensions not yet selected are taken
whole (size `d_k`, stride 1).  Only the slicer before any selection cannot be
applied. -/
theorem partial_slice_usable (D : Nat) (s : slicer) (rs : List range) (base base_size : Nat)
    (hD : s.dim.length = D) (hdim : ∀ d ∈ s.dim, d < two64)
    (h1 : 1 ≤ rs.length) (h2 : rs.length ≤ D)
    (hr : ∀ r ∈ rs, r.start ≤ r.stop ∧ 1 ≤ r.stride ∧ r.stop - r.start + r.stride - 1 < two64
      ∧ r.stride < 2 ^ 63) :
    ∃ sl : slice,
      select D s rs = some (.slice sl)
      ∧ sl.CDIM + 1 = rs.length
      ∧ sl.size.drop rs.length = s.dim.drop rs.length
      ∧ sl.stride.drop rs.length = List.replicate (D - rs.length) 1
      ∧ (Selection.slice sl).operator_call base base_size
          = (if to_ulong ((sl.start : Int) + ((sl.size.getD 0 0 : Int) - 1) * sl.stride.getD 0 0)
                < base_size
             then some { base := base, slice := sl.togslice } else none)
      ∧ (Selection.slicer s).operator_call base base_size = none := by
  have hne : rs ≠ [] := by
    intro h
    rw [h] at h1
    exact absurd h1 (by decide)
  have hsel := select_closed_form D s hD hdim rs hne h2 hr
  refine ⟨_, hsel, ?_, ?_, ?_, rfl, rfl⟩
  · show rs.length - 1 + 1 = rs.length
    omega
  · show (rs.map (fun r : range => (r.stop - r.start + r.stride - 1) / r.stride)
        ++ s.dim.drop rs.length).drop rs.length = _
    rw [List.drop_append_of_le_length (by rw [List.length_map])]
    rw [List.drop_of_length_le (by rw [List.length_map]), List.nil_append]
  · show (rs.map (fun r : range => (r.stride : Int))
        ++ List.replicate (D - rs.length) 1).drop rs.length = _
    rw [List.drop_append_of_le_length (by rw [List.length_map])]
    rw [List.drop_of_length_le (by rw [List.length_map]), List.nil_append]

theorem partial_slice_usable_witness :
    ∃ sl : slice,
      select 2 { dim := [4, 4] } [range.of_bounds 1 3] = some (.slice sl)
      ∧ sl.CDIM + 1 = [range.of_bounds 1 3].length
      ∧ sl.size.drop [range.of_bounds 1 3].length
          = (({ dim := [4, 4] } : slicer).dim).drop [range.of_bounds 1 3].length
      ∧ sl.stride.drop [range.of_bounds 1 3].length
          = List.replicate (2 - [range.of_bounds 1 3].length) 1
      ∧ (Selection.slice sl).operator_call 7 16
          = (if to_ulong ((sl.start : Int) + ((sl.size.getD 0 0 : Int) - 1) * sl.stride.getD 0 0)
                < 16
             then some { base := 7, slice := sl.togslice } else none)
      ∧ (Selection.slicer { dim := [4, 4] }).operator_call 7 16 = none :=
  partial_slice_usable 2 { dim := [4, 4] } [range.of_bounds 1 3] 7 16 (by decide) (by decide)
    (by decide) (by decide) (by decide)

/-- Claim C15: on a slicer of rank `D`, one more selection after `D` selections
is refused (`static_assert(CDIM + 1 < NDIM)`): the chain of `D + 1` selections has
no value, and `operator[]` of a slice obtained from `D` selections has none; a
`gslice` of dimension 0 cannot be constructed (`static_assert(NDIM > 0)`). -/
theorem over_bound_rejected (D : Nat) (s : slicer) (rs : List range) (r : range)
    (hrs : rs.length = D) :
    select D s (rs ++ [r]) = none
    ∧ (∀ sl, select D s rs = some (.slice sl) → sl.operator_index D r = none)
    ∧ (∀ (start : Nat) (size : List Nat) (stride : List Int),
        gslice.ctor 0 start size stride = none) := by
  have hslice : ∀ sl, select D s rs = some (.slice sl) → sl.operator_index D r = none := by
    intro sl hsl
    have hne : rs ≠ [] := by
      intro h
      rw [h] at hsl
      cases hsl
    obtain ⟨sl0, h0, hcd⟩ := select_stage D s rs _ hne hsl
    cases h0
    unfold slice.operator_index
    rw [if_neg (by omega)]
  have hzero : ∀ (start : Nat) (size : List Nat) (stride : List Int),
      gslice.ctor 0 start size stride = none := by
    intro start size stride
    unfold gslice.ctor
    rw [if_neg (by omega)]
  refine ⟨?_, hslice, hzero⟩
  rw [select_append]
  cases hsel : select D s rs with
  | none => rfl
  | some st =>
    cases st with
    | slice sl =>
      show (sl.operator_index D r).map Selection.slice = none
      rw [hslice sl hsel]
      rfl
    | slicer s0 =>
      have hnil : rs = [] := by
        by_contra hne
        obtain ⟨sl0, h0, _⟩ := select_stage D s rs _ hne hsel
        cases h0
      rw [hnil] at hrs
      have hD0 : D = 0 := by simpa using hrs.symm
      subst hD0
      show (s0.operator_index 0 r).map Selection.slice = none
      unfold slicer.operator_index
      cases r.count with
      | none => rfl
      | some n =>
        simp only [slice.ctor, hzero]
        rfl

theorem over_bound_rejected_witness :
    (select 2 { dim := [4, 4] } sample_ranges).isSome = true
    ∧ select 2 { dim := [4, 4] } (sample_ranges ++ [range.of_bounds 0 1]) = none
    ∧ (∀ sl, select 2 { dim := [4, 4] } sample_ranges = some (.slice sl)
        → sl.operator_index 2 (range.of_bounds 0 1) = none)
    ∧ (∀ (start : Nat) (size : List Nat) (stride : List Int),
        gslice.ctor 0 start size stride = none) :=
  ⟨by decide, over_bound_rejected 2 { dim := [4, 4] } sample_ranges (range.of_bounds 0 1)
    (by decide)⟩

/-! ## Declaration order and binding order of a view -/

theorem setArgs_arg_ge {V : Type} : ∀ (l : List (KernelArg V)) (krn : cl_Kernel V) (pos j : Nat),
    pos + l.length ≤ j → (krn.setArgs pos l).arg j = krn.arg j
  | [], krn, pos, j, _ => rfl
  | a :: l, krn, pos, j, h => by
    rw [List.length_cons] at h
    rw [cl_Kernel.setArgs, setArgs_arg_ge l _ (pos + 1) j (by omega), setArg_arg,
      if_neg (by omega)]

theorem get?_flatMap_pair {α β : Type} (f g : α → β) : ∀ (xs : List α) (k : Nat),
    (xs.flatMap fun x => [f x, g x]).get? (2 * k) = (xs.get? k).map f
    ∧ (xs.flatMap fun x => [f x, g x]).get? (2 * k + 1) = (xs.get? k).map g
  | [], k => by simp
  | x :: xs, 0 => by simp
  | x :: xs, k + 1 => by
    have h := get?_flatMap_pair f g xs k
    have e1 : 2 * (k + 1) = 2 * k + 1 + 1 := by omega
    rw [e1]
    simpa using h

theorem length_flatMap_pair {α β : Type} (f g : α → β) (xs : List α) :
    (xs.flatMap fun x => [f x, g x]).length = 2 * xs.length := by
  induction xs with
  | nil => rfl
  | cons x xs ih =>
    rw [List.flatMap_cons, List.length_append, ih, List.length_cons]
    simp only [List.length_cons, List.length_nil]
    omega

/-- The loop of `setArgs` binds the values of `dimension_arguments` at
consecutive positions. -/
theorem set_slice_args_eq {V : Type} (slice : gslice) : ∀ (ks : List Nat) (st : cl_Kernel V × Nat),
    (∀ k ∈ ks, k < slice.size.length ∧ k < slice.stride.length) →
    set_slice_args slice ks st
      = some (st.1.setArgs st.2 (slice.dimension_arguments ks), st.2 + 2 * ks.length)
  | [], st, _ => rfl
  | k :: ks, st, h => by
    have hk := h k (by simp)
    have h1 : slice.size.get? k = some (slice.size.getD k 0) := by
      rw [List.getD_eq_getElem?_getD, List.get?_eq_getElem?, List.getElem?_eq_getElem hk.1]
      rfl
    have h2 : slice.stride.get? k = some (slice.stride.getD k 0) := by
      rw [List.getD_eq_getElem?_getD, List.get?_eq_getElem?, List.getElem?_eq_getElem hk.2]
      rfl
    rw [set_slice_args, h1, h2]
    simp only []
    rw [set_slice_args_eq slice ks _ (fun k hk => h k (by simp [hk]))]
    simp only [gslice.dimension_arguments, List.flatMap_cons, List.cons_append, List.nil_append,
      cl_Kernel.setArgs, List.length_cons]
    congr 2
    omega

theorem declaration_loop_eq (prm : String) (n : Nat) (s : String) :
    (List.range n).foldl
        (fun s k => s ++ ", ulong " ++ prm ++ "size" ++ toString k
                      ++ ", long  " ++ prm ++ "stride" ++ toString k) s
      = s ++ String.join (((List.range n).flatMap fun k =>
          [("ulong ", prm ++ "size" ++ toString k), ("long  ", prm ++ "stride" ++ toString k)]).map
            fun d => ", " ++ d.1 ++ d.2) := by
  have h1 : ", ulong " = ", " ++ "ulong " := by decide
  have h2 : ", long  " = ", " ++ "long  " := by decide
  induction n with
  | zero => simp [string_join_nil, string_append_empty]
  | succ n ih =>
    rw [List.range_succ, List.foldl_append, ih, List.flatMap_append, List.map_append,
      string_join_append]
    simp only [List.foldl_cons, List.foldl_nil, List.flatMap_cons, List.flatMap_nil,
      List.append_nil, List.map_cons, List.map_nil, string_join_cons, string_join_nil,
      string_append_empty, String.append_assoc, h1, h2]

/-- Claim C16: for a view of dimension `D`, `parameter_declaration` declares
exactly `2 + 2*D` parameters, in the order base, start, size0, stride0, ...,
size(D-1), stride(D-1), and `setArgs` binds exactly the `2 + 2*D` consecutive
positions from `position` on with the base buffer, `start`, `size[0]`,
`stride[0]`, ..., `size[D-1]`, `stride[D-1]` in the same order, leaves every
other position as it was, and advances the position by `2 + 2*D`. -/
theorem view_binding_order {V : Type} (T : String) (D component position : Nat)
    (kernel : cl_Kernel V) (device pos : Nat) (term : vector_view)
    (hs : term.slice.size.length = D) (ht : term.slice.stride.length = D) :
    gslice.parameter_declaration T D component position
      = declared_text (gslice.declared T D component position)
    ∧ (gslice.declared T D component position).map (·.2)
      = gslice.parameter_names D component position
    ∧ (gslice.parameter_names D component position).length = 2 + 2 * D
    ∧ (term.arguments D device : List (KernelArg V)).length = 2 + 2 * D
    ∧ gslice.setArgs D kernel device pos term
      = some (kernel.setArgs pos (term.arguments D device), pos + (2 + 2 * D))
    ∧ (∀ i, i < 2 + 2 * D →
        (kernel.setArgs pos (term.arguments D device)).arg (pos + i)
          = (term.arguments D device).get? i)
    ∧ (∀ q, q < pos ∨ pos + (2 + 2 * D) ≤ q →
        (kernel.setArgs pos (term.arguments D device)).arg q = kernel.arg q)
    ∧ (gslice.parameter_names D component position).get? 0
        = some (view_prm component position ++ "base")
    ∧ (term.arguments D device : List (KernelArg V)).get? 0
        = some (.buffer { vector := term.base, device := device })
    ∧ (gslice.parameter_names D component position).get? 1
        = some (view_prm component position ++ "start")
    ∧ (term.arguments D device : List (KernelArg V)).get? 1 = some (.ulong term.slice.start)
    ∧ (∀ k, k < D →
        (gslice.parameter_names D component position).get? (2 + 2 * k)
          = some (view_prm component position ++ "size" ++ toString k)
        ∧ (term.arguments D device : List (KernelArg V)).get? (2 + 2 * k)
          = some (.ulong (term.slice.size.getD k 0))
        ∧ (gslice.parameter_names D component position).get? (2 + 2 * k + 1)
          = some (view_prm component position ++ "stride" ++ toString k)
        ∧ (term.arguments D device : List (KernelArg V)).get? (2 + 2 * k + 1)
          = some (.long (term.slice.stride.getD k 0))) := by
  have hlen_names : (gslice.parameter_names D component position).length = 2 + 2 * D := by
    simp only [gslice.parameter_names, dimension_names, List.length_append, List.length_cons,
      List.length_nil, length_flatMap_pair, List.length_range]
  have hlen_args : (term.arguments D device : List (KernelArg V)).length = 2 + 2 * D := by
    simp only [vector_view.arguments, gslice.dimension_arguments, List.length_cons,
      length_flatMap_pair, List.length_range]
    omega
  refine ⟨?_, ?_, hlen_names, hlen_args, ?_, ?_, ?_, rfl, rfl, rfl, rfl, ?_⟩
  · unfold gslice.parameter_declaration
    simp only []
    rw [declaration_loop_eq]
    have h1 : ", ulong " = ", " ++ "ulong " := by decide
    simp only [gslice.declared, declared_text, List.map_cons, string_join_cons,
      String.append_assoc, h1]
  · simp only [gslice.declared, gslice.parameter_names, dimension_names, List.map_cons,
      List.map_flatMap, List.map_nil, List.cons_append, List.nil_append]
  · unfold gslice.setArgs
    simp only []
    rw [set_slice_args_eq term.slice (List.range D) _
      (fun k hk => by rw [List.mem_range] at hk; omega)]
    simp only [vector_view.arguments, cl_Kernel.setArgs, List.length_range]
    congr 2
    omega
  · intro i hi
    exact setArgs_arg _ kernel pos i (by rw [hlen_args]; exact hi)
  · intro q hq
    rcases hq with hq | hq
    · exact setArgs_arg_lt _ kernel pos q hq
    · exact setArgs_arg_ge _ kernel pos q (by rw [hlen_args]; exact hq)
  · intro k hk
    have hr : (List.range D).get? k = some k := by
      rw [List.get?_eq_getElem?, List.getElem?_range hk]
    have hn := get?_flatMap_pair
      (fun k => view_prm component position ++ "size" ++ toString k)
      (fun k => view_prm component position ++ "stride" ++ toString k) (List.range D) k
    have ha := get?_flatMap_pair
      (fun k => (KernelArg.ulong (term.slice.size.getD k 0) : KernelArg V))
      (fun k => (KernelArg.long (term.slice.stride.getD k 0) : KernelArg V)) (List.range D) k
    rw [hr] at hn ha
    have e1 : 2 + 2 * k = 2 * k + 1 + 1 := by omega
    have e2 : 2 + 2 * k + 1 = 2 * k + 1 + 1 + 1 := by omega
    refine ⟨?_, ?_, ?_, ?_⟩
    · rw [e1]
      simpa [gslice.parameter_names, dimension_names] using hn.1
    · rw [e1]
      simpa [vector_view.arguments, gslice.dimension_arguments] using ha.1
    · rw [e2]
      simpa [gslice.parameter_names, dimension_names] using hn.2
    · rw [e2]
      simpa [vector_view.arguments, gslice.dimension_arguments] using ha.2

theorem view_binding_order_witness :
    gslice.parameter_declaration "double" 1 1 2 = declared_text (gslice.declared "double" 1 1 2)
    ∧ gslice.setArgs 1 ({ args := [] } : cl_Kernel Nat) 0 3 sample_view
      = some (({ args := [] } : cl_Kernel Nat).setArgs 3 (sample_view.arguments 1 0), 3 + (2 + 2 * 1))
    ∧ (sample_view.arguments 1 0 : List (KernelArg Nat))
      = [.buffer { vector := 7, device := 0 }, .ulong 5, .ulong 3, .long 2]
    ∧ gslice.parameter_names 1 1 2
      = ["prm_1_2_base", "prm_1_2_start", "prm_1_2_size0", "prm_1_2_stride0"] :=
  have h := view_binding_order (V := Nat) "double" 1 1 2 { args := [] } 0 3 sample_view
    (by decide) (by decide)
  ⟨h.1, h.2.2.2.2.1, by decide, by decide⟩

/-! ## The bounds precondition of a slice -/

/-- The value the helper of `indexing_function` returns for the flattened index
of the coordinates `i`. -/
theorem helper_call_value (D component position : Nat) (slice : gslice) (i : List Nat)
    (hD : 0 < D) (hs : slice.size.length = D) (ht : slice.stride.length = D)
    (hi : i.length = D)
    (hlt : ∀ k, k < D → i.getD k 0 < slice.size.getD k 0)
    (h64 : ∀ k, k < D → slice.size.getD k 0 < two64)
    (hflat : flat_index i slice.size < two64) :
    (gslice.helper D component position).call (.ulong (slice.start % two64))
        (dimension_values slice.size slice.stride
          ++ [.ulong (flat_index i slice.size % two64)])
      = some (to_ulong (slice.start + stride_offset i slice.stride)) := by
  have hfull_i : i.take D = i := List.take_of_length_le (by omega)
  have hfull_s : slice.size.take D = slice.size := List.take_of_length_le (by omega)
  have hfull_t : slice.stride.take D = slice.stride := List.take_of_length_le (by omega)
  have hidx : flat_index i slice.size % two64
      = flat_index (i.take (D - 1 + 1)) (slice.size.take (D - 1 + 1)) := by
    rw [Nat.mod_eq_of_lt hflat, Nat.sub_add_cancel hD, hfull_i, hfull_s]
  rw [hidx]
  obtain ⟨e1, e2, e3, e4⟩ := helper_call_env D (.ulong (slice.start % two64)) slice.size
    slice.stride (flat_index (i.take (D - 1 + 1)) (slice.size.take (D - 1 + 1))) hs ht h64
  have hlen : (dimension_values slice.size slice.stride
      ++ [CValue.ulong (flat_index (i.take (D - 1 + 1)) (slice.size.take (D - 1 + 1)))]).length
      = (gslice.helper D component position).params.length := by
    simp [gslice.helper, dimension_values_length _ _ (hs.trans ht.symm),
      dimension_params_length, hs]
  have hmod : flat_index (i.take (D - 1 + 1)) (slice.size.take (D - 1 + 1))
      % slice.size.getD (D - 1) 0 = i.getD (D - 1) 0 := by
    rw [flat_index_succ i slice.size (D - 1) (by omega) (by omega)]
    rw [Nat.add_comm, Nat.add_mul_mod_self_right, Nat.mod_eq_of_lt (hlt (D - 1) (by omega))]
  have hsum : stride_offset i slice.stride
      = stride_offset (i.take (D - 1)) (slice.stride.take (D - 1))
        + (i.getD (D - 1) 0 : Int) * slice.stride.getD (D - 1) 0 := by
    have := stride_offset_succ i slice.stride (D - 1) (by omega) (by omega)
    rw [Nat.sub_add_cancel hD, hfull_i, hfull_t] at this
    exact this
  have hpos : slice.size.getD (D - 1) 0 ≠ 0 := by have := hlt (D - 1) (by omega); omega
  unfold Helper.call
  rw [if_pos hlen]
  simp only [gslice.helper] at e1 e2 e3 e4 ⊢
  simp only [e2]
  by_cases hd : D = 1
  · subst hd
    have h0 : "stride0" = "stride" ++ toString 0 := by decide
    have hone : flat_index (i.take 1) (slice.size.take 1) = i.getD 0 0 := by
      rw [flat_index_succ i slice.size 0 (by omega) (by omega)]
      simp [flat_index]
    have hzero : stride_offset (i.take 0) (slice.stride.take 0) = 0 := by
      simp [stride_offset]
    simp only [if_true, run_body, HStatement.exec, e1, h0, e4 0 (by omega), Option.bind]
    rw [hone, ulong_start, hsum, hzero, Int.zero_add]
  · simp only [hd, if_false, List.cons_append, List.nil_append, run_body, HStatement.exec, e1,
      e3 (D - 1) (by omega), e4 (D - 1) (by omega), hpos]
    rw [hmod, ulong_start, run_body_append]
    rw [run_helper_loop _ i slice.size slice.stride D hi hs ht hlt e3 e4 (D - 1) (by omega)]
    simp only [Option.bind, run_body, HStatement.exec]
    rw [hsum]
    congr 2
    ring


theorem flat_index_append (i size : List Nat) (r n : Nat) (h : i.length = size.length) :
    flat_index (i ++ [r]) (size ++ [n]) = flat_index i size * n + r := by
  unfold flat_index
  rw [List.zip_append h, List.foldl_append]
  rfl

/-- Every flattened index below the product of the sizes is the flattened index
of coordinates within the sizes. -/
theorem flat_index_coordinates (size : List Nat) :
    ∀ idx, idx < size.prod →
      ∃ i, List.Forall₂ (fun a b => a < b) i size ∧ flat_index i size = idx := by
  induction size using List.reverseRecOn with
  | nil =>
    intro idx h
    refine ⟨[], List.Forall₂.nil, ?_⟩
    simp only [List.prod_nil] at h
    have : idx = 0 := by omega
    rw [this]
    rfl
  | append_singleton s n ih =>
    intro idx h
    rw [List.prod_append, List.prod_singleton] at h
    have hn : 0 < n := by
      rcases Nat.eq_zero_or_pos n with h0 | h0
      · rw [h0, Nat.mul_zero] at h
        exact absurd h (Nat.not_lt_zero _)
      · exact h0
    have hq : idx / n < s.prod := by
      rw [Nat.div_lt_iff_lt_mul hn]
      exact h
    obtain ⟨i, hi1, hi2⟩ := ih (idx / n) hq
    refine ⟨i ++ [idx % n], ?_, ?_⟩
    · exact List.rel_append hi1 (List.Forall₂.cons (Nat.mod_lt _ hn) List.Forall₂.nil)
    · rw [flat_index_append i s _ _ hi1.length_eq, hi2]
      exact Nat.div_add_mod' idx n

theorem forall₂_getD (i size : List Nat) (h : List.Forall₂ (fun a b => a < b) i size) :
    ∀ k, k < size.length → i.getD k 0 < size.getD k 0 := by
  induction h with
  | nil => intro k hk; exact absurd hk (Nat.not_lt_zero _)
  | cons hab _ ih =>
    intro k hk
    cases k with
    | zero => exact hab
    | succ k => exact ih k (by simpa using hk)

/-- With strides that are not negative, the offset of coordinates within the
sizes is at most the offset of the last element. -/
theorem stride_offset_le (i size : List Nat) (h : List.Forall₂ (fun a b => a < b) i size) :
    ∀ stride : List Int, (∀ t ∈ stride, 0 ≤ t) →
      0 ≤ stride_offset i stride
      ∧ stride_offset i stride
          ≤ ((size.zip stride).map fun p => ((p.1 : Int) - 1) * p.2).sum := by
  induction h with
  | nil => intro stride _; simp [stride_offset]
  | @cons a b i size hab _ ih =>
    intro stride hst
    cases stride with
    | nil => simp [stride_offset]
    | cons t stride =>
      have ht : 0 ≤ t := hst t (by simp)
      obtain ⟨h1, h2⟩ := ih stride (fun x hx => hst x (by simp [hx]))
      simp only [stride_offset, List.zip_cons_cons, List.map_cons, List.sum_cons] at h1 h2 ⊢
      have ha : (a : Int) ≤ (b : Int) - 1 := by omega
      have hm : (a : Int) * t ≤ ((b : Int) - 1) * t := Int.mul_le_mul_of_nonneg_right ha ht
      have h0 : 0 ≤ (a : Int) * t := Int.mul_nonneg (by omega) ht
      constructor
      · omega
      · omega

/-- Claim C17: for a descriptor of dimension `D` with strides that are not
negative (its sizes are positive as soon as some index lies below their
product), if `start + sum of (size[k]-1)*stride[k]` is less than the
size of the base array, then for every flattened index `idx` below the product
of the sizes the helper of `indexing_function` returns an offset less than the
size of the base array. -/
theorem slice_bounds_sufficient (D component position : Nat) (slice : gslice)
    (base_size idx : Nat)
    (hD : 0 < D) (hs : slice.size.length = D) (ht : slice.stride.length = D)
    (h64 : ∀ d ∈ slice.size, d < two64)
    (hnn : ∀ t ∈ slice.stride, 0 ≤ t)
    (hbase : base_size < two64)
    (hbound : (slice.start : Int)
        + ((slice.size.zip slice.stride).map fun p => ((p.1 : Int) - 1) * p.2).sum < base_size)
    (hidx : idx < slice.size.prod) (hidx64 : idx < two64) :
    ∃ offset,
      (gslice.helper D component position).call (.ulong (slice.start % two64))
          (dimension_values slice.size slice.stride ++ [.ulong (idx % two64)]) = some offset
      ∧ offset < base_size := by
  obtain ⟨i, hi1, hi2⟩ := flat_index_coordinates slice.size idx hidx
  have hlen : i.length = D := by rw [hi1.length_eq, hs]
  have hlt := forall₂_getD i slice.size hi1
  have h64k : ∀ k, k < D → slice.size.getD k 0 < two64 := by
    intro k hk
    have hk2 : k < slice.size.length := by omega
    rw [List.getD_eq_getElem?_getD, List.getElem?_eq_getElem hk2]
    exact h64 _ (List.getElem_mem hk2)
  have hcall := helper_call_value D component position slice i hD hs ht hlen
    (fun k hk => hlt k (by omega)) h64k (by rw [hi2]; exact hidx64)
  rw [hi2] at hcall
  obtain ⟨h0, hle⟩ := stride_offset_le i slice.size hi1 slice.stride hnn
  refine ⟨_, hcall, ?_⟩
  have hx0 : 0 ≤ (slice.start : Int) + stride_offset i slice.stride := by omega
  have hx1 : (slice.start : Int) + stride_offset i slice.stride < (base_size : Int) := by omega
  rw [to_ulong_of_range _ hx0 (by
    have : (base_size : Int) < (two64 : Int) := by exact_mod_cast hbase
    omega)]
  omega

theorem slice_bounds_sufficient_witness :
    ∃ offset,
      (gslice.helper 2 1 1).call (.ulong (4 % two64))
          (dimension_values [2, 4] [4, 1] ++ [.ulong (7 % two64)]) = some offset
      ∧ offset < 16 :=
  slice_bounds_sufficient 2 1 1 { start := 4, size := [2, 4], stride := [4, 1] } 16 7
    (by decide) (by decide) (by decide) (by decide) (by decide) (by decide) (by decide)
    (by decide) (by decide)

/-! ## The kernel cache -/

theorem compile_count_append {V : Type} (key : CacheKey) (c : Nat) (a b : List (Event V)) :
    compile_count key c (a ++ b) = compile_count key c a + compile_count key c b := by
  induction a with
  | nil => simp [compile_count]
  | cons ev a ih =>
    cases ev <;> simp [compile_count, ih, Nat.add_assoc]

theorem synthesis_count_append {V : Type} (key : CacheKey) (c : Nat) (a b : List (Event V)) :
    synthesis_count key c (a ++ b) = synthesis_count key c a + synthesis_count key c b := by
  induction a with
  | nil => simp [synthesis_count]
  | cons ev a ih =>
    cases ev <;> simp [synthesis_count, ih, Nat.add_assoc]

theorem launches_append {V : Type} (a b : List (Event V)) :
    launches (a ++ b) = launches a ++ launches b := by
  induction a with
  | nil => simp [launches]
  | cons ev a ih =>
    cases ev <;> simp [launches, ih]

/-- What one pass of the compile loop does. -/
theorem compile_step_spec {V : Type} (ext : External V) (backend : Backend) (mv : multivector)
    (E : ExprType) (e : Expr V) (st st1 : Runtime V) (q : cl_CommandQueue)
    (h : compile_step ext backend mv E e st q = some st1) :
    ((st.caches (mv.key E)).compiled q.context = true ∧ st1 = st)
    ∨ ((st.caches (mv.key E)).compiled q.context = false
        ∧ ∃ source, kernel_source ext mv.T mv.N e = some source
          ∧ st1.log = st.log ++ [.synthesized (mv.key E) q.context (kernel_name ext e) source,
                                 .built (mv.key E) q.context source]
          ∧ (st1.caches (mv.key E)).compiled
              = Function.update (st.caches (mv.key E)).compiled q.context true
          ∧ (st1.caches (mv.key E)).kernel
              = Function.update (st.caches (mv.key E)).kernel q.context
                  (some { program := { context := q.context, source := source },
                          name := kernel_name ext e, arguments := { args := [] } })
          ∧ (st1.caches (mv.key E)).wgsize
              = Function.update (st.caches (mv.key E)).wgsize q.context
                  (backend.kernel_workgroup_size { context := q.context, source := source }
                    (kernel_name ext e) q.device)) := by
  unfold compile_step at h
  simp only [] at h
  by_cases hc : (st.caches (mv.key E)).compiled q.context = true
  · rw [if_pos hc] at h
    exact Or.inl ⟨hc, (Option.some.inj h).symm⟩
  · rw [if_neg hc] at h
    right
    refine ⟨by simpa using hc, ?_⟩
    cases hs : kernel_source ext mv.T mv.N e with
    | none => rw [hs] at h; cases h
    | some source =>
      rw [hs] at h
      simp only [] at h
      by_cases hb : backend.builds q.context source = true
      · rw [if_pos hb] at h
        have h1 := (Option.some.inj h).symm
        subst h1
        refine ⟨source, rfl, rfl, ?_, ?_, ?_⟩ <;> simp [Function.update_same]
      · rw [if_neg hb] at h
        cases h

/-- The compile loop over the queues `qs`: it synthesizes and builds once for
each context of `qs` that was not compiled, launches nothing, and leaves the
entries of the contexts that were compiled as they were. -/
theorem compile_loop_spec {V : Type} (ext : External V) (backend : Backend) (mv : multivector)
    (E : ExprType) (e : Expr V) : ∀ (qs : List cl_CommandQueue) (st st1 : Runtime V),
    qs.foldlM (compile_step ext backend mv E e) st = some st1 →
    ∃ evs, st1.log = st.log ++ evs
      ∧ launches evs = []
      ∧ (∀ c, compile_count (mv.key E) c evs
          = if c ∈ qs.map (·.context) ∧ (st.caches (mv.key E)).compiled c = false then 1 else 0)
      ∧ (∀ c, synthesis_count (mv.key E) c evs
          = if c ∈ qs.map (·.context) ∧ (st.caches (mv.key E)).compiled c = false then 1 else 0)
      ∧ (∀ c, (st1.caches (mv.key E)).compiled c
          = ((st.caches (mv.key E)).compiled c || decide (c ∈ qs.map (·.context))))
      ∧ (∀ c, (st.caches (mv.key E)).compiled c = true →
          (st1.caches (mv.key E)).kernel c = (st.caches (mv.key E)).kernel c
          ∧ (st1.caches (mv.key E)).wgsize c = (st.caches (mv.key E)).wgsize c)
      ∧ ((∀ q ∈ qs, (st.caches (mv.key E)).compiled q.context = true) → st1 = st) := by
  intro qs
  induction qs with
  | nil =>
    intro st st1 h
    have h1 : st1 = st := (Option.some.inj h).symm
    subst h1
    exact ⟨[], by simp, rfl, by simp [compile_count], by simp [synthesis_count], by simp,
      fun c _ => ⟨rfl, rfl⟩, fun _ => rfl⟩
  | cons q qs ih =>
    intro st st1 h
    rw [List.foldlM_cons] at h
    cases hq : compile_step ext backend mv E e st q with
    | none => rw [hq] at h; cases h
    | some stq =>
      rw [hq] at h
      obtain ⟨evs, hlog, hl, hcc, hsc, hcomp, hkeep, hsame⟩ := ih stq st1 h
      rcases compile_step_spec ext backend mv E e st stq q hq with ⟨hc, heq⟩ | ⟨hc, source, _, hlog1, hc1, hk1, hw1⟩
      · subst heq
        refine ⟨evs, hlog, hl, ?_, ?_, ?_, hkeep, ?_⟩
        · intro c
          rw [hcc c]
          by_cases hcq : c = q.context
          · subst hcq
            simp [hc]
          · simp [hcq]
        · intro c
          rw [hsc c]
          by_cases hcq : c = q.context
          · subst hcq
            simp [hc]
          · simp [hcq]
        · intro c
          rw [hcomp c]
          by_cases hcq : c = q.context
          · subst hcq
            simp [hc]
          · simp [hcq]
        · intro hall
          exact hsame (fun q1 hq1 => hall q1 (by simp [hq1]))
      · refine ⟨Event.synthesized (mv.key E) q.context (kernel_name ext e) source
            :: Event.built (mv.key E) q.context source :: evs,
          by rw [hlog, hlog1]; simp, by simpa [launches] using hl, ?_, ?_, ?_, ?_, ?_⟩
        · intro c
          simp only [compile_count]
          rw [hcc c, hc1]
          by_cases hcq : c = q.context
          · subst hcq
            simp [hc]
          · simp [hcq, Function.update_noteq hcq, Ne.symm hcq]
        · intro c
          simp only [synthesis_count]
          rw [hsc c, hc1]
          by_cases hcq : c = q.context
          · subst hcq
            simp [hc]
          · simp [hcq, Function.update_noteq hcq, Ne.symm hcq]
        · intro c
          rw [hcomp c, hc1]
          by_cases hcq : c = q.context
          · subst hcq
            simp
          · simp [hcq, Function.update_noteq hcq, Ne.symm hcq]
        · intro c hcc1
          have hne : c ≠ q.context := by
            intro hcq
            rw [hcq, hc] at hcc1
            cases hcc1
          have h2 := hkeep c (by rw [hc1, Function.update_noteq hne]; exact hcc1)
          rw [hk1, hw1, Function.update_noteq hne, Function.update_noteq hne] at h2
          exact h2
        · intro hall
          have := hall q (by simp)
          rw [hc] at this
          cases this

/-- What one pass of the dispatch loop does. -/
theorem dispatch_step_spec {V : Type} (mv : multivector) (E : ExprType) (e : Expr V) (st st1 : Runtime V)
    (d : Nat) (h : dispatch_step mv E e st d = some st1) :
    (mv.part_size d = 0 ∧ st1 = st)
    ∨ (mv.part_size d ≠ 0 ∧ ∃ q k bound, mv.queue.get? d = some q
        ∧ (st.caches (mv.key E)).kernel q.context = some k
        ∧ bind_arguments mv.N mv.vec e k.arguments d (mv.part_size d) = some bound
        ∧ st1.log = st.log ++ [.enqueued d q { k with arguments := bound.1 }
            (global_size q.device (mv.part_size d) ((st.caches (mv.key E)).wgsize q.context))
            ((st.caches (mv.key E)).wgsize q.context)]
        ∧ (st1.caches (mv.key E)).compiled = (st.caches (mv.key E)).compiled
        ∧ (st1.caches (mv.key E)).wgsize = (st.caches (mv.key E)).wgsize
        ∧ (st1.caches (mv.key E)).kernel
            = Function.update (st.caches (mv.key E)).kernel q.context
                (some { k with arguments := bound.1 })) := by
  unfold dispatch_step at h
  simp only [] at h
  by_cases hp : mv.part_size d = 0
  · rw [if_pos hp] at h
    exact Or.inl ⟨hp, (Option.some.inj h).symm⟩
  · rw [if_neg hp] at h
    right
    refine ⟨hp, ?_⟩
    cases hq : mv.queue.get? d with
    | none => rw [hq] at h; cases h
    | some q =>
      rw [hq] at h
      simp only [] at h
      cases hk : (st.caches (mv.key E)).kernel q.context with
      | none => rw [hk] at h; cases h
      | some k =>
        rw [hk] at h
        simp only [] at h
        cases hb : bind_arguments mv.N mv.vec e k.arguments d (mv.part_size d) with
        | none => rw [hb] at h; cases h
        | some bound =>
          rw [hb] at h
          have h1 := (Option.some.inj h).symm
          subst h1
          exact ⟨q, k, bound, rfl, hk, hb, rfl, by simp, by simp, by simp⟩

theorem dispatch_step_ok {V : Type} (mv : multivector) (E : ExprType) (e : Expr V) (st : Runtime V) (d : Nat)
    (hacc : accepted mv.N e = true) (hvec : mv.vec.length = mv.N)
    (hk : mv.part_size d ≠ 0 → ∃ q, mv.queue.get? d = some q
      ∧ ((st.caches (mv.key E)).kernel q.context).isSome = true) :
    ∃ st1, dispatch_step mv E e st d = some st1 := by
  unfold dispatch_step
  simp only []
  by_cases hp : mv.part_size d = 0
  · rw [if_pos hp]
    exact ⟨_, rfl⟩
  · rw [if_neg hp]
    obtain ⟨q, hq, hks⟩ := hk hp
    obtain ⟨k, hk1⟩ := Option.isSome_iff_exists.1 hks
    rw [hq]
    simp only []
    rw [hk1]
    simp only []
    rw [bind_arguments_eq mv.N e mv.vec k.arguments d (mv.part_size d) hacc hvec]
    exact ⟨_, rfl⟩

/-- The dispatch loop over the devices `ds`: it neither synthesizes nor builds,
keeps the flags, the work-group sizes and the identity of the kernels of the
cache, and launches once for each device of `ds` with a non-empty partition,
with the kernel and the work-group size of the cache. -/
theorem dispatch_loop_spec {V : Type} (mv : multivector) (E : ExprType) (e : Expr V)
    (hacc : accepted mv.N e = true) (hvec : mv.vec.length = mv.N) :
    ∀ (ds : List Nat) (st st1 : Runtime V),
    ds.foldlM (dispatch_step mv E e) st = some st1 →
    ∃ evs, st1.log = st.log ++ evs
      ∧ (∀ key c, compile_count key c evs = 0 ∧ synthesis_count key c evs = 0)
      ∧ (st1.caches (mv.key E)).compiled = (st.caches (mv.key E)).compiled
      ∧ (st1.caches (mv.key E)).wgsize = (st.caches (mv.key E)).wgsize
      ∧ (∀ c, ((st1.caches (mv.key E)).kernel c).map CompiledKernel.identity
          = ((st.caches (mv.key E)).kernel c).map CompiledKernel.identity)
      ∧ (launches evs).map (·.1) = ds.filter (fun d => mv.part_size d ≠ 0)
      ∧ (∀ l ∈ launches evs, ∃ q, mv.queue.get? l.1 = some q
          ∧ ((st.caches (mv.key E)).kernel q.context).map CompiledKernel.identity
              = some l.2.1.identity
          ∧ l.2.2.2 = (st.caches (mv.key E)).wgsize q.context
          ∧ l.2.2.1 = global_size q.device (mv.part_size l.1)
              ((st.caches (mv.key E)).wgsize q.context)
          ∧ l.2.1.arguments.arg 0 = some (.ulong (mv.part_size l.1))) := by
  intro ds
  induction ds with
  | nil =>
    intro st st1 h
    have h1 : st1 = st := (Option.some.inj h).symm
    subst h1
    exact ⟨[], by simp, fun _ _ => ⟨rfl, rfl⟩, rfl, rfl, fun _ => rfl, rfl,
      fun l hl => by simp [launches] at hl⟩
  | cons d ds ih =>
    intro st st1 h
    rw [List.foldlM_cons] at h
    cases hd : dispatch_step mv E e st d with
    | none => rw [hd] at h; cases h
    | some std =>
      rw [hd] at h
      obtain ⟨evs, hlog, hnc, hcomp, hwg, hid, hls, hl⟩ := ih std st1 h
      rcases dispatch_step_spec mv E e st std d hd with ⟨hp, heq⟩ | ⟨hp, q, k, bound, hq, hk, hb, hlog1, hc1, hw1, hk1⟩
      · subst heq
        refine ⟨evs, hlog, hnc, hcomp, hwg, hid, ?_, hl⟩
        rw [hls, List.filter_cons]
        simp [hp]
      · have hidd : ∀ c, ((std.caches (mv.key E)).kernel c).map CompiledKernel.identity
            = ((st.caches (mv.key E)).kernel c).map CompiledKernel.identity := by
          intro c
          rw [hk1]
          by_cases hcq : c = q.context
          · subst hcq
            rw [Function.update_same, hk]
            rfl
          · rw [Function.update_noteq hcq]
        have hbe := bind_arguments_eq mv.N e mv.vec k.arguments d (mv.part_size d) hacc hvec
        rw [hb] at hbe
        have hb1 : bound.1 = k.arguments.setArgs 0
            (.ulong (mv.part_size d) :: (mv.vec.map fun v => .buffer { vector := v, device := d })
              ++ arguments mv.N d e) := by
          have := Option.some.inj hbe
          rw [this]
        refine ⟨Event.enqueued d q { k with arguments := bound.1 }
            (global_size q.device (mv.part_size d) ((st.caches (mv.key E)).wgsize q.context))
            ((st.caches (mv.key E)).wgsize q.context) :: evs,
          by rw [hlog, hlog1]; simp, ?_, by rw [hcomp, hc1], by rw [hwg, hw1],
          fun c => by rw [hid c, hidd c], ?_, ?_⟩
        · intro key c
          simp only [compile_count, synthesis_count]
          exact hnc key c
        · simp only [launches, List.map_cons, List.filter_cons]
          rw [hls]
          simp [hp]
        · intro l hl1
          simp only [launches, List.mem_cons] at hl1
          rcases hl1 with hl1 | hl1
          · subst hl1
            refine ⟨q, hq, ?_, rfl, rfl, ?_⟩
            · rw [hk]
              rfl
            · show bound.1.arg 0 = _
              rw [hb1]
              have := setArgs_arg (.ulong (mv.part_size d)
                :: (mv.vec.map fun v => .buffer { vector := v, device := d })
                  ++ arguments mv.N d e) k.arguments 0 0 (by simp)
              simpa using this
          · obtain ⟨q1, hq1, h1, h2, h3, h4⟩ := hl l hl1
            refine ⟨q1, hq1, ?_, ?_, ?_, h4⟩
            · rw [← hidd, h1]
            · rw [h2, hw1]
            · rw [h3, hw1]

theorem dispatch_loop_ok {V : Type} (mv : multivector) (E : ExprType) (e : Expr V)
    (hacc : accepted mv.N e = true) (hvec : mv.vec.length = mv.N) :
    ∀ (ds : List Nat) (st : Runtime V),
    (∀ d ∈ ds, mv.part_size d ≠ 0 → ∃ q, mv.queue.get? d = some q
      ∧ ((st.caches (mv.key E)).kernel q.context).isSome = true) →
    ∃ st1, ds.foldlM (dispatch_step mv E e) st = some st1 := by
  intro ds
  induction ds with
  | nil => intro st _; exact ⟨st, rfl⟩
  | cons d ds ih =>
    intro st hk
    obtain ⟨std, hd⟩ := dispatch_step_ok mv E e st d hacc hvec (hk d (by simp))
    rw [List.foldlM_cons, hd]
    have hspec := dispatch_loop_spec mv E e hacc hvec [d] st std (by
      rw [List.foldlM_cons, hd]
      rfl)
    obtain ⟨_, _, _, _, _, hid, _, _⟩ := hspec
    apply ih std
    intro d1 hd1 hp1
    obtain ⟨q, hq, hks⟩ := hk d1 (by simp [hd1]) hp1
    refine ⟨q, hq, ?_⟩
    have := hid q.context
    cases hx : (std.caches (mv.key E)).kernel q.context with
    | none =>
      rw [hx] at this
      cases hy : (st.caches (mv.key E)).kernel q.context with
      | none => rw [hy] at hks; cases hks
      | some k => rw [hy] at this; cases this
    | some k => rfl

theorem compile_loop_noop {V : Type} (ext : External V) (backend : Backend) (mv : multivector)
    (E : ExprType) (e : Expr V) : ∀ (qs : List cl_CommandQueue) (st : Runtime V),
    (∀ q ∈ qs, (st.caches (mv.key E)).compiled q.context = true) →
    qs.foldlM (compile_step ext backend mv E e) st = some st := by
  intro qs
  induction qs with
  | nil => intro st _; rfl
  | cons q qs ih =>
    intro st h
    have hq : compile_step ext backend mv E e st q = some st := by
      unfold compile_step
      simp only []
      rw [if_pos (h q (by simp))]
    rw [List.foldlM_cons, hq]
    exact ih st (fun q1 hq1 => h q1 (by simp [hq1]))

/-- What an assignment of an expression does, from its first state to its last. -/
theorem operator_assign_spec {V : Type} (ext : External V) (backend : Backend)
    (mv : multivector) (E : ExprType) (e : Expr V) (st st1 : Runtime V) (hvec : mv.vec.length = mv.N)
    (h : mv.operator_assign ext backend E e st = some st1) :
    accepted mv.N e = true
    ∧ ∃ evs, st1.log = st.log ++ evs
      ∧ (∀ c, compile_count (mv.key E) c evs
          = if c ∈ mv.queue.map (·.context) ∧ (st.caches (mv.key E)).compiled c = false
            then 1 else 0)
      ∧ (∀ c, synthesis_count (mv.key E) c evs
          = if c ∈ mv.queue.map (·.context) ∧ (st.caches (mv.key E)).compiled c = false
            then 1 else 0)
      ∧ (∀ c, (st1.caches (mv.key E)).compiled c
          = ((st.caches (mv.key E)).compiled c || decide (c ∈ mv.queue.map (·.context))))
      ∧ (∀ c, (st.caches (mv.key E)).compiled c = true →
          ((st1.caches (mv.key E)).kernel c).map CompiledKernel.identity
            = ((st.caches (mv.key E)).kernel c).map CompiledKernel.identity
          ∧ (st1.caches (mv.key E)).wgsize c = (st.caches (mv.key E)).wgsize c)
      ∧ (launches evs).map (·.1)
          = (List.range mv.queue.length).filter (fun d => mv.part_size d ≠ 0)
      ∧ (∀ l ∈ launches evs, ∃ q, mv.queue.get? l.1 = some q
          ∧ ((st1.caches (mv.key E)).kernel q.context).map CompiledKernel.identity
              = some l.2.1.identity
          ∧ l.2.2.2 = (st1.caches (mv.key E)).wgsize q.context
          ∧ l.2.2.1 = global_size q.device (mv.part_size l.1)
              ((st1.caches (mv.key E)).wgsize q.context)
          ∧ l.2.1.arguments.arg 0 = some (.ulong (mv.part_size l.1))) := by
  unfold multivector.operator_assign at h
  by_cases hacc : accepted mv.N e = true
  · rw [if_pos hacc] at h
    refine ⟨hacc, ?_⟩
    cases hc : mv.queue.foldlM (compile_step ext backend mv E e) st with
    | none => rw [hc] at h; cases h
    | some mid =>
      rw [hc] at h
      simp only [] at h
      obtain ⟨evc, hlogc, hlc, hcc, hsc, hcomp, hkeep, _⟩ :=
        compile_loop_spec ext backend mv E e mv.queue st mid hc
      obtain ⟨evd, hlogd, hnc, hcompd, hwgd, hidd, hlsd, hld⟩ :=
        dispatch_loop_spec mv E e hacc hvec (List.range mv.queue.length) mid st1 h
      refine ⟨evc ++ evd, by rw [hlogd, hlogc, List.append_assoc], ?_, ?_, ?_, ?_, ?_, ?_⟩
      · intro c
        rw [compile_count_append, hcc c, (hnc (mv.key E) c).1, Nat.add_zero]
      · intro c
        rw [synthesis_count_append, hsc c, (hnc (mv.key E) c).2, Nat.add_zero]
      · intro c
        rw [hcompd, hcomp c]
      · intro c hcc1
        obtain ⟨h1, h2⟩ := hkeep c hcc1
        exact ⟨by rw [hidd c, h1], by rw [hwgd, h2]⟩
      · rw [launches_append, hlc, List.nil_append, hlsd]
      · intro l hl
        rw [launches_append, hlc, List.nil_append] at hl
        obtain ⟨q, hq, h1, h2, h3, h4⟩ := hld l hl
        exact ⟨q, hq, by rw [hidd q.context, h1], by rw [hwgd, h2], by rw [hwgd, h3], h4⟩
  · rw [if_neg hacc] at h
    cases h

/-- An assignment whose contexts are all compiled and whose kernels are in the
cache succeeds. -/
theorem operator_assign_cached {V : Type} (ext : External V) (backend : Backend)
    (mv : multivector) (E : ExprType) (e : Expr V) (st : Runtime V) (hvec : mv.vec.length = mv.N)
    (hacc : accepted mv.N e = true)
    (hcomp : ∀ q ∈ mv.queue, (st.caches (mv.key E)).compiled q.context = true)
    (hk : ∀ d q, mv.queue.get? d = some q → mv.part_size d ≠ 0 →
      ((st.caches (mv.key E)).kernel q.context).isSome = true) :
    ∃ st1, mv.operator_assign ext backend E e st = some st1 := by
  unfold multivector.operator_assign
  rw [if_pos hacc, compile_loop_noop ext backend mv E e mv.queue st hcomp]
  simp only []
  apply dispatch_loop_ok mv E e hacc hvec
  intro d hd hp
  rw [List.mem_range] at hd
  have hq : mv.queue.get? d = some (mv.queue.get ⟨d, hd⟩) := List.get?_eq_get hd
  exact ⟨_, hq, hk d _ hq hp⟩

/-! ### Compile once -/

/-- Claim C18, as stated, fails for a cache that already holds the entry: after
an earlier assignment of the shape, two further assignments of the shape on the
same queues build the kernel of the pair (shape, context 1) zero times, not
once. -/
theorem compile_once_counterexample :
    sample_expr.has_type sample_type = true
    ∧ sample_expr_other.has_type sample_type = true
    ∧ ((sample_multivector.operator_assign sample_external sample_backend sample_type sample_expr
          sample_runtime).bind fun st0 =>
        (sample_multivector.operator_assign sample_external sample_backend sample_type sample_expr st0).bind
          fun st1 =>
        (sample_multivector.operator_assign sample_external sample_backend sample_type sample_expr_other
            st1).map fun st2 =>
          compile_count (sample_multivector.key sample_type) 1 (st2.log.drop st0.log.length))
      = some 0 := by
  refine ⟨by decide, by decide, by decide!⟩

/-- Claim C18, amended: after one assignment of an expression of shape `S` (the
C++ type `E` of the expression, the template argument that keys the cache) on a
queue list, from any cache state, a second assignment of an expression of the
same type on the same queue list succeeds, synthesizes and builds nothing for
any shape and context, and launches the kernel and the work-group size that the
cache holds after the first assignment; across the two assignments the kernel
of each context of the queue list is built exactly once when the cache did not
hold it at the start, and not at all when it did, also when several queues share
the context. -/
theorem compile_once {V : Type} (ext : External V) (backend : Backend) (mv : multivector)
    (E : ExprType) (e1 e2 : Expr V) (st0 st1 : Runtime V)
    (htype1 : e1.has_type E = true) (htype2 : e2.has_type E = true)
    (hvec : mv.vec.length = mv.N) (h2 : accepted mv.N e2 = true)
    (hfirst : mv.operator_assign ext backend E e1 st0 = some st1) :
    ∃ st2 evs1 evs2,
      mv.operator_assign ext backend E e2 st1 = some st2
      ∧ st1.log = st0.log ++ evs1
      ∧ st2.log = st1.log ++ evs2
      ∧ (∀ key c, synthesis_count key c evs2 = 0 ∧ compile_count key c evs2 = 0)
      ∧ (launches evs2).map (·.1)
          = (List.range mv.queue.length).filter (fun d => mv.part_size d ≠ 0)
      ∧ (∀ l ∈ launches evs2, ∃ q, mv.queue.get? l.1 = some q
          ∧ ((st1.caches (mv.key E)).kernel q.context).map CompiledKernel.identity
              = some l.2.1.identity
          ∧ l.2.2.2 = (st1.caches (mv.key E)).wgsize q.context)
      ∧ (∀ q ∈ mv.queue,
          compile_count (mv.key E) q.context (evs1 ++ evs2)
            = if (st0.caches (mv.key E)).compiled q.context then 0 else 1) := by
  have _ := htype1
  have _ := htype2
  obtain ⟨_, evs1, hlog1, hcc1, _, hcomp1, _, hls1, hl1⟩ :=
    operator_assign_spec ext backend mv E e1 st0 st1 hvec hfirst
  have hall : ∀ q ∈ mv.queue, (st1.caches (mv.key E)).compiled q.context = true := by
    intro q hq
    rw [hcomp1 q.context]
    have : q.context ∈ mv.queue.map (·.context) := List.mem_map.2 ⟨q, hq, rfl⟩
    simp [this]
  have hpresent : ∀ d q, mv.queue.get? d = some q → mv.part_size d ≠ 0 →
      ((st1.caches (mv.key E)).kernel q.context).isSome = true := by
    intro d q hq hp
    have hd : d < mv.queue.length := by
      rw [List.get?_eq_getElem?] at hq
      exact (List.getElem?_eq_some_iff.1 hq).1
    have hmem : d ∈ (launches evs1).map (·.1) := by
      rw [hls1, List.mem_filter, List.mem_range]
      exact ⟨hd, by simpa using hp⟩
    obtain ⟨l, hl, hld⟩ := List.mem_map.1 hmem
    obtain ⟨q1, hq1, hid, _⟩ := hl1 l hl
    rw [hld, hq] at hq1
    have hqq : q1 = q := (Option.some.inj hq1).symm
    subst hqq
    cases hx : (st1.caches (mv.key E)).kernel q1.context with
    | none => rw [hx] at hid; cases hid
    | some k => rfl
  obtain ⟨st2, hsecond⟩ := operator_assign_cached ext backend mv E e2 st1 hvec h2 hall hpresent
  have hnothing : ∀ evs, st2.log = st1.log ++ evs → ∀ key c,
      synthesis_count key c evs = 0 ∧ compile_count key c evs = 0 := by
    intro evs hevs key c
    have h := hsecond
    unfold multivector.operator_assign at h
    rw [if_pos h2, compile_loop_noop ext backend mv E e2 mv.queue st1 hall] at h
    simp only [] at h
    obtain ⟨evd, hlogd, hnc, _⟩ :=
      dispatch_loop_spec mv E e2 h2 hvec (List.range mv.queue.length) st1 st2 h
    have : evs = evd := List.append_cancel_left (hevs.symm.trans hlogd)
    rw [this]
    exact ⟨(hnc key c).2, (hnc key c).1⟩
  obtain ⟨_, evs2, hlog2, hcc2, _, _, hkeep2, hls2, hl2⟩ :=
    operator_assign_spec ext backend mv E e2 st1 st2 hvec hsecond
  refine ⟨st2, evs1, evs2, hsecond, hlog1, hlog2, hnothing evs2 hlog2, hls2, ?_, ?_⟩
  · intro l hl
    obtain ⟨q, hq, hid, hw, _, _⟩ := hl2 l hl
    have hqm : q ∈ mv.queue := by
      exact List.get?_mem hq
    obtain ⟨hk1, hk2⟩ := hkeep2 q.context (hall q hqm)
    exact ⟨q, hq, by rw [← hk1, hid], by rw [hw, hk2]⟩
  · intro q hq
    have hmem : q.context ∈ mv.queue.map (·.context) := List.mem_map.2 ⟨q, hq, rfl⟩
    rw [compile_count_append, hcc1 q.context, (hnothing evs2 hlog2 (mv.key E) q.context).2,
      Nat.add_zero]
    cases hc : (st0.caches (mv.key E)).compiled q.context <;> simp [hmem]

theorem compile_once_witness :
    ∃ st1 st2 evs1 evs2,
      sample_multivector.operator_assign sample_external sample_backend sample_type sample_expr
          sample_runtime = some st1
      ∧ sample_multivector.operator_assign sample_external sample_backend sample_type sample_expr_other st1
          = some st2
      ∧ st1.log = sample_runtime.log ++ evs1
      ∧ st2.log = st1.log ++ evs2
      ∧ (∀ key c, synthesis_count key c evs2 = 0 ∧ compile_count key c evs2 = 0)
      ∧ (∀ q ∈ sample_multivector.queue,
          compile_count (sample_multivector.key sample_type) q.context (evs1 ++ evs2)
            = if (sample_runtime.caches (sample_multivector.key sample_type)).compiled q.context
              then 0 else 1)
      ∧ ((sample_multivector.operator_assign sample_external sample_backend
              sample_type_referencing sample_expr st1).map fun st3 =>
            compile_count (sample_multivector.key sample_type_referencing) 1
              (st3.log.drop st1.log.length)) = some 1 := by
  obtain ⟨st1, h1⟩ := Option.isSome_iff_exists.1
    (show (sample_multivector.operator_assign sample_external sample_backend sample_type sample_expr
      sample_runtime).isSome = true by decide!)
  obtain ⟨st2, evs1, evs2, h2, h3, h4, h5, _, _, h6⟩ :=
    compile_once sample_external sample_backend sample_multivector sample_type sample_expr sample_expr_other
      sample_runtime st1 (by decide) (by decide) (by decide) (by decide!) h1
  have hst1 : sample_multivector.operator_assign sample_external sample_backend sample_type
      sample_expr sample_runtime = some st1 := h1
  have h7 : ((sample_multivector.operator_assign sample_external sample_backend sample_type
        sample_expr sample_runtime).bind fun st1 =>
      (sample_multivector.operator_assign sample_external sample_backend
          sample_type_referencing sample_expr st1).map fun st3 =>
        compile_count (sample_multivector.key sample_type_referencing) 1
          (st3.log.drop st1.log.length)) = some 1 := by decide!
  rw [hst1] at h7
  exact ⟨st1, st2, evs1, evs2, h1, h2, h3, h4, h5, h6, h7⟩

/-! ### Compound assignment -/

/-- Claim C20: for every grouped array `a`, right-hand side `e` and compound
operator `op=` among `+= -= *= /= %= &= |= ^= <<= >>=`, the member `operator op=`
is the plain assignment of the binary node of `op` whose left child is the
terminal `a` and whose right child is `e`: it agrees with compound assignment as
the specification words it, runs `operator=` (cache, binding, dispatch) on that
node, and the statement of every slot `C` reads `prm_<C+1>_1[idx] op <e>`. -/
theorem compound_assignment {V : Type} (ext : External V) (backend : Backend)
    (c : CompoundOp) (mv : multivector) (E : ExprType) (e : Expr V) (st : Runtime V) :
    mv.operator_compound ext backend c E e st
      = spec_compound_assignment ext backend c.cop mv E e st
    ∧ mv.operator_compound ext backend c E e st
      = mv.operator_assign ext backend
          (.binary c.op (.terminal (.multivector mv.T mv.N mv.own false)) E)
          (.binary c.op (.terminal (.multivector mv.T mv.vec)) e) st
    ∧ c.op.the_op ++ "=" = c.cop
    ∧ c.cop ∈ ["+=", "-=", "*=", "/=", "%=", "&=", "|=", "^=", "<<=", ">>="]
    ∧ (∀ sign ∈ ["+=", "-=", "*=", "/=", "%=", "&=", "|=", "^=", "<<=", ">>="],
        ∃ c1 : CompoundOp, c1.cop = sign)
    ∧ (Expr.binary c.op (.terminal (.multivector mv.T mv.vec)) e).terminals
        = .multivector mv.T mv.vec :: e.terminals
    ∧ (∀ C, ((Expr.binary c.op (.terminal (.multivector mv.T mv.vec)) e).kernel_expr C 0 0).1
        = .binary c.op (.element (prm_name (C + 1) 1)) (e.kernel_expr C 1 0).1) := by
  have hfind : BinaryTag.all.find? (fun op => op.the_op ++ "=" == c.cop) = some c.op := by
    cases c <;> decide
  refine ⟨?_, rfl, ?_, ?_, ?_, ?_, ?_⟩
  · unfold spec_compound_assignment multivector.operator_compound multivector.terminal
    rw [hfind]
    rfl
  · cases c <;> decide
  · cases c <;> decide
  · intro sign hs
    simp only [List.mem_cons, List.mem_singleton, List.not_mem_nil, or_false] at hs
    rcases hs with h | h | h | h | h | h | h | h | h | h
    · exact ⟨.plus_assign, h.symm⟩
    · exact ⟨.minus_assign, h.symm⟩
    · exact ⟨.multiplies_assign, h.symm⟩
    · exact ⟨.divides_assign, h.symm⟩
    · exact ⟨.modulus_assign, h.symm⟩
    · exact ⟨.bitwise_and_assign, h.symm⟩
    · exact ⟨.bitwise_or_assign, h.symm⟩
    · exact ⟨.bitwise_xor_assign, h.symm⟩
    · exact ⟨.shift_left_assign, h.symm⟩
    · exact ⟨.shift_right_assign, h.symm⟩
  · simp [Expr.terminals]
  · intro C
    simp [Expr.kernel_expr, Terminal.reference]

/-! ### The launch width -/

theorem alignup_spec (p w : Nat) (hw : 0 < w) :
    w ∣ alignup p w ∧ p ≤ alignup p w ∧ ∀ m, w ∣ m → p ≤ m → alignup p w ≤ m := by
  unfold alignup
  have hdm := Nat.div_add_mod (p + w - 1) w
  have hlt := Nat.mod_lt (p + w - 1) hw
  have hcomm : w * ((p + w - 1) / w) = (p + w - 1) / w * w := Nat.mul_comm _ _
  refine ⟨Dvd.intro_left _ rfl, by omega, ?_⟩
  intro m hm hpm
  obtain ⟨k, hk⟩ := hm
  subst hk
  rw [Nat.mul_comm w k]
  apply Nat.mul_le_mul_right
  have h1 : (p + w - 1) / w < k + 1 := by
    rw [Nat.div_lt_iff_lt_mul hw]
    have : (k + 1) * w = w * k + w := by ring
    omega
  omega

/-- What a dispatch pass of the tuple assignment does for a non-empty
partition. -/
theorem tuple_dispatch_step_spec {E V : Type} (ctx : VectorContexts E V) (mv : multivector)
    (exprs : List E) (st st1 : Runtime V) (d : Nat) (hp : mv.part_size d ≠ 0)
    (h : tuple_dispatch_step ctx mv exprs st d = some st1) :
    ∃ q k bound, mv.queue.get? d = some q
      ∧ (st.caches (mv.tuple_key ctx exprs)).kernel q.context = some k
      ∧ tuple_bind_arguments ctx mv.N mv.vec exprs k.arguments d (mv.part_size d) = some bound
      ∧ st1.log = st.log ++ [.enqueued d q { k with arguments := bound.1 }
          (global_size q.device (mv.part_size d)
            ((st.caches (mv.tuple_key ctx exprs)).wgsize q.context))
          ((st.caches (mv.tuple_key ctx exprs)).wgsize q.context)] := by
  unfold tuple_dispatch_step at h
  simp only [] at h
  rw [if_neg hp] at h
  cases hq : mv.queue.get? d with
  | none => rw [hq] at h; cases h
  | some q =>
    rw [hq] at h
    simp only [] at h
    cases hk : (st.caches (mv.tuple_key ctx exprs)).kernel q.context with
    | none => rw [hk] at h; cases h
    | some k =>
      rw [hk] at h
      simp only [] at h
      cases hb : tuple_bind_arguments ctx mv.N mv.vec exprs k.arguments d (mv.part_size d) with
      | none => rw [hb] at h; cases h
      | some bound =>
        rw [hb] at h
        have h1 := (Option.some.inj h).symm
        subst h1
        exact ⟨q, k, bound, rfl, hk, hb, rfl⟩

/-- Claim C19: for a partition of size `p > 0` and a cached work-group size
`w > 0`, the global size of a launch, in the dispatch loop of the expression
assignment and in that of the tuple assignment, is `alignup(p, w)`, the least
multiple of `w` that is at least `p`, on a CPU device, and `4 * compute units * w`
on any other device, whatever `p` is (the product being a `size_t` value); in both
cases it is a multiple of `w`. -/
theorem launch_width {E V : Type} (device : cl_Device) (p w : Nat) (hp : 0 < p) (hw : 0 < w)
    (hfit : 4 * device.max_compute_units * w < two64) :
    (device.cpu = true →
      global_size device p w = alignup p w
      ∧ w ∣ global_size device p w ∧ p ≤ global_size device p w
      ∧ ∀ m, w ∣ m → p ≤ m → global_size device p w ≤ m)
    ∧ (device.cpu = false →
      global_size device p w = 4 * device.max_compute_units * w
      ∧ ∀ p1, global_size device p1 w = global_size device p w)
    ∧ w ∣ global_size device p w
    ∧ (∀ (mv : multivector) (X : ExprType) (e : Expr V) (st st1 : Runtime V) (d : Nat),
        mv.part_size d = p → dispatch_step mv X e st d = some st1 →
        ∃ q k, mv.queue.get? d = some q
          ∧ st1.log = st.log ++ [.enqueued d q k
              (global_size q.device p ((st.caches (mv.key X)).wgsize q.context))
              ((st.caches (mv.key X)).wgsize q.context)])
    ∧ (∀ (ctx : VectorContexts E V) (mv : multivector) (exprs : List E) (st st1 : Runtime V)
        (d : Nat), mv.part_size d = p → tuple_dispatch_step ctx mv exprs st d = some st1 →
        ∃ q k, mv.queue.get? d = some q
          ∧ st1.log = st.log ++ [.enqueued d q k
              (global_size q.device p ((st.caches (mv.tuple_key ctx exprs)).wgsize q.context))
              ((st.caches (mv.tuple_key ctx exprs)).wgsize q.context)]) := by
  obtain ⟨ha1, ha2, ha3⟩ := alignup_spec p w hw
  have hgpu : device.cpu = false →
      global_size device p w = 4 * device.max_compute_units * w
      ∧ ∀ p1, global_size device p1 w = global_size device p w := by
    intro hc
    have h1 : device.max_compute_units * w < two64 := by
      have : device.max_compute_units * w ≤ 4 * device.max_compute_units * w := by
        rw [Nat.mul_assoc]
        exact Nat.le_mul_of_pos_left _ (by omega)
      omega
    have h2 : device.max_compute_units * w * 4 < two64 := by
      have : device.max_compute_units * w * 4 = 4 * device.max_compute_units * w := by ring
      omega
    constructor
    · unfold global_size
      rw [hc]
      simp only [Bool.false_eq_true, if_false]
      rw [Nat.mod_eq_of_lt h1, Nat.mod_eq_of_lt h2]
      ring
    · intro p1
      unfold global_size
      rw [hc]
      simp only [Bool.false_eq_true, if_false]
  have hcpu : device.cpu = true → global_size device p w = alignup p w := by
    intro hc
    unfold global_size
    rw [if_pos hc]
  refine ⟨?_, hgpu, ?_, ?_, ?_⟩
  · intro hc
    rw [hcpu hc]
    exact ⟨rfl, ha1, ha2, ha3⟩
  · cases hc : device.cpu with
    | true => rw [hcpu hc]; exact ha1
    | false =>
      rw [(hgpu hc).1]
      exact Dvd.intro_left _ rfl
  · intro mv E e st st1 d hpd hstep
    rcases dispatch_step_spec mv E e st st1 d hstep with ⟨h0, _⟩ | ⟨_, q, k, bound, hq, _, _, hlog, _⟩
    · rw [hpd] at h0
      omega
    · rw [hpd] at hlog
      exact ⟨q, _, hq, hlog⟩
  · intro ctx mv exprs st st1 d hpd hstep
    obtain ⟨q, k, bound, hq, _, _, hlog⟩ :=
      tuple_dispatch_step_spec ctx mv exprs st st1 d (by rw [hpd]; omega) hstep
    rw [hpd] at hlog
    exact ⟨q, _, hq, hlog⟩

theorem launch_width_witness :
    global_size { id := 0, cpu := true, max_compute_units := 4 } 100 64 = 128
    ∧ global_size { id := 1, cpu := false, max_compute_units := 8 } 100 64 = 2048
    ∧ 64 ∣ global_size { id := 1, cpu := false, max_compute_units := 8 } 100 64 :=
  ⟨by decide, by decide,
    (launch_width (E := Nat) (V := Nat) { id := 1, cpu := false, max_compute_units := 8 } 100 64
      (by decide) (by decide) (by decide)).2.2.1⟩

/-! ## The tuple assignment -/

theorem get_header_eq {E V : Type} (ctx : VectorContexts E V) (exprs : List E) (os : String) :
    get_header ctx exprs os
      = (os ++ String.join (exprs.enum.map fun p => ctx.vector_head_context p.2 (p.1 + 1)),
         exprs.length) := by
  unfold get_header
  induction exprs using List.reverseRecOn with
  | nil => simp [string_join_nil, string_append_empty]
  | append_singleton l a ih =>
    rw [List.foldl_append, ih, List.enum_append, List.map_append, string_join_append]
    simp [List.enumFrom, string_join_cons, string_join_nil, string_append_empty,
      String.append_assoc]

theorem get_params_eq {E V : Type} (ctx : VectorContexts E V) (exprs : List E) (os : String) :
    get_params ctx exprs os
      = (os ++ String.join (exprs.enum.map fun p => ctx.vector_parm_context p.2 (p.1 + 1)),
         exprs.length) := by
  unfold get_params
  induction exprs using List.reverseRecOn with
  | nil => simp [string_join_nil, string_append_empty]
  | append_singleton l a ih =>
    rw [List.foldl_append, ih, List.enum_append, List.map_append, string_join_append]
    simp [List.enumFrom, string_join_cons, string_join_nil, string_append_empty,
      String.append_assoc]

theorem get_expressions_eq {E V : Type} (ctx : VectorContexts E V) (T : String)
    (exprs : List E) (os : String) :
    get_expressions ctx T exprs os
      = (os ++ String.join (exprs.enum.map fun p =>
            (TStatement.define (p.1 + 1) p.2).text ctx T),
         exprs.length) := by
  unfold get_expressions
  induction exprs using List.reverseRecOn with
  | nil => simp [string_join_nil, string_append_empty]
  | append_singleton l a ih =>
    rw [List.foldl_append, ih, List.enum_append, List.map_append, string_join_append]
    simp [List.enumFrom, string_join_cons, string_join_nil, string_append_empty,
      String.append_assoc, TStatement.text]

theorem store_loop_eq {E V : Type} (ctx : VectorContexts E V) (T : String) (N : Nat)
    (kernel : String) :
    (List.range N).foldl
        (fun kernel i =>
          kernel ++ "\t\tres_" ++ toString (i + 1) ++ "[idx] = buf_" ++ toString (i + 1) ++ ";\n")
        kernel
      = kernel ++ String.join ((List.range N).map fun i =>
          (TStatement.store (i + 1) : TStatement E).text ctx T) := by
  induction N with
  | zero => simp [string_join_nil, string_append_empty]
  | succ n ih =>
    rw [List.range_succ, List.foldl_append, ih, List.map_append, string_join_append]
    simp [string_join_cons, string_join_nil, string_append_empty, String.append_assoc,
      TStatement.text]

/-- The layout of the source of the tuple kernel. -/
theorem tuple_kernel_source_eq {E V : Type} (ext : External V) (ctx : VectorContexts E V)
    (T : String) (N : Nat) (exprs : List E) :
    tuple_kernel_source ext ctx T N exprs
      = ext.standard_kernel_header
        ++ String.join (exprs.enum.map fun p => ctx.vector_head_context p.2 (p.1 + 1))
        ++ ("kernel void multi_expr_tuple(\n\t" ++ ext.type_name_size_t ++ " n"
            ++ String.join ((List.range N).map fun i =>
                 ",\n\tglobal " ++ T ++ " *res_" ++ toString (i + 1))
            ++ String.join (exprs.enum.map fun p => ctx.vector_parm_context p.2 (p.1 + 1))
            ++ "\n)\n")
        ++ ("\x7b\n\tfor(size_t idx = get_global_id(0); idx < n; idx += get_global_size(0)) \x7b\n"
            ++ String.join (exprs.enum.map fun p => (TStatement.define (p.1 + 1) p.2).text ctx T)
            ++ "\n"
            ++ String.join ((List.range N).map fun i =>
                 (TStatement.store (i + 1) : TStatement E).text ctx T)
            ++ "\t\x7d\n\x7d\n") := by
  have hres : ∀ (n : Nat) (kernel : String),
      (List.range n).foldl
          (fun kernel i => kernel ++ ",\n\tglobal " ++ T ++ " *res_" ++ toString (i + 1)) kernel
        = kernel ++ String.join ((List.range n).map fun i =>
            ",\n\tglobal " ++ T ++ " *res_" ++ toString (i + 1)) := by
    intro n kernel
    induction n with
    | zero => simp [string_join_nil, string_append_empty]
    | succ n ih =>
      rw [List.range_succ, List.foldl_append, ih, List.map_append, string_join_append]
      simp [string_join_cons, string_join_nil, string_append_empty, String.append_assoc]
  have h1 : "kernel void multi_expr_tuple(\n\t" = "kernel void multi_expr_tuple(\n" ++ "\t" := by
    decide
  have h2 : "\n)\n\x7b\n\tfor(size_t idx = get_global_id(0); idx < n; idx += get_global_size(0)) \x7b\n"
      = "\n)\n" ++ "\x7b\n\tfor(size_t idx = get_global_id(0); idx < n; idx += get_global_size(0)) \x7b\n" := by
    decide
  unfold tuple_kernel_source
  simp only []
  rw [get_header_eq, hres, get_params_eq, get_expressions_eq, store_loop_eq ctx T]
  simp only [h1, h2, String.append_assoc]

theorem run_tuple_body_append {E V : Type} (ctx : VectorContexts E V) (vec : List Nat)
    (d idx : Nat) : ∀ (a b : List (TStatement E)) (st : TState V),
    run_tuple_body ctx vec d idx (a ++ b) st
      = (run_tuple_body ctx vec d idx a st).bind (run_tuple_body ctx vec d idx b)
  | [], b, st => rfl
  | s :: a, b, st => by
    simp only [List.cons_append, run_tuple_body]
    cases s.exec ctx vec d idx st with
    | none => rfl
    | some st1 => exact run_tuple_body_append ctx vec d idx a b st1

/-- The definitions `T buf_i = ...;` compute every expression on the memory as
it is and leave the memory alone. -/
theorem run_definitions {E V : Type} (ctx : VectorContexts E V) (vec : List Nat) (d idx : Nat) :
    ∀ (exprs : List E) (k : Nat) (st : TState V),
    ∃ st1, run_tuple_body ctx vec d idx
        ((exprs.enumFrom k).map fun p => .define (p.1 + 1) p.2) st = some st1
      ∧ st1.mem = st.mem
      ∧ (∀ i, i ≤ k → st1.buf i = st.buf i)
      ∧ (∀ j e, exprs.get? j = some e → st1.buf (k + j + 1) = some (ctx.value e d st.mem idx))
  | [], k, st => ⟨st, rfl, rfl, fun _ _ => rfl, fun j e h => by simp at h⟩
  | x :: xs, k, st => by
    obtain ⟨st1, h1, h2, h3, h4⟩ := run_definitions ctx vec d idx xs (k + 1)
      { st with buf := Function.update st.buf (k + 1) (some (ctx.value x d st.mem idx)) }
    refine ⟨st1, ?_, h2, ?_, ?_⟩
    · simp only [List.enumFrom_cons, List.map_cons, run_tuple_body, TStatement.exec]
      exact h1
    · intro i hi
      rw [h3 i (by omega)]
      exact Function.update_noteq (by omega) _ _
    · intro j e hj
      cases j with
      | zero =>
        simp only [List.get?_cons_zero, Option.some.injEq] at hj
        subst hj
        rw [Nat.add_zero, h3 (k + 1) (Nat.le_refl _)]
        exact Function.update_same _ _ _
      | succ j =>
        have := h4 j e (by simpa using hj)
        rw [show k + (j + 1) + 1 = k + 1 + j + 1 by omega]
        exact this

/-- The stores `res_i[idx] = buf_i;` write the computed values, in order. -/
theorem run_stores {E V : Type} (ctx : VectorContexts E V) (vec : List Nat) (d idx : Nat)
    (vals : Nat → V) : ∀ (rs : List Nat) (k : Nat) (st : TState V),
    (∀ j, j < rs.length → st.buf (k + j + 1) = some (vals (k + j))) →
    (∀ j r, rs.get? j = some r → vec.get? (k + j) = some r) →
    ∃ st1, run_tuple_body ctx vec d idx
        ((List.range' k rs.length).map fun i => (.store (i + 1) : TStatement E)) st = some st1
      ∧ st1.mem = (rs.enumFrom k).foldl
          (fun m p => m.store { vector := p.2, device := d } idx (vals p.1)) st.mem
  | [], k, st, _, _ => ⟨st, rfl, rfl⟩
  | r :: rs, k, st, hb, hv => by
    have hb0 := hb 0 (by simp)
    have hv0 := hv 0 r rfl
    rw [Nat.add_zero] at hb0 hv0
    obtain ⟨st1, h1, h2⟩ := run_stores ctx vec d idx vals rs (k + 1)
      { st with mem := st.mem.store { vector := r, device := d } idx (vals k) }
      (fun j hj => by
        have := hb (j + 1) (by simpa using hj)
        rw [show k + 1 + j + 1 = k + (j + 1) + 1 by omega, show k + 1 + j = k + (j + 1) by omega]
        exact this)
      (fun j r1 hj => by
        have := hv (j + 1) r1 (by simpa using hj)
        rw [show k + 1 + j = k + (j + 1) by omega]
        exact this)
    refine ⟨st1, ?_, ?_⟩
    · simp only [List.length_cons, List.range'_succ, List.map_cons, run_tuple_body,
        TStatement.exec, hb0, Nat.add_sub_cancel, hv0]
      exact h1
    · rw [h2]
      rfl

/-- A cell written once by a sequence of stores to distinct vectors holds the
value stored there; the other cells keep theirs. -/
theorem stores_result {V : Type} (d idx : Nat) (vals : Nat → V) :
    ∀ (rs : List Nat) (k : Nat) (mem : Memory V), rs.Nodup →
    (∀ j r, rs.get? j = some r →
      ((rs.enumFrom k).foldl
        (fun m p => m.store { vector := p.2, device := d } idx (vals p.1)) mem)
        { vector := r, device := d } idx = vals (k + j))
    ∧ (∀ b i, (∀ r ∈ rs, b ≠ { vector := r, device := d }) ∨ i ≠ idx →
      ((rs.enumFrom k).foldl
        (fun m p => m.store { vector := p.2, device := d } idx (vals p.1)) mem) b i = mem b i)
  | [], k, mem, _ => ⟨fun j r h => by simp at h, fun _ _ _ => rfl⟩
  | r0 :: rs, k, mem, hnd => by
    have hnd1 := (List.nodup_cons.1 hnd).2
    have hr0 := (List.nodup_cons.1 hnd).1
    obtain ⟨h1, h2⟩ := stores_result d idx vals rs (k + 1)
      (mem.store { vector := r0, device := d } idx (vals k)) hnd1
    constructor
    · intro j r hj
      cases j with
      | zero =>
        simp only [List.get?_cons_zero, Option.some.injEq] at hj
        subst hj
        simp only [List.enumFrom_cons, List.foldl_cons]
        rw [h2 _ _ (Or.inl (fun r hr hc => by
          have : r0 = r := by simpa using congrArg cl_Buffer.vector hc
          exact hr0 (this ▸ hr)))]
        simp [Memory.store]
      | succ j =>
        simp only [List.enumFrom_cons, List.foldl_cons]
        rw [h1 j r (by simpa using hj)]
        congr 1
        omega
    · intro b i hbi
      simp only [List.enumFrom_cons, List.foldl_cons]
      rw [h2 b i (by
        rcases hbi with h | h
        · exact Or.inl (fun r hr => h r (by simp [hr]))
        · exact Or.inr h)]
      rcases hbi with h | h
      · have := h r0 (by simp)
        simp [Memory.store, this]
      · simp [Memory.store, h]

/-- Claim C21: for a tuple of `N` expressions assigned to a grouped array of
width `N`, the loop body of the kernel first defines the intermediates
`buf_1 .. buf_N`, `buf_i` being the text of expression `i`, then an empty line,
and only then the stores `res_i[idx] = buf_i`; run at an index, the body computes
every expression on the contents before the assignment, also when it reads a
member of the target, and then stores: with distinct members, member `i` holds
the value of expression `i` on the old contents and nothing else changes.
Assigning `(y, x)` to the group `(x, y)` swaps the two. -/
theorem tuple_stores_after_computing {E V : Type} (ext : External V)
    (ctx : VectorContexts E V) (T : String) (N : Nat) (exprs : List E) (vec : List Nat)
    (d idx : Nat) (mem0 : Memory V) (hN : exprs.length = N) (hvec : vec.length = N) :
    (∃ before, tuple_kernel_source ext ctx T N exprs
        = before
          ++ ("\x7b\n\tfor(size_t idx = get_global_id(0); idx < n; idx += get_global_size(0)) \x7b\n"
              ++ String.join (exprs.enum.map fun p =>
                   "\t\t" ++ T ++ " buf_" ++ toString (p.1 + 1) ++ " = "
                     ++ ctx.vector_expr_context p.2 (p.1 + 1) ++ ";\n")
              ++ "\n"
              ++ String.join ((List.range N).map fun i =>
                   "\t\tres_" ++ toString (i + 1) ++ "[idx] = buf_" ++ toString (i + 1) ++ ";\n")
              ++ "\t\x7d\n\x7d\n"))
    ∧ (tuple_body N exprs).map (TStatement.text ctx T)
        = (exprs.enum.map fun p =>
            "\t\t" ++ T ++ " buf_" ++ toString (p.1 + 1) ++ " = "
              ++ ctx.vector_expr_context p.2 (p.1 + 1) ++ ";\n")
          ++ ((List.range N).map fun i =>
            "\t\tres_" ++ toString (i + 1) ++ "[idx] = buf_" ++ toString (i + 1) ++ ";\n")
    ∧ (∃ st, run_tuple_body ctx vec d idx (tuple_body N exprs)
          { buf := fun _ => none, mem := mem0 } = some st
        ∧ (vec.Nodup →
            (∀ i e r, exprs.get? i = some e → vec.get? i = some r →
              st.mem { vector := r, device := d } idx = ctx.value e d mem0 idx)
            ∧ (∀ b j, (∀ r ∈ vec, b ≠ { vector := r, device := d }) ∨ j ≠ idx →
              st.mem b j = mem0 b j)))
    ∧ (run_tuple_body sample_contexts [1, 2] 0 5 (tuple_body 2 [2, 1])
          { buf := fun _ => none, mem := sample_memory }).map
        (fun st => (st.mem { vector := 1, device := 0 } 5, st.mem { vector := 2, device := 0 } 5))
        = some (sample_memory { vector := 2, device := 0 } 5,
                sample_memory { vector := 1, device := 0 } 5) := by
  refine ⟨⟨_, tuple_kernel_source_eq ext ctx T N exprs⟩, ?_, ?_, by decide⟩
  · simp only [tuple_body, List.map_append, List.map_map]
    rfl
  · let vals : Nat → V := fun i =>
      match exprs.get? i with
      | some e => ctx.value e d mem0 idx
      | none => mem0 { vector := 0, device := 0 } 0
    obtain ⟨st1, h1, h2, _, h4⟩ := run_definitions ctx vec d idx exprs 0
      { buf := fun _ => none, mem := mem0 }
    have hbuf : ∀ j, j < vec.length → st1.buf (0 + j + 1) = some (vals (0 + j)) := by
      intro j hj
      have hj2 : j < exprs.length := by omega
      have hg : exprs.get? j = some (exprs.get ⟨j, hj2⟩) := List.get?_eq_get hj2
      rw [h4 j _ hg, Nat.zero_add]
      show _ = some (match exprs.get? j with
        | some e => ctx.value e d mem0 idx
        | none => mem0 { vector := 0, device := 0 } 0)
      rw [hg]
    obtain ⟨st2, h5, h6⟩ := run_stores (E := E) ctx vec d idx vals vec 0 st1 hbuf
      (fun j r hj => by rw [Nat.zero_add]; exact hj)
    refine ⟨st2, ?_, ?_⟩
    · unfold tuple_body
      rw [run_tuple_body_append, List.enum, h1, List.range_eq_range', ← hvec]
      exact h5
    · intro hnd
      obtain ⟨r1, r2⟩ := stores_result d idx vals vec 0 st1.mem hnd
      rw [← h6] at r1 r2
      have h2a : st1.mem = mem0 := h2
      rw [h2a] at r2
      refine ⟨?_, r2⟩
      intro i e r he hr
      rw [r1 i r hr, Nat.zero_add]
      show (match exprs.get? i with
        | some e => ctx.value e d mem0 idx
        | none => mem0 { vector := 0, device := 0 } 0) = _
      rw [he]

theorem tuple_stores_after_computing_witness :
    ∃ st, run_tuple_body sample_contexts [1, 2] 0 5 (tuple_body 2 [2, 1])
        { buf := fun _ => none, mem := sample_memory } = some st
      ∧ st.mem { vector := 1, device := 0 } 5 = 205
      ∧ st.mem { vector := 2, device := 0 } 5 = 105 := by
  obtain ⟨_, _, ⟨st, h1, h2⟩, _⟩ :=
    tuple_stores_after_computing sample_external sample_contexts "double" 2 [2, 1] [1, 2] 0 5
      sample_memory (by decide) (by decide)
  obtain ⟨h3, _⟩ := h2 (by decide)
  exact ⟨st, h1, by rw [h3 0 2 1 rfl rfl]; decide, by rw [h3 1 1 2 rfl rfl]; decide⟩

theorem tuple_bind_arguments_eq {E V : Type} (ctx : VectorContexts E V) (N : Nat)
    (vec : List Nat) (exprs : List E) (krn : cl_Kernel V) (d psize : Nat)
    (hvec : vec.length = N) :
    tuple_bind_arguments ctx N vec exprs krn d psize
      = some (set_arguments ctx exprs
          (krn.setArgs 0 (.ulong psize :: vec.map fun v => .buffer { vector := v, device := d }))
          d (1 + N)) := by
  subst hvec
  unfold tuple_bind_arguments
  simp only []
  rw [bind_results_eq vec d (List.range vec.length) _ (fun i hi => List.mem_range.1 hi)]
  simp only [map_range_getD, List.length_range, cl_Kernel.setArgs, Nat.zero_add, Nat.add_comm]

/-- Claim C22: in the tuple assignment of `N` expressions, expression number `i`
(from 1, in tuple order) has its preamble, its parameter declarations and the
text of its value all written with the component index `i`, its value is
defined as `buf_i` and stored to `res_i`, and its arguments are bound in tuple
order from the position after the element count and the `N` result buffers on;
the component indices `1..N` are pairwise distinct. -/
theorem tuple_numbering {E V : Type} (ext : External V) (ctx : VectorContexts E V)
    (T : String) (N : Nat) (exprs : List E) (vec : List Nat) (krn : cl_Kernel V)
    (d psize : Nat) (os : String) (hN : exprs.length = N) (hvec : vec.length = N) :
    get_header ctx exprs os
      = (os ++ String.join (exprs.enum.map fun p => ctx.vector_head_context p.2 (p.1 + 1)), N)
    ∧ get_params ctx exprs os
      = (os ++ String.join (exprs.enum.map fun p => ctx.vector_parm_context p.2 (p.1 + 1)), N)
    ∧ get_expressions ctx T exprs os
      = (os ++ String.join (exprs.enum.map fun p =>
           "\t\t" ++ T ++ " buf_" ++ toString (p.1 + 1) ++ " = "
             ++ ctx.vector_expr_context p.2 (p.1 + 1) ++ ";\n"), N)
    ∧ tuple_body N exprs
      = (exprs.enum.map fun p => .define (p.1 + 1) p.2)
        ++ ((List.range N).map fun i => .store (i + 1))
    ∧ exprs.enum.map (fun p => p.1 + 1) = (List.range N).map (· + 1)
    ∧ (exprs.enum.map fun p => p.1 + 1).Nodup
    ∧ tuple_bind_arguments ctx N vec exprs krn d psize
      = some (set_arguments ctx exprs
          (krn.setArgs 0 (.ulong psize :: vec.map fun v => .buffer { vector := v, device := d }))
          d (1 + N))
    ∧ (∀ (l : List E) (e : E) (k : cl_Kernel V) (pos : Nat),
        set_arguments ctx (l ++ [e]) k d pos
          = ctx.vector_args_context e (set_arguments ctx l k d pos).1 d
              (set_arguments ctx l k d pos).2)
    ∧ tuple_kernel_source ext ctx T N exprs
      = ext.standard_kernel_header
        ++ String.join (exprs.enum.map fun p => ctx.vector_head_context p.2 (p.1 + 1))
        ++ ("kernel void multi_expr_tuple(\n\t" ++ ext.type_name_size_t ++ " n"
            ++ String.join ((List.range N).map fun i =>
                 ",\n\tglobal " ++ T ++ " *res_" ++ toString (i + 1))
            ++ String.join (exprs.enum.map fun p => ctx.vector_parm_context p.2 (p.1 + 1))
            ++ "\n)\n")
        ++ ("\x7b\n\tfor(size_t idx = get_global_id(0); idx < n; idx += get_global_size(0)) \x7b\n"
            ++ String.join (exprs.enum.map fun p =>
                 "\t\t" ++ T ++ " buf_" ++ toString (p.1 + 1) ++ " = "
                   ++ ctx.vector_expr_context p.2 (p.1 + 1) ++ ";\n")
            ++ "\n"
            ++ String.join ((List.range N).map fun i =>
                 "\t\tres_" ++ toString (i + 1) ++ "[idx] = buf_" ++ toString (i + 1) ++ ";\n")
            ++ "\t\x7d\n\x7d\n") := by
  have hidx : exprs.enum.map (fun p => p.1 + 1) = (List.range N).map (· + 1) := by
    rw [← hN]
    have h : exprs.enum.map (fun p => p.1) = List.range exprs.length := by
      rw [List.enum_map_fst]
    rw [← h, List.map_map]
    rfl
  refine ⟨?_, ?_, ?_, rfl, hidx, ?_, tuple_bind_arguments_eq ctx N vec exprs krn d psize hvec,
    ?_, ?_⟩
  · rw [get_header_eq, hN]
  · rw [get_params_eq, hN]
  · rw [get_expressions_eq, hN]
    rfl
  · rw [hidx]
    exact (List.nodup_range N).map (fun a b h => by omega)
  · intro l e k pos
    unfold set_arguments
    rw [List.foldl_append]
    rfl
  · exact tuple_kernel_source_eq ext ctx T N exprs

theorem tuple_numbering_witness :
    get_params sample_contexts [2, 1] ""
      = (",\n\tglobal double *prm_1_1,\n\tglobal double *prm_2_1", 2)
    ∧ tuple_bind_arguments sample_contexts 2 [1, 2] [2, 1] ({ args := [] } : cl_Kernel Int) 0 100
      = some (set_arguments sample_contexts [2, 1]
          (({ args := [] } : cl_Kernel Int).setArgs 0
            (.ulong 100 :: [1, 2].map fun v => .buffer { vector := v, device := 0 }))
          0 (1 + 2)) :=
  have h := tuple_numbering sample_external sample_contexts "double" 2 [2, 1] [1, 2]
    ({ args := [] } : cl_Kernel Int) 0 100 "" (by decide) (by decide)
  ⟨h.2.1.trans (by decide), h.2.2.2.2.2.2.1⟩

/-! ## Grid-stride loop -/

/-- With enough fuel and no wrap-around the loop of a work-item ends, having run
the body once at each of `idx`, `idx + G`, ... below `n`. -/
theorem grid_loop_spec (n G : Nat) (hG : 0 < G) (hfit : n + G ≤ two64) :
    ∀ (fuel idx : Nat), n ≤ idx + fuel * G →
      ∃ l, grid_loop n G (fuel + 1) idx = some l ∧ l.Nodup
        ∧ ∀ j, j ∈ l ↔ j < n ∧ ∃ k, j = idx + k * G
  | 0, idx, h => by
    have hn : ¬ idx < n := by omega
    refine ⟨[], by rw [grid_loop, if_neg hn], List.nodup_nil, ?_⟩
    intro j
    constructor
    · intro hj; cases hj
    · rintro ⟨hj, k, rfl⟩
      have : idx ≤ idx + k * G := Nat.le_add_right _ _
      omega
  | fuel + 1, idx, h => by
    by_cases hn : idx < n
    · have hmod : (idx + G) % two64 = idx + G := Nat.mod_eq_of_lt (by omega)
      have hnext : n ≤ idx + G + fuel * G := by
        rw [Nat.add_mul] at h
        omega
      obtain ⟨l, hl, hnd, hmem⟩ := grid_loop_spec n G hG hfit fuel (idx + G) hnext
      refine ⟨idx :: l, by rw [grid_loop, if_pos hn, hmod, hl]; rfl, ?_, ?_⟩
      · refine List.nodup_cons.2 ⟨?_, hnd⟩
        intro hi
        obtain ⟨_, k, hk⟩ := (hmem idx).1 hi
        have : idx + G ≤ idx + G + k * G := Nat.le_add_right _ _
        omega
      · intro j
        rw [List.mem_cons, hmem]
        constructor
        · rintro (rfl | ⟨hj, k, rfl⟩)
          · exact ⟨hn, 0, by simp⟩
          · exact ⟨hj, k + 1, by rw [Nat.add_mul]; omega⟩
        · rintro ⟨hj, k, rfl⟩
          cases k with
          | zero => left; simp
          | succ k => right; exact ⟨hj, k, by rw [Nat.add_mul]; omega⟩
    · refine ⟨[], by rw [grid_loop, if_neg hn], List.nodup_nil, ?_⟩
      intro j
      constructor
      · intro hj; cases hj
      · rintro ⟨hj, k, rfl⟩
        have : idx ≤ idx + k * G := Nat.le_add_right _ _
        omega

/-- What the work-item `gid < G` visits: the indices below `n` congruent to
`gid`, each once. -/
theorem work_item_spec (n G : Nat) (hG : 0 < G) (hfit : n + G ≤ two64) (fuel gid : Nat)
    (hfuel : n ≤ fuel) (hgid : gid < G) :
    ∃ l, grid_loop n G (fuel + 1) gid = some l ∧ l.Nodup
      ∧ ∀ j, j ∈ l ↔ j < n ∧ j % G = gid := by
  have h1 : n ≤ gid + fuel * G := by
    have : fuel * 1 ≤ fuel * G := Nat.mul_le_mul_left _ hG
    omega
  obtain ⟨l, hl, hnd, hmem⟩ := grid_loop_spec n G hG hfit fuel gid h1
  refine ⟨l, hl, hnd, ?_⟩
  intro j
  rw [hmem]
  constructor
  · rintro ⟨hj, k, rfl⟩
    exact ⟨hj, by rw [Nat.add_mul_mod_self_right, Nat.mod_eq_of_lt hgid]⟩
  · rintro ⟨hj, rfl⟩
    exact ⟨hj, j / G, by rw [Nat.add_comm, Nat.mul_comm]; exact (Nat.div_add_mod j G).symm⟩

/-- The work-items of `ds` one after the other. -/
theorem grid_visits_spec (n G : Nat) (hG : 0 < G) (hfit : n + G ≤ two64) (fuel : Nat)
    (hfuel : n ≤ fuel) :
    ∀ (ds : List Nat) (acc : List Nat), ds.Nodup → (∀ d ∈ ds, d < G) →
      ∃ l, ds.foldlM (fun acc gid => (grid_loop n G (fuel + 1) gid).map (acc ++ ·)) acc
          = some (acc ++ l)
        ∧ l.Nodup ∧ ∀ j, j ∈ l ↔ j < n ∧ j % G ∈ ds
  | [], acc, _, _ => ⟨[], by simp, List.nodup_nil, by simp⟩
  | d :: ds, acc, hnd, hlt => by
    obtain ⟨ld, hld, hndd, hmemd⟩ := work_item_spec n G hG hfit fuel d hfuel (hlt d (by simp))
    obtain ⟨l, hl, hndl, hmeml⟩ := grid_visits_spec n G hG hfit fuel hfuel ds (acc ++ ld)
      (List.nodup_cons.1 hnd).2 (fun x hx => hlt x (by simp [hx]))
    refine ⟨ld ++ l, ?_, ?_, ?_⟩
    · rw [List.foldlM_cons, hld]
      simp only [Option.map_some', Option.some_bind, Option.bind_eq_bind]
      rw [hl, List.append_assoc]
    · refine List.nodup_append.2 ⟨hndd, hndl, ?_⟩
      intro j h1 h2
      have e1 := ((hmemd j).1 h1).2
      have e2 := ((hmeml j).1 h2).2
      rw [e1] at e2
      exact (List.nodup_cons.1 hnd).1 e2
    · intro j
      rw [List.mem_append, hmemd, hmeml, List.mem_cons]
      constructor
      · rintro (⟨h1, h2⟩ | ⟨h1, h2⟩)
        · exact ⟨h1, Or.inl h2⟩
        · exact ⟨h1, Or.inr h2⟩
      · rintro ⟨h1, h2 | h2⟩
        · exact Or.inl ⟨h1, h2⟩
        · exact Or.inr ⟨h1, h2⟩

/-- Claim C25: for every element count `n` and global size `G > 0` with
`n + G` within `size_t`, the loop `for (idx = gid; idx < n; idx += G)` ends for
every work-item `gid = 0 .. G-1` given fuel above `n`, and together the
work-items run the body exactly once at every index below `n` and at no index
from `n` on, whether `G` is larger or smaller than `n`; the work-item `gid`
visits the indices below `n` that are congruent to `gid` modulo `G`. -/
theorem grid_stride_coverage (n G fuel : Nat) (hG : 0 < G) (hfit : n + G ≤ two64)
    (hfuel : n < fuel) :
    ∃ l, grid_visits n G fuel = some l
      ∧ (∀ j, l.count j = if j < n then 1 else 0)
      ∧ (∀ gid, gid < G → ∃ lg, grid_loop n G fuel gid = some lg ∧ lg.Nodup
          ∧ ∀ j, j ∈ lg ↔ j < n ∧ j % G = gid) := by
  obtain ⟨f, rfl⟩ : ∃ f, fuel = f + 1 := ⟨fuel - 1, by omega⟩
  have hf : n ≤ f := by omega
  obtain ⟨l, hl, hnd, hmem⟩ := grid_visits_spec n G hG hfit f hf (List.range G) []
    (List.nodup_range G) (fun d hd => List.mem_range.1 hd)
  refine ⟨l, by rw [grid_visits, hl, List.nil_append], ?_, ?_⟩
  · intro j
    rw [List.count_eq_of_nodup hnd]
    have hm : j % G ∈ List.range G := List.mem_range.2 (Nat.mod_lt _ hG)
    by_cases hj : j < n
    · rw [if_pos ((hmem j).2 ⟨hj, hm⟩), if_pos hj]
    · rw [if_neg (fun h => hj ((hmem j).1 h).1), if_neg hj]
  · intro gid hgid
    exact work_item_spec n G hG hfit f gid hf hgid

theorem grid_stride_coverage_witness :
    grid_visits 10 4 11 = some [0, 4, 8, 1, 5, 9, 2, 6, 3, 7]
    ∧ grid_visits 2 4 3 = some [0, 1]
    ∧ ∃ l, grid_visits 10 4 11 = some l ∧ ∀ j, l.count j = if j < 10 then 1 else 0 :=
  ⟨by decide, by decide,
    (grid_stride_coverage 10 4 11 (by decide) (by decide) (by decide)).imp
      fun _ h => ⟨h.1, h.2.1⟩⟩


/-! ## Function calls -/

mutual
theorem kernel_expr_calls {V : Type} (C : Nat) :
    ∀ (e : Expr V) (p f : Nat),
      (e.kernel_expr C p f).1.calls = (e.call_sites f).1.map (·.1)
  | .terminal t, p, f => by
    cases t with
    | multivector T vec => simp [Expr.kernel_expr, Expr.call_sites, Terminal.reference, KExpr.calls]
    | multiscalar m =>
      by_cases h : m.number_of_components > 1 <;>
        simp [Expr.kernel_expr, Expr.call_sites, Terminal.reference, KExpr.calls, h]
    | other T v => simp [Expr.kernel_expr, Expr.call_sites, Terminal.reference, KExpr.calls]
  | .binary _ l r, p, f => by
    simp [Expr.kernel_expr, Expr.call_sites, KExpr.calls, kernel_expr_calls C l,
      kernel_expr_calls C r, kernel_expr_fun_idx]
  | .unary_pre _ c, p, f => by
    simp [Expr.kernel_expr, Expr.call_sites, KExpr.calls, kernel_expr_calls C c]
  | .unary_post _ c, p, f => by
    simp [Expr.kernel_expr, Expr.call_sites, KExpr.calls, kernel_expr_calls C c]
  | .function (.builtin _) args, p, f => by
    simp [Expr.kernel_expr, Expr.call_sites, KExpr.calls, kernel_args_calls C args]
  | .function (.user _) args, p, f => by
    simp [Expr.kernel_expr, Expr.call_sites, KExpr.calls, kernel_args_calls C args]
theorem kernel_args_calls {V : Type} (C : Nat) :
    ∀ (args : List (Expr V)) (p f : Nat),
      KExpr.calls_args (Expr.kernel_args C args p f).1 = (Expr.call_sites_args args f).1.map (·.1)
  | [], p, f => by simp [Expr.kernel_args, Expr.call_sites_args, KExpr.calls_args]
  | a :: as, p, f => by
    simp [Expr.kernel_args, Expr.call_sites_args, KExpr.calls_args, kernel_expr_calls C a,
      kernel_args_calls C as, kernel_expr_fun_idx]
end

mutual
/-- The user functions of a tree are called `func_1_<f+1>`, `func_1_<f+2>`, ... in
the order of the traversal. -/
theorem user_call_names {V : Type} :
    ∀ (e : Expr V) (f : Nat),
      f ≤ (e.call_sites f).2
      ∧ ((e.call_sites f).1.filter (fun s => s.2.is_user)).map (·.1)
        = (List.range' (f + 1) ((e.call_sites f).2 - f)).map fun k => "func_1_" ++ toString k
  | .terminal t, f => by simp [Expr.call_sites]
  | .binary _ l r, f => by
    obtain ⟨h1, h2⟩ := user_call_names l f
    obtain ⟨h3, h4⟩ := user_call_names r (l.call_sites f).2
    simp only [Expr.call_sites, List.filter_append, List.map_append, h2, h4]
    refine ⟨by omega, ?_⟩
    rw [← List.map_append]
    congr 1
    have e1 : (l.call_sites f).2 + 1 = f + 1 + ((l.call_sites f).2 - f) := by omega
    have e2 : (r.call_sites (l.call_sites f).2).2 - f
        = ((r.call_sites (l.call_sites f).2).2 - (l.call_sites f).2) + ((l.call_sites f).2 - f) := by
      omega
    rw [e1, List.range'_append_1, ← e2]
  | .unary_pre _ c, f => by
    simpa [Expr.call_sites] using user_call_names c f
  | .unary_post _ c, f => by
    simpa [Expr.call_sites] using user_call_names c f
  | .function (.builtin name) args, f => by
    obtain ⟨h1, h2⟩ := user_call_names_args args f
    simp only [Expr.call_sites]
    rw [List.filter_cons_of_neg (by simp [FunctionTerminal.is_user])]
    exact ⟨h1, h2⟩
  | .function (.user id) args, f => by
    obtain ⟨h1, h2⟩ := user_call_names_args args (f + 1)
    simp only [Expr.call_sites]
    rw [List.filter_cons_of_pos (by simp [FunctionTerminal.is_user]), List.map_cons, h2]
    refine ⟨by omega, ?_⟩
    have e1 : (Expr.call_sites_args args (f + 1)).2 - f
        = ((Expr.call_sites_args args (f + 1)).2 - (f + 1)) + 1 := by omega
    rw [e1, List.range'_succ, List.map_cons]
theorem user_call_names_args {V : Type} :
    ∀ (args : List (Expr V)) (f : Nat),
      f ≤ (Expr.call_sites_args args f).2
      ∧ ((Expr.call_sites_args args f).1.filter (fun s => s.2.is_user)).map (·.1)
        = (List.range' (f + 1) ((Expr.call_sites_args args f).2 - f)).map
            fun k => "func_1_" ++ toString k
  | [], f => by simp [Expr.call_sites_args]
  | a :: as, f => by
    obtain ⟨h1, h2⟩ := user_call_names a f
    obtain ⟨h3, h4⟩ := user_call_names_args as (a.call_sites f).2
    simp only [Expr.call_sites_args, List.filter_append, List.map_append, h2, h4]
    refine ⟨by omega, ?_⟩
    rw [← List.map_append]
    congr 1
    have e1 : (a.call_sites f).2 + 1 = f + 1 + ((a.call_sites f).2 - f) := by omega
    have e2 : (Expr.call_sites_args as (a.call_sites f).2).2 - f
        = ((Expr.call_sites_args as (a.call_sites f).2).2 - (a.call_sites f).2)
          + ((a.call_sites f).2 - f) := by
      omega
    rw [e1, List.range'_append_1, ← e2]
end

theorem text_args_succ : ∀ (as : List KExpr) (pos : Nat),
    KExpr.text_args as (pos + 1) = String.join (as.map fun a => ", " ++ a.text)
  | [], pos => by simp [KExpr.text_args, string_join_nil]
  | a :: as, pos => by
    rw [KExpr.text_args, text_args_succ as (pos + 1), List.map_cons, string_join_cons]
    simp [String.append_assoc]

/-- An argument list is written in order, `", "` between the arguments. -/
theorem text_args_zero (a : KExpr) (as : List KExpr) :
    KExpr.text_args (a :: as) 0 = a.text ++ String.join (as.map fun a => ", " ++ a.text) := by
  rw [KExpr.text_args, text_args_succ as 0]
  have h : "" ++ a.text = a.text := by
    apply String.ext
    simp [String.data_append]
  simp [h]

theorem intercalate_go_eq (s : String) : ∀ (as : List String) (acc : String),
    String.intercalate.go acc s as = acc ++ String.join (as.map fun a => s ++ a)
  | [], acc => by simp [String.intercalate.go, string_join_nil, string_append_empty]
  | a :: as, acc => by
    rw [String.intercalate.go, intercalate_go_eq s as, List.map_cons, string_join_cons]
    simp [String.append_assoc]

/-- An argument list is the texts of the arguments with `", "` between them. -/
theorem text_args_intercalate : ∀ (as : List KExpr),
    KExpr.text_args as 0 = String.intercalate ", " (as.map KExpr.text)
  | [] => by simp [KExpr.text_args, String.intercalate]
  | a :: as => by
    rw [text_args_zero, List.map_cons, String.intercalate, intercalate_go_eq, List.map_map]
    rfl

theorem terminals_args_mem {V : Type} (P : Terminal V → Bool) :
    ∀ (args : List (Expr V)), (Expr.terminals_args args).all P = true →
      ∀ a ∈ args, a.terminals.all P = true
  | [], _, a, ha => by simp at ha
  | x :: xs, h, a, ha => by
    rw [Expr.terminals_args, List.all_append, Bool.and_eq_true] at h
    rcases List.mem_cons.1 ha with rfl | hm
    · exact h.1
    · exact terminals_args_mem P xs h.2 a hm

/-- Claim C23: a function node whose arguments pass the checks is written as
`<name>( a1, ..., am )`, the arguments in order with `", "` between them, each
argument being the text its own evaluation writes; `<name>` is the declared name
of a builtin and `func_1_<fun_idx + 1>` for a user function, which is numbered
before its arguments. Every slot statement is written from `fun_idx = 0`, so
the calls of all `N` statements carry the same names, those of `Expr.call_sites`,
and the user functions among them are `func_1_1`, `func_1_2`, ... in the order
of the traversal. The parameter walk and the argument walk of a function node
visit its arguments only, whatever the function object is. -/
theorem function_call_emission {V : Type} (N C : Nat) (args : List (Expr V))
    (ctx : multivector_expr_context)
    (h : (Expr.terminals_args args).all (Terminal.expr_checks N) = true) :
    (∀ name : String,
      multivector_expr_context.eval N C (.function (.builtin name) args) ctx =
        some { os := ctx.os ++ name ++ "( " ++ String.intercalate ", "
                 ((Expr.kernel_args C args ctx.prm_idx ctx.fun_idx).1.map KExpr.text) ++ " )",
               prm_idx := (Expr.kernel_args C args ctx.prm_idx ctx.fun_idx).2.1,
               fun_idx := (Expr.kernel_args C args ctx.prm_idx ctx.fun_idx).2.2 })
    ∧ (∀ id : Nat,
      multivector_expr_context.eval N C (.function (.user id) args) ctx =
        some { os := ctx.os ++ "func_1_" ++ toString (ctx.fun_idx + 1) ++ "( "
                 ++ String.intercalate ", "
                   ((Expr.kernel_args C args ctx.prm_idx (ctx.fun_idx + 1)).1.map KExpr.text)
                 ++ " )",
               prm_idx := (Expr.kernel_args C args ctx.prm_idx (ctx.fun_idx + 1)).2.1,
               fun_idx := (Expr.kernel_args C args ctx.prm_idx (ctx.fun_idx + 1)).2.2 })
    ∧ (∀ a ∈ args, ∀ c : multivector_expr_context,
      multivector_expr_context.eval N C a c =
        some { os := c.os ++ (a.kernel_expr C c.prm_idx c.fun_idx).1.text,
               prm_idx := (a.kernel_expr C c.prm_idx c.fun_idx).2.1,
               fun_idx := (a.kernel_expr C c.prm_idx c.fun_idx).2.2 })
    ∧ (∀ (g : FunctionTerminal) (os : String), 0 < N →
      build_expr_list N (Expr.function g args) os =
          some (os ++ String.join ((kernel_body N (Expr.function g args)).map KStatement.text))
      ∧ (kernel_body N (Expr.function g args)).map (fun s => s.rhs.calls)
          = List.replicate N (((Expr.function g args).call_sites 0).1.map (·.1))
      ∧ ((((Expr.function g args).call_sites 0).1.filter (fun s => s.2.is_user)).map (·.1)
          = (List.range' 1 ((Expr.function g args).call_sites 0).2).map
              fun k => "func_1_" ++ toString k))
    ∧ (∀ (g : FunctionTerminal) (pctx : multivector_parm_context),
      multivector_parm_context.eval N C (.function g args) pctx
        = multivector_parm_context.for_each N C args pctx)
    ∧ (∀ (g : FunctionTerminal) (d : Nat) (actx : multivector_args_context V),
      multivector_args_context.eval N C d (.function g args) actx
        = multivector_args_context.for_each N C d args actx) := by
  refine ⟨?_, ?_, ?_, ?_, ?_, ?_⟩
  · intro name
    rw [expr_eval_eq]
    have ht : (Expr.function (.builtin name) args).terminals = Expr.terminals_args args := by
      rw [Expr.terminals]
    rw [ht, if_pos h]
    simp only [Expr.kernel_expr, KExpr.text, text_args_intercalate, String.append_assoc]
  · intro id
    rw [expr_eval_eq]
    have ht : (Expr.function (.user id) args).terminals = Expr.terminals_args args := by
      rw [Expr.terminals]
    rw [ht, if_pos h]
    simp only [Expr.kernel_expr, KExpr.text, text_args_intercalate, String.append_assoc]
  · intro a ha c
    rw [expr_eval_eq, if_pos (terminals_args_mem _ args h a ha)]
  · intro g os hN
    have ht : (Expr.function g args).terminals = Expr.terminals_args args := by
      rw [Expr.terminals]
    refine ⟨?_, ?_, ?_⟩
    · rw [build_expr_list_eq, ht, if_pos ⟨hN, h⟩]
    · simp only [kernel_body, List.map_map, Function.comp_def, kernel_expr_calls]
      exact List.eq_replicate_iff.2 ⟨by simp, by
        intro b hb
        obtain ⟨c, _, rfl⟩ := List.mem_map.1 hb
        rfl⟩
    · have hu := (user_call_names (Expr.function g args) 0).2
      simpa using hu
  · intro g pctx
    rw [multivector_parm_context.eval]
  · intro g d actx
    rw [multivector_args_context.eval]

theorem function_call_emission_witness :
    multivector_expr_context.eval 2 1
        (.function (.builtin "sin")
          [.terminal (.multiscalar (.array "float" [1, 2])), .function (.user 7) []])
        ({ os := "", prm_idx := 2, fun_idx := 0 } : multivector_expr_context)
      = some { os := "sin( prm_2_3, func_1_1(  ) )", prm_idx := 3, fun_idx := 1 }
    ∧ (kernel_body 2 (Expr.function (.user 7)
          [.terminal (.multiscalar (.array "float" [1, 2])),
           (.function (.user 7) [] : Expr Int)])).map (fun s => s.rhs.calls)
      = [["func_1_1", "func_1_2"], ["func_1_1", "func_1_2"]] :=
  have h := function_call_emission 2 1
    [.terminal (.multiscalar (.array "float" [1, 2])), (.function (.user 7) [] : Expr Int)]
    { os := "", prm_idx := 2, fun_idx := 0 } (by decide)
  ⟨(h.1 "sin").trans (by decide), ((h.2.2.2.1 (.user 7) "" (by decide)).2.1).trans (by decide)⟩

/-! ## Dispatch per partition -/

theorem enqueued_on_append {V : Type} (a b : List (Event V)) :
    enqueued_on (a ++ b) = enqueued_on a ++ enqueued_on b := by
  induction a with
  | nil => simp [enqueued_on]
  | cons ev a ih =>
    cases ev <;> simp [enqueued_on, ih]

theorem enqueued_on_fst {V : Type} (evs : List (Event V)) :
    (enqueued_on evs).map (·.1) = (launches evs).map (·.1) := by
  induction evs with
  | nil => simp [enqueued_on, launches]
  | cons ev a ih =>
    cases ev <;> simp [enqueued_on, launches, ih]

/-- Every launch of the dispatch loop goes to the queue of its device. -/
theorem dispatch_loop_queues {V : Type} (mv : multivector) (E : ExprType) (e : Expr V) :
    ∀ (ds : List Nat) (st st1 : Runtime V),
    ds.foldlM (dispatch_step mv E e) st = some st1 →
    ∃ evs, st1.log = st.log ++ evs
      ∧ ∀ p ∈ enqueued_on evs, mv.queue.get? p.1 = some p.2 := by
  intro ds
  induction ds with
  | nil =>
    intro st st1 h
    have h1 : st1 = st := (Option.some.inj h).symm
    subst h1
    exact ⟨[], by simp, fun p hp => by simp [enqueued_on] at hp⟩
  | cons d ds ih =>
    intro st st1 h
    rw [List.foldlM_cons] at h
    cases hd : dispatch_step mv E e st d with
    | none => rw [hd] at h; cases h
    | some std =>
      rw [hd] at h
      obtain ⟨evs, hlog, hq⟩ := ih std st1 h
      rcases dispatch_step_spec mv E e st std d hd with
        ⟨_, heq⟩ | ⟨_, q, k, bound, hqd, _, _, hlog1, _⟩
      · subst heq
        exact ⟨evs, hlog, hq⟩
      · refine ⟨_ :: evs, by rw [hlog, hlog1, List.append_assoc, List.singleton_append], ?_⟩
        intro p hp
        simp only [enqueued_on, List.mem_cons] at hp
        rcases hp with rfl | hp
        · exact hqd
        · exact hq p hp

theorem kernel_source_isSome {V : Type} (ext : External V) (T : String) (N : Nat) (e : Expr V)
    (h : accepted N e = true) : (kernel_source ext T N e).isSome = true := by
  have hp := accepted_parm h
  have he := accepted_expr h
  simp only [kernel_source, build_param_list_eq, build_expr_list_eq, hp, he, and_self, if_true]
  rfl

/-- A pass of the compile loop keeps a kernel behind every `compiled` flag. -/
theorem compile_step_kernel {V : Type} (ext : External V) (backend : Backend) (mv : multivector)
    (E : ExprType) (e : Expr V) (st st1 : Runtime V) (q : cl_CommandQueue)
    (h : compile_step ext backend mv E e st q = some st1)
    (hinv : ∀ c, (st.caches (mv.key E)).compiled c = true →
      ((st.caches (mv.key E)).kernel c).isSome = true) :
    ∀ c, (st1.caches (mv.key E)).compiled c = true →
      ((st1.caches (mv.key E)).kernel c).isSome = true := by
  rcases compile_step_spec ext backend mv E e st st1 q h with
    ⟨_, heq⟩ | ⟨_, source, _, _, hc1, hk1, _⟩
  · subst heq
    exact hinv
  · intro c hc
    rw [hk1]
    rw [hc1] at hc
    by_cases hcq : c = q.context
    · subst hcq
      simp [Function.update_same]
    · rw [Function.update_noteq hcq] at hc ⊢
      exact hinv c hc

/-- The compile loop succeeds when the backend builds the source, and leaves a
kernel behind every `compiled` flag. -/
theorem compile_loop_ok {V : Type} (ext : External V) (backend : Backend) (mv : multivector)
    (E : ExprType) (e : Expr V) (hacc : accepted mv.N e = true) :
    ∀ (qs : List cl_CommandQueue) (st : Runtime V),
    (∀ q ∈ qs, ∀ source, kernel_source ext mv.T mv.N e = some source →
      backend.builds q.context source = true) →
    (∀ c, (st.caches (mv.key E)).compiled c = true →
      ((st.caches (mv.key E)).kernel c).isSome = true) →
    ∃ st1, qs.foldlM (compile_step ext backend mv E e) st = some st1
      ∧ ∀ c, (st1.caches (mv.key E)).compiled c = true →
          ((st1.caches (mv.key E)).kernel c).isSome = true := by
  intro qs
  induction qs with
  | nil => intro st _ hinv; exact ⟨st, rfl, hinv⟩
  | cons q qs ih =>
    intro st hb hinv
    have hstep : ∃ stq, compile_step ext backend mv E e st q = some stq := by
      unfold compile_step
      simp only []
      by_cases hc : (st.caches (mv.key E)).compiled q.context = true
      · rw [if_pos hc]
        exact ⟨_, rfl⟩
      · rw [if_neg hc]
        obtain ⟨source, hs⟩ := Option.isSome_iff_exists.1
          (kernel_source_isSome ext mv.T mv.N e hacc)
        rw [hs]
        simp only []
        rw [if_pos (hb q (by simp) source hs)]
        exact ⟨_, rfl⟩
    obtain ⟨stq, hq⟩ := hstep
    obtain ⟨st1, h1, h2⟩ := ih stq (fun q1 hq1 => hb q1 (by simp [hq1]))
      (compile_step_kernel ext backend mv E e st stq q hq hinv)
    exact ⟨st1, by rw [List.foldlM_cons, hq]; exact h1, h2⟩


/-- Claim C24: an assignment of an accepted expression whose source the backend
builds enqueues, for every queue list and partitioning, exactly one kernel
launch for each device number with a non-zero partition size, in the order of
the devices and on the queue of that device, with the partition size bound as
argument 0 of the launched kernel; it enqueues nothing for a device whose
partition size is zero, the pass of the dispatch loop for such a device leaving
the log and the bound arguments as they were. -/
theorem dispatch_per_partition {V : Type} (ext : External V) (backend : Backend)
    (mv : multivector) (E : ExprType) (e : Expr V) (st : Runtime V)
    (hvec : mv.vec.length = mv.N) (hacc : accepted mv.N e = true)
    (hbuild : ∀ q ∈ mv.queue, ∀ source, kernel_source ext mv.T mv.N e = some source →
      backend.builds q.context source = true)
    (hinv : ∀ c, (st.caches (mv.key E)).compiled c = true →
      ((st.caches (mv.key E)).kernel c).isSome = true) :
    ∃ st1 evs, mv.operator_assign ext backend E e st = some st1
      ∧ st1.log = st.log ++ evs
      ∧ (enqueued_on evs).map (·.1)
          = (List.range mv.queue.length).filter (fun d => mv.part_size d ≠ 0)
      ∧ (∀ d, ((enqueued_on evs).map (·.1)).count d
          = if d < mv.queue.length ∧ mv.part_size d ≠ 0 then 1 else 0)
      ∧ (∀ p ∈ enqueued_on evs, mv.queue.get? p.1 = some p.2)
      ∧ (∀ l ∈ launches evs, l.2.1.arguments.arg 0 = some (.ulong (mv.part_size l.1)))
      ∧ (∀ (s : Runtime V) (d : Nat), mv.part_size d = 0 → dispatch_step mv E e s d = some s) := by
  obtain ⟨mid, hmid, hkern⟩ := compile_loop_ok ext backend mv E e hacc mv.queue st hbuild hinv
  obtain ⟨evc, hlogc, hlc, _, _, hcomp, _, _⟩ :=
    compile_loop_spec ext backend mv E e mv.queue st mid hmid
  have hpresent : ∀ d ∈ List.range mv.queue.length, mv.part_size d ≠ 0 →
      ∃ q, mv.queue.get? d = some q
        ∧ ((mid.caches (mv.key E)).kernel q.context).isSome = true := by
    intro d hd _
    rw [List.mem_range] at hd
    refine ⟨mv.queue.get ⟨d, hd⟩, List.get?_eq_get hd, hkern _ ?_⟩
    rw [hcomp]
    have hm : (mv.queue.get ⟨d, hd⟩).context ∈ mv.queue.map (·.context) :=
      List.mem_map.2 ⟨_, List.get_mem _ _ _, rfl⟩
    rw [decide_eq_true hm, Bool.or_true]
  obtain ⟨st1, hst1⟩ := dispatch_loop_ok mv E e hacc hvec (List.range mv.queue.length) mid hpresent
  obtain ⟨evd, hlogd, _, _, _, _, hlsd, hld⟩ :=
    dispatch_loop_spec mv E e hacc hvec (List.range mv.queue.length) mid st1 hst1
  obtain ⟨evq, hlogq, hqs⟩ := dispatch_loop_queues mv E e (List.range mv.queue.length) mid st1 hst1
  have hsame : evq = evd := List.append_cancel_left (hlogq.symm.trans hlogd)
  subst hsame
  have hnone : enqueued_on evc = [] := by
    have h1 := enqueued_on_fst evc
    rw [hlc] at h1
    exact List.map_eq_nil_iff.1 h1
  have hdev : (enqueued_on (evc ++ evq)).map (·.1)
      = (List.range mv.queue.length).filter (fun d => mv.part_size d ≠ 0) := by
    rw [enqueued_on_append, hnone, List.nil_append, enqueued_on_fst, hlsd]
  refine ⟨st1, evc ++ evq, ?_, ?_, hdev, ?_, ?_, ?_, ?_⟩
  · unfold multivector.operator_assign
    rw [if_pos hacc, hmid]
    exact hst1
  · rw [hlogd, hlogc, List.append_assoc]
  · intro d
    rw [hdev]
    have hnd : ((List.range mv.queue.length).filter (fun d => mv.part_size d ≠ 0)).Nodup :=
      (List.nodup_range _).filter _
    rw [List.count_eq_of_nodup hnd]
    simp [List.mem_filter, List.mem_range]
  · intro p hp
    rw [enqueued_on_append, hnone, List.nil_append] at hp
    exact hqs p hp
  · intro l hl
    rw [launches_append, hlc, List.nil_append] at hl
    obtain ⟨_, _, _, _, _, h4⟩ := hld l hl
    exact h4
  · intro s d hp
    unfold dispatch_step
    simp only []
    rw [if_pos hp]

theorem dispatch_per_partition_witness :
    ∃ st1 evs, sample_uneven.operator_assign sample_external sample_backend sample_type sample_expr
        sample_runtime = some st1
      ∧ st1.log = sample_runtime.log ++ evs
      ∧ (enqueued_on evs).map (·.1) = [1]
      ∧ (∀ l ∈ launches evs, l.2.1.arguments.arg 0 = some (.ulong 100)) := by
  obtain ⟨st1, evs, h1, h2, h3, _, _, h6, _⟩ :=
    dispatch_per_partition sample_external sample_backend sample_uneven sample_type sample_expr
      sample_runtime (by decide) (by decide!) (fun _ _ _ _ => rfl) (fun c hc => by cases hc)
  refine ⟨st1, evs, h1, h2, h3.trans (by decide), ?_⟩
  intro l hl
  have hl1 : l.1 ∈ (launches evs).map (·.1) := List.mem_map.2 ⟨l, hl, rfl⟩
  rw [← enqueued_on_fst, h3] at hl1
  have hd : sample_uneven.part_size l.1 = 100 := by
    have h0 : sample_uneven.part_size l.1 ≠ 0 := by simpa using (List.mem_filter.1 hl1).2
    have hx : sample_uneven.part_size l.1 = if l.1 = 0 then 0 else 100 := rfl
    rw [hx] at h0 ⊢
    by_cases hz : l.1 = 0
    · rw [if_pos hz] at h0
      exact absurd rfl h0
    · rw [if_neg hz]
  rw [h6 l hl, hd]


/-! ## The expression of a view and its helper -/

/-- The name by which the call of a view expression passes the helper parameter
`s`: `idx` is the loop variable, any other is the kernel parameter `<prm>s`. -/
theorem helper_argument_names (prm : String) : ∀ (ks : List Nat),
    ((dimension_params ks).map (·.2)).map (fun s => if s = "idx" then "idx" else prm ++ s)
      = dimension_names prm ks
  | [] => by simp [dimension_params, dimension_names]
  | k :: ks => by
    have ih := helper_argument_names prm ks
    simp only [dimension_params, dimension_names, List.flatMap_cons, List.map_append,
      List.map_cons, List.map_nil] at ih ⊢
    rw [ih, if_neg (fun h => idx_ne_size _ h.symm), if_neg (fun h => idx_ne_stride _ h.symm)]
    simp [String.append_assoc]

/-- Claim C26: for every dimension `D > 0`, component and position,
`partial_expression` writes `prm_<c>_<p>_base[slice_<c>_<p>(prm_<c>_<p>_start,
prm_<c>_<p>_size0, prm_<c>_<p>_stride0, ..., idx)]`; the function called bears the
name of the helper that `indexing_function` defines for the same component and
position; the call has `2*D + 2` arguments, as many as the helper has
parameters, each the helper parameter of its place (start, size0, stride0, ...,
idx) under the prefix `prm_<c>_<p>_`, and `idx` itself in the last place; and
every name used other than `idx` is declared by `parameter_declaration` for the
same component and position. -/
theorem view_expression_matches_helper (T : String) (D component position : Nat) (h : 0 < D) :
    gslice.partial_expression D component position
      = view_prm component position ++ "base[" ++ "slice_" ++ toString component ++ "_"
          ++ toString position ++ "(" ++ view_prm component position ++ "start"
          ++ String.join (((List.range D).flatMap fun k =>
              [view_prm component position ++ "size" ++ toString k,
               view_prm component position ++ "stride" ++ toString k]).map fun a => ", " ++ a)
          ++ ", idx)]"
    ∧ gslice.partial_expression D component position
        = (gslice.view_expr D component position).text
    ∧ gslice.indexing_function D component position
        = some (gslice.helper D component position).text
    ∧ (gslice.view_expr D component position).helper
        = (gslice.helper D component position).name
    ∧ ((gslice.view_expr D component position).start
          :: (gslice.view_expr D component position).args).length = 2 * D + 2
    ∧ ("start" :: (gslice.helper D component position).params.map (·.2)).length = 2 * D + 2
    ∧ ((gslice.view_expr D component position).start
          :: (gslice.view_expr D component position).args)
        = ("start" :: (gslice.helper D component position).params.map (·.2)).map
            (fun s => if s = "idx" then "idx" else view_prm component position ++ s)
    ∧ ("start" :: (gslice.helper D component position).params.map (·.2)).getLast? = some "idx"
    ∧ gslice.parameter_declaration T D component position
        = declared_text (gslice.declared T D component position)
    ∧ (∀ a ∈ (gslice.view_expr D component position).base
          :: (gslice.view_expr D component position).start
          :: (gslice.view_expr D component position).args,
        a ≠ "idx" → a ∈ (gslice.declared T D component position).map (·.2)) := by
  have hnames := helper_argument_names (view_prm component position) (List.range D)
  refine ⟨?_, partial_expression_eq D component position,
    indexing_function_eq D component position h, rfl, ?_, ?_, ?_, ?_, ?_, ?_⟩
  · rw [partial_expression_eq]
    simp only [gslice.view_expr, ViewExpr.text, dimension_names, List.map_append, List.map_cons,
      List.map_nil, string_join_append, string_join_singleton, String.append_assoc]
    rfl
  · simp only [gslice.view_expr, dimension_names, List.length_cons, List.length_append,
      List.length_nil, length_flatMap_pair, List.length_range]
  · simp only [gslice.helper, dimension_params, List.length_cons, List.length_append,
      List.length_nil, List.length_map, length_flatMap_pair, List.length_range]
  · have hs : (if "start" = "idx" then "idx" else view_prm component position ++ "start")
        = view_prm component position ++ "start" := if_neg (by decide)
    simp only [gslice.helper, gslice.view_expr, List.map_cons, List.map_append, List.map_nil,
      hnames, hs, if_true]
  · simp only [gslice.helper, List.map_append, List.map_cons, List.map_nil]
    rw [← List.cons_append, List.getLast?_append]
    rfl
  · unfold gslice.parameter_declaration
    simp only []
    rw [declaration_loop_eq]
    have h1 : ", ulong " = ", " ++ "ulong " := by decide
    simp only [gslice.declared, declared_text, List.map_cons, string_join_cons,
      String.append_assoc, h1]
  · intro a ha hne
    simp only [gslice.view_expr, List.mem_cons, List.mem_append, List.mem_singleton,
      List.not_mem_nil, or_false] at ha
    simp only [gslice.declared, List.map_cons, List.map_flatMap, List.map_nil, List.mem_cons]
    rcases ha with rfl | rfl | ha | rfl
    · exact Or.inl rfl
    · exact Or.inr (Or.inl rfl)
    · exact Or.inr (Or.inr (by simpa [dimension_names] using ha))
    · exact absurd rfl hne

theorem view_expression_matches_helper_witness :
    gslice.partial_expression 2 1 3
      = "prm_1_3_base[slice_1_3(prm_1_3_start, prm_1_3_size0, prm_1_3_stride0, prm_1_3_size1, prm_1_3_stride1, idx)]"
    ∧ ((gslice.view_expr 2 1 3).start :: (gslice.view_expr 2 1 3).args).length = 2 * 2 + 2
    ∧ (gslice.helper 2 1 3).name = "slice_1_3"
    ∧ (gslice.declared "double" 2 1 3).map (·.2)
      = ["prm_1_3_base", "prm_1_3_start", "prm_1_3_size0", "prm_1_3_stride0", "prm_1_3_size1",
         "prm_1_3_stride1"] :=
  have h := view_expression_matches_helper "double" 2 1 3 (by decide)
  ⟨h.1.trans (by decide), h.2.2.2.2.1, by decide, by decide⟩


/-! ## Element proxies -/

/-- What a write changes: the cell written, and no other. -/
theorem heap_write_read {T : Type} (heap : Heap T) (p i : Nat) (x : T) (v : vector T)
    (hv : heap.get? p = some v) (hi : i < v.size) :
    ∃ heap1, heap.write p i x = some heap1
      ∧ (∀ q, (∃ w, heap.get? q = some w ∧ i < w.size) →
          ∃ w, heap1.get? q = some w ∧ i < w.size)
      ∧ ∀ q j, heap1.read q j = if q = p ∧ j = i then some (some x) else heap.read q j := by
  have hp : p < heap.length := by
    rw [List.get?_eq_getElem?] at hv
    exact (List.getElem?_eq_some_iff.1 hv).1
  have hi1 : i < v.data.length := hi
  refine ⟨heap.set p { data := v.data.set i (some x) }, ?_, ?_, ?_⟩
  · simp only [Heap.write, hv, Option.some_bind, vector.write, if_pos hi1, Option.map_some']
  · rintro q ⟨w, hw, hwi⟩
    by_cases hq : q = p
    · subst hq
      refine ⟨{ data := v.data.set i (some x) }, ?_, ?_⟩
      · rw [List.get?_eq_getElem?, List.getElem?_set_self hp]
      · simpa [vector.size] using hi1
    · refine ⟨w, ?_, hwi⟩
      rw [List.get?_eq_getElem?, List.getElem?_set_ne (Ne.symm hq), ← List.get?_eq_getElem?, hw]
  · intro q j
    by_cases hq : q = p
    · subst hq
      simp only [Heap.read, List.get?_eq_getElem?, List.getElem?_set_self hp, Option.some_bind,
        vector.read, true_and]
      by_cases hj : j = i
      · subst hj
        rw [if_pos rfl, List.getElem?_set_self hi1]
      · rw [if_neg hj, List.getElem?_set_ne (Ne.symm hj)]
        rw [List.get?_eq_getElem?] at hv
        rw [hv]
        rfl
    · rw [if_neg (fun h => hq h.1)]
      simp only [Heap.read, List.get?_eq_getElem?, List.getElem?_set_ne (Ne.symm hq)]

/-- The read loop sees the cells of the members only. -/
theorem read_loop_congr {T : Type} (h1 h2 : Heap T) (j : Nat) :
    ∀ (ps : List Nat), (∀ p ∈ ps, h1.read p j = h2.read p j) →
      element.read_loop h1 j ps = element.read_loop h2 j ps
  | [], _ => rfl
  | p :: ps, h => by
    rw [element.read_loop, element.read_loop, h p (by simp),
      read_loop_congr h1 h2 j ps (fun q hq => h q (by simp [hq]))]

/-- The read loop gives the cells of the members in order. -/
theorem read_loop_spec {T : Type} (heap : Heap T) (j : Nat) :
    ∀ (ps : List Nat), (∀ p ∈ ps, ∃ w, heap.get? p = some w ∧ j < w.size) →
      ∃ cells, element.read_loop heap j ps = some cells
        ∧ List.Forall₂ (fun p c => heap.read p j = some c) ps cells
  | [], _ => ⟨[], rfl, List.Forall₂.nil⟩
  | p :: ps, h => by
    obtain ⟨w, hw, hj⟩ := h p (by simp)
    obtain ⟨cells, hc, hf⟩ := read_loop_spec heap j ps (fun q hq => h q (by simp [hq]))
    have hj1 : j < w.data.length := hj
    have hr : heap.read p j = some (w.data.get ⟨j, hj1⟩) := by
      simp only [Heap.read, hw, Option.some_bind, vector.read]
      exact List.get?_eq_get hj1
    exact ⟨_ :: cells, by rw [element.read_loop, hr, hc]; rfl, List.Forall₂.cons hr hf⟩

/-- The write loop over distinct members. -/
theorem write_loop_spec {T : Type} (i : Nat) :
    ∀ (ps : List Nat) (xs : List T) (heap : Heap T), xs.length = ps.length → ps.Nodup →
      (∀ p ∈ ps, ∃ w, heap.get? p = some w ∧ i < w.size) →
      ∃ heap1, element.write_loop i ps xs heap = some heap1
        ∧ element.read_loop heap1 i ps = some (xs.map some)
        ∧ ∀ q j, q ∉ ps ∨ j ≠ i → heap1.read q j = heap.read q j
  | [], xs, heap, hl, _, _ => by
    have : xs = [] := List.length_eq_zero.1 hl
    subst this
    exact ⟨heap, rfl, rfl, fun _ _ _ => rfl⟩
  | p :: ps, [], heap, hl, _, _ => by simp at hl
  | p :: ps, x :: xs, heap, hl, hnd, hin => by
    obtain ⟨w, hw, hi⟩ := hin p (by simp)
    obtain ⟨heap1, h1, hkeep, hcell⟩ := heap_write_read heap p i x w hw hi
    have hp : p ∉ ps := (List.nodup_cons.1 hnd).1
    obtain ⟨heap2, h2, hread, hframe⟩ := write_loop_spec i ps xs heap1
      (by simpa using hl) (List.nodup_cons.1 hnd).2
      (fun q hq => hkeep q (hin q (by simp [hq])))
    refine ⟨heap2, by rw [element.write_loop, h1]; exact h2, ?_, ?_⟩
    · have hc : heap2.read p i = some (some x) := by
        rw [hframe p i (Or.inl hp), hcell, if_pos ⟨rfl, rfl⟩]
      rw [element.read_loop, hc, hread]
      rfl
    · intro q j hq
      have hq1 : q ∉ ps ∨ j ≠ i := by
        rcases hq with hq | hq
        · exact Or.inl fun h => hq (by simp [h])
        · exact Or.inr hq
      rw [hframe q j hq1, hcell, if_neg]
      rintro ⟨rfl, rfl⟩
      rcases hq with hq | hq
      · exact hq (by simp)
      · exact hq rfl

/-- Claim C27, as stated, fails for a group that aliases existing arrays: over
the group `(b, b)` of the same array twice, `mv[0] = (5, 6)` leaves `(6, 6)`
in `mv[0]`; and over the group `(b, a)` of an array of two elements and an array
of one, the index `1 < size()` is outside member 1, so that neither the read nor
the assignment of `mv[1]` has a result. -/
theorem element_round_trip_counterexample :
    multivector.from_components 2 false sample_heap [1, 1] = (sample_heap, some [1, 1])
    ∧ multivector.size sample_heap [1, 1] = some 2
    ∧ (((multivector.operator_index [1, 1] 0).operator_assign sample_heap [5, 6]).bind
        fun heap => (multivector.operator_index [1, 1] 0).value heap)
      = some [some 6, some 6]
    ∧ multivector.from_components 2 false sample_heap [1, 0] = (sample_heap, some [1, 0])
    ∧ multivector.size sample_heap [1, 0] = some 2
    ∧ (multivector.operator_index [1, 0] 1).value sample_heap = none
    ∧ (multivector.operator_index [1, 0] 1).operator_assign sample_heap [5, 6] = none := by
  decide

/-- Claim C27, amended: for a grouped array of width `N` whose members are
pairwise distinct arrays, an index `i` inside every member and an `N`-tuple `v`,
reading `mv[i]`, through `element` or `const_element`, returns the cells
`(member_0[i], ..., member_{N-1}[i])`; the assignment `mv[i] = v` has a result,
after which reading `mv[i]` returns `v`, `mv[j]` is as before for every `j ≠ i`,
and no cell of an array outside the group has changed. -/
theorem element_round_trip {T : Type} (heap : Heap T) (vec : List Nat) (i : Nat) (val : List T)
    (hval : val.length = vec.length) (hnd : vec.Nodup)
    (hin : ∀ p ∈ vec, ∃ w, heap.get? p = some w ∧ i < w.size) :
    (∃ cells, (multivector.operator_index vec i).value heap = some cells
      ∧ List.Forall₂ (fun p c => heap.read p i = some c) vec cells)
    ∧ ∃ heap1, (multivector.operator_index vec i).operator_assign heap val = some heap1
      ∧ (multivector.operator_index vec i).value heap1 = some (val.map some)
      ∧ (∀ j, j ≠ i →
          (multivector.operator_index vec j).value heap1
            = (multivector.operator_index vec j).value heap)
      ∧ (∀ q j, q ∉ vec → heap1.read q j = heap.read q j) := by
  obtain ⟨heap1, h1, hread, hframe⟩ := write_loop_spec i vec val heap hval hnd hin
  refine ⟨read_loop_spec heap i vec hin, heap1, ?_, hread, ?_, ?_⟩
  · simp only [element.operator_assign, multivector.operator_index, hval, if_true]
    exact h1
  · intro j hj
    exact read_loop_congr heap1 heap j vec (fun p _ => hframe p j (Or.inr hj))
  · intro q j hq
    exact hframe q j (Or.inl hq)

theorem element_round_trip_witness :
    (multivector.operator_index [1, 0] 0).value sample_heap = some [some 1, some 1]
    ∧ ∃ heap1, (multivector.operator_index [1, 0] 0).operator_assign sample_heap [5, 6]
        = some heap1
      ∧ (multivector.operator_index [1, 0] 0).value heap1 = some [some 5, some 6]
      ∧ (multivector.operator_index [1, 0] 1).value heap1
          = (multivector.operator_index [1, 0] 1).value sample_heap :=
  have h := element_round_trip sample_heap [1, 0] 0 [5, 6] (by decide) (by decide)
    (by decide)
  ⟨by decide, h.2.imp fun _ h1 => ⟨h1.1, h1.2.1, h1.2.2.1 1 (by decide)⟩⟩

/-! ## Declared and referenced names -/

theorem mem_body_names {V : Type} (N : Nat) (e : Expr V) (name : String) :
    name ∈ body_names N e ↔
      ∃ c k t, c < N ∧ e.terminals.get? k = some t
        ∧ (t.reference c (k + 1)).leaf_name = some name := by
  simp only [body_names, kernel_body, List.flatMap_map, List.mem_flatMap, List.mem_range,
    List.mem_filterMap, kernel_expr_leaves, List.mem_map, Nat.zero_add]
  constructor
  · rintro ⟨c, hc, x, ⟨jt, hjt, rfl⟩, hx⟩
    obtain ⟨j, t⟩ := jt
    have hm := List.mem_enumFrom hjt
    refine ⟨c, j, t, hc, ?_, hx⟩
    have h2 := hm.2.2
    simp only [Nat.sub_zero] at h2
    rw [List.get?_eq_getElem?, List.getElem?_eq_some_iff]
    exact ⟨by omega, h2.symm⟩
  · rintro ⟨c, k, t, hc, hk, hx⟩
    refine ⟨c, hc, _, ⟨(k, t), ?_, rfl⟩, hx⟩
    rw [List.mem_iff_get?]
    refine ⟨k, ?_⟩
    rw [List.get?_eq_getElem?] at hk ⊢
    simp [List.getElem?_enumFrom, hk]

/-- The name under which the statement of slot `c` refers to a terminal that
declares a parameter in slot `c`. -/
theorem reference_of_parameter {V : Type} (c k : Nat) (t : Terminal V) (q : KParam)
    (h : t.parameter c k = some q) : (t.reference c k).leaf_name = some (prm_name (c + 1) k) := by
  cases t with
  | multivector T vec => rfl
  | multiscalar m =>
    by_cases h1 : m.number_of_components > 1
    · simp [Terminal.reference, h1, KExpr.leaf_name]
    · by_cases h0 : c = 0
      · subst h0
        simp [Terminal.reference, h1, KExpr.leaf_name]
      · simp [Terminal.parameter, h1, h0] at h
  | other T v =>
    by_cases h0 : c = 0
    · subst h0
      simp [Terminal.reference, KExpr.leaf_name]
    · simp [Terminal.parameter, h0] at h

/-- The slot in which the parameter that a reference names is declared: slot `c`
itself, or slot 0 for a value of one component. -/
theorem parameter_of_reference {V : Type} (N c k : Nat) (t : Terminal V) (name : String)
    (hc : c < N) (h0 : t.parm_checks N 0 = true) (hch : t.parm_checks N c = true)
    (h : (t.reference c k).leaf_name = some name) :
    ∃ c1 q, c1 < N ∧ t.parameter c1 k = some q ∧ name = prm_name (c1 + 1) k := by
  cases t with
  | multivector T vec =>
    refine ⟨c, _, hc, rfl, ?_⟩
    simpa [Terminal.reference, KExpr.leaf_name] using h.symm
  | multiscalar m =>
    simp only [Terminal.parm_checks, Bool.and_eq_true] at h0 hch
    by_cases h1 : m.number_of_components > 1
    · obtain ⟨ty, hty⟩ := Option.isSome_iff_exists.1 hch.1
      refine ⟨c, { global := false, type := ty, name := prm_name (c + 1) k }, hc, ?_, ?_⟩
      · simp [Terminal.parameter, h1, hty]
      · simpa [Terminal.reference, h1, KExpr.leaf_name] using h.symm
    · obtain ⟨ty, hty⟩ := Option.isSome_iff_exists.1 h0.1
      refine ⟨0, { global := false, type := ty, name := prm_name 1 k }, by omega, ?_, ?_⟩
      · simp [Terminal.parameter, h1, hty]
      · simpa [Terminal.reference, h1, KExpr.leaf_name] using h.symm
  | other T v =>
    refine ⟨0, { global := false, type := T, name := prm_name 1 k }, by omega, ?_, ?_⟩
    · simp [Terminal.parameter]
    · simpa [Terminal.reference, KExpr.leaf_name] using h.symm

/-- Claim C28: for every width `N` and accepted tree, a name occurs as a
parameter in the `N` body statements that `build_expr_list` writes exactly when
`build_param_list` declares it; in every slot both walks give the `k`-th terminal
of the traversal the index `k`, their counters advancing by one at every
terminal, also at a value of one component, which is declared in slot 0 only and
referred to as `prm_1_k` in every slot; and the declared names are pairwise
distinct. -/
theorem declared_referenced_coincide {V : Type} (N : Nat) (e : Expr V)
    (h : accepted N e = true) :
    build_param_list N e "" = some (String.join ((parameters N e).map KParam.text))
    ∧ build_expr_list N e "" = some (String.join ((kernel_body N e).map KStatement.text))
    ∧ (∀ name, name ∈ body_names N e ↔ name ∈ (parameters N e).map (·.name))
    ∧ (∀ c, c < N → ∀ (os : String) (p f : Nat),
        (multivector_parm_context.eval N c e { os := os, prm_idx := p }).map (·.prm_idx)
          = some (p + e.terminals.length)
        ∧ (multivector_expr_context.eval N c e { os := os, prm_idx := p, fun_idx := f }).map
            (·.prm_idx) = some (p + e.terminals.length))
    ∧ (∀ c k t, c < N → e.terminals.get? k = some t →
        (e.kernel_expr c 0 0).1.leaves.get? k = some (t.reference c (k + 1))
        ∧ ((t.reference c (k + 1)).leaf_name = some (prm_name (c + 1) (k + 1))
            ∨ (t.reference c (k + 1)).leaf_name = some (prm_name 1 (k + 1)))
        ∧ (∀ q, q ∈ slot_parameters c 0 e.terminals → q.name = prm_name (c + 1) (k + 1) →
            t.parameter c (k + 1) = some q)
        ∧ (∀ q, t.parameter c (k + 1) = some q →
            q ∈ slot_parameters c 0 e.terminals ∧ q.name = prm_name (c + 1) (k + 1)
            ∧ (t.reference c (k + 1)).leaf_name = some q.name))
    ∧ (∀ k m, e.terminals.get? k = some (.multiscalar m) → m.number_of_components = 1 →
        (∀ c, c < N →
          ((Terminal.multiscalar m : Terminal V).reference c (k + 1)).leaf_name
            = some (prm_name 1 (k + 1)))
        ∧ (∀ c, 0 < c → (Terminal.multiscalar m : Terminal V).parameter c (k + 1) = none)
        ∧ ((Terminal.multiscalar m : Terminal V).parameter 0 (k + 1)).isSome = true)
    ∧ ((parameters N e).map (·.name)).Nodup := by
  have hp := accepted_parm h
  have he := accepted_expr h
  have hpc : ∀ c, c < N → e.terminals.all (Terminal.parm_checks N c) = true := by
    intro c hc
    have := hp.2
    rw [List.all_eq_true] at this
    exact this c (List.mem_range.2 hc)
  refine ⟨?_, ?_, ?_, ?_, ?_, ?_, parameter_names_nodup N e⟩
  · rw [build_param_list_eq]
    simp [hp]
  · rw [build_expr_list_eq]
    simp [he]
  · intro name
    rw [mem_body_names]
    constructor
    · rintro ⟨c, k, t, hc, hk, hn⟩
      have hch := (terminal_checks_of_accepted h hk hc).1
      have h0 := (terminal_checks_of_accepted h hk hp.1).1
      obtain ⟨c1, q, hc1, hq, rfl⟩ := parameter_of_reference N c (k + 1) t name hc h0 hch hn
      exact (prm_name_mem_iff N e c1 k).2 ⟨hc1, t, q, hk, hq⟩
    · intro hm
      rw [List.mem_map] at hm
      obtain ⟨q, hq, rfl⟩ := hm
      obtain ⟨c, j, t, hc, hj, hpq⟩ := mem_parameters.1 hq
      refine ⟨c, j, t, hc, hj, ?_⟩
      rw [reference_of_parameter c (j + 1) t q hpq, parameter_name hpq]
  · intro c hc os p f
    constructor
    · rw [parm_eval_eq, if_pos (hpc c hc)]
      rfl
    · rw [expr_eval_eq, if_pos he.2]
      simp only [Option.map_some', kernel_expr_prm_idx]
  · intro c k t hc hk
    refine ⟨kernel_expr_leaf c e k t hk, ?_, ?_, ?_⟩
    · cases t with
      | multivector T vec => exact Or.inl rfl
      | multiscalar m =>
        by_cases h1 : m.number_of_components > 1
        · left; simp [Terminal.reference, h1, KExpr.leaf_name]
        · right; simp [Terminal.reference, h1, KExpr.leaf_name]
      | other T v => exact Or.inr rfl
    · intro q hq hn
      obtain ⟨j, t1, hj, hpq⟩ := mem_slot_parameters.1 hq
      simp only [Nat.zero_add] at hpq
      have hn1 := parameter_name hpq
      rw [hn] at hn1
      have hjk : j = k := by
        have := (prm_name_inj hn1).2
        omega
      subst hjk
      have hj1 : e.terminals.get? j = some t1 := by simpa using hj
      rw [hk] at hj1
      cases hj1
      exact hpq
    · intro q hq
      exact ⟨mem_slot_parameters.2 ⟨k, t, by simpa using hk, by simpa using hq⟩,
        parameter_name hq, by rw [reference_of_parameter c (k + 1) t q hq, parameter_name hq]⟩
  · intro k m hk h1
    have h0 := (terminal_checks_of_accepted h hk hp.1).1
    simp only [Terminal.parm_checks, Bool.and_eq_true] at h0
    obtain ⟨ty, hty⟩ := Option.isSome_iff_exists.1 h0.1
    refine ⟨?_, ?_, ?_⟩
    · intro c _
      simp [Terminal.reference, h1, KExpr.leaf_name]
    · intro c hc
      simp [Terminal.parameter, h1, show c ≠ 0 by omega]
    · simp [Terminal.parameter, h1, hty]

theorem declared_referenced_coincide_witness :
    accepted 2 sample_expr = true
    ∧ (parameters 2 sample_expr).map (·.name)
        = ["prm_1_1", "prm_1_2", "prm_1_3", "prm_2_1", "prm_2_3"]
    ∧ body_names 2 sample_expr
        = ["prm_1_1", "prm_1_2", "prm_1_3", "prm_2_1", "prm_1_2", "prm_2_3"]
    ∧ (∀ name, name ∈ body_names 2 sample_expr ↔ name ∈ (parameters 2 sample_expr).map (·.name))
    ∧ ((parameters 2 sample_expr).map (·.name)).Nodup :=
  have h := declared_referenced_coincide 2 sample_expr (by decide!)
  ⟨by decide!, by decide, by decide, h.2.2.1, h.2.2.2.2.2.2⟩

/-! ## Acceptance of a view -/

theorem spec_view_extent_eq (start size0 : Nat) (stride0 : Int) :
    spec_view_extent start size0 stride0
      = to_ulong ((start : Int) + ((size0 : Int) - 1) * stride0) := by
  apply Int.ofNat_inj.1
  rw [to_ulong_cast]
  unfold spec_view_extent
  push_cast
  rw [to_ulong_cast]
  have hA : Int.ModEq (two64 : Int) (((size0 : Int) + ((two64 : Int) - 1)) % (two64 : Int))
      ((size0 : Int) - 1) := by
    refine (Int.mod_modEq _ _).trans ?_
    have e : (size0 : Int) + ((two64 : Int) - 1) = ((size0 : Int) - 1) + (two64 : Int) := by ring
    rw [e]
    exact Int.add_emod_self
  have hB : Int.ModEq (two64 : Int) (stride0 % (two64 : Int)) stride0 := Int.mod_modEq _ _
  have hP := (Int.mod_modEq
    ((((size0 : Int) + ((two64 : Int) - 1)) % (two64 : Int)) * (stride0 % (two64 : Int)))
    (two64 : Int)).trans (hA.mul hB)
  exact hP.add_left (start : Int)

/-- Claim C30: for a slice of any dimension `D >= 1`, `operator()` accepts a base
array exactly when `start + (size[0] - 1) * stride[0]`, computed in 64-bit
wrap-around arithmetic, is less than the size of the base array; it then
returns the view of that base with the slice as it is, and otherwise (the
assertion fails) none. The sizes and strides of the dimensions `1 .. D-1` do not
influence acceptance. -/
theorem view_acceptance (start size0 : Nat) (stride0 : Int) (sizes : List Nat)
    (strides : List Int) (base base_size : Nat) :
    (gslice.operator_call { start := start, size := size0 :: sizes, stride := stride0 :: strides }
        base base_size
      = if spec_view_extent start size0 stride0 < base_size then
          some { base := base,
                 slice := { start := start, size := size0 :: sizes, stride := stride0 :: strides } }
        else none)
    ∧ ((gslice.operator_call
          { start := start, size := size0 :: sizes, stride := stride0 :: strides }
          base base_size).isSome = true
        ↔ spec_view_extent start size0 stride0 < base_size)
    ∧ (∀ (sizes1 : List Nat) (strides1 : List Int),
        (gslice.operator_call
          { start := start, size := size0 :: sizes1, stride := stride0 :: strides1 }
          base base_size).isSome
        = (gslice.operator_call
          { start := start, size := size0 :: sizes, stride := stride0 :: strides }
          base base_size).isSome)
    ∧ (∀ v, gslice.operator_call
          { start := start, size := size0 :: sizes, stride := stride0 :: strides }
          base base_size = some v →
        v.base = base
        ∧ v.slice = { start := start, size := size0 :: sizes, stride := stride0 :: strides }) := by
  have hcall : ∀ (ss : List Nat) (ts : List Int),
      gslice.operator_call { start := start, size := size0 :: ss, stride := stride0 :: ts }
          base base_size
        = if spec_view_extent start size0 stride0 < base_size then
            some { base := base,
                   slice := { start := start, size := size0 :: ss, stride := stride0 :: ts } }
          else none := by
    intro ss ts
    rw [spec_view_extent_eq]
    rfl
  refine ⟨hcall sizes strides, ?_, ?_, ?_⟩
  · rw [hcall]
    by_cases hx : spec_view_extent start size0 stride0 < base_size
    · simp [hx]
    · simp [hx]
  · intro sizes1 strides1
    rw [hcall, hcall]
    by_cases hx : spec_view_extent start size0 stride0 < base_size
    · simp [hx]
    · simp [hx]
  · intro v hv
    rw [hcall] at hv
    by_cases hx : spec_view_extent start size0 stride0 < base_size
    · rw [if_pos hx] at hv
      cases hv
      exact ⟨rfl, rfl⟩
    · rw [if_neg hx] at hv
      cases hv


/-! ## Views are bound on one device -/

/-- Claim C31: for a view whose slice has `D` sizes and `D` strides,
`kernel_arg_setter::set` succeeds exactly for the device index 0, where it is
the call of the slice's `setArgs` and binds the base buffer, `start` and the
sizes and strides from `position` on; for every other device index the
assertion `device == 0` fails before any `setArg`, so that no kernel with a
bound argument results. -/
theorem view_single_device {V : Type} (D : Nat) (kernel : cl_Kernel V) (device position : Nat)
    (term : vector_view) (hs : term.slice.size.length = D) (ht : term.slice.stride.length = D) :
    (device = 0 →
      kernel_arg_setter_set D kernel device position term
        = gslice.setArgs D kernel 0 position term
      ∧ kernel_arg_setter_set D kernel device position term
        = some (kernel.setArgs position (term.arguments D 0), position + (2 + 2 * D)))
    ∧ (device ≠ 0 → kernel_arg_setter_set D kernel device position term = none)
    ∧ ((kernel_arg_setter_set D kernel device position term).isSome = true ↔ device = 0) := by
  have hset : gslice.setArgs D kernel 0 position term
      = some (kernel.setArgs position (term.arguments D 0), position + (2 + 2 * D)) := by
    unfold gslice.setArgs
    simp only []
    rw [set_slice_args_eq term.slice (List.range D) _
      (fun k hk => by rw [List.mem_range] at hk; omega)]
    simp only [vector_view.arguments, cl_Kernel.setArgs, List.length_range]
    congr 2
    omega
  have hzero : device = 0 → kernel_arg_setter_set D kernel device position term
      = gslice.setArgs D kernel 0 position term := by
    intro hd
    subst hd
    unfold kernel_arg_setter_set
    rw [if_pos rfl]
  have hother : device ≠ 0 → kernel_arg_setter_set D kernel device position term = none := by
    intro hd
    unfold kernel_arg_setter_set
    rw [if_neg hd]
  refine ⟨fun hd => ⟨hzero hd, (hzero hd).trans hset⟩, hother, ?_⟩
  constructor
  · intro hsome
    by_contra hd
    rw [hother hd] at hsome
    cases hsome
  · intro hd
    rw [hzero hd, hset]
    rfl

theorem view_single_device_witness :
    kernel_arg_setter_set 1 ({ args := [] } : cl_Kernel Nat) 0 3 sample_view
      = some (({ args := [] } : cl_Kernel Nat).setArgs 3
          [.buffer { vector := 7, device := 0 }, .ulong 5, .ulong 3, .long 2], 3 + (2 + 2 * 1))
    ∧ kernel_arg_setter_set 1 ({ args := [] } : cl_Kernel Nat) 1 3 sample_view = none :=
  have h0 := view_single_device (V := Nat) 1 { args := [] } 0 3 sample_view (by decide) (by decide)
  have h1 := view_single_device (V := Nat) 1 { args := [] } 1 3 sample_view (by decide) (by decide)
  ⟨(h0.1 rfl).2, h1.2.1 (by decide)⟩


/-! ## Running the synthesized kernel -/

mutual
/-- A tree without `++` and `--` is evaluated in the kernel to its value, and
the state stays as it is. -/
theorem eval_kernel_expr {V : Type} (ops : Operators V) (functions : String → List V → V)
    (c d idx : Nat) (st : KState V) :
    ∀ (e : Expr V) (p f : Nat), e.step_free = true →
      (∀ j t, e.terminals.get? j = some t →
        (t.reference c (p + j + 1)).eval ops functions idx st
          = ((Expr.terminal t).value ops c d st.mem idx).map fun v => (v, st)) →
      (∀ s ∈ (e.call_sites f).1, functions s.1 = ops.denote s.2) →
      (e.kernel_expr c p f).1.eval ops functions idx st
        = (e.value ops c d st.mem idx).map fun v => (v, st)
  | .terminal t, p, f, _, ht, _ => by
    have := ht 0 t (by simp [Expr.terminals])
    simpa [Expr.kernel_expr] using this
  | .binary tag l r, p, f, hs, ht, hf => by
    simp only [Expr.step_free, Bool.and_eq_true] at hs
    have hl := eval_kernel_expr ops functions c d idx st l p f hs.1
      (fun j t hj => ht j t (by
        simp only [Expr.terminals]
        exact get?_append_left_some hj))
      (fun s hs => hf s (by simp [Expr.call_sites, hs]))
    have hr := eval_kernel_expr ops functions c d idx st r (l.kernel_expr c p f).2.1
      (l.kernel_expr c p f).2.2 hs.2
      (fun j t hj => by
        have := ht (l.terminals.length + j) t (by
          simp only [Expr.terminals]
          exact get?_append_right_some hj)
        rw [kernel_expr_prm_idx]
        rw [← this]
        congr 2
        omega)
      (fun s hs => hf s (by
        rw [kernel_expr_fun_idx] at hs
        simp [Expr.call_sites, hs]))
    simp only [Expr.kernel_expr, KExpr.eval, Expr.value, hl]
    cases hlv : l.value ops c d st.mem idx with
    | none => rfl
    | some a =>
      simp only [Option.map_some', hr]
      cases hrv : r.value ops c d st.mem idx with
      | none => rfl
      | some b => rfl
  | .unary_pre tag x, p, f, hs, ht, hf => by
    simp only [Expr.step_free, Bool.and_eq_true, Bool.not_eq_true'] at hs
    have hx := eval_kernel_expr ops functions c d idx st x p f hs.2
      (fun j t hj => ht j t (by simpa [Expr.terminals] using hj))
      (fun s hs => hf s (by simpa [Expr.call_sites] using hs))
    simp only [Expr.kernel_expr, KExpr.eval, Expr.value, hx, hs.1, Bool.false_eq_true, if_false]
    cases hxv : x.value ops c d st.mem idx with
    | none => rfl
    | some a => rfl
  | .unary_post tag x, p, f, hs, _, _ => by
    simp [Expr.step_free] at hs
  | .function (.builtin name) args, p, f, hs, ht, hf => by
    have hx := eval_kernel_args ops functions c d idx st args p f
      (by simpa [Expr.step_free] using hs)
      (fun j t hj => ht j t (by simpa [Expr.terminals] using hj))
      (fun s hs => hf s (by simp [Expr.call_sites, hs]))
    have hn := hf (name, .builtin name) (by simp [Expr.call_sites])
    simp only [Expr.kernel_expr, KExpr.eval, Expr.value, hx]
    rw [show functions name = ops.denote (.builtin name) from hn]
    cases hv : Expr.values ops c d st.mem idx args with
    | none => rfl
    | some a => rfl
  | .function (.user id) args, p, f, hs, ht, hf => by
    have hx := eval_kernel_args ops functions c d idx st args p (f + 1)
      (by simpa [Expr.step_free] using hs)
      (fun j t hj => ht j t (by simpa [Expr.terminals] using hj))
      (fun s hs => hf s (by simp [Expr.call_sites, hs]))
    have hn := hf ("func_1_" ++ toString (f + 1), .user id) (by simp [Expr.call_sites])
    simp only [Expr.kernel_expr, KExpr.eval, Expr.value, hx]
    rw [show functions ("func_1_" ++ toString (f + 1)) = ops.denote (.user id) from hn]
    cases hv : Expr.values ops c d st.mem idx args with
    | none => rfl
    | some a => rfl
theorem eval_kernel_args {V : Type} (ops : Operators V) (functions : String → List V → V)
    (c d idx : Nat) (st : KState V) :
    ∀ (args : List (Expr V)) (p f : Nat), Expr.step_free_args args = true →
      (∀ j t, (Expr.terminals_args args).get? j = some t →
        (t.reference c (p + j + 1)).eval ops functions idx st
          = ((Expr.terminal t).value ops c d st.mem idx).map fun v => (v, st)) →
      (∀ s ∈ (Expr.call_sites_args args f).1, functions s.1 = ops.denote s.2) →
      KExpr.eval_args ops functions idx (Expr.kernel_args c args p f).1 st
        = (Expr.values ops c d st.mem idx args).map fun vs => (vs, st)
  | [], p, f, _, _, _ => by simp [Expr.kernel_args, KExpr.eval_args, Expr.values]
  | a :: as, p, f, hs, ht, hf => by
    simp only [Expr.step_free_args, Bool.and_eq_true] at hs
    have hl := eval_kernel_expr ops functions c d idx st a p f hs.1
      (fun j t hj => ht j t (by
        simp only [Expr.terminals_args]
        exact get?_append_left_some hj))
      (fun s hs => hf s (by simp [Expr.call_sites_args, hs]))
    have hr := eval_kernel_args ops functions c d idx st as (a.kernel_expr c p f).2.1
      (a.kernel_expr c p f).2.2 hs.2
      (fun j t hj => by
        have := ht (a.terminals.length + j) t (by
          simp only [Expr.terminals_args]
          exact get?_append_right_some hj)
        rw [kernel_expr_prm_idx]
        rw [← this]
        congr 2
        omega)
      (fun s hs => hf s (by
        rw [kernel_expr_fun_idx] at hs
        simp [Expr.call_sites_args, hs]))
    simp only [Expr.kernel_args, KExpr.eval_args, Expr.values, hl]
    cases hlv : a.value ops c d st.mem idx with
    | none => rfl
    | some x =>
      simp only [Option.map_some', hr]
      cases hrv : Expr.values ops c d st.mem idx as with
      | none => rfl
      | some xs => rfl
end

/-- A terminal evaluates in the kernel of an accepted expression to its value
for the slot, and the state stays as it is. -/
theorem eval_reference {V : Type} (ops : Operators V) (functions : String → List V → V)
    (N : Nat) (e : Expr V) (vec : List Nat) (krn : cl_Kernel V) (d psize : Nat)
    (h : accepted N e = true) (hvec : vec.length = N) (mem : Memory V) (idx : Nat)
    (c k : Nat) (t : Terminal V) (hc : c < N) (hk : e.terminals.get? k = some t) :
    (t.reference c (k + 1)).eval ops functions idx
        { mem := mem,
          env := bind_names (kernel_params N e) 0
            (krn.setArgs 0 (.ulong psize :: (vec.map fun v => .buffer { vector := v, device := d })
              ++ arguments N d e)) }
      = (((Expr.terminal t).value ops c d mem idx).map fun v =>
          (v, ({ mem := mem,
                 env := bind_names (kernel_params N e) 0
                   (krn.setArgs 0 (.ulong psize
                     :: (vec.map fun v => .buffer { vector := v, device := d })
                     ++ arguments N d e)) } : KState V)))
    ∧ ((Expr.terminal t).value ops c d mem idx).isSome = true := by
  have henv := (launch_environment N e vec krn d psize h hvec).2.2
  have hch := terminal_checks_of_accepted h hk hc
  have hch0 := terminal_checks_of_accepted h hk (accepted_parm h).1
  cases t with
  | multivector T vec1 =>
    have ha := hch.2.2
    simp only [Terminal.args_checks, Bool.and_eq_true] at ha
    obtain ⟨v, hv⟩ := Option.isSome_iff_exists.1 ha.2
    have := henv c k _ _ (.buffer { vector := v, device := d }) hc hk rfl
      (by simp only [Terminal.argument, hv, Option.map])
    simp only [Terminal.reference, KExpr.eval, Expr.value]
    simp only [] at this
    rw [this, hv]
    simp
  | multiscalar m =>
    have hp := hch.1
    have ha := hch.2.2
    simp only [Terminal.args_checks, Terminal.parm_checks, Bool.and_eq_true,
      decide_eq_true_eq] at ha hp
    by_cases h1 : m.number_of_components > 1
    · obtain ⟨ty, hty⟩ := Option.isSome_iff_exists.1 hp.1
      have h2 := ha.2
      simp only [h1, true_or, if_true] at h2
      obtain ⟨v, hv⟩ := Option.isSome_iff_exists.1 h2
      have := henv c k _ { global := false, type := ty, name := prm_name (c + 1) (k + 1) }
        (.value v) hc hk (by simp [Terminal.parameter, h1, hty])
        (by simp [Terminal.argument, h1, hv])
      simp only [] at this
      have hne : m.number_of_components ≠ 1 := by omega
      simp only [Terminal.reference, KExpr.eval, Expr.value, h1, if_true, this, hne, if_false, hv]
      simp
    · have hone := components_eq_one hc ha.1 h1
      have hp0 := hch0.1
      have ha0 := hch0.2.2
      simp only [Terminal.args_checks, Terminal.parm_checks, Bool.and_eq_true,
        decide_eq_true_eq] at ha0 hp0
      obtain ⟨ty, hty⟩ := Option.isSome_iff_exists.1 hp0.1
      have h2 := ha0.2
      simp only [or_true, if_true] at h2
      obtain ⟨v, hv⟩ := Option.isSome_iff_exists.1 h2
      have := henv 0 k _ { global := false, type := ty, name := prm_name 1 (k + 1) }
        (.value v) (accepted_parm h).1 hk (by simp [Terminal.parameter, h1, hty])
        (by simp [Terminal.argument, h1, hv])
      simp only [] at this
      simp only [Terminal.reference, KExpr.eval, Expr.value, h1, if_true, this, hone, if_false,
        hv]
      simp
  | other T v =>
    have := henv 0 k _ { global := false, type := T, name := prm_name 1 (k + 1) }
      (.value v) (accepted_parm h).1 hk (by simp [Terminal.parameter])
      (by simp [Terminal.argument])
    simp only [] at this
    simp only [Terminal.reference, KExpr.eval, Expr.value, this]
    simp

/-- The statement of slot `c` of a tree without `++` and `--`, run on any memory
with the arguments of the dispatch loop, stores the value of the tree for slot
`c` on that memory into member `c` of the target, and changes nothing else. -/
theorem slot_statement_exec {V : Type} (ops : Operators V) (functions : String → List V → V)
    (N : Nat) (e : Expr V) (vec : List Nat) (krn : cl_Kernel V) (d psize : Nat)
    (h : accepted N e = true) (hvec : vec.length = N) (hfun : FunctionsDefined ops functions e)
    (hpure : e.step_free = true)
    (c r : Nat) (hr : vec.get? c = some r) (mem : Memory V) (idx : Nat) :
    ∃ v, e.value ops c d mem idx = some v
      ∧ (slot_statement e c).exec ops functions idx
          { mem := mem,
            env := bind_names (kernel_params N e) 0
              (krn.setArgs 0 (.ulong psize
                :: (vec.map fun v => .buffer { vector := v, device := d })
                ++ arguments N d e)) }
        = some { mem := mem.store { vector := r, device := d } idx v,
                 env := bind_names (kernel_params N e) 0
                   (krn.setArgs 0 (.ulong psize
                     :: (vec.map fun v => .buffer { vector := v, device := d })
                     ++ arguments N d e)) } := by
  have henv := launch_environment N e vec krn d psize h hvec
  have hc : c < N := by
    rw [List.get?_eq_getElem?] at hr
    have := (List.getElem?_eq_some_iff.1 hr).1
    omega
  have hleaf := fun k t (hk : e.terminals.get? k = some t) =>
    eval_reference ops functions N e vec krn d psize h hvec mem idx c k t hc hk
  have hev := eval_kernel_expr ops functions c d idx
    { mem := mem,
      env := bind_names (kernel_params N e) 0
        (krn.setArgs 0 (.ulong psize :: (vec.map fun v => .buffer { vector := v, device := d })
          ++ arguments N d e)) } e 0 0 hpure
    (fun j t hj => by simpa using (hleaf j t hj).1) hfun
  have hsome := value_isSome ops c d mem idx e (fun t ht => by
    obtain ⟨k, hk⟩ := List.get?_of_mem ht
    exact (hleaf k t hk).2)
  obtain ⟨v, hv⟩ := Option.isSome_iff_exists.1 hsome
  refine ⟨v, hv, ?_⟩
  simp only [slot_statement, KStatement.exec, hev, hv, Option.map_some', henv.2.1 c r hr]

mutual
/-- The value of a tree for slot `c` depends on the cells of the members `c` of
its grouped arrays only. -/
theorem value_congr {V : Type} (ops : Operators V) (c d : Nat) (m1 m2 : Memory V) (idx : Nat) :
    ∀ (e : Expr V),
      (∀ T vec, Terminal.multivector T vec ∈ e.terminals → ∀ r, vec.get? c = some r →
        m1 { vector := r, device := d } idx = m2 { vector := r, device := d } idx) →
      e.value ops c d m1 idx = e.value ops c d m2 idx
  | .terminal (.multivector T vec), h => by
    simp only [Expr.value]
    cases hr : vec.get? c with
    | none => rfl
    | some r =>
      simp only [Option.map_some']
      rw [h T vec (by simp [Expr.terminals]) r hr]
  | .terminal (.multiscalar m), _ => by simp only [Expr.value]
  | .terminal (.other T v), _ => by simp only [Expr.value]
  | .binary tag l r, h => by
    simp only [Expr.value]
    rw [value_congr ops c d m1 m2 idx l (fun T vec hm => h T vec (by simp [Expr.terminals, hm])),
      value_congr ops c d m1 m2 idx r (fun T vec hm => h T vec (by simp [Expr.terminals, hm]))]
  | .unary_pre tag x, h => by
    simp only [Expr.value]
    rw [value_congr ops c d m1 m2 idx x (fun T vec hm => h T vec (by simpa [Expr.terminals] using hm))]
  | .unary_post tag x, h => by
    simp only [Expr.value]
    rw [value_congr ops c d m1 m2 idx x (fun T vec hm => h T vec (by simpa [Expr.terminals] using hm))]
  | .function f args, h => by
    simp only [Expr.value]
    rw [values_congr ops c d m1 m2 idx args
      (fun T vec hm => h T vec (by simpa [Expr.terminals] using hm))]
theorem values_congr {V : Type} (ops : Operators V) (c d : Nat) (m1 m2 : Memory V) (idx : Nat) :
    ∀ (args : List (Expr V)),
      (∀ T vec, Terminal.multivector T vec ∈ Expr.terminals_args args → ∀ r,
        vec.get? c = some r →
        m1 { vector := r, device := d } idx = m2 { vector := r, device := d } idx) →
      Expr.values ops c d m1 idx args = Expr.values ops c d m2 idx args
  | [], _ => by simp only [Expr.values]
  | a :: as, h => by
    simp only [Expr.values]
    rw [value_congr ops c d m1 m2 idx a
        (fun T vec hm => h T vec (by simp [Expr.terminals_args, hm])),
      values_congr ops c d m1 m2 idx as
        (fun T vec hm => h T vec (by simp [Expr.terminals_args, hm]))]
end


/-- The statements of the slots `cs` run in that order at an index: when every
statement stores the value of its slot and no grouped array of the tree has a
member of the target in another slot, every statement computes its value on the
cells the memory held at the start. -/
theorem run_slots_spec {V : Type} (ops : Operators V) (functions : String → List V → V)
    (e : Expr V) (vec : List Nat) (d : Nat) (env : String → Option (KernelArg V))
    (hstep : ∀ c r (mem : Memory V) idx, vec.get? c = some r →
      ∃ v, e.value ops c d mem idx = some v
        ∧ (slot_statement e c).exec ops functions idx { mem := mem, env := env }
          = some { mem := mem.store { vector := r, device := d } idx v, env := env })
    (hnd : vec.Nodup)
    (halias : ∀ T vec1, Terminal.multivector T vec1 ∈ e.terminals → ∀ c c1 r,
      vec.get? c = some r → vec1.get? c1 = some r → c1 = c)
    (idx : Nat) (mem0 : Memory V) :
    ∀ (cs : List Nat) (mem : Memory V), cs.Nodup → (∀ c ∈ cs, c < vec.length) →
      (∀ c ∈ cs, ∀ T vec1, Terminal.multivector T vec1 ∈ e.terminals → ∀ r,
        vec1.get? c = some r →
        mem { vector := r, device := d } idx = mem0 { vector := r, device := d } idx) →
      ∃ mem1, run_statements ops functions idx (cs.map (slot_statement e))
          { mem := mem, env := env } = some { mem := mem1, env := env }
        ∧ (∀ c ∈ cs, ∀ r, vec.get? c = some r →
            e.value ops c d mem0 idx = some (mem1 { vector := r, device := d } idx))
        ∧ (∀ b j, ¬ (j = idx ∧ b.device = d ∧ ∃ c ∈ cs, vec.get? c = some b.vector) →
            mem1 b j = mem b j)
  | [], mem, _, _, _ => ⟨mem, rfl, fun c hc => by simp at hc, fun _ _ _ => rfl⟩
  | c :: cs, mem, hcs, hlt, hkeep => by
    have hc : c < vec.length := hlt c (by simp)
    have hr : vec.get? c = some (vec.get ⟨c, hc⟩) := List.get?_eq_get hc
    obtain ⟨v, hv, hexec⟩ := hstep c _ mem idx hr
    have hv0 : e.value ops c d mem0 idx = some v := by
      rw [← hv]
      exact (value_congr ops c d mem mem0 idx e
        (fun T vec1 hm r1 hr1 => hkeep c (by simp) T vec1 hm r1 hr1)).symm
    have hcn : c ∉ cs := (List.nodup_cons.1 hcs).1
    obtain ⟨mem1, hrun, hval, hframe⟩ := run_slots_spec ops functions e vec d env hstep
      hnd halias idx mem0 cs (mem.store { vector := vec.get ⟨c, hc⟩, device := d } idx v)
      (List.nodup_cons.1 hcs).2 (fun c1 hc1 => hlt c1 (by simp [hc1]))
      (by
        intro c1 hc1 T vec1 hm r1 hr1
        have hne : r1 ≠ vec.get ⟨c, hc⟩ := by
          intro heq
          have := halias T vec1 hm c c1 _ hr (by rw [hr1, heq])
          exact hcn (this ▸ hc1)
        rw [← hkeep c1 (by simp [hc1]) T vec1 hm r1 hr1]
        have hb : ¬ (({ vector := r1, device := d } : cl_Buffer)
            = { vector := vec.get ⟨c, hc⟩, device := d } ∧ idx = idx) := by
          rintro ⟨hx, _⟩
          exact hne (congrArg cl_Buffer.vector hx)
        show (if _ then v else _) = _
        rw [if_neg hb])
    refine ⟨mem1, ?_, ?_, ?_⟩
    · rw [List.map_cons, run_statements, hexec]
      exact hrun
    · intro c1 hc1 r1 hr1
      rcases List.mem_cons.1 hc1 with rfl | hc1
      · rw [hr] at hr1
        cases hr1
        rw [hv0, hframe]
        · simp [Memory.store]
        · rintro ⟨_, _, c2, hc2, hr2⟩
          have : c2 = c1 := by
            rw [List.get?_eq_getElem?] at hr2
            have hc2l : c2 < vec.length := (List.getElem?_eq_some_iff.1 hr2).1
            have e2 : vec.get ⟨c2, hc2l⟩ = vec.get ⟨c1, hc⟩ :=
              (List.getElem?_eq_some_iff.1 hr2).2
            exact Fin.mk.inj ((List.Nodup.get_inj_iff hnd).1 e2)
          exact hcn (this ▸ hc2)
      · exact hval c1 hc1 r1 hr1
    · intro b j hb
      rw [hframe b j (fun hx => hb ⟨hx.1, hx.2.1, by
        obtain ⟨c1, hc1, hr1⟩ := hx.2.2
        exact ⟨c1, by simp [hc1], hr1⟩⟩)]
      simp only [Memory.store]
      rw [if_neg]
      rintro ⟨rfl, rfl⟩
      exact hb ⟨rfl, rfl, c, by simp, hr⟩

/-- The statements of a permutation `cs` of the slots, run at an index on a
memory that holds the old contents at that index. -/
theorem run_order_spec {V : Type} (ops : Operators V) (functions : String → List V → V)
    (N : Nat) (e : Expr V) (vec : List Nat) (d : Nat) (env : String → Option (KernelArg V))
    (hvec : vec.length = N)
    (hstep : ∀ c r (mem : Memory V) idx, vec.get? c = some r →
      ∃ v, e.value ops c d mem idx = some v
        ∧ (slot_statement e c).exec ops functions idx { mem := mem, env := env }
          = some { mem := mem.store { vector := r, device := d } idx v, env := env })
    (hnd : vec.Nodup)
    (halias : ∀ T vec1, Terminal.multivector T vec1 ∈ e.terminals → ∀ c c1 r,
      vec.get? c = some r → vec1.get? c1 = some r → c1 = c)
    (idx : Nat) (mem0 mem : Memory V) (hsame : ∀ b, mem b idx = mem0 b idx)
    (cs : List Nat) (hperm : cs.Perm (List.range N)) :
    ∃ mem1, run_statements ops functions idx (cs.map (slot_statement e))
        { mem := mem, env := env } = some { mem := mem1, env := env }
      ∧ (∀ c r, vec.get? c = some r →
          e.value ops c d mem0 idx = some (mem1 { vector := r, device := d } idx))
      ∧ (∀ b j, ¬ (j = idx ∧ b.device = d ∧ b.vector ∈ vec) → mem1 b j = mem b j) := by
  obtain ⟨mem1, h1, h2, h3⟩ := run_slots_spec ops functions e vec d env hstep hnd halias idx
    mem0 cs mem (hperm.nodup_iff.2 (List.nodup_range N))
    (fun c hc => by rw [hvec]; exact List.mem_range.1 ((hperm.mem_iff).1 hc))
    (fun _ _ _ _ _ _ _ => hsame _)
  refine ⟨mem1, h1, ?_, ?_⟩
  · intro c r hr
    have hlt : c < vec.length := by
      rw [List.get?_eq_getElem?] at hr
      exact (List.getElem?_eq_some_iff.1 hr).1
    exact h2 c ((hperm.mem_iff).2 (List.mem_range.2 (by omega))) r hr
  · intro b j hb
    refine h3 b j (fun hx => hb ⟨hx.1, hx.2.1, ?_⟩)
    obtain ⟨c, _, hc⟩ := hx.2.2
    exact List.get?_mem hc

/-- The loop of a work-item over distinct indices, on a memory that holds the
old contents at these indices. -/
theorem run_work_item_spec {V : Type} (ops : Operators V) (functions : String → List V → V)
    (N : Nat) (e : Expr V) (vec : List Nat) (d : Nat) (env : String → Option (KernelArg V))
    (hvec : vec.length = N)
    (hstep : ∀ c r (mem : Memory V) idx, vec.get? c = some r →
      ∃ v, e.value ops c d mem idx = some v
        ∧ (slot_statement e c).exec ops functions idx { mem := mem, env := env }
          = some { mem := mem.store { vector := r, device := d } idx v, env := env })
    (hnd : vec.Nodup)
    (halias : ∀ T vec1, Terminal.multivector T vec1 ∈ e.terminals → ∀ c c1 r,
      vec.get? c = some r → vec1.get? c1 = some r → c1 = c)
    (mem0 : Memory V) :
    ∀ (l : List Nat) (mem : Memory V), l.Nodup → (∀ idx ∈ l, ∀ b, mem b idx = mem0 b idx) →
      ∃ mem1, run_work_item ops functions (kernel_body N e) l { mem := mem, env := env }
          = some { mem := mem1, env := env }
        ∧ (∀ idx ∈ l, ∀ c r, vec.get? c = some r →
            e.value ops c d mem0 idx = some (mem1 { vector := r, device := d } idx))
        ∧ (∀ b j, ¬ (j ∈ l ∧ b.device = d ∧ b.vector ∈ vec) → mem1 b j = mem b j)
  | [], mem, _, _ => ⟨mem, rfl, fun idx h => by simp at h, fun _ _ _ => rfl⟩
  | idx :: l, mem, hl, hsame => by
    obtain ⟨mem1, h1, h2, h3⟩ := run_order_spec ops functions N e vec d env hvec hstep hnd
      halias idx mem0 mem (hsame idx (by simp)) (List.range N) (List.Perm.refl _)
    have hidx : idx ∉ l := (List.nodup_cons.1 hl).1
    obtain ⟨mem2, k1, k2, k3⟩ := run_work_item_spec ops functions N e vec d env hvec hstep hnd
      halias mem0 l mem1 (List.nodup_cons.1 hl).2 (by
        intro j hj b
        rw [h3 b j (fun hx => hidx (hx.1 ▸ hj))]
        exact hsame j (by simp [hj]) b)
    refine ⟨mem2, ?_, ?_, ?_⟩
    · rw [run_work_item]
      have hb : kernel_body N e = (List.range N).map (slot_statement e) := rfl
      rw [hb, h1]
      exact k1
    · intro j hj c r hr
      rcases List.mem_cons.1 hj with rfl | hj
      · rw [k3 _ _ (fun hx => hidx hx.1)]
        exact h2 c r hr
      · exact k2 j hj c r hr
    · intro b j hb
      rw [k3 b j (fun hx => hb ⟨by simp [hx.1], hx.2⟩)]
      exact h3 b j (fun hx => hb ⟨by simp [hx.1], hx.2⟩)

/-- The work-items `gids` one after the other, on a memory that holds the old
contents at the indices they visit. -/
theorem run_kernel_spec {V : Type} (ops : Operators V) (functions : String → List V → V)
    (N : Nat) (e : Expr V) (vec : List Nat) (d : Nat) (env : String → Option (KernelArg V))
    (hvec : vec.length = N)
    (hstep : ∀ c r (mem : Memory V) idx, vec.get? c = some r →
      ∃ v, e.value ops c d mem idx = some v
        ∧ (slot_statement e c).exec ops functions idx { mem := mem, env := env }
          = some { mem := mem.store { vector := r, device := d } idx v, env := env })
    (hnd : vec.Nodup)
    (halias : ∀ T vec1, Terminal.multivector T vec1 ∈ e.terminals → ∀ c c1 r,
      vec.get? c = some r → vec1.get? c1 = some r → c1 = c)
    (mem0 : Memory V) (n G fuel : Nat) (hG : 0 < G) (hfit : n + G ≤ two64) (hfuel : n ≤ fuel) :
    ∀ (gids : List Nat) (mem : Memory V), gids.Nodup → (∀ g ∈ gids, g < G) →
      (∀ idx, idx < n → idx % G ∈ gids → ∀ b, mem b idx = mem0 b idx) →
      ∃ mem1, gids.foldlM
          (fun mem gid =>
            match grid_loop n G (fuel + 1) gid with
            | none => none
            | some visits =>
              (run_work_item ops functions (kernel_body N e) visits
                { mem := mem, env := env }).map (·.mem))
          mem = some mem1
        ∧ (∀ idx, idx < n → idx % G ∈ gids → ∀ c r, vec.get? c = some r →
            e.value ops c d mem0 idx = some (mem1 { vector := r, device := d } idx))
        ∧ (∀ b j, ¬ (j < n ∧ j % G ∈ gids ∧ b.device = d ∧ b.vector ∈ vec) →
            mem1 b j = mem b j)
  | [], mem, _, _, _ => ⟨mem, rfl, fun idx _ h => by simp at h, fun _ _ _ => rfl⟩
  | g :: gids, mem, hg, hlt, hsame => by
    obtain ⟨l, hl, hlnd, hlmem⟩ := work_item_spec n G hG hfit fuel g hfuel (hlt g (by simp))
    have hgn : g ∉ gids := (List.nodup_cons.1 hg).1
    obtain ⟨mem1, h1, h2, h3⟩ := run_work_item_spec ops functions N e vec d env hvec hstep hnd
      halias mem0 l mem hlnd (by
        intro idx hidx b
        obtain ⟨hn, hm⟩ := (hlmem idx).1 hidx
        exact hsame idx hn (by simp [hm]) b)
    obtain ⟨mem2, k1, k2, k3⟩ := run_kernel_spec ops functions N e vec d env hvec hstep hnd
      halias mem0 n G fuel hG hfit hfuel gids mem1 (List.nodup_cons.1 hg).2
      (fun x hx => hlt x (by simp [hx])) (by
        intro idx hn hm b
        rw [h3 b idx (fun hx => hgn (((hlmem idx).1 hx.1).2 ▸ hm))]
        exact hsame idx hn (by simp [hm]) b)
    refine ⟨mem2, ?_, ?_, ?_⟩
    · rw [List.foldlM_cons]
      simp only [hl, h1, Option.map_some', Option.some_bind, Option.bind_eq_bind]
      exact k1
    · intro idx hn hm c r hr
      rcases List.mem_cons.1 hm with hm | hm
      · rw [k3 _ _ (fun hx => hgn (hm ▸ hx.2.1))]
        exact h2 idx ((hlmem idx).2 ⟨hn, hm⟩) c r hr
      · exact k2 idx hn hm c r hr
    · intro b j hb
      rw [k3 b j (fun hx => hb ⟨hx.1, by simp [hx.2.1], hx.2.2⟩)]
      refine h3 b j (fun hx => hb ⟨((hlmem j).1 hx.1).1, ?_, hx.2⟩)
      simp [((hlmem j).1 hx.1).2]

/-! ### Homogeneous assignment -/

/-- Claim C1, as stated, fails at two accepted trees.  Assigning `(y, x) + 0` to
the group `(x, y)`, the kernel leaves in `y[0]` the old `y[0] = 1100`, where the
value of the tree for slot 1 on the contents before the assignment is the old
`x[0] = 1000`: the statement of slot 1 reads what the statement of slot 0 has
written.  Assigning `++s` with `s = 5`, whose value is `6` for every slot and
index, the kernel stores `6`, `7` at index 0 and `8`, `9` at index 1: `++`
writes the parameter, which the statements share. -/
theorem homogeneous_assignment_counterexample :
    accepted 2 sample_swapped = true
    ∧ sample_swapped.value sample_arithmetic 1 0 sample_memory 0 = some 1000
    ∧ ((bind_arguments 2 [10, 11] sample_swapped ({ args := [] } : cl_Kernel Int) 0 2).bind
        fun b => (run_kernel sample_arithmetic sample_functions (kernel_body 2 sample_swapped)
            (bind_names (kernel_params 2 sample_swapped) 0 b.1) 2 1 3 sample_memory).map
          fun m => m { vector := 11, device := 0 } 0)
      = some 1100
    ∧ accepted 2 sample_stepping = true
    ∧ (∀ c idx, sample_stepping.value sample_arithmetic c 0 sample_memory idx = some 6)
    ∧ ((bind_arguments 2 [10, 11] sample_stepping ({ args := [] } : cl_Kernel Int) 0 2).bind
        fun b => (run_kernel sample_arithmetic sample_functions (kernel_body 2 sample_stepping)
            (bind_names (kernel_params 2 sample_stepping) 0 b.1) 2 1 3 sample_memory).map
          fun m => (m { vector := 10, device := 0 } 0, m { vector := 11, device := 0 } 0,
                    m { vector := 10, device := 0 } 1, m { vector := 11, device := 0 } 1))
      = some (6, 7, 8, 9) := by
  refine ⟨by decide!, by decide!, by decide!, by decide!, fun c idx => rfl, by decide!⟩

/-- Claim C1, amended: for every width `N`, every accepted tree `e` without `++`
and `--`, and a target whose `N` members are pairwise distinct and of which no
grouped array of the tree holds a member in another slot, the kernel that
`operator=` synthesizes, launched with the arguments the dispatch loop binds
(`n` the element count of the partition) and any global size, ends and leaves in
member `c` of the target, at every index `idx < n`, the value of `e` on the
contents before the assignment, in which a grouped array stands for element
`idx` of its member `c`, a multiscalar with `N` components for its component `c`
and a one-component value for itself; no other cell changes. -/
theorem homogeneous_assignment_semantics {V : Type} (ops : Operators V)
    (functions : String → List V → V) (N : Nat) (e : Expr V) (vec : List Nat)
    (krn : cl_Kernel V) (d psize G fuel : Nat) (mem0 : Memory V)
    (h : accepted N e = true) (hvec : vec.length = N)
    (hfun : FunctionsDefined ops functions e) (hpure : e.step_free = true)
    (hnd : vec.Nodup)
    (halias : ∀ T vec1, Terminal.multivector T vec1 ∈ e.terminals → ∀ c c1 r,
      vec.get? c = some r → vec1.get? c1 = some r → c1 = c)
    (hG : 0 < G) (hfit : psize + G ≤ two64) (hfuel : psize < fuel) :
    ∃ krn1 pos, bind_arguments N vec e krn d psize = some (krn1, pos)
      ∧ build_param_list N e "" = some (String.join ((parameters N e).map KParam.text))
      ∧ build_expr_list N e "" = some (String.join ((kernel_body N e).map KStatement.text))
      ∧ bind_names (kernel_params N e) 0 krn1 "n" = some (.ulong psize)
      ∧ ∃ mem1, run_kernel ops functions (kernel_body N e)
            (bind_names (kernel_params N e) 0 krn1) psize G fuel mem0 = some mem1
        ∧ (∀ c r idx, vec.get? c = some r → idx < psize →
            e.value ops c d mem0 idx = some (mem1 { vector := r, device := d } idx))
        ∧ (∀ b j, ¬ (j < psize ∧ b.device = d ∧ b.vector ∈ vec) → mem1 b j = mem0 b j) := by
  have hb := bind_arguments_eq N e vec krn d psize h hvec
  have henv := launch_environment N e vec krn d psize h hvec
  refine ⟨_, _, hb, ?_, ?_, henv.1, ?_⟩
  · rw [build_param_list_eq]
    simp [accepted_parm h]
  · rw [build_expr_list_eq]
    simp [accepted_expr h]
  · obtain ⟨f, rfl⟩ : ∃ f, fuel = f + 1 := ⟨fuel - 1, by omega⟩
    obtain ⟨mem1, h1, h2, h3⟩ := run_kernel_spec ops functions N e vec d _ hvec
      (fun c r mem idx hr =>
        slot_statement_exec ops functions N e vec krn d psize h hvec hfun hpure c r hr mem idx)
      hnd halias mem0 psize G f hG hfit (by omega) (List.range G) mem0 (List.nodup_range G)
      (fun g hg => List.mem_range.1 hg) (fun _ _ _ _ => rfl)
    refine ⟨mem1, h1, ?_, ?_⟩
    · intro c r idx hr hidx
      exact h2 idx hidx (List.mem_range.2 (Nat.mod_lt _ hG)) c r hr
    · intro b j hbj
      exact h3 b j (fun hx => hbj ⟨hx.1, hx.2.2⟩)

theorem sample_functions_defined :
    FunctionsDefined sample_operators sample_functions sample_expr := by
  intro p hp
  simp only [sample_expr, Expr.call_sites, Expr.call_sites_args, List.nil_append,
    List.append_nil, List.mem_cons, List.mem_singleton, List.not_mem_nil, or_false] at hp
  rcases hp with rfl | rfl
  · rfl
  · rfl

/-- The group of `sample_expr` is the group of the members 10 and 11, which holds
each of them in its own slot. -/
theorem sample_expr_alias : ∀ T vec1, Terminal.multivector T vec1 ∈ sample_expr.terminals →
    ∀ c c1 r, [10, 11].get? c = some r → vec1.get? c1 = some r → c1 = c := by
  intro T vec1 hm c c1 r hc hc1
  have hv : vec1 = [10, 11] := by
    simp only [sample_expr, Expr.terminals, Expr.terminals_args, List.cons_append,
      List.nil_append, List.append_nil, List.mem_cons, List.mem_singleton, List.not_mem_nil,
      or_false] at hm
    rcases hm with hm | hm | hm
    · cases hm; rfl
    · cases hm
    · cases hm
  subst hv
  rw [← hc] at hc1
  match c, c1, hc, hc1 with
  | 0, 0, _, _ => rfl
  | 1, 1, _, _ => rfl
  | 0, 1, _, h => simp at h
  | 1, 0, _, h => simp at h
  | 0, n + 2, _, h => simp at h
  | 1, n + 2, _, h => simp at h
  | n + 2, _, h, _ => simp at h

theorem homogeneous_assignment_semantics_witness :
    accepted 2 sample_expr = true ∧ sample_expr.step_free = true
    ∧ ∃ krn1 pos, bind_arguments 2 [10, 11] sample_expr ({ args := [] } : cl_Kernel Int) 3 100
        = some (krn1, pos)
      ∧ ∃ mem1, run_kernel sample_operators sample_functions (kernel_body 2 sample_expr)
            (bind_names (kernel_params 2 sample_expr) 0 krn1) 100 64 101 sample_memory
            = some mem1
        ∧ (∀ c r idx, [10, 11].get? c = some r → idx < 100 →
            sample_expr.value sample_operators c 3 sample_memory idx
              = some (mem1 { vector := r, device := 3 } idx))
        ∧ (∀ b j, ¬ (j < 100 ∧ b.device = 3 ∧ b.vector ∈ [10, 11]) →
            mem1 b j = sample_memory b j) := by
  obtain ⟨krn1, pos, hb, _, _, _, mem1, h1, h2, h3⟩ :=
    homogeneous_assignment_semantics sample_operators sample_functions 2 sample_expr [10, 11]
      ({ args := [] } : cl_Kernel Int) 3 100 64 101 sample_memory (by decide!) (by decide)
      sample_functions_defined (by decide) (by decide) sample_expr_alias (by decide)
      (by decide) (by decide)
  exact ⟨by decide!, by decide, krn1, pos, hb, mem1, h1, h2, h3⟩

/-! ## Slot independence -/

theorem kernel_body_eq {V : Type} (N : Nat) (e : Expr V) :
    kernel_body N e = (List.range N).map (slot_statement e) := rfl

/-- Claim C29, as stated, fails at two accepted trees.  Assigning `z++` to the
group `(x, y)`, the statement of slot 0 writes `z_0[idx]` besides `res_1[idx]`.
Assigning `(y, x) + 0` to the group `(x, y)`, the statement of slot 1 reads the
cell that the statement of slot 0 has just written, so both members end with
the old `y`, where the snapshot gives `(y, x)`; with the statements in the other
order both end with the old `x`. -/
theorem slot_independence_counterexample :
    accepted 2 sample_post_step = true
    ∧ ((bind_arguments 2 [10, 11] sample_post_step ({ args := [] } : cl_Kernel Int) 0 100).bind
        fun b => ((slot_statement sample_post_step 0).exec sample_arithmetic sample_functions 5
            { mem := sample_memory,
              env := bind_names (kernel_params 2 sample_post_step) 0 b.1 }).map
          fun st => (st.mem { vector := 10, device := 0 } 5,
                     sample_memory { vector := 20, device := 0 } 5,
                     st.mem { vector := 20, device := 0 } 5))
      = some (2005, 2005, 2006)
    ∧ accepted 2 sample_swapped = true
    ∧ (sample_swapped.value sample_arithmetic 0 0 sample_memory 5,
        sample_swapped.value sample_arithmetic 1 0 sample_memory 5) = (some 1105, some 1005)
    ∧ ((bind_arguments 2 [10, 11] sample_swapped ({ args := [] } : cl_Kernel Int) 0 100).bind
        fun b => (run_statements sample_arithmetic sample_functions 5
            (kernel_body 2 sample_swapped)
            { mem := sample_memory,
              env := bind_names (kernel_params 2 sample_swapped) 0 b.1 }).map
          fun st => (st.mem { vector := 10, device := 0 } 5, st.mem { vector := 11, device := 0 } 5))
      = some (1105, 1105)
    ∧ ((bind_arguments 2 [10, 11] sample_swapped ({ args := [] } : cl_Kernel Int) 0 100).bind
        fun b => (run_statements sample_arithmetic sample_functions 5
            ([1, 0].map (slot_statement sample_swapped))
            { mem := sample_memory,
              env := bind_names (kernel_params 2 sample_swapped) 0 b.1 }).map
          fun st => (st.mem { vector := 10, device := 0 } 5, st.mem { vector := 11, device := 0 } 5))
      = some (1005, 1005) := by
  refine ⟨by decide!, by decide!, by decide!, by decide!, by decide!, by decide!⟩

/-- Claim C29, amended: for every width `N` and accepted tree without `++` and
`--`, the statement of slot `c` reads arrays only as `prm_<c+1>_k[idx]`, member
`c` of the `k`-th terminal, a grouped array, and run on any memory it writes
`res_<c+1>[idx]` only, the cell `idx` of member `c` of the target.  When the
members of the target are pairwise distinct and no grouped array of the tree
holds a member of the target in another slot than the target does (as when the
tree holds the target itself, or groups apart from it), the `N` statements, run
in any order at an index, store into member `c` the value of the tree for slot
`c` on the contents before the assignment, change no other cell, and leave the
same state as the statements in the order of the source. -/
theorem slot_independence {V : Type} (ops : Operators V) (functions : String → List V → V)
    (N : Nat) (e : Expr V) (vec : List Nat) (krn : cl_Kernel V) (d psize : Nat)
    (h : accepted N e = true) (hvec : vec.length = N) (hfun : FunctionsDefined ops functions e)
    (hpure : e.step_free = true) (hnd : vec.Nodup)
    (halias : ∀ T vec1, Terminal.multivector T vec1 ∈ e.terminals → ∀ c c1 r,
      vec.get? c = some r → vec1.get? c1 = some r → c1 = c)
    (idx : Nat) (mem0 : Memory V) (cs : List Nat) (hperm : cs.Perm (List.range N)) :
    (∀ c, c < N →
      (kernel_body N e).get? c = some (slot_statement e c)
      ∧ (slot_statement e c).result = res_name (c + 1)
      ∧ ∀ name, KExpr.element name ∈ (slot_statement e c).rhs.leaves →
          ∃ k T vec1, e.terminals.get? k = some (.multivector T vec1)
            ∧ name = prm_name (c + 1) (k + 1))
    ∧ ∃ krn1 pos, bind_arguments N vec e krn d psize = some (krn1, pos)
      ∧ (∀ c r (mem : Memory V), vec.get? c = some r →
          ∃ v, e.value ops c d mem idx = some v
            ∧ (slot_statement e c).exec ops functions idx
                { mem := mem, env := bind_names (kernel_params N e) 0 krn1 }
              = some { mem := mem.store { vector := r, device := d } idx v,
                       env := bind_names (kernel_params N e) 0 krn1 })
      ∧ ∃ mem1, run_statements ops functions idx (cs.map (slot_statement e))
            { mem := mem0, env := bind_names (kernel_params N e) 0 krn1 }
            = some { mem := mem1, env := bind_names (kernel_params N e) 0 krn1 }
        ∧ (∀ c r, vec.get? c = some r →
            e.value ops c d mem0 idx = some (mem1 { vector := r, device := d } idx))
        ∧ (∀ b j, ¬ (j = idx ∧ b.device = d ∧ b.vector ∈ vec) → mem1 b j = mem0 b j)
        ∧ run_statements ops functions idx (kernel_body N e)
            { mem := mem0, env := bind_names (kernel_params N e) 0 krn1 }
            = some { mem := mem1, env := bind_names (kernel_params N e) 0 krn1 } := by
  have hstep := fun c r (mem : Memory V) idx (hr : vec.get? c = some r) =>
    slot_statement_exec ops functions N e vec krn d psize h hvec hfun hpure c r hr mem idx
  refine ⟨?_, _, _, bind_arguments_eq N e vec krn d psize h hvec,
    fun c r mem hr => hstep c r mem idx hr, ?_⟩
  · intro c hc
    refine ⟨?_, rfl, ?_⟩
    · rw [List.get?_eq_getElem?, kernel_body_eq]
      simp [List.getElem?_map, List.getElem?_range hc]
    · intro name hx
      simp only [slot_statement, kernel_expr_leaves, List.mem_map] at hx
      obtain ⟨⟨j, t⟩, hjt, hxe⟩ := hx
      have hm := List.mem_enumFrom hjt
      have hj : e.terminals.get? j = some t := by
        have h2 := hm.2.2
        simp only [Nat.sub_zero] at h2
        rw [List.get?_eq_getElem?, List.getElem?_eq_some_iff]
        exact ⟨by omega, h2.symm⟩
      cases t with
      | multivector T vec1 =>
        refine ⟨j, T, vec1, hj, ?_⟩
        simp only [Terminal.reference, Nat.zero_add, KExpr.element.injEq] at hxe
        exact hxe.symm
      | multiscalar m =>
        by_cases h1 : m.number_of_components > 1 <;> simp [Terminal.reference, h1] at hxe
      | other T v => simp [Terminal.reference] at hxe
  · obtain ⟨mem1, h1, h2, h3⟩ := run_order_spec ops functions N e vec d _ hvec hstep hnd
      halias idx mem0 mem0 (fun _ => rfl) cs hperm
    obtain ⟨mem2, k1, k2, k3⟩ := run_order_spec ops functions N e vec d _ hvec hstep hnd
      halias idx mem0 mem0 (fun _ => rfl) (List.range N) (List.Perm.refl _)
    refine ⟨mem1, h1, h2, h3, ?_⟩
    rw [kernel_body_eq, k1]
    have hmm : mem2 = mem1 := by
      funext b j
      by_cases hb : j = idx ∧ b.device = d ∧ b.vector ∈ vec
      · obtain ⟨rfl, rfl, hv⟩ := hb
        obtain ⟨c, hc⟩ := List.get?_of_mem hv
        have e1 := h2 c _ hc
        have e2 := k2 c _ hc
        rw [e1] at e2
        exact (Option.some.inj e2).symm
      · rw [h3 b j hb, k3 b j hb]
    rw [hmm]

theorem slot_independence_witness :
    accepted 2 sample_expr = true
    ∧ ∃ krn1 pos, bind_arguments 2 [10, 11] sample_expr ({ args := [] } : cl_Kernel Int) 0 100
        = some (krn1, pos)
      ∧ ∃ mem1, run_statements sample_operators sample_functions 5
            ([1, 0].map (slot_statement sample_expr))
            { mem := sample_memory, env := bind_names (kernel_params 2 sample_expr) 0 krn1 }
            = some { mem := mem1, env := bind_names (kernel_params 2 sample_expr) 0 krn1 }
        ∧ run_statements sample_operators sample_functions 5 (kernel_body 2 sample_expr)
            { mem := sample_memory, env := bind_names (kernel_params 2 sample_expr) 0 krn1 }
            = some { mem := mem1, env := bind_names (kernel_params 2 sample_expr) 0 krn1 }
        ∧ sample_expr.value sample_operators 1 0 sample_memory 5
            = some (mem1 { vector := 11, device := 0 } 5) := by
  obtain ⟨_, krn1, pos, hb, _, mem1, h1, h2, _, h4⟩ :=
    slot_independence sample_operators sample_functions 2 sample_expr [10, 11]
      ({ args := [] } : cl_Kernel Int) 0 100 (by decide!) (by decide) sample_functions_defined
      (by decide) (by decide) sample_expr_alias 5 sample_memory [1, 0] (by decide)
  exact ⟨by decide!, krn1, pos, hb, mem1, h1, h4, h2 1 11 (by decide)⟩

end vex
